import Mathlib

/-!
Shallow embedding of the core of the pdinklag/lzend repository:
the two-level range-minimum-query structure (src/rmq/include/rmq/rmq.hpp and
rmq_bender_farach_colton.hpp), the ordered B-tree map
(src/ordered/include/ordered/btree/...), and the LZ-End parser (src/lzend.hpp).

Machine integers: all C++ index computations stay well inside int32/uint32/size_t
range for inputs of length below 2^31, so indices are embedded as Nat and signed
values as Int; the two places where wrap-around actually matters (the size_t
expression (n-1)/64+1 at n = 0, and the size_t-to-int32_t conversion of the
input length) are embedded separately with explicit modular arithmetic.
-/

namespace Rmq

/-- Block size of the two-level RMQ (rmq.hpp, template parameter `block_size_`,
instantiated at its default 64 by the parser). -/
def blockSize : Nat := 64

/-- The scan loop of `RMQ::naive_rmq` (rmq.hpp lines 52-59): starting from the
incumbent argmin `mp` with value `mv`, scan the `rem` positions
`cur, cur+1, ...`, replacing the incumbent only on strictly smaller values
(`rem` counts the remaining loop iterations `stop - cur`). -/
def naiveGo (D : List Int) : Nat → Nat → Nat → Int → Nat × Int
  | 0, _, mp, mv => (mp, mv)
  | rem + 1, cur, mp, mv =>
    if D.getD cur 0 < mv then naiveGo D rem (cur + 1) cur (D.getD cur 0)
    else naiveGo D rem (cur + 1) mp mv

/-- `RMQ::naive_rmq(beg, end, min)` (rmq.hpp lines 48-61): leftmost argmin and
minimum of `D[beg..stop)`. -/
def naiveRmq (D : List Int) (beg stop : Nat) : Nat × Int :=
  naiveGo D (stop - (beg + 1)) (beg + 1) beg (D.getD beg 0)

/-- The levels of the Bender-Farach-Colton table
(rmq_bender_farach_colton.hpp lines 60-77): level `l` stores at entry `i` the
leftmost argmin of the window `B[i .. i + 2^(l+1) - 1]`.  Level 0 compares
adjacent pairs; level `l+1` combines two level-`l` windows offset by `2^(l+1)`,
preferring the left argmin on ties. -/
def bfcLevel (B : List Int) : Nat → List Nat
  | 0 => (List.range (B.length - 1)).map
      (fun i => if B.getD i 0 ≤ B.getD (i + 1) 0 then i else i + 1)
  | l + 1 =>
    let prev := bfcLevel B l
    let isize := 2 ^ (l + 1)
    (List.range (B.length - (2 ^ (l + 2) - 1))).map
      (fun i =>
        let a := prev.getD i 0
        let b := prev.getD (i + isize) 0
        if B.getD a 0 ≤ B.getD b 0 then a else b)

/-- Floor base-2 logarithm with explicit recursion fuel (any fuel at least the
argument gives the exact value); `log2floor d` is `std::bit_width(d) - 1` for
`d ≥ 1`. -/
def log2fuel : Nat → Nat → Nat
  | 0, _ => 0
  | fuel + 1, n => if n ≤ 1 then 0 else log2fuel fuel (n / 2) + 1

/-- Floor base-2 logarithm. -/
def log2floor (n : Nat) : Nat := log2fuel n n

/-- `RMQBenderFarachColton::rmq` (rmq_bender_farach_colton.hpp lines 86-97):
`std::bit_width d - 1` is `log2floor d` for `d ≥ 1`. -/
def bfcRmq (B : List Int) (i j : Nat) : Nat :=
  if i = j then i
  else
    let d := j - i + 1
    let lv := log2floor d
    let isize := 2 ^ lv
    let a := (bfcLevel B (lv - 1)).getD i 0
    let b := (bfcLevel B (lv - 1)).getD (j + 1 - isize) 0
    if B.getD a 0 ≤ B.getD b 0 then a else b

/-- `num_blocks = (n-1) / block_size_ + 1` (rmq.hpp line 68) for `n ≥ 1`
(the `n = 0` wrap-around case is embedded by `numBlocksSizeT`). -/
def numBlocks (n : Nat) : Nat := (n - 1) / blockSize + 1

/-- rmq.hpp line 68 with the C++ `size_t` semantics made explicit:
`(n-1)/64+1` where `n - 1` wraps modulo `2^64`; at `n = 0` this is
`(2^64-1)/64 + 1`. -/
def numBlocksSizeT (n : Nat) : Nat := ((n + 2 ^ 64 - 1) % 2 ^ 64) / blockSize + 1

/-- `block_min_pos_[b]` (rmq.hpp lines 73-82): absolute position of the leftmost
minimum of block `b`. -/
def blockMinPos (D : List Int) (b : Nat) : Nat :=
  (naiveRmq D (b * blockSize) (min (b * blockSize + blockSize) D.length)).1

/-- `block_min_[b]` (rmq.hpp lines 73-82): minimum value of block `b`. -/
def blockMinVal (D : List Int) (b : Nat) : Int :=
  (naiveRmq D (b * blockSize) (min (b * blockSize + blockSize) D.length)).2

/-- The `block_min_` array over which the Bender-Farach-Colton table is built
(rmq.hpp line 84). -/
def blockMins (D : List Int) : List Int :=
  (List.range (numBlocks D.length)).map (blockMinVal D)

/-- `RMQ::rmq(i, j)` (rmq.hpp lines 93-139): naive scan for short intervals,
otherwise the combination of the left tail, the Bender-Farach-Colton query over
block minima, and the right tail, with strict-`<` updates that keep the
leftmost argmin. -/
def rmq (D : List Int) (i j : Nat) : Nat :=
  if i = j then i
  else if j - i ≤ 3 * blockSize then (naiveRmq D i (j + 1)).1
  else
    let leftEnd := (i / blockSize + 1) * blockSize
    let leftRes := naiveRmq D i leftEnd
    let rightBeg := (j / blockSize) * blockSize
    let rightRes := naiveRmq D rightBeg (j + 1)
    let leftBlock := i / blockSize + 1
    let rightBlock := j / blockSize - 1
    let midPos := blockMinPos D (bfcRmq (blockMins D) leftBlock rightBlock)
    let midMin := D.getD midPos 0
    let r1 := if midMin < leftRes.2 then (midPos, midMin) else leftRes
    let r2 := if rightRes.2 < r1.2 then rightRes else r1
    r2.1

/-- Specification predicate: `p` is the leftmost position of a minimum of `D`
over the closed index range `[i, j]`. -/
def LeftmostArgmin (D : List Int) (i j p : Nat) : Prop :=
  i ≤ p ∧ p ≤ j ∧ (∀ q, i ≤ q → q ≤ j → D.getD p 0 ≤ D.getD q 0) ∧
    ∀ q, i ≤ q → q < p → D.getD p 0 < D.getD q 0

end Rmq

namespace Btree

/-- The key list of a node's entry array (the `keys_` array of
linear_search_base.hpp; entries pair each key with its value from the parallel
`values_` array of linear_search_map.hpp). -/
def lsKeys (es : List (Int × Int)) : List Int := es.map Prod.fst

/-- Index of the first key strictly greater than `x` in the leading run of keys
`≤ x` (the scan loops of linear_search_base.hpp lines 104-106 and similar). -/
def firstGT (ks : List Int) (x : Int) : Nat :=
  match ks with
  | [] => 0
  | k :: r => if k ≤ x then firstGT r x + 1 else 0

/-- Index of the first key `≥ x` (the scan loop of linear_search_base.hpp
lines 114-116). -/
def firstGE (ks : List Int) (x : Int) : Nat :=
  match ks with
  | [] => 0
  | k :: r => if k < x then firstGE r x + 1 else 0

/-- `LinearSearchBase::predecessor` (linear_search_base.hpp lines 99-107):
position of the rightmost key `≤ x`, or `none`. -/
def lsPred (es : List (Int × Int)) (x : Int) : Option Nat :=
  match es with
  | [] => none
  | e0 :: _ =>
    if x < e0.1 then none
    else if (es.getLastD (0, 0)).1 ≤ x then some (es.length - 1)
    else some (firstGT (lsKeys es) x - 1)

/-- `LinearSearchBase::successor` (linear_search_base.hpp lines 109-117):
position of the leftmost key `≥ x`, or `none`. -/
def lsSucc (es : List (Int × Int)) (x : Int) : Option Nat :=
  match es with
  | [] => none
  | e0 :: _ =>
    if x ≤ e0.1 then some 0
    else if (es.getLastD (0, 0)).1 < x then none
    else some (firstGE (lsKeys es) x)

/-- `LinearSearchBase::insert_key` plus the value shift of
`LinearSearchMap::insert` (linear_search_base.hpp lines 60-69,
linear_search_map.hpp lines 71-77): insert before the first key `≥ key`. -/
def lsInsert (es : List (Int × Int)) (k v : Int) : List (Int × Int) :=
  match es with
  | [] => [(k, v)]
  | e :: r => if e.1 < k then e :: lsInsert r k v else (k, v) :: e :: r

/-- `LinearSearchBase::erase_key` plus the value shift of
`LinearSearchMap::erase` (linear_search_base.hpp lines 71-83,
linear_search_map.hpp lines 79-89): remove the first entry whose key equals
`k`, returning its value. -/
def lsErase (es : List (Int × Int)) (k : Int) : Option (Int × List (Int × Int)) :=
  match es with
  | [] => none
  | e :: r =>
    if e.1 = k then some (e.2, r)
    else (lsErase r k).map (fun p => (p.1, e :: p.2))

/-- The entry array after `LinearSearchMap::erase(k)` (unchanged when the key
is absent). -/
def lsEraseK (es : List (Int × Int)) (k : Int) : List (Int × Int) :=
  match lsErase es k with
  | some p => p.2
  | none => es

/-- The value removed by `LinearSearchMap::erase(k, value)` (0, i.e. a
default-constructed value, when the key is absent). -/
def lsEraseV (es : List (Int × Int)) (k : Int) : Int :=
  match lsErase es k with
  | some p => p.1
  | none => 0

/-- A B-tree node (btree_impl.hpp class `Node`): the entry array of the
`NodeImpl` plus the `children_` array; `children = []` encodes a leaf
(`children_ == nullptr`). -/
inductive BNode : Type where
  | mk : List (Int × Int) → List BNode → BNode

/-- The node's entry array. -/
def BNode.entries : BNode → List (Int × Int)
  | .mk es _ => es

/-- The node's child array. -/
def BNode.children : BNode → List BNode
  | .mk _ cs => cs

/-- `Node::size()`. -/
def BNode.size (t : BNode) : Nat := t.entries.length

/-- `Node::is_leaf()`. -/
def BNode.isLeaf (t : BNode) : Bool := t.children.isEmpty

/-- A default node (used for out-of-range child accesses, which are undefined
behaviour in the C++ and unreachable under the tree invariants). -/
def nilNode : BNode := .mk [] []

/-- `split_right_ = node_capacity / 2` (btree_impl.hpp line 60). -/
def splitRight (cap : Nat) : Nat := cap / 2

/-- `split_mid_ = split_right_ - 1` (btree_impl.hpp line 61). -/
def splitMid (cap : Nat) : Nat := cap / 2 - 1

/-- `deletion_threshold_ = degree_ / 2` where `degree_ = cap + 1`
(btree_impl.hpp line 62). -/
def threshold (cap : Nat) : Nat := (cap + 1) / 2

/-- The insertion loop moving entries into a node in ascending order
(btree_impl.hpp lines 146-151 and 266-269, 374-377, 405-408). -/
def insEntries (init : List (Int × Int)) (moved : List (Int × Int)) : List (Int × Int) :=
  moved.foldl (fun acc e => lsInsert acc e.1 e.2) init

/-- The loop erasing a batch of keys from a node's entry array
(btree_impl.hpp lines 152-154). -/
def eraseKeysFold (es : List (Int × Int)) (ks : List Int) : List (Int × Int) :=
  ks.foldl lsEraseK es

/-- `Node::split_child(i)` (btree_impl.hpp lines 132-178): splits the full
child `y` at index `i` into `y` (keys below the middle) and a new right node
`z` (keys above the middle), promoting the middle key into this node and
inserting `z` as child `i+1`. -/
def splitChild (cap : Nat) (t : BNode) (i : Nat) : BNode :=
  let es := t.entries
  let cs := t.children
  let y := cs.getD i nilNode
  let m := (y.entries.getD (splitMid cap) (0, 0)).1
  let moved := y.entries.drop (splitRight cap)
  let zes := insEntries [] moved
  let yes1 := eraseKeysFold y.entries (moved.map Prod.fst)
  let mv := lsEraseV yes1 m
  let yes2 := lsEraseK yes1 m
  let zcs := if y.isLeaf then [] else y.children.drop (splitRight cap)
  let ycs := if y.isLeaf then [] else y.children.take (splitRight cap)
  BNode.mk (lsInsert es m mv)
    ((cs.set i (BNode.mk yes2 ycs)).insertIdx (i + 1) (BNode.mk zes zcs))

/-- `Node::insert(key, value)` (btree_impl.hpp lines 180-202) with the
recursion depth made explicit by `fuel` (the C++ recursion descends one level
per call; any fuel at least the node's height gives the exact behaviour). -/
def nInsert (cap : Nat) : Nat → BNode → Int → Int → BNode
  | 0, t, _, _ => t
  | fuel + 1, t, k, v =>
    if t.isLeaf then BNode.mk (lsInsert t.entries k v) []
    else
      let i := match lsPred t.entries k with
        | some p => p + 1
        | none => 0
      if (t.children.getD i nilNode).size = cap then
        let t2 := splitChild cap t i
        let i2 := if (t2.entries.getD i (0, 0)).1 < k then i + 1 else i
        BNode.mk t2.entries
          (t2.children.set i2 (nInsert cap fuel (t2.children.getD i2 nilNode) k v))
      else
        BNode.mk t.entries
          (t.children.set i (nInsert cap fuel (t.children.getD i nilNode) k v))

/-- The descent to the rightmost leaf of a subtree and its last entry
(btree_impl.hpp lines 226-231): the in-order maximum. -/
def subtreeMax : Nat → BNode → Int × Int
  | 0, t => t.entries.getLastD (0, 0)
  | fuel + 1, t =>
    if t.isLeaf then t.entries.getLastD (0, 0)
    else subtreeMax fuel (t.children.getLastD nilNode)

/-- The descent to the leftmost leaf of a subtree and its first entry
(btree_impl.hpp lines 241-246): the in-order minimum. -/
def subtreeMin : Nat → BNode → Int × Int
  | 0, t => t.entries.getD 0 (0, 0)
  | fuel + 1, t =>
    if t.isLeaf then t.entries.getD 0 (0, 0)
    else subtreeMin fuel (t.children.getD 0 nilNode)

/-- `Node::erase(key)` (btree_impl.hpp lines 204-438) with explicit recursion
fuel: returns whether the key was found together with the rewritten node. -/
def nErase (cap : Nat) : Nat → BNode → Int → Bool × BNode
  | 0, t, _ => (false, t)
  | fuel + 1, t, key =>
    if t.isLeaf then
      match lsErase t.entries key with
      | some p => (true, BNode.mk p.2 [])
      | none => (false, t)
    else
      let es := t.entries
      let cs := t.children
      let r := lsPred es key
      let i := match r with
        | some p => p + 1
        | none => 0
      let hit : Bool := match r with
        | some p => decide ((es.getD p (0, 0)).1 = key)
        | none => false
      if hit then
        -- the key is contained in this internal node (lines 215-291)
        let y := cs.getD (i - 1) nilNode
        let z := cs.getD i nilNode
        if threshold cap ≤ y.size then
          -- replace the key by its in-order predecessor from y (lines 224-238)
          let pr := subtreeMax fuel y
          let es2 := lsInsert (lsEraseK es key) pr.1 pr.2
          let y2 := (nErase cap fuel y pr.1).2
          (true, BNode.mk es2 (cs.set (i - 1) y2))
        else if threshold cap ≤ z.size then
          -- replace the key by its in-order successor from z (lines 239-253)
          let sc := subtreeMin fuel z
          let es2 := lsInsert (lsEraseK es key) sc.1 sc.2
          let z2 := (nErase cap fuel z sc.1).2
          (true, BNode.mk es2 (cs.set i z2))
        else
          -- merge the key and all of z into y, then recurse (lines 254-290)
          let v := lsEraseV es key
          let es2 := lsEraseK es key
          let ym := BNode.mk (insEntries (lsInsert y.entries key v) z.entries)
            (if z.isLeaf then y.children else y.children ++ z.children)
          let y2 := (nErase cap fuel ym key).2
          (true, BNode.mk es2 (((cs.set (i - 1) y2)).eraseIdx i))
      else
        -- the key is not in this node: descend into child i (lines 292-436)
        let c := cs.getD i nilNode
        if c.size < threshold cap then
          let hasL : Bool := decide (0 < i)
          let L := cs.getD (i - 1) nilNode
          let hasR : Bool := decide (i + 1 < cs.length)
          let R := cs.getD (i + 1) nilNode
          if hasL && decide (threshold cap ≤ L.size) then
            -- borrow from the left sibling (lines 304-329)
            let spl := es.getD (i - 1) (0, 0)
            let sv := lsEraseV es spl.1
            let ll := L.entries.getLastD (0, 0)
            let es3 := lsInsert (lsEraseK es spl.1) ll.1 ll.2
            let c2 := BNode.mk (lsInsert c.entries spl.1 sv)
              (if L.isLeaf then c.children else L.children.getLastD nilNode :: c.children)
            let L2 := BNode.mk (lsEraseK L.entries ll.1)
              (if L.isLeaf then L.children else L.children.dropLast)
            let res := nErase cap fuel c2 key
            (res.1, BNode.mk es3 (((cs.set (i - 1) L2).set i res.2)))
          else if hasR && decide (threshold cap ≤ R.size) then
            -- borrow from the right sibling (lines 330-355)
            let spl := es.getD i (0, 0)
            let sv := lsEraseV es spl.1
            let rs := R.entries.getD 0 (0, 0)
            let es3 := lsInsert (lsEraseK es spl.1) rs.1 rs.2
            let c2 := BNode.mk (lsInsert c.entries spl.1 sv)
              (if R.isLeaf then c.children else c.children ++ [R.children.getD 0 nilNode])
            let R2 := BNode.mk (lsEraseK R.entries rs.1)
              (if R.isLeaf then R.children else R.children.drop 1)
            let res := nErase cap fuel c2 key
            (res.1, BNode.mk es3 (((cs.set (i + 1) R2).set i res.2)))
          else if hasR then
            -- merge the child with its right sibling (lines 363-393)
            let spl := es.getD i (0, 0)
            let sv := lsEraseV es spl.1
            let es2 := lsEraseK es spl.1
            let c2 := BNode.mk (insEntries (lsInsert c.entries spl.1 sv) R.entries)
              (if R.isLeaf then c.children else c.children ++ R.children)
            let res := nErase cap fuel c2 key
            (res.1, BNode.mk es2 (((cs.set i res.2).eraseIdx (i + 1))))
          else
            -- merge the child with its left sibling (lines 394-430)
            let spl := es.getD (i - 1) (0, 0)
            let sv := lsEraseV es spl.1
            let es2 := lsEraseK es spl.1
            let c2 := BNode.mk (insEntries (lsInsert c.entries spl.1 sv) L.entries)
              (if L.isLeaf then c.children else L.children ++ c.children)
            let res := nErase cap fuel c2 key
            (res.1, BNode.mk es2 (((cs.eraseIdx (i - 1)).set (i - 1) res.2)))
        else
          let res := nErase cap fuel c key
          (res.1, BNode.mk es (cs.set i res.2))

mutual

/-- Height of a node (levels below it plus one); used as recursion fuel for
the node operations. -/
def BNode.height : BNode → Nat
  | .mk _ cs => 1 + heightList cs

/-- Maximum height among a list of nodes. -/
def heightList : List BNode → Nat
  | [] => 0
  | c :: cs => max (BNode.height c) (heightList cs)

end

/-- The B-tree (btree_impl.hpp class `BTree`): the tracked size `size_` and
the root node. -/
structure BTreeS where
  siz : Nat
  root : BNode

/-- `BTree::BTree()` (btree_impl.hpp line 465): an empty leaf root. -/
def btEmpty : BTreeS := ⟨0, .mk [] []⟩

/-- `BTree::insert` (btree_impl.hpp lines 648-659): split a full root first,
then insert along a root-to-leaf path. -/
def btInsert (cap : Nat) (T : BTreeS) (k v : Int) : BTreeS :=
  let root1 := if T.root.size = cap then splitChild cap (.mk [] [T.root]) 0 else T.root
  ⟨T.siz + 1, nInsert cap root1.height root1 k v⟩

/-- `BTree::erase` (btree_impl.hpp lines 680-699): erase from the root, adjust
the size on success, and replace an emptied root by its only child. -/
def btErase (cap : Nat) (T : BTreeS) (k : Int) : Bool × BTreeS :=
  let r := nErase cap T.root.height T.root k
  let siz2 := if r.1 then T.siz - 1 else T.siz
  let root2 :=
    if r.2.size = 0 ∧ r.2.children.isEmpty = false then r.2.children.getD 0 nilNode
    else r.2
  (r.1, ⟨siz2, root2⟩)

/-- `QueryResult` (query_result.hpp): `exists` flag plus key and value, which
are unspecified when the flag is false (default-constructed as 0 in
`QueryResult::none`). -/
structure QRes where
  exi : Bool
  key : Int
  val : Int
deriving DecidableEq

/-- The descent loop of `BTree::predecessor` (btree_impl.hpp lines 496-526),
carrying the accumulated flag and best entry seen so far. -/
def nPred : Nat → BNode → Int → Bool → Int → Int → QRes
  | 0, _, _, ex, k0, v0 => ⟨ex, k0, v0⟩
  | fuel + 1, t, x, ex, k0, v0 =>
    let r := lsPred t.entries x
    if t.isLeaf then
      match r with
      | some p => ⟨true, (t.entries.getD p (0, 0)).1, (t.entries.getD p (0, 0)).2⟩
      | none => ⟨ex, k0, v0⟩
    else
      match r with
      | some p =>
        let e := t.entries.getD p (0, 0)
        if e.1 = x then ⟨true, e.1, e.2⟩
        else nPred fuel (t.children.getD (p + 1) nilNode) x true e.1 e.2
      | none => nPred fuel (t.children.getD 0 nilNode) x ex k0 v0

/-- The descent loop of `BTree::successor` (btree_impl.hpp lines 536-566). -/
def nSucc : Nat → BNode → Int → Bool → Int → Int → QRes
  | 0, _, _, ex, k0, v0 => ⟨ex, k0, v0⟩
  | fuel + 1, t, x, ex, k0, v0 =>
    let r := lsSucc t.entries x
    if t.isLeaf then
      match r with
      | some p => ⟨true, (t.entries.getD p (0, 0)).1, (t.entries.getD p (0, 0)).2⟩
      | none => ⟨ex, k0, v0⟩
    else
      match r with
      | some p =>
        let e := t.entries.getD p (0, 0)
        if e.1 = x then ⟨true, e.1, e.2⟩
        else nSucc fuel (t.children.getD p nilNode) x true e.1 e.2
      | none => nSucc fuel (t.children.getD (t.children.length - 1) nilNode) x ex k0 v0

/-- `BTree::predecessor` (btree_impl.hpp lines 496-526). -/
def btPred (T : BTreeS) (x : Int) : QRes := nPred T.root.height T.root x false 0 0

/-- `BTree::successor` (btree_impl.hpp lines 536-566). -/
def btSucc (T : BTreeS) (x : Int) : QRes := nSucc T.root.height T.root x false 0 0

/-- `BTree::find` (btree_impl.hpp lines 574-578). -/
def btFind (T : BTreeS) (x : Int) : QRes :=
  if T.siz = 0 then ⟨false, 0, 0⟩
  else
    let r := btPred T x
    if r.exi && decide (r.key = x) then r else ⟨false, 0, 0⟩

/-- `BTree::contains` (btree_impl.hpp lines 587-590). -/
def btContains (T : BTreeS) (x : Int) : Bool := (btFind T x).exi

end Btree

namespace Btree

mutual

/-- In-order flattening of a node: an internal node with entries `e0..e(m-1)`
and children `c0..cm` flattens to `flat c0 ++ [e0] ++ flat c1 ++ ... ++ flat cm`. -/
def flatten : BNode → List (Int × Int)
  | .mk es cs => flatAux es cs

/-- In-order flattening of the remaining entries and children, child first. -/
def flatAux : List (Int × Int) → List BNode → List (Int × Int)
  | es, [] => es
  | es, c :: cs =>
    flatten c ++
      (match es with
       | [] => flatAux [] cs
       | e :: es2 => e :: flatAux es2 cs)

end

/-- The entry interleaving that follows a child segment: the entry at the cut
position followed by the rest of the interleaving (empty when the entries are
exhausted, which under the node-shape invariant means the children are too). -/
def flatTail (es : List (Int × Int)) (cs : List BNode) : List (Int × Int) :=
  match es with
  | [] => []
  | e :: es2 => e :: flatAux es2 cs

/-- Entry lists with strictly increasing keys. -/
def SortedEnt (l : List (Int × Int)) : Prop :=
  List.Pairwise (fun a b => a.1 < b.1) l

/-- Shape invariant: entry counts at most `cap`, an internal node has one more
child than entries, and all children are balanced at the same height (hence
all leaves lie at equal depth). -/
inductive Bal (cap : Nat) : BNode → Nat → Prop
  | leaf (es : List (Int × Int)) : es.length ≤ cap → Bal cap (.mk es []) 1
  | node (es : List (Int × Int)) (cs : List BNode) (h : Nat) :
      es.length ≤ cap →
      cs.length = es.length + 1 →
      (∀ c ∈ cs, Bal cap c h) →
      Bal cap (.mk es cs) (h + 1)

/-- Occupancy invariant for nodes below the root: at least
`deletion_threshold_ - 1` entries in every node of the subtree. -/
inductive MinOK (cap : Nat) : BNode → Prop
  | mk (es : List (Int × Int)) (cs : List BNode) :
      threshold cap - 1 ≤ es.length →
      (∀ c ∈ cs, MinOK cap c) →
      MinOK cap (.mk es cs)

/-- The full invariant tying a tree to the sorted association list it
represents. -/
def Inv (cap : Nat) (T : BTreeS) (m : List (Int × Int)) : Prop :=
  (∃ h, Bal cap T.root h) ∧
  SortedEnt (flatten T.root) ∧
  (∀ c ∈ T.root.children, MinOK cap c) ∧
  (T.root.children ≠ [] → 1 ≤ T.root.size) ∧
  T.siz = (flatten T.root).length ∧
  flatten T.root = m

/-- An insert or erase operation on the map. -/
inductive MOp : Type where
  | ins (k v : Int)
  | del (k : Int)

/-- Applying a sequence of operations to a tree of the given capacity,
starting from the empty container. -/
def applyOps (cap : Nat) (ops : List MOp) : BTreeS :=
  ops.foldl
    (fun T op =>
      match op with
      | .ins k v => btInsert cap T k v
      | .del k => (btErase cap T k).2)
    btEmpty

/-- Reference model: the sorted association list obtained by replaying the
operations with sorted-list insertion and first-occurrence removal. -/
def model (ops : List MOp) : List (Int × Int) :=
  ops.foldl
    (fun m op =>
      match op with
      | .ins k v => lsInsert m k v
      | .del k => lsEraseK m k)
    []

/-- Validity of an operation sequence continuing from model state `m`:
no insertion of a key already present, no erase on an empty container. -/
def validFrom (m : List (Int × Int)) : List MOp → Bool
  | [] => true
  | .ins k v :: ops => !(lsKeys m).contains k && validFrom (lsInsert m k v) ops
  | .del k :: ops => !m.isEmpty && validFrom (lsEraseK m k) ops

/-- Validity of an operation sequence from the empty container. -/
abbrev ValidOps (ops : List MOp) : Prop := validFrom [] ops = true

/-- The largest entry with key at most `x` of an association list (the
specification of `predecessor` on the represented map). -/
def maxLE (l : List (Int × Int)) (x : Int) : Option (Int × Int) :=
  (l.filter (fun e => e.1 ≤ x)).getLast?

/-- The smallest entry with key at least `x` of an association list (the
specification of `successor` on the represented map). -/
def minGE (l : List (Int × Int)) (x : Int) : Option (Int × Int) :=
  (l.filter (fun e => x ≤ e.1)).head?

end Btree

namespace Lzend

/-- An LZ-End phrase (lzend.hpp lines 46-50); the `char ext` is embedded as the
byte value. -/
structure Phrase where
  lnk : Int
  len : Int
  ext : Int
deriving DecidableEq

/-- The `Candidate` record of `lzend::parse` (lzend.hpp line 91). -/
structure Candidate where
  lex_pos : Int
  lnk : Int
  len : Int
deriving DecidableEq

/-- Modelled from the spec: lexicographic comparison of byte sequences, the
order underlying the suffix array produced by the external libsais call
(spec sections 3 and 6). -/
def lexLe : List Int → List Int → Bool
  | [], _ => true
  | _ :: _, [] => false
  | a :: as, b :: bs =>
    if a < b then true else if b < a then false else lexLe as bs

/-- Modelled from the spec: the suffix array of `R` — the permutation of
`[0, n)` listing suffix start positions in lexicographic order
(`suffix_array(bytes) -> SA[0..n)`, spec section 6; produced by `libsais` in
lzend.hpp line 64, which is external to this repository). -/
def suffixArray (R : List Int) : List Nat :=
  List.insertionSort (fun a b => lexLe (R.drop a) (R.drop b) = true)
    (List.range R.length)

/-- Length of the longest common prefix of two sequences. -/
def lcpLen : List Int → List Int → Int
  | a :: as, b :: bs => if a = b then lcpLen as bs + 1 else 0
  | _, _ => 0

/-- Modelled from the spec: the LCP array over `R` — `LCP[0] = 0` and
`LCP[i] = lcp(R[SA[i-1]..], R[SA[i]..])` (spec section 3; produced via
`libsais_plcp`/`libsais_lcp` in lzend.hpp lines 70-73, external to this
repository). -/
def lcpArray (R : List Int) (sa : List Nat) : List Int :=
  (List.range R.length).map fun i =>
    if i = 0 then 0 else lcpLen (R.drop (sa.getD (i - 1) 0)) (R.drop (sa.getD i 0))

/-- The remapped inverse suffix array (lzend.hpp line 81:
`isa[n - sa[i] - 1] = i`): position `p` maps to the rank of the suffix of `R`
starting at `n - 1 - p`. -/
def isaArray (R : List Int) (sa : List Nat) : List Int :=
  (List.range R.length).map fun p => ((sa.indexOf (R.length - 1 - p) : Nat) : Int)

/-- `lex_smaller_phrase` (lzend.hpp lines 93-98). -/
def lexSmallerPhrase (marked : Btree.BTreeS) (lcp : List Int) (x : Int) : Candidate :=
  let r := Btree.btPred marked (x - 1)
  if r.exi then ⟨r.key, r.val, lcp.getD (Rmq.rmq lcp (r.key + 1).toNat x.toNat) 0⟩
  else ⟨0, 0, 0⟩

/-- `lex_greater_phrase` (lzend.hpp lines 100-105). -/
def lexGreaterPhrase (marked : Btree.BTreeS) (lcp : List Int) (x : Int) : Candidate :=
  let r := Btree.btSucc marked (x + 1)
  if r.exi then ⟨r.key, r.val, lcp.getD (Rmq.rmq lcp (x + 1).toNat r.key.toNat) 0⟩
  else ⟨0, 0, 0⟩

/-- The `find_copy_source` helper (lzend.hpp lines 122-132) as a pure update
of the pair `(p1, p2)`, parameterized by the direction function `f`. -/
def findCopySource (f : Int → Candidate) (len1 len2 i z isa_last : Int)
    (p : Int × Int) : Int × Int :=
  let c := f isa_last
  if len1 ≤ c.len then
    let p1 := c.lnk
    if len1 < i then
      let c2 := if c.lnk = z - 1 then f c.lex_pos else c
      if len2 ≤ c2.len then (p1, c2.lnk) else (p1, p.2)
    else (p1, p.2)
  else p

/-- The variant of `find_copy_source` following the specification's words:
the second direction overwrites only whichever of `p1`, `p2` are still `-1`
(spec section 4.4, step 2).  Used to compare the reference behaviour against
the specified one. -/
def findCopySourceKeep (f : Int → Candidate) (len1 len2 i z isa_last : Int)
    (p : Int × Int) : Int × Int :=
  let c := f isa_last
  if len1 ≤ c.len then
    let p1 := if p.1 = -1 then c.lnk else p.1
    if len1 < i then
      let c2 := if c.lnk = z - 1 then f c.lex_pos else c
      if len2 ≤ c2.len then (p1, if p.2 = -1 then c2.lnk else p.2) else (p1, p.2)
    else (p1, p.2)
  else p

/-- `parsing.back() = x` (the phrase list is embedded as a list grown at the
tail). -/
def setLast (l : List Phrase) (p : Phrase) : List Phrase := l.dropLast ++ [p]

/-- The parser loop state: the phrase list, the index `z` of the latest
phrase, and the `marked` B-tree map. -/
structure PState where
  parsing : List Phrase
  z : Int
  marked : Btree.BTreeS

/-- One iteration of the main parse loop at text position `i`
(lzend.hpp lines 115-158), parameterized by the direction-update function so
that the reference helper and the specification variant can be swapped. -/
def parseStepWith (fcs : (Int → Candidate) → Int → Int → Int → Int → Int →
      Int × Int → Int × Int)
    (s : List Int) (lcp isa : List Int) (st : PState) (i : Nat) : PState :=
  let len1 := (st.parsing.getD st.z.toNat ⟨0, 0, 0⟩).len
  let len2 := len1 + (if 0 < st.z then (st.parsing.getD (st.z - 1).toNat ⟨0, 0, 0⟩).len else 0)
  let isa_last := isa.getD (i - 1) 0
  let p0 := fcs (lexSmallerPhrase st.marked lcp) len1 len2 (i : Int) st.z isa_last (-1, -1)
  let p := if p0.1 = -1 ∨ p0.2 = -1 then
      fcs (lexGreaterPhrase st.marked lcp) len1 len2 (i : Int) st.z isa_last p0
    else p0
  if p.2 ≠ -1 then
    let marked2 := (Btree.btErase 64 st.marked (isa.getD ((i : Int) - 1 - len1).toNat 0)).2
    let parsing2 := st.parsing.dropLast
    ⟨setLast parsing2 ⟨p.2, len2 + 1, s.getD i 0⟩, st.z - 1, marked2⟩
  else if p.1 ≠ -1 then
    ⟨setLast st.parsing ⟨p.1, len1 + 1, s.getD i 0⟩, st.z, st.marked⟩
  else
    ⟨st.parsing ++ [⟨0, 1, s.getD i 0⟩], st.z + 1,
      Btree.btInsert 64 st.marked isa_last st.z⟩

/-- One iteration of the main parse loop with the reference `find_copy_source`. -/
def parseStep (s : List Int) (lcp isa : List Int) (st : PState) (i : Nat) : PState :=
  parseStepWith findCopySource s lcp isa st i

/-- `lzend::parse` (lzend.hpp lines 53-161): the returned phrase list.  The
suffix-array, LCP and remapped-ISA inputs are the spec-modelled external
libsais calls; the marked map is the degree-65 B-tree (node capacity 64). -/
def parse (s : List Int) : List Phrase :=
  let n := s.length
  let rs := s.reverse
  let sa := suffixArray rs
  let lcp := lcpArray rs sa
  let isa := isaArray rs sa
  let st0 : PState := ⟨[⟨0, 1, s.getD 0 0⟩], 0, Btree.btEmpty⟩
  ((List.range' 1 (n - 1)).foldl (parseStep s lcp isa) st0).parsing

/-- `lzend::parse` with the specification's overwrite discipline for the
second candidate search (assign only the components still `-1`). -/
def parseKeep (s : List Int) : List Phrase :=
  let n := s.length
  let rs := s.reverse
  let sa := suffixArray rs
  let lcp := lcpArray rs sa
  let isa := isaArray rs sa
  let st0 : PState := ⟨[⟨0, 1, s.getD 0 0⟩], 0, Btree.btEmpty⟩
  ((List.range' 1 (n - 1)).foldl (parseStepWith findCopySourceKeep s lcp isa) st0).parsing

/-- `Index const n = s.length()` (lzend.hpp line 54): the conversion of the
`size_t` length to the signed 32-bit `Index` type, with the wrap-around made
explicit. -/
def toIndex (len : Nat) : Int :=
  ((len % 2 ^ 32 : Nat) : Int) - (if len % 2 ^ 32 < 2 ^ 31 then 0 else 2 ^ 32)

/-- Sum of the phrase lengths of a parsing. -/
def sumLens (ps : List Phrase) : Int := (ps.map Phrase.len).sum

end Lzend

namespace Lzend

/-- Text position of the last character of phrase `j` in a parsing: the sum of
the lengths of phrases `0..j` minus one. -/
def ends (ps : List Phrase) (j : Nat) : Int := sumLens (ps.take (j + 1)) - 1

/-- The parser-loop invariant, stated for the state at the beginning of the
iteration for text position `i`: the phrase list covers `s[0..i)` with `z + 1`
phrases of positive length whose first phrase is the initial literal, and the
`marked` B-tree satisfies the tree invariant and holds exactly the entries
`(isa[ends j], j)` for the phrases `j < z`. -/
def ParseInv (s isa : List Int) (i : Nat) (st : PState) : Prop :=
  0 ≤ st.z ∧
  st.parsing.length = st.z.toNat + 1 ∧
  sumLens st.parsing = (i : Int) ∧
  (∀ p ∈ st.parsing, 1 ≤ p.len) ∧
  st.parsing.head? = some ⟨0, 1, s.getD 0 0⟩ ∧
  Btree.Inv 64 st.marked (Btree.flatten st.marked.root) ∧
  (∀ e ∈ Btree.flatten st.marked.root,
    ∃ j : Nat, (j : Int) < st.z ∧ e = (isa.getD (ends st.parsing j).toNat 0, (j : Int))) ∧
  (∀ j : Nat, (j : Int) < st.z →
    (isa.getD (ends st.parsing j).toNat 0, (j : Int)) ∈ Btree.flatten st.marked.root)

end Lzend

/-! Claim theorems with elementary proofs, plus the concrete counterexamples. -/

/-- C9: on the empty B-tree map, `predecessor`, `successor`, `find` and
`contains` are total and report `exists = false` for every key. -/
theorem claim_C9 (x : Int) :
    (Btree.btPred Btree.btEmpty x).exi = false ∧
    (Btree.btSucc Btree.btEmpty x).exi = false ∧
    (Btree.btFind Btree.btEmpty x).exi = false ∧
    Btree.btContains Btree.btEmpty x = false :=
  ⟨rfl, rfl, rfl, rfl⟩

/-- C8: the parser performs no size check at its interface; the length is
converted to `int32_t` unchecked, so the length `2^31` wraps to `-2^31` (and
construction proceeds on garbage), while every length below `2^31` converts
losslessly. -/
theorem claim_C8 :
    Lzend.toIndex (2 ^ 31) = -(2 ^ 31) ∧
    Lzend.toIndex (2 ^ 31 - 1) = 2 ^ 31 - 1 ∧
    Lzend.toIndex 0 = 0 := by
  decide

/-- C7 counterexample: on the empty input the parser does not return the
empty phrase list. -/
theorem claim_C7_counterexample : Lzend.parse [] ≠ [] := by
  decide

/-- C7 amended: on the empty input the RMQ constructor's block count
`(n-1)/64+1` wraps in `size_t` to `(2^64-1)/64+1` (an absurd allocation
request), and the phrase vector is unconditionally seeded with the initial
phrase `(0, 1, S[0])` — with `S[0]` the `'\0'` returned by `std::string`
indexing at position 0 of an empty string — so the parse result is
`[(0, 1, 0)]`, never the empty list. -/
theorem claim_C7 :
    Rmq.numBlocksSizeT 0 = 288230376151711744 ∧
    Lzend.parse [] = [⟨0, 1, 0⟩] := by
  constructor
  · decide
  · decide

/-- C6 counterexample: for the input "aa" the parser does not return
`[(0, 1, 'a'), (0, 2, 'a')]`. -/
theorem claim_C6_counterexample :
    Lzend.parse [97, 97] ≠ [⟨0, 1, 97⟩, ⟨0, 2, 97⟩] := by
  decide

/-- C6 amended: for the input "aa" the parser returns
`[(0, 1, 'a'), (0, 1, 'a')]` with `z = 1`: at `i = 1` the marked map is still
empty, so no extension candidate exists and the second character starts a new
literal phrase (the output claimed by the specification would also violate
`sum(len) = n`). -/
theorem claim_C6 : Lzend.parse [97, 97] = [⟨0, 1, 97⟩, ⟨0, 1, 97⟩] := by
  decide

/-- C5 counterexample: on the input "abaaaa" the lex-greater candidate search
overwrites the `p1` already set by the lex-smaller direction (the reference
parse emits phrase link 2 where the keep-first-direction variant emits 0), and
`find_copy_source` at a concrete usable candidate replaces a `p1` that is not
`-1`. -/
theorem claim_C5_counterexample :
    Lzend.parse [97, 98, 97, 97, 97, 97] =
      [⟨0, 1, 97⟩, ⟨0, 1, 98⟩, ⟨0, 2, 97⟩, ⟨2, 2, 97⟩] ∧
    Lzend.parseKeep [97, 98, 97, 97, 97, 97] =
      [⟨0, 1, 97⟩, ⟨0, 1, 98⟩, ⟨0, 2, 97⟩, ⟨0, 2, 97⟩] ∧
    (Lzend.findCopySource (fun _ => ⟨0, 2, 5⟩) 1 2 6 2 0 (0, -1)).1 = 2 ∧
    (0 : Int) ≠ -1 := by
  refine ⟨by decide, by decide, by decide, by decide⟩

/-- C5 amended: the second (lex-greater) candidate search runs whenever
`p1 = -1` or `p2 = -1`; when it runs it leaves the pair unchanged if its
candidate is unusable, but whenever its candidate is usable
(`len ≥ len1`) it sets `p1` to that candidate's `lnk`, overwriting a `p1`
already assigned by the lex-smaller direction. -/
theorem claim_C5 (f : Int → Lzend.Candidate) (len1 len2 i z il : Int)
    (p : Int × Int) :
    (len1 ≤ (f il).len →
      (Lzend.findCopySource f len1 len2 i z il p).1 = (f il).lnk) ∧
    ((f il).len < len1 → Lzend.findCopySource f len1 len2 i z il p = p) := by
  constructor
  · intro h
    simp only [Lzend.findCopySource, if_pos h]
    split <;> (try split) <;> (try split) <;> rfl
  · intro h
    simp only [Lzend.findCopySource, if_neg (not_le.mpr h)]

/-- C5 amended, witness: the overwrite at a usable candidate and the no-op at
an unusable one, at concrete inputs. -/
theorem claim_C5_witness :
    (Lzend.findCopySource (fun _ => ⟨9, 7, 3⟩) 1 2 6 5 0 (4, -1)).1 = 7 ∧
    Lzend.findCopySource (fun _ => ⟨9, 7, 0⟩) 1 2 6 5 0 (4, -1) = (4, -1) :=
  ⟨(claim_C5 (fun _ => ⟨9, 7, 3⟩) 1 2 6 5 0 (4, -1)).1 (by decide),
   (claim_C5 (fun _ => ⟨9, 7, 0⟩) 1 2 6 5 0 (4, -1)).2 (by decide)⟩

set_option maxRecDepth 100000 in
/-- C4 counterexample: inserting the 65 distinct keys 0..64 into the
degree-65 B-tree (a valid operation sequence) splits the root and leaves a
non-root node with only 31 keys, below the claimed bound of
`ceil(65/2) - 1 = 32`. -/
theorem claim_C4_counterexample :
    Btree.ValidOps ((List.range 65).map (fun k => Btree.MOp.ins (k : Int) 0)) ∧
    ((Btree.applyOps 64 ((List.range 65).map (fun k => Btree.MOp.ins (k : Int) 0))).root.children.getD
        0 Btree.nilNode).size = 31 := by
  constructor
  · decide
  · decide

/-! Correctness of the RMQ structure (claim C2). -/

namespace Rmq



theorem lam_combine (D : List Int) (i a b j p1 p2 : Nat)
    (h1 : LeftmostArgmin D i a p1) (h2 : LeftmostArgmin D b j p2)
    (hba : b ≤ a + 1) (hib : i ≤ b) (haj : a ≤ j) :
    LeftmostArgmin D i j (if D.getD p1 0 ≤ D.getD p2 0 then p1 else p2) := by
  obtain ⟨h1l, h1r, h1min, h1lm⟩ := h1
  obtain ⟨h2l, h2r, h2min, h2lm⟩ := h2
  by_cases hle : D.getD p1 0 ≤ D.getD p2 0
  · rw [if_pos hle]
    refine ⟨h1l, le_trans h1r haj, ?_, ?_⟩
    · intro q hq1 hq2
      by_cases hqa : q ≤ a
      · exact h1min q hq1 hqa
      · exact le_trans hle (h2min q (by omega) hq2)
    · intro q hq1 hq2
      exact h1lm q hq1 hq2
  · rw [if_neg hle]
    push_neg at hle
    refine ⟨le_trans hib h2l, h2r, ?_, ?_⟩
    · intro q hq1 hq2
      by_cases hqb : b ≤ q
      · exact h2min q hqb hq2
      · exact le_of_lt (lt_of_lt_of_le hle (h1min q hq1 (by omega)))
    · intro q hq1 hq2
      by_cases hqb : b ≤ q
      · exact h2lm q hqb hq2
      · exact lt_of_lt_of_le hle (h1min q hq1 (by omega))

theorem naiveGo_spec (D : List Int) :
    ∀ (rem cur mp : Nat) (mv : Int) (lo : Nat), mv = D.getD mp 0 → 1 ≤ cur →
    LeftmostArgmin D lo (cur - 1) mp →
    LeftmostArgmin D lo (cur + rem - 1) (naiveGo D rem cur mp mv).1 ∧
      (naiveGo D rem cur mp mv).2 = D.getD (naiveGo D rem cur mp mv).1 0 := by
  intro rem
  induction rem with
  | zero =>
    intro cur mp mv lo hmv hcur hlam
    simpa [naiveGo, hmv] using hlam
  | succ n ih =>
    intro cur mp mv lo hmv hcur hlam
    obtain ⟨hl, hr, hmin, hlm⟩ := hlam
    simp only [naiveGo]
    by_cases hlt : D.getD cur 0 < mv
    · rw [if_pos hlt]
      have hnew : LeftmostArgmin D lo ((cur + 1) - 1) cur := by
        refine ⟨by omega, by omega, ?_, ?_⟩
        · intro q hq1 hq2
          by_cases hqc : q ≤ cur - 1
          · refine le_of_lt ?_
            calc D.getD cur 0 < mv := hlt
              _ = D.getD mp 0 := hmv
              _ ≤ D.getD q 0 := hmin q hq1 hqc
          · have : q = cur := by omega
            simp [this]
        · intro q hq1 hq2
          have hq3 : q ≤ cur - 1 := by omega
          calc D.getD cur 0 < mv := hlt
            _ = D.getD mp 0 := hmv
            _ ≤ D.getD q 0 := hmin q hq1 hq3
      have := ih (cur + 1) cur (D.getD cur 0) lo rfl (by omega) hnew
      constructor
      · have harr : cur + 1 + n - 1 = cur + (n + 1) - 1 := by omega
        rw [harr] at this
        exact this.1
      · exact this.2
    · rw [if_neg hlt]
      push_neg at hlt
      have hnew : LeftmostArgmin D lo ((cur + 1) - 1) mp := by
        refine ⟨hl, by omega, ?_, ?_⟩
        · intro q hq1 hq2
          by_cases hqc : q ≤ cur - 1
          · exact hmin q hq1 hqc
          · have : q = cur := by omega
            rw [this, ← hmv]
            exact hlt
        · intro q hq1 hq2
          exact hlm q hq1 hq2
      have := ih (cur + 1) mp mv lo hmv (by omega) hnew
      constructor
      · have harr : cur + 1 + n - 1 = cur + (n + 1) - 1 := by omega
        rw [harr] at this
        exact this.1
      · exact this.2

theorem naiveRmq_spec (D : List Int) (beg stop : Nat) (h : beg < stop) :
    LeftmostArgmin D beg (stop - 1) (naiveRmq D beg stop).1 ∧
      (naiveRmq D beg stop).2 = D.getD (naiveRmq D beg stop).1 0 := by
  have hbase : LeftmostArgmin D beg ((beg + 1) - 1) beg := by
    refine ⟨le_refl _, by omega, ?_, ?_⟩
    · intro q hq1 hq2
      have : q = beg := by omega
      simp [this]
    · intro q hq1 hq2
      omega
  have := naiveGo_spec D (stop - (beg + 1)) (beg + 1) beg (D.getD beg 0) beg rfl
    (by omega) hbase
  have harr : beg + 1 + (stop - (beg + 1)) - 1 = stop - 1 := by omega
  rw [harr] at this
  exact this



theorem getD_map_range (m : Nat) (f : Nat → Nat) (i : Nat) (h : i < m) :
    ((List.range m).map f).getD i 0 = f i := by
  rw [List.getD_eq_getElem?_getD]
  simp [List.getElem?_map, List.getElem?_range h]

theorem getD_map_range_int (m : Nat) (f : Nat → Int) (i : Nat) (h : i < m) :
    ((List.range m).map f).getD i 0 = f i := by
  rw [List.getD_eq_getElem?_getD]
  simp [List.getElem?_map, List.getElem?_range h]

theorem log2fuel_spec : ∀ fuel n, n ≤ fuel → 1 ≤ n →
    2 ^ log2fuel fuel n ≤ n ∧ n < 2 ^ (log2fuel fuel n + 1) := by
  intro fuel
  induction fuel with
  | zero => intro n h1 h2; omega
  | succ m ih =>
    intro n h1 h2
    by_cases hn : n ≤ 1
    · have : n = 1 := by omega
      simp [log2fuel, this]
    · rw [log2fuel, if_neg hn]
      have hrec := ih (n / 2) (by omega) (by omega)
      constructor
      · have : 2 ^ (log2fuel m (n / 2) + 1) = 2 * 2 ^ log2fuel m (n / 2) := by ring
        rw [this]
        omega
      · have : 2 ^ (log2fuel m (n / 2) + 1 + 1) = 2 * 2 ^ (log2fuel m (n / 2) + 1) := by ring
        rw [this]
        omega

theorem log2floor_spec (n : Nat) (h : 1 ≤ n) :
    2 ^ log2floor n ≤ n ∧ n < 2 ^ (log2floor n + 1) :=
  log2fuel_spec n n (le_refl n) h

theorem log2floor_pos (n : Nat) (h : 2 ≤ n) : 1 ≤ log2floor n := by
  by_contra hc
  have h0 : log2floor n = 0 := by omega
  have := (log2floor_spec n (by omega)).2
  rw [h0] at this
  omega

theorem bfcLevel_spec (B : List Int) :
    ∀ (l i : Nat), i + 2 ^ (l + 1) ≤ B.length →
    LeftmostArgmin B i (i + 2 ^ (l + 1) - 1) ((bfcLevel B l).getD i 0) := by
  intro l
  induction l with
  | zero =>
    intro i h
    have hi : i < B.length - 1 := by
      have : 2 ^ (0 + 1) = 2 := by norm_num
      omega
    rw [bfcLevel, getD_map_range _ _ _ hi]
    have h2 : 2 ^ (0 + 1) = 2 := by norm_num
    rw [h2] at h ⊢
    have hlam1 : LeftmostArgmin B i i i :=
      ⟨le_refl _, le_refl _, fun q hq1 hq2 => by
        have : q = i := by omega
        simp [this], fun q hq1 hq2 => by omega⟩
    have hlam2 : LeftmostArgmin B (i + 1) (i + 1) (i + 1) :=
      ⟨le_refl _, le_refl _, fun q hq1 hq2 => by
        have : q = i + 1 := by omega
        simp [this], fun q hq1 hq2 => by omega⟩
    have := lam_combine B i i (i + 1) (i + 1) i (i + 1) hlam1 hlam2
      (by omega) (by omega) (by omega)
    have harr : i + 2 - 1 = i + 1 := by omega
    rw [harr]
    exact this
  | succ l ih =>
    intro i h
    rw [show l + 1 + 1 = l + 2 from rfl] at h ⊢
    have hsz : i < B.length - (2 ^ (l + 2) - 1) := by
      have hp : 1 ≤ 2 ^ (l + 2) := Nat.one_le_two_pow
      omega
    rw [bfcLevel]
    simp only []
    rw [getD_map_range _ _ _ hsz]
    have hw1 : i + 2 ^ (l + 1) ≤ B.length := by
      have : 2 ^ (l + 2) = 2 * 2 ^ (l + 1) := by ring
      omega
    have hw2 : (i + 2 ^ (l + 1)) + 2 ^ (l + 1) ≤ B.length := by
      have : 2 ^ (l + 2) = 2 * 2 ^ (l + 1) := by ring
      omega
    have h1 := ih i hw1
    have h2 := ih (i + 2 ^ (l + 1)) hw2
    have hcomb := lam_combine B i (i + 2 ^ (l + 1) - 1) (i + 2 ^ (l + 1))
      (i + 2 ^ (l + 1) + 2 ^ (l + 1) - 1)
      ((bfcLevel B l).getD i 0) ((bfcLevel B l).getD (i + 2 ^ (l + 1)) 0)
      h1 h2 (by omega) (by have := Nat.one_le_two_pow (n := l + 1); omega)
      (by have := Nat.one_le_two_pow (n := l + 1); omega)
    have harr : i + 2 ^ (l + 1) + 2 ^ (l + 1) - 1 = i + 2 ^ (l + 2) - 1 := by
      have : 2 ^ (l + 2) = 2 ^ (l + 1) + 2 ^ (l + 1) := by ring
      omega
    rw [harr] at hcomb
    exact hcomb

theorem bfcRmq_spec (B : List Int) (i j : Nat) (hij : i ≤ j) (hj : j < B.length) :
    LeftmostArgmin B i j (bfcRmq B i j) := by
  by_cases heq : i = j
  · subst heq
    rw [bfcRmq, if_pos rfl]
    exact ⟨le_refl _, le_refl _, fun q hq1 hq2 => by
      have : q = i := by omega
      simp [this], fun q hq1 hq2 => by omega⟩
  · rw [bfcRmq, if_neg heq]
    simp only []
    have hd2 : 2 ≤ j - i + 1 := by omega
    obtain ⟨hpl, hpu⟩ := log2floor_spec (j - i + 1) (by omega)
    have hlv1 : 1 ≤ log2floor (j - i + 1) := log2floor_pos _ hd2
    set lv := log2floor (j - i + 1) with hlv
    have hlvsub : lv - 1 + 1 = lv := by omega
    have hw1 : i + 2 ^ lv ≤ B.length := by
      have : i + 2 ^ lv ≤ i + (j - i + 1) := by omega
      omega
    have hw2 : (j + 1 - 2 ^ lv) + 2 ^ lv ≤ B.length := by
      have hple : 2 ^ lv ≤ j - i + 1 := hpl
      omega
    have h1 := bfcLevel_spec B (lv - 1) i (by rw [hlvsub]; exact hw1)
    have h2 := bfcLevel_spec B (lv - 1) (j + 1 - 2 ^ lv) (by rw [hlvsub]; exact hw2)
    rw [hlvsub] at h1 h2
    have hple : 2 ^ lv ≤ j - i + 1 := hpl
    have hpub : j - i + 1 < 2 ^ lv + 2 ^ lv := by
      have : 2 ^ (lv + 1) = 2 ^ lv + 2 ^ lv := by ring
      omega
    have hcomb := lam_combine B i (i + 2 ^ lv - 1) (j + 1 - 2 ^ lv) (j + 1 - 2 ^ lv + 2 ^ lv - 1)
      ((bfcLevel B (lv - 1)).getD i 0) ((bfcLevel B (lv - 1)).getD (j + 1 - 2 ^ lv) 0)
      h1 h2 (by have := Nat.one_le_two_pow (n := lv); omega)
      (by have := Nat.one_le_two_pow (n := lv); omega)
      (by have := Nat.one_le_two_pow (n := lv); omega)
    have harr : j + 1 - 2 ^ lv + 2 ^ lv - 1 = j := by
      have := Nat.one_le_two_pow (n := lv)
      omega
    rw [harr] at hcomb
    exact hcomb



theorem lam_combine_strict (D : List Int) (i a b j p1 p2 : Nat)
    (h1 : LeftmostArgmin D i a p1) (h2 : LeftmostArgmin D b j p2)
    (hba : b ≤ a + 1) (hib : i ≤ b) (haj : a ≤ j) :
    LeftmostArgmin D i j (if D.getD p2 0 < D.getD p1 0 then p2 else p1) := by
  have := lam_combine D i a b j p1 p2 h1 h2 hba hib haj
  by_cases h : D.getD p2 0 < D.getD p1 0
  · rw [if_pos h]
    rw [if_neg (not_le.mpr h)] at this
    exact this
  · rw [if_neg h]
    rw [if_pos (not_lt.mp h)] at this
    exact this

theorem blockMins_length (D : List Int) : (blockMins D).length = numBlocks D.length := by
  simp [blockMins]

theorem blockMins_getD (D : List Int) (b : Nat) (h : b < numBlocks D.length) :
    (blockMins D).getD b 0 = blockMinVal D b := by
  rw [blockMins, List.getD_eq_getElem?_getD]
  simp [List.getElem?_map, List.getElem?_range h]

theorem block_lt_numBlocks (n b : Nat) (h : (b + 1) * 64 ≤ n) :
    b < numBlocks n := by
  rw [numBlocks, show blockSize = 64 from rfl]
  have hb : b ≤ (n - 1) / 64 := by
    rw [Nat.le_div_iff_mul_le (by norm_num)]
    omega
  omega

theorem blockMinPos_spec (D : List Int) (b : Nat) (hfull : (b + 1) * 64 ≤ D.length) :
    LeftmostArgmin D (b * 64) ((b + 1) * 64 - 1) (blockMinPos D b) ∧
      blockMinVal D b = D.getD (blockMinPos D b) 0 := by
  have h64 : blockSize = 64 := rfl
  rw [blockMinPos, blockMinVal, h64]
  have hmin : min (b * 64 + 64) D.length = b * 64 + 64 := by omega
  rw [hmin]
  have := naiveRmq_spec D (b * 64) (b * 64 + 64) (by omega)
  have harr : b * 64 + 64 - 1 = (b + 1) * 64 - 1 := by omega
  rw [harr] at this
  exact this

theorem mid_spec (D : List Int) (lb rb : Nat) (hlr : lb ≤ rb)
    (hrange : (rb + 1) * 64 ≤ D.length) :
    LeftmostArgmin D (lb * 64) ((rb + 1) * 64 - 1)
      (blockMinPos D (bfcRmq (blockMins D) lb rb)) := by
  have hrbB : rb < numBlocks D.length := block_lt_numBlocks _ _ hrange
  have hq := bfcRmq_spec (blockMins D) lb rb hlr (by rw [blockMins_length]; exact hrbB)
  set q := bfcRmq (blockMins D) lb rb with hqdef
  obtain ⟨hql, hqr, hqmin, hqlm⟩ := hq
  have hqfull : (q + 1) * 64 ≤ D.length :=
    le_trans (Nat.mul_le_mul_right _ (by omega)) hrange
  obtain ⟨⟨hq1, hq2, hq3, hq4⟩, hqval⟩ := blockMinPos_spec D q hqfull
  refine ⟨le_trans (Nat.mul_le_mul_right _ hql) hq1, ?_, ?_, ?_⟩
  · have h2 : (q + 1) * 64 ≤ (rb + 1) * 64 := Nat.mul_le_mul_right _ (by omega)
    omega
  · intro pos hp1 hp2
    set b' := pos / 64 with hb'def
    have hb'b : lb ≤ b' ∧ b' ≤ rb := by omega
    have hb'full : (b' + 1) * 64 ≤ D.length :=
      le_trans (Nat.mul_le_mul_right _ (by omega)) hrange
    obtain ⟨⟨hb1, hb2, hb3, hb4⟩, hbval⟩ := blockMinPos_spec D b' hb'full
    calc D.getD (blockMinPos D q) 0
        = blockMinVal D q := hqval.symm
      _ = (blockMins D).getD q 0 := (blockMins_getD D q (by omega)).symm
      _ ≤ (blockMins D).getD b' 0 := hqmin b' hb'b.1 hb'b.2
      _ = blockMinVal D b' := blockMins_getD D b' (by omega)
      _ = D.getD (blockMinPos D b') 0 := hbval
      _ ≤ D.getD pos 0 := hb3 pos (by omega) (by omega)
  · intro pos hp1 hp2
    set b' := pos / 64 with hb'def
    have hqup : blockMinPos D q ≤ (q + 1) * 64 - 1 := hq2
    have hb'b : lb ≤ b' ∧ b' ≤ q := by omega
    have hb'full : (b' + 1) * 64 ≤ D.length :=
      le_trans (Nat.mul_le_mul_right _ (by omega)) hrange
    by_cases hbq : b' = q
    · exact hq4 pos (by omega) hp2
    · obtain ⟨⟨hb1, hb2, hb3, hb4⟩, hbval⟩ := blockMinPos_spec D b' hb'full
      calc D.getD (blockMinPos D q) 0
          = blockMinVal D q := hqval.symm
        _ = (blockMins D).getD q 0 := (blockMins_getD D q (by omega)).symm
        _ < (blockMins D).getD b' 0 := hqlm b' hb'b.1 (by omega)
        _ = blockMinVal D b' := blockMins_getD D b' (by omega)
        _ = D.getD (blockMinPos D b') 0 := hbval
        _ ≤ D.getD pos 0 := hb3 pos (by omega) (by omega)



theorem rmq_spec (D : List Int) (i j : Nat) (hij : i ≤ j) (hj : j < D.length) :
    LeftmostArgmin D i j (rmq D i j) := by
  by_cases heq : i = j
  · subst heq
    rw [rmq, if_pos rfl]
    exact ⟨le_refl _, le_refl _, fun q hq1 hq2 => by
      have : q = i := by omega
      simp [this], fun q hq1 hq2 => by omega⟩
  · by_cases hshort : j - i ≤ 3 * blockSize
    · rw [rmq, if_neg heq, if_pos hshort]
      have := naiveRmq_spec D i (j + 1) (by omega)
      simpa using this.1
    · rw [rmq, if_neg heq, if_neg hshort]
      simp only []
      rw [show blockSize = 64 from rfl] at hshort ⊢
      have hlong : 192 < j - i := by omega
      set lE := (i / 64 + 1) * 64 with hlE
      set rB := (j / 64) * 64 with hrB
      set lb := i / 64 + 1 with hlb
      set rb := j / 64 - 1 with hrb
      have hdiv : i / 64 + 3 ≤ j / 64 := by omega
      have hL := naiveRmq_spec D i lE (by omega)
      have hR := naiveRmq_spec D rB (j + 1) (by omega)
      have hM := mid_spec D lb rb (by omega) (by
        have : (rb + 1) * 64 = rB := by
          rw [hrb, hrB]
          omega
        rw [this]
        omega)
      have hMeq1 : lb * 64 = lE := by rw [hlb, hlE]
      have hMeq2 : (rb + 1) * 64 = rB := by rw [hrb, hrB]; omega
      rw [hMeq1, hMeq2] at hM
      set L := naiveRmq D i lE with hLdef
      set R := naiveRmq D rB (j + 1) with hRdef
      set mp := blockMinPos D (bfcRmq (blockMins D) lb rb) with hmpdef
      have hje : j + 1 - 1 = j := by omega
      rw [hje] at hR
      -- first combine: left tail with the middle blocks
      have hc1 : LeftmostArgmin D i (rB - 1)
          (if D.getD mp 0 < D.getD L.1 0 then mp else L.1) :=
        lam_combine_strict D i (lE - 1) lE (rB - 1) L.1 mp hL.1 hM
          (by omega) (by omega) (by omega)
      by_cases hA : D.getD mp 0 < L.2
      · rw [if_pos hA]
        rw [hL.2] at hA
        rw [if_pos hA] at hc1
        by_cases hB : R.2 < D.getD mp 0
        · rw [if_pos hB]
          rw [hR.2] at hB
          have := lam_combine_strict D i (rB - 1) rB j mp R.1 hc1 hR.1
            (by omega) (by omega) (by omega)
          rw [if_pos hB] at this
          exact this
        · rw [if_neg hB]
          rw [hR.2] at hB
          have := lam_combine_strict D i (rB - 1) rB j mp R.1 hc1 hR.1
            (by omega) (by omega) (by omega)
          rw [if_neg hB] at this
          exact this
      · rw [if_neg hA]
        rw [hL.2] at hA
        rw [if_neg hA] at hc1
        by_cases hB : R.2 < L.2
        · rw [if_pos hB]
          rw [hR.2, hL.2] at hB
          have := lam_combine_strict D i (rB - 1) rB j L.1 R.1 hc1 hR.1
            (by omega) (by omega) (by omega)
          rw [if_pos hB] at this
          exact this
        · rw [if_neg hB]
          rw [hR.2, hL.2] at hB
          have := lam_combine_strict D i (rB - 1) rB j L.1 R.1 hc1 hR.1
            (by omega) (by omega) (by omega)
          rw [if_neg hB] at this
          exact this

end Rmq

/-- C2: for every array `D` and indices `i ≤ j < |D|`, `RMQ::rmq(i, j)` returns
the leftmost position of a minimum of `D[i..j]`, on the short-interval naive
path as well as on the path combining the left tail, the
Bender-Farach-Colton query over block minima, and the right tail. -/
theorem claim_C2 (D : List Int) (i j : Nat) (hij : i ≤ j) (hj : j < D.length) :
    Rmq.LeftmostArgmin D i j (Rmq.rmq D i j) :=
  Rmq.rmq_spec D i j hij hj

/-- C2 witness: the query on a concrete array, hypotheses discharged at
concrete indices. -/
theorem claim_C2_witness :
    Rmq.LeftmostArgmin [3, 1, 2] 0 2 (Rmq.rmq [3, 1, 2] 0 2) :=
  claim_C2 [3, 1, 2] 0 2 (by decide) (by decide)


namespace Btree

theorem lsKeys_append (A B : List (Int × Int)) : lsKeys (A ++ B) = lsKeys A ++ lsKeys B := by
  simp [lsKeys]

theorem lsKeys_cons (e : Int × Int) (l : List (Int × Int)) :
    lsKeys (e :: l) = e.1 :: lsKeys l := rfl

theorem mem_lsKeys {k : Int} {l : List (Int × Int)} :
    k ∈ lsKeys l ↔ ∃ v, (k, v) ∈ l := by
  simp only [lsKeys, List.mem_map]
  constructor
  · rintro ⟨⟨a, b⟩, hm, rfl⟩
    exact ⟨b, hm⟩
  · rintro ⟨v, hm⟩
    exact ⟨(k, v), hm, rfl⟩

theorem lsInsert_append (A C : List (Int × Int)) (k v : Int)
    (hA : ∀ e ∈ A, e.1 < k) : lsInsert (A ++ C) k v = A ++ lsInsert C k v := by
  induction A with
  | nil => rfl
  | cons a A ih =>
    rw [List.cons_append, lsInsert, if_pos (hA a (by simp)), ih (fun e he => hA e (by simp [he]))]
    rfl

theorem lsInsert_all_ge (C : List (Int × Int)) (k v : Int)
    (hC : ∀ e ∈ C, ¬e.1 < k) : lsInsert C k v = (k, v) :: C := by
  cases C with
  | nil => rfl
  | cons c C => rw [lsInsert, if_neg (hC c (by simp))]

theorem lsInsert_split (A C : List (Int × Int)) (k v : Int)
    (hA : ∀ e ∈ A, e.1 < k) (hC : ∀ e ∈ C, ¬e.1 < k) :
    lsInsert (A ++ C) k v = A ++ (k, v) :: C := by
  rw [lsInsert_append A C k v hA, lsInsert_all_ge C k v hC]

theorem lsInsert_mem (l : List (Int × Int)) (k v : Int) (a : Int × Int) :
    a ∈ lsInsert l k v ↔ a = (k, v) ∨ a ∈ l := by
  induction l with
  | nil => simp [lsInsert]
  | cons e r ih =>
    rw [lsInsert]
    by_cases h : e.1 < k
    · rw [if_pos h]
      simp only [List.mem_cons, ih]
      tauto
    · rw [if_neg h]
      simp only [List.mem_cons]

theorem lsInsert_length (l : List (Int × Int)) (k v : Int) :
    (lsInsert l k v).length = l.length + 1 := by
  induction l with
  | nil => rfl
  | cons e r ih =>
    rw [lsInsert]
    by_cases h : e.1 < k
    · rw [if_pos h]
      simp [ih]
    · rw [if_neg h]
      simp

theorem lsInsert_sorted (l : List (Int × Int)) (k v : Int)
    (hs : SortedEnt l) (hk : k ∉ lsKeys l) : SortedEnt (lsInsert l k v) := by
  induction l with
  | nil => simp [lsInsert, SortedEnt]
  | cons e r ih =>
    rw [SortedEnt, List.pairwise_cons] at hs
    have hk1 : k ≠ e.1 := fun hc => hk (by simp [lsKeys, hc])
    have hk2 : k ∉ lsKeys r := fun hc => hk (by simp [lsKeys] at hc ⊢; tauto)
    rw [lsInsert]
    by_cases h : e.1 < k
    · rw [if_pos h]
      rw [SortedEnt, List.pairwise_cons]
      refine ⟨?_, ih hs.2 hk2⟩
      intro b hb
      rw [lsInsert_mem] at hb
      rcases hb with rfl | hb
      · exact h
      · exact hs.1 b hb
    · rw [if_neg h]
      have hke : k < e.1 := by
        rcases lt_or_le k e.1 with h1 | h1
        · exact h1
        · exact absurd (lt_of_le_of_ne h1 (Ne.symm hk1)) h
      rw [SortedEnt, List.pairwise_cons]
      constructor
      · intro b hb
        rcases List.mem_cons.mp hb with rfl | hb
        · exact hke
        · exact lt_trans hke (hs.1 b hb)
      · exact List.Pairwise.cons hs.1 hs.2

theorem lsErase_not_mem (l : List (Int × Int)) (k : Int) (h : k ∉ lsKeys l) :
    lsErase l k = none := by
  induction l with
  | nil => rfl
  | cons e r ih =>
    rw [lsErase, if_neg (by simp [lsKeys] at h; exact fun hc => h.1 hc.symm)]
    rw [ih (by simp [lsKeys] at h ⊢; exact h.2)]
    rfl

theorem lsEraseK_not_mem (l : List (Int × Int)) (k : Int) (h : k ∉ lsKeys l) :
    lsEraseK l k = l := by
  rw [lsEraseK, lsErase_not_mem l k h]

theorem lsErase_cons_self (k v : Int) (r : List (Int × Int)) :
    lsErase ((k, v) :: r) k = some (v, r) := by
  rw [lsErase, if_pos rfl]

theorem lsErase_append_left (A C : List (Int × Int)) (k : Int) (h : k ∉ lsKeys A) :
    lsErase (A ++ C) k = (lsErase C k).map (fun p => (p.1, A ++ p.2)) := by
  induction A with
  | nil =>
    simp only [List.nil_append]
    cases hc : lsErase C k <;> simp
  | cons a A ih =>
    rw [List.cons_append, lsErase,
      if_neg (by simp [lsKeys] at h; exact fun hc => h.1 hc.symm)]
    rw [ih (by simp [lsKeys] at h ⊢; exact h.2)]
    cases hc : lsErase C k <;> simp

theorem lsEraseK_middle (A C : List (Int × Int)) (k v : Int) (h : k ∉ lsKeys A) :
    lsEraseK (A ++ (k, v) :: C) k = A ++ C ∧ lsEraseV (A ++ (k, v) :: C) k = v := by
  rw [lsEraseK, lsEraseV, lsErase_append_left A _ k h, lsErase_cons_self]
  simp

theorem lsErase_cons (e : Int × Int) (r : List (Int × Int)) (k : Int) :
    lsErase (e :: r) k =
      if e.1 = k then some (e.2, r)
      else (lsErase r k).map (fun p => (p.1, e :: p.2)) := rfl

theorem lsEraseK_cons (e : Int × Int) (r : List (Int × Int)) (k : Int) :
    lsEraseK (e :: r) k = if e.1 = k then r else e :: lsEraseK r k := by
  rw [lsEraseK, lsErase_cons]
  by_cases h : e.1 = k
  · rw [if_pos h, if_pos h]
  · rw [if_neg h, if_neg h, lsEraseK]
    cases lsErase r k <;> simp

theorem lsEraseK_trailing (C S : List (Int × Int)) (k : Int) (h : k ∉ lsKeys S) :
    lsEraseK (C ++ S) k = lsEraseK C k ++ S := by
  induction C with
  | nil =>
    simp only [List.nil_append, lsEraseK_not_mem S k h]
    rfl
  | cons c C ih =>
    rw [List.cons_append, lsEraseK_cons, lsEraseK_cons]
    by_cases hc : c.1 = k
    · rw [if_pos hc, if_pos hc]
    · rw [if_neg hc, if_neg hc, List.cons_append, ih]

theorem lsErase_eq_none_iff (l : List (Int × Int)) (k : Int) :
    lsErase l k = none ↔ k ∉ lsKeys l := by
  constructor
  · intro h
    induction l with
    | nil => simp [lsKeys]
    | cons e r ih =>
      rw [lsErase] at h
      by_cases hc : e.1 = k
      · rw [if_pos hc] at h
        exact absurd h (by simp)
      · rw [if_neg hc] at h
        have h2 : lsErase r k = none := by
          cases h1 : lsErase r k with
          | none => rfl
          | some p =>
            rw [h1] at h
            exact absurd h (by simp)
        rw [lsKeys_cons]
        simp only [List.mem_cons, not_or]
        exact ⟨fun hk => hc hk.symm, ih h2⟩
  · exact lsErase_not_mem l k

end Btree


namespace Btree

theorem firstGT_le_length (ks : List Int) (x : Int) : firstGT ks x ≤ ks.length := by
  induction ks with
  | nil => simp [firstGT]
  | cons k r ih =>
    rw [firstGT]
    by_cases h : k ≤ x
    · rw [if_pos h]
      simpa using ih
    · rw [if_neg h]
      simp

theorem firstGT_lt (ks : List Int) (x : Int) :
    ∀ idx, idx < firstGT ks x → ks.getD idx 0 ≤ x := by
  induction ks with
  | nil => simp [firstGT]
  | cons k r ih =>
    intro idx hidx
    rw [firstGT] at hidx
    by_cases h : k ≤ x
    · rw [if_pos h] at hidx
      cases idx with
      | zero => simpa using h
      | succ n =>
        have := ih n (by omega)
        simpa using this
    · rw [if_neg h] at hidx
      omega

theorem firstGT_at (ks : List Int) (x : Int) (h : firstGT ks x < ks.length) :
    ¬ks.getD (firstGT ks x) 0 ≤ x := by
  induction ks with
  | nil => simp [firstGT] at h
  | cons k r ih =>
    rw [firstGT] at h ⊢
    by_cases hk : k ≤ x
    · rw [if_pos hk] at h ⊢
      have := ih (by simpa using h)
      simpa using this
    · rw [if_neg hk] at h ⊢
      simpa using hk

theorem firstGE_le_length (ks : List Int) (x : Int) : firstGE ks x ≤ ks.length := by
  induction ks with
  | nil => simp [firstGE]
  | cons k r ih =>
    rw [firstGE]
    by_cases h : k < x
    · rw [if_pos h]
      simpa using ih
    · rw [if_neg h]
      simp

theorem firstGE_lt (ks : List Int) (x : Int) :
    ∀ idx, idx < firstGE ks x → ks.getD idx 0 < x := by
  induction ks with
  | nil => simp [firstGE]
  | cons k r ih =>
    intro idx hidx
    rw [firstGE] at hidx
    by_cases h : k < x
    · rw [if_pos h] at hidx
      cases idx with
      | zero => simpa using h
      | succ n =>
        have := ih n (by omega)
        simpa using this
    · rw [if_neg h] at hidx
      omega

theorem firstGE_at (ks : List Int) (x : Int) (h : firstGE ks x < ks.length) :
    ¬ks.getD (firstGE ks x) 0 < x := by
  induction ks with
  | nil => simp [firstGE] at h
  | cons k r ih =>
    rw [firstGE] at h ⊢
    by_cases hk : k < x
    · rw [if_pos hk] at h ⊢
      have := ih (by simpa using h)
      simpa using this
    · rw [if_neg hk] at h ⊢
      simpa using hk

theorem lsKeys_length (es : List (Int × Int)) : (lsKeys es).length = es.length := by
  simp [lsKeys]

theorem lsKeys_getD (es : List (Int × Int)) (i : Nat) (h : i < es.length) :
    (lsKeys es).getD i 0 = (es.getD i (0, 0)).1 := by
  rw [List.getD_eq_getElem?_getD, List.getD_eq_getElem?_getD]
  rw [lsKeys, List.getElem?_map]
  rw [List.getElem?_eq_getElem h]
  simp

theorem getLastD_eq_getD (l : List (Int × Int)) (d : Int × Int) (h : l ≠ []) :
    l.getLastD d = l.getD (l.length - 1) d := by
  rw [List.getLastD_eq_getLast?, List.getLast?_eq_getElem?, List.getD_eq_getElem?_getD]

theorem take_getD_drop (l : List (Int × Int)) (p : Nat) (h : p < l.length) :
    l = l.take p ++ l.getD p (0, 0) :: l.drop (p + 1) := by
  conv_lhs => rw [← List.take_append_drop p l]
  congr 1
  rw [List.getD_eq_getElem l (0,0) h]
  exact List.drop_eq_getElem_cons h

end Btree

namespace Btree

theorem lsPred_none (es : List (Int × Int)) (x : Int) (hs : SortedEnt es)
    (hn : lsPred es x = none) : ∀ e ∈ es, x < e.1 := by
  cases es with
  | nil => simp
  | cons e0 r =>
    rw [lsPred] at hn
    by_cases h0 : x < e0.1
    · intro e he
      rcases List.mem_cons.mp he with rfl | he
      · exact h0
      · rw [SortedEnt, List.pairwise_cons] at hs
        exact lt_trans h0 (hs.1 e he)
    · rw [if_neg h0] at hn
      by_cases h1 : ((e0 :: r).getLastD (0, 0)).1 ≤ x
      · rw [if_pos h1] at hn
        exact absurd hn (by simp)
      · rw [if_neg h1] at hn
        exact absurd hn (by simp)

theorem lsPred_some (es : List (Int × Int)) (x : Int) (p : Nat) (hs : SortedEnt es)
    (hp : lsPred es x = some p) :
    ∃ A e B, es = A ++ e :: B ∧ A.length = p ∧ e.1 ≤ x ∧
      (∀ a ∈ A, a.1 < e.1) ∧ (∀ b ∈ B, x < b.1) := by
  cases hes : es with
  | nil => rw [hes, lsPred] at hp; exact absurd hp (by simp)
  | cons e0 r =>
    rw [← hes]
    have hne : es ≠ [] := by rw [hes]; simp
    have hlen : 0 < es.length := by rw [hes]; simp
    rw [hes, lsPred] at hp
    rw [← hes] at hp
    by_cases h0 : x < e0.1
    · rw [if_pos h0] at hp
      exact absurd hp (by simp)
    · rw [if_neg h0] at hp
      by_cases h1 : (es.getLastD (0, 0)).1 ≤ x
      · rw [if_pos h1] at hp
        have hpv : p = es.length - 1 := by
          have := Option.some.inj hp
          omega
        subst hpv
        have hdec := take_getD_drop es (es.length - 1) (by omega)
        rw [show es.length - 1 + 1 = es.length by omega] at hdec
        refine ⟨es.take (es.length - 1), es.getD (es.length - 1) (0, 0), es.drop es.length, hdec, ?_, ?_, ?_, ?_⟩
        · rw [List.length_take]
          omega
        · rw [getLastD_eq_getD es (0, 0) hne] at h1
          exact h1
        · -- elements of the prefix are smaller by sortedness
          intro a ha
          have hsp : SortedEnt (es.take (es.length - 1) ++ es.getD (es.length - 1) (0, 0) :: es.drop es.length) := by
            rw [← hdec]
            exact hs
          rw [SortedEnt, List.pairwise_append] at hsp
          exact hsp.2.2 a ha _ (by simp)
        · intro b hb
          rw [List.drop_length] at hb
          simp at hb
      · rw [if_neg h1] at hp
        have hpv : p = firstGT (lsKeys es) x - 1 := by
          have := Option.some.inj hp
          omega
        have hf1 : 1 ≤ firstGT (lsKeys es) x := by
          rw [hes, lsKeys_cons, firstGT, if_pos (not_lt.mp h0)]
          omega
        have hflt : firstGT (lsKeys es) x < es.length := by
          rcases lt_or_le (firstGT (lsKeys es) x) es.length with h | h
          · exact h
          · exfalso
            have hlast : (lsKeys es).getD (es.length - 1) 0 ≤ x := by
              refine firstGT_lt (lsKeys es) x (es.length - 1) (by omega)
            rw [lsKeys_getD es (es.length - 1) (by omega)] at hlast
            rw [getLastD_eq_getD es (0, 0) hne] at h1
            exact h1 hlast
        subst hpv
        set p := firstGT (lsKeys es) x - 1 with hpdef
        have hplt : p < es.length := by omega
        have hdec := take_getD_drop es p hplt
        refine ⟨es.take p, es.getD p (0, 0), es.drop (p + 1), hdec, ?_, ?_, ?_, ?_⟩
        · rw [List.length_take]
          omega
        · have := firstGT_lt (lsKeys es) x p (by omega)
          rw [lsKeys_getD es p (by omega)] at this
          exact this
        · intro a ha
          have hsp : SortedEnt (es.take p ++ es.getD p (0, 0) :: es.drop (p + 1)) := by
            rw [← hdec]; exact hs
          rw [SortedEnt, List.pairwise_append] at hsp
          exact hsp.2.2 a ha _ (by simp)
        · -- all entries after position p are greater than x
          intro b hb
          have hnext : x < (es.getD (p + 1) (0, 0)).1 := by
            have hp1 : p + 1 = firstGT (lsKeys es) x := by omega
            have := firstGT_at (lsKeys es) x (by rw [lsKeys_length]; omega)
            rw [lsKeys_getD es _ (by omega)] at this
            rw [hp1]
            omega
          have hdrop : es.drop (p + 1) = es.getD (p + 1) (0, 0) :: es.drop (p + 2) := by
            rw [List.getD_eq_getElem es (0, 0) (by omega)]
            exact List.drop_eq_getElem_cons (by omega)
          rw [hdrop] at hb
          rcases List.mem_cons.mp hb with rfl | hb
          · exact hnext
          · -- later entries are even greater by sortedness
            have hsp : SortedEnt (es.drop (p + 1)) :=
              List.Pairwise.sublist (List.drop_sublist (p + 1) es) hs
            rw [hdrop] at hsp
            rw [SortedEnt, List.pairwise_cons] at hsp
            exact lt_trans hnext (hsp.1 b hb)

end Btree

namespace Btree

theorem mem_take_bound (es : List (Int × Int)) (p : Nat) (P : Int × Int → Prop)
    (hall : ∀ idx, idx < p → idx < es.length → P (es.getD idx (0, 0))) :
    ∀ a ∈ es.take p, P a := by
  intro a ha
  rw [List.mem_iff_getElem] at ha
  obtain ⟨i, hi, hget⟩ := ha
  have hi2 : i < es.length := by
    have := List.length_take p es
    omega
  have : (es.take p)[i] = es[i] := @List.getElem_take _ es p i hi
  rw [this] at hget
  have hip : i < p := by
    have := List.length_take p es
    omega
  have := hall i hip hi2
  rw [List.getD_eq_getElem es (0, 0) hi2] at this
  rw [← hget]
  exact this

theorem lsSucc_none (es : List (Int × Int)) (x : Int) (hs : SortedEnt es)
    (hn : lsSucc es x = none) : ∀ e ∈ es, e.1 < x := by
  cases hes : es with
  | nil => simp
  | cons e0 r =>
    rw [← hes]
    rw [hes, lsSucc] at hn
    rw [← hes] at hn
    have hne : es ≠ [] := by rw [hes]; simp
    by_cases h0 : x ≤ e0.1
    · rw [if_pos h0] at hn
      exact absurd hn (by simp)
    · rw [if_neg h0] at hn
      by_cases h1 : (es.getLastD (0, 0)).1 < x
      · intro e he
        have hlen : 0 < es.length := by rw [hes]; simp
        have hdec := take_getD_drop es (es.length - 1) (by omega)
        rw [show es.length - 1 + 1 = es.length by omega] at hdec
        rw [getLastD_eq_getD es (0, 0) hne] at h1
        rw [hdec] at he
        rcases List.mem_append.mp he with he | he
        · have hsp : SortedEnt (es.take (es.length - 1) ++ es.getD (es.length - 1) (0, 0) :: es.drop es.length) := by
            rw [← hdec]; exact hs
          rw [SortedEnt, List.pairwise_append] at hsp
          exact lt_trans (hsp.2.2 e he _ (by simp)) h1
        · rcases List.mem_cons.mp he with rfl | he
          · exact h1
          · rw [List.drop_length] at he
            simp at he
      · rw [if_neg h1] at hn
        exact absurd hn (by simp)

theorem lsSucc_some (es : List (Int × Int)) (x : Int) (p : Nat) (hs : SortedEnt es)
    (hp : lsSucc es x = some p) :
    ∃ A e B, es = A ++ e :: B ∧ A.length = p ∧ x ≤ e.1 ∧
      (∀ a ∈ A, a.1 < x) ∧ (∀ b ∈ B, e.1 < b.1) := by
  cases hes : es with
  | nil => rw [hes, lsSucc] at hp; exact absurd hp (by simp)
  | cons e0 r =>
    rw [← hes]
    have hne : es ≠ [] := by rw [hes]; simp
    have hlen : 0 < es.length := by rw [hes]; simp
    rw [hes, lsSucc] at hp
    rw [← hes] at hp
    by_cases h0 : x ≤ e0.1
    · rw [if_pos h0] at hp
      have hpv : p = 0 := by
        have := Option.some.inj hp
        omega
      subst hpv
      refine ⟨[], e0, r, by rw [hes]; rfl, rfl, h0, by simp, ?_⟩
      rw [hes, SortedEnt, List.pairwise_cons] at hs
      exact hs.1
    · rw [if_neg h0] at hp
      by_cases h1 : (es.getLastD (0, 0)).1 < x
      · rw [if_pos h1] at hp
        exact absurd hp (by simp)
      · rw [if_neg h1] at hp
        have hpv : p = firstGE (lsKeys es) x := by
          have := Option.some.inj hp
          omega
        have hf1 : 1 ≤ firstGE (lsKeys es) x := by
          rw [hes, lsKeys_cons, firstGE, if_pos (not_le.mp h0)]
          omega
        have hflt : firstGE (lsKeys es) x < es.length := by
          rcases lt_or_le (firstGE (lsKeys es) x) es.length with h | h
          · exact h
          · exfalso
            have hlast : (lsKeys es).getD (es.length - 1) 0 < x := by
              refine firstGE_lt (lsKeys es) x (es.length - 1) (by omega)
            rw [lsKeys_getD es (es.length - 1) (by omega)] at hlast
            rw [getLastD_eq_getD es (0, 0) hne] at h1
            exact h1 hlast
        subst hpv
        set p := firstGE (lsKeys es) x with hpdef
        have hdec := take_getD_drop es p hflt
        refine ⟨es.take p, es.getD p (0, 0), es.drop (p + 1), hdec, ?_, ?_, ?_, ?_⟩
        · rw [List.length_take]
          omega
        · have := firstGE_at (lsKeys es) x (by rw [lsKeys_length]; omega)
          rw [lsKeys_getD es p (by omega)] at this
          omega
        · refine mem_take_bound es p _ ?_
          intro idx hidx hidx2
          have := firstGE_lt (lsKeys es) x idx (by omega)
          rw [lsKeys_getD es idx (by omega)] at this
          exact this
        · intro b hb
          have hsp : SortedEnt (es.take p ++ es.getD p (0, 0) :: es.drop (p + 1)) := by
            rw [← hdec]; exact hs
          rw [SortedEnt, List.pairwise_append] at hsp
          have := hsp.2.1
          rw [List.pairwise_cons] at this
          exact this.1 b hb

end Btree


namespace Btree

theorem insEntries_sorted_append (init moved : List (Int × Int))
    (h : ∀ a ∈ init, ∀ b ∈ moved, a.1 < b.1) (hm : SortedEnt moved) :
    insEntries init moved = init ++ moved := by
  induction moved generalizing init with
  | nil => simp [insEntries]
  | cons m rest ih =>
    rw [SortedEnt, List.pairwise_cons] at hm
    rw [insEntries, List.foldl_cons]
    have h1 : lsInsert init m.1 m.2 = init ++ [m] := by
      have := lsInsert_split init [] m.1 m.2 (fun e he => h e he m (by simp)) (by simp)
      simpa using this
    rw [← insEntries, h1, ih (init ++ [m])]
    · simp
    · intro a ha b hb
      rcases List.mem_append.mp ha with ha | ha
      · exact h a ha b (by simp [hb])
      · simp at ha
        rw [ha]
        exact hm.1 b hb
    · exact hm.2

theorem eraseKeysFold_suffix : ∀ (suf pre : List (Int × Int)),
    (∀ k ∈ lsKeys suf, k ∉ lsKeys pre) →
    eraseKeysFold (pre ++ suf) (lsKeys suf) = pre := by
  intro suf
  induction suf with
  | nil => intro pre h; simp [eraseKeysFold, lsKeys]
  | cons s rest ih =>
    intro pre h
    rw [lsKeys_cons, eraseKeysFold, List.foldl_cons]
    have h1 : lsEraseK (pre ++ s :: rest) s.1 = pre ++ rest := by
      exact (lsEraseK_middle pre rest s.1 s.2 (h s.1 (by simp [lsKeys]))).1
    rw [← eraseKeysFold]
    rw [h1]
    exact ih pre (fun k hk => h k (by simp [lsKeys] at hk ⊢; tauto))

theorem flatAux_nil : ∀ es : List (Int × Int), flatAux es [] = es := fun _ => rfl

theorem flatten_leaf (es : List (Int × Int)) : flatten (.mk es []) = es := rfl

theorem flatten_mk (es : List (Int × Int)) (cs : List BNode) :
    flatten (.mk es cs) = flatAux es cs := rfl

theorem flatAux_cons_cons (e : Int × Int) (es : List (Int × Int)) (c : BNode)
    (cs : List BNode) :
    flatAux (e :: es) (c :: cs) = flatten c ++ e :: flatAux es cs := rfl

theorem flatAux_nil_cons (c : BNode) (cs : List BNode) :
    flatAux [] (c :: cs) = flatten c ++ flatAux [] cs := rfl

theorem flatAux_append (es1 : List (Int × Int)) (cs1 : List BNode) :
    ∀ (es2 : List (Int × Int)) (cs2 : List BNode), cs1.length = es1.length →
    flatAux (es1 ++ es2) (cs1 ++ cs2) = flatAux es1 cs1 ++ flatAux es2 cs2 := by
  induction cs1 generalizing es1 with
  | nil =>
    intro es2 cs2 h
    have : es1 = [] := by
      cases es1 with
      | nil => rfl
      | cons a b => simp at h
    subst this
    simp [flatAux_nil]
  | cons c cs ih =>
    intro es2 cs2 h
    cases es1 with
    | nil => simp at h
    | cons e es =>
      rw [List.cons_append, List.cons_append, flatAux_cons_cons, flatAux_cons_cons]
      rw [ih es es2 cs2 (by simpa using h)]
      simp

theorem flatAux_append_entry (es : List (Int × Int)) (cs : List BNode)
    (e : Int × Int) (h : cs.length = es.length + 1) :
    flatAux (es ++ [e]) cs = flatAux es cs ++ [e] := by
  induction cs generalizing es with
  | nil => simp at h
  | cons c cs ih =>
    cases es with
    | nil =>
      have : cs = [] := by
        cases cs with
        | nil => rfl
        | cons a b => simp at h
      subst this
      simp [flatAux_cons_cons, flatAux_nil_cons, flatAux_nil]
    | cons e1 es =>
      rw [List.cons_append, flatAux_cons_cons, flatAux_cons_cons]
      rw [ih es (by simpa using h)]
      simp

theorem flatTail_nil (cs : List BNode) : flatTail [] cs = [] := rfl

theorem flatTail_cons (e : Int × Int) (es : List (Int × Int)) (cs : List BNode) :
    flatTail (e :: es) cs = e :: flatAux es cs := rfl

theorem flatten_decomp (es : List (Int × Int)) (cs : List BNode) (i : Nat)
    (hlen : cs.length = es.length + 1) (hi : i ≤ es.length) :
    flatten (.mk es cs) =
      flatAux (es.take i) (cs.take i) ++ flatten (cs.getD i nilNode) ++
        flatTail (es.drop i) (cs.drop (i + 1)) := by
  rw [flatten_mk]
  conv_lhs => rw [← List.take_append_drop i es, ← List.take_append_drop i cs]
  rw [flatAux_append (es.take i) (cs.take i) _ _
    (by rw [List.length_take, List.length_take]; omega)]
  rw [List.append_assoc]
  congr 1
  have hdrop : cs.drop i = cs.getD i nilNode :: cs.drop (i + 1) := by
    rw [List.getD_eq_getElem cs nilNode (by omega)]
    exact List.drop_eq_getElem_cons (by omega)
  rw [hdrop]
  cases hes : es.drop i with
  | nil =>
    have h1 : i = es.length := by
      have := List.length_drop i es
      rw [hes] at this
      simp at this
      omega
    have h2 : cs.drop (i + 1) = [] := by
      have := List.length_drop (i + 1) cs
      have h3 : (cs.drop (i + 1)).length = 0 := by omega
      exact List.eq_nil_of_length_eq_zero h3
    rw [h2, flatTail_nil, flatAux_nil_cons, flatAux_nil]
  | cons e esr =>
    rw [flatAux_cons_cons, flatTail_cons]

theorem entries_sublist_flatAux : ∀ (cs : List BNode) (es : List (Int × Int)),
    es.Sublist (flatAux es cs) := by
  intro cs
  induction cs with
  | nil => intro es; rw [flatAux_nil]
  | cons c cs ih =>
    intro es
    cases es with
    | nil => simp
    | cons e es =>
      rw [flatAux_cons_cons]
      have h1 : (e :: es).Sublist (e :: flatAux es cs) :=
        List.Sublist.cons₂ e (ih es)
      exact h1.trans (List.sublist_append_right (flatten c) (e :: flatAux es cs))

theorem entries_sublist_flatten (t : BNode) : t.entries.Sublist (flatten t) := by
  cases t with
  | mk es cs => exact entries_sublist_flatAux cs es

end Btree


namespace Btree

theorem insertIdx_eq_take_cons_drop (l : List BNode) (n : Nat) (a : BNode)
    (h : n ≤ l.length) : l.insertIdx n a = l.take n ++ a :: l.drop n := by
  induction l generalizing n with
  | nil =>
    have : n = 0 := by simpa using h
    subst this
    rfl
  | cons x xs ih =>
    cases n with
    | zero => rfl
    | succ m =>
      rw [List.insertIdx_succ_cons, ih m (by simpa using h)]
      rfl

theorem eraseIdx_eq_take_drop (l : List BNode) (n : Nat) :
    l.eraseIdx n = l.take n ++ l.drop (n + 1) := by
  induction l generalizing n with
  | nil => simp
  | cons x xs ih =>
    cases n with
    | zero => rfl
    | succ m =>
      rw [List.eraseIdx_cons_succ, ih m]
      rfl

theorem sortedEnt_keys_ne (l : List (Int × Int)) (hs : SortedEnt l) :
    ∀ A e B, l = A ++ e :: B → e.1 ∉ lsKeys A ∧ e.1 ∉ lsKeys B := by
  intro A e B hl
  rw [hl, SortedEnt, List.pairwise_append] at hs
  constructor
  · rw [mem_lsKeys]
    rintro ⟨v, hv⟩
    have := hs.2.2 (e.1, v) hv e (by simp)
    simp at this
  · rw [mem_lsKeys]
    rintro ⟨v, hv⟩
    have h2 := hs.2.1
    rw [List.pairwise_cons] at h2
    have := h2.1 (e.1, v) hv
    simp at this

theorem sortedEnt_of_append_left {A B : List (Int × Int)} (h : SortedEnt (A ++ B)) :
    SortedEnt A := by
  rw [SortedEnt, List.pairwise_append] at h
  exact h.1

theorem sortedEnt_of_append_right {A B : List (Int × Int)} (h : SortedEnt (A ++ B)) :
    SortedEnt B := by
  rw [SortedEnt, List.pairwise_append] at h
  exact h.2.1

theorem sortedEnt_cross {A B : List (Int × Int)} (h : SortedEnt (A ++ B)) :
    ∀ a ∈ A, ∀ b ∈ B, a.1 < b.1 := by
  rw [SortedEnt, List.pairwise_append] at h
  exact h.2.2

/-- The two halves and promoted middle of a full node, as they appear in
`split_child`. -/
theorem split_parts_flatten (cap : Nat) (es : List (Int × Int)) (cs : List BNode)
    (hfull : es.length = cap) (hcap2 : 2 ≤ cap) (hev : cap % 2 = 0)
    (hsh : cs = [] ∨ cs.length = cap + 1) :
    flatAux es cs =
      flatAux (es.take (splitMid cap)) (cs.take (splitRight cap)) ++
        es.getD (splitMid cap) (0, 0) ::
          flatAux (es.drop (splitRight cap)) (cs.drop (splitRight cap)) := by
  have hsm : splitMid cap + 1 = splitRight cap := by
    rw [splitMid, splitRight]
    omega
  have hsmlen : splitMid cap < es.length := by
    rw [hfull, splitMid]
    omega
  have hdec := take_getD_drop es (splitMid cap) hsmlen
  rw [hsm] at hdec
  rcases hsh with hsh | hsh
  · subst hsh
    simp only [List.take_nil, List.drop_nil, flatAux_nil]
    conv_lhs => rw [hdec]
  · conv_lhs => rw [hdec, ← List.take_append_drop (splitRight cap) cs]
    have hlen1 : (cs.take (splitRight cap)).length = splitRight cap := by
      rw [List.length_take, hsh, splitRight]
      omega
    have harr : es.take (splitMid cap) ++ es.getD (splitMid cap) (0, 0) :: es.drop (splitRight cap) =
        (es.take (splitMid cap) ++ [es.getD (splitMid cap) (0, 0)]) ++ es.drop (splitRight cap) := by
      simp
    rw [harr]
    rw [flatAux_append _ _ _ _ (by
      rw [hlen1]
      simp only [List.length_append, List.length_take, List.length_cons]
      rw [splitMid, splitRight]
      simp
      omega)]
    rw [flatAux_append_entry _ _ _ (by
      rw [hlen1, List.length_take, splitMid, splitRight]
      omega)]
    simp

end Btree

namespace Btree

theorem take_splitRight_eq (cap : Nat) (l : List (Int × Int))
    (hfull : l.length = cap) (hcap2 : 2 ≤ cap) (hev : cap % 2 = 0) :
    l.take (splitRight cap) = l.take (splitMid cap) ++ [l.getD (splitMid cap) (0, 0)] := by
  have hsm : splitMid cap + 1 = splitRight cap := by
    rw [splitMid, splitRight]; omega
  have hlt : splitMid cap < l.length := by
    rw [hfull, splitMid]; omega
  rw [← hsm, List.take_succ]
  rw [List.getD_eq_getElem l (0, 0) hlt]
  rw [List.getElem?_eq_getElem hlt]
  rfl

theorem entries_mk (es : List (Int × Int)) (cs : List BNode) :
    (BNode.mk es cs).entries = es := rfl

theorem children_mk (es : List (Int × Int)) (cs : List BNode) :
    (BNode.mk es cs).children = cs := rfl

theorem splitChild_eq (cap : Nat) (es : List (Int × Int)) (cs : List BNode) (i : Nat)
    (hlen : cs.length = es.length + 1) (hi : i ≤ es.length)
    (hyfull : (cs.getD i nilNode).size = cap)
    (hcap2 : 2 ≤ cap) (hev : cap % 2 = 0)
    (hyse : SortedEnt (cs.getD i nilNode).entries)
    (hm_hi : ∀ e ∈ es.take i,
      e.1 < ((cs.getD i nilNode).entries.getD (splitMid cap) (0, 0)).1)
    (hm_lo : ∀ e ∈ es.drop i,
      ¬e.1 < ((cs.getD i nilNode).entries.getD (splitMid cap) (0, 0)).1) :
    splitChild cap (.mk es cs) i =
      .mk (es.take i ++ (cs.getD i nilNode).entries.getD (splitMid cap) (0, 0) :: es.drop i)
        (cs.take i ++
          BNode.mk ((cs.getD i nilNode).entries.take (splitMid cap))
            (if (cs.getD i nilNode).isLeaf then []
             else (cs.getD i nilNode).children.take (splitRight cap)) ::
          BNode.mk ((cs.getD i nilNode).entries.drop (splitRight cap))
            (if (cs.getD i nilNode).isLeaf then []
             else (cs.getD i nilNode).children.drop (splitRight cap)) ::
          cs.drop (i + 1)) := by
  simp only [splitChild, entries_mk, children_mk]
  set y := cs.getD i nilNode with hy
  set mid := y.entries.getD (splitMid cap) (0, 0) with hmid
  -- the moved suffix is sorted and disjoint from the kept prefix
  have hsplit : y.entries = y.entries.take (splitRight cap) ++ y.entries.drop (splitRight cap) :=
    (List.take_append_drop _ _).symm
  have hcross : ∀ a ∈ y.entries.take (splitRight cap),
      ∀ b ∈ y.entries.drop (splitRight cap), a.1 < b.1 := by
    refine sortedEnt_cross ?_
    rw [← hsplit]
    exact hyse
  have hzes : insEntries [] (y.entries.drop (splitRight cap)) =
      y.entries.drop (splitRight cap) := by
    rw [insEntries_sorted_append [] _ (by simp)
      (List.Pairwise.sublist (List.drop_sublist _ _) hyse)]
    simp
  have hyes1 : eraseKeysFold y.entries (lsKeys (y.entries.drop (splitRight cap))) =
      y.entries.take (splitRight cap) := by
    have hcond : ∀ k ∈ lsKeys (y.entries.drop (splitRight cap)),
        k ∉ lsKeys (y.entries.take (splitRight cap)) := by
      intro k hk hkpre
      rw [mem_lsKeys] at hk hkpre
      obtain ⟨v1, hv1⟩ := hk
      obtain ⟨v2, hv2⟩ := hkpre
      have := hcross (k, v2) hv2 (k, v1) hv1
      simp at this
    have h := eraseKeysFold_suffix (y.entries.drop (splitRight cap))
      (y.entries.take (splitRight cap)) hcond
    rw [List.take_append_drop] at h
    exact h
  have htake : y.entries.take (splitRight cap) =
      y.entries.take (splitMid cap) ++ [mid] :=
    take_splitRight_eq cap y.entries hyfull hcap2 hev
  have hmid_notin : mid.1 ∉ lsKeys (y.entries.take (splitMid cap)) := by
    have hs2 : SortedEnt (y.entries.take (splitRight cap)) :=
      List.Pairwise.sublist (List.take_sublist _ _) hyse
    rw [htake] at hs2
    exact (sortedEnt_keys_ne _ hs2 _ mid [] (by simp)).1
  have hyes2 : lsEraseK (y.entries.take (splitRight cap)) mid.1 =
      y.entries.take (splitMid cap) := by
    rw [htake]
    have := lsEraseK_middle (y.entries.take (splitMid cap)) [] mid.1 mid.2 hmid_notin
    simpa using this.1
  have hmv : lsEraseV (y.entries.take (splitRight cap)) mid.1 = mid.2 := by
    rw [htake]
    have := lsEraseK_middle (y.entries.take (splitMid cap)) [] mid.1 mid.2 hmid_notin
    simpa using this.2
  -- the loops collapse
  rw [show (y.entries.drop (splitRight cap)).map Prod.fst =
      lsKeys (y.entries.drop (splitRight cap)) from rfl]
  rw [hzes, hyes1, hyes2, hmv]
  -- the promoted middle lands at position i in the parent
  have hins : lsInsert es mid.1 mid.2 = es.take i ++ mid :: es.drop i := by
    have := lsInsert_split (es.take i) (es.drop i) mid.1 mid.2 hm_hi hm_lo
    rw [List.take_append_drop] at this
    rw [this]
  rw [hins]
  -- child list surgery
  have hset : cs.set i (BNode.mk (y.entries.take (splitMid cap))
      (if y.isLeaf then [] else y.children.take (splitRight cap))) =
      cs.take i ++ BNode.mk (y.entries.take (splitMid cap))
        (if y.isLeaf then [] else y.children.take (splitRight cap)) :: cs.drop (i + 1) :=
    List.set_eq_take_cons_drop _ (by omega)
  rw [hset]
  have hinsIdx := insertIdx_eq_take_cons_drop
    (cs.take i ++ BNode.mk (y.entries.take (splitMid cap))
      (if y.isLeaf then [] else y.children.take (splitRight cap)) :: cs.drop (i + 1))
    (i + 1)
    (BNode.mk (y.entries.drop (splitRight cap))
      (if y.isLeaf then [] else y.children.drop (splitRight cap)))
    (by
      simp only [List.length_append, List.length_take, List.length_cons, List.length_drop]
      omega)
  rw [hinsIdx]
  have htake2 : (cs.take i ++ BNode.mk (y.entries.take (splitMid cap))
      (if y.isLeaf then [] else y.children.take (splitRight cap)) :: cs.drop (i + 1)).take (i + 1) =
      cs.take i ++ [BNode.mk (y.entries.take (splitMid cap))
        (if y.isLeaf then [] else y.children.take (splitRight cap))] := by
    have hlen2 : (cs.take i).length = i := by
      rw [List.length_take]; omega
    rw [List.take_append_eq_append_take]
    rw [List.take_of_length_le (by omega)]
    congr 1
    rw [hlen2]
    simp
  have hdrop2 : (cs.take i ++ BNode.mk (y.entries.take (splitMid cap))
      (if y.isLeaf then [] else y.children.take (splitRight cap)) :: cs.drop (i + 1)).drop (i + 1) =
      cs.drop (i + 1) := by
    have hlen2 : (cs.take i).length = i := by
      rw [List.length_take]; omega
    rw [List.drop_append_eq_append_drop]
    rw [List.drop_of_length_le (by omega)]
    rw [hlen2]
    simp
  rw [htake2, hdrop2]
  simp

end Btree

namespace Btree

theorem flatAux_cons_eq (E : List (Int × Int)) (z : BNode) (D : List BNode)
    (h : E = [] → D = []) : flatAux E (z :: D) = flatten z ++ flatTail E D := by
  cases E with
  | nil =>
    rw [h rfl, flatTail_nil, flatAux_nil_cons, flatAux_nil]
  | cons e E => rfl

theorem if_leaf_take (y : BNode) (k : Nat) :
    (if y.isLeaf then [] else y.children.take k) = y.children.take k := by
  by_cases h : y.isLeaf
  · rw [if_pos h]
    rw [BNode.isLeaf, List.isEmpty_iff] at h
    rw [h, List.take_nil]
  · rw [if_neg h]

theorem if_leaf_drop (y : BNode) (k : Nat) :
    (if y.isLeaf then [] else y.children.drop k) = y.children.drop k := by
  by_cases h : y.isLeaf
  · rw [if_pos h]
    rw [BNode.isLeaf, List.isEmpty_iff] at h
    rw [h, List.drop_nil]
  · rw [if_neg h]

theorem splitChild_flatten (cap : Nat) (es : List (Int × Int)) (cs : List BNode) (i : Nat)
    (hlen : cs.length = es.length + 1) (hi : i ≤ es.length)
    (hyfull : (cs.getD i nilNode).size = cap)
    (hcap2 : 2 ≤ cap) (hev : cap % 2 = 0)
    (hyse : SortedEnt (cs.getD i nilNode).entries)
    (hm_hi : ∀ e ∈ es.take i,
      e.1 < ((cs.getD i nilNode).entries.getD (splitMid cap) (0, 0)).1)
    (hm_lo : ∀ e ∈ es.drop i,
      ¬e.1 < ((cs.getD i nilNode).entries.getD (splitMid cap) (0, 0)).1)
    (hsh : (cs.getD i nilNode).children = [] ∨
      (cs.getD i nilNode).children.length = cap + 1) :
    flatten (splitChild cap (.mk es cs) i) = flatten (.mk es cs) := by
  rw [splitChild_eq cap es cs i hlen hi hyfull hcap2 hev hyse hm_hi hm_lo]
  rw [if_leaf_take, if_leaf_drop]
  set y := cs.getD i nilNode with hydef
  set mid := y.entries.getD (splitMid cap) (0, 0) with hmiddef
  rw [flatten_mk]
  rw [flatAux_append (es.take i) (cs.take i) _ _
    (by rw [List.length_take, List.length_take]; omega)]
  rw [flatAux_cons_cons]
  rw [flatAux_cons_eq (es.drop i) _ (cs.drop (i + 1)) (by
    intro hE
    have : i = es.length := by
      have := List.length_drop i es
      rw [hE] at this
      simp at this
      omega
    refine List.eq_nil_of_length_eq_zero ?_
    rw [List.length_drop]
    omega)]
  rw [flatten_decomp es cs i hlen hi]
  have hyflat : flatten y =
      flatten (BNode.mk (y.entries.take (splitMid cap)) (y.children.take (splitRight cap))) ++
        mid :: flatten (BNode.mk (y.entries.drop (splitRight cap))
          (y.children.drop (splitRight cap))) := by
    rw [flatten_mk, flatten_mk]
    cases hy : y with
    | mk yes ycs =>
      rw [flatten_mk]
      simp only [entries_mk, children_mk]
      have hmid2 : mid = yes.getD (splitMid cap) (0, 0) := by
        rw [hmiddef, hy, entries_mk]
      rw [hmid2]
      refine split_parts_flatten cap yes ycs ?_ hcap2 hev ?_
      · have h2 := hyfull
        rw [hy, BNode.size, entries_mk] at h2
        exact h2
      · have h2 := hsh
        rw [hy, children_mk] at h2
        exact h2
  rw [hyflat]
  simp [List.append_assoc]

end Btree


namespace Btree

theorem lsInsert_trailing (C S : List (Int × Int)) (k v : Int)
    (h : ∀ s ∈ S, ¬s.1 < k) : lsInsert (C ++ S) k v = lsInsert C k v ++ S := by
  induction C with
  | nil =>
    simp only [List.nil_append]
    rw [lsInsert_all_ge S k v h]
    rfl
  | cons c C ih =>
    rw [List.cons_append, lsInsert, lsInsert]
    by_cases hc : c.1 < k
    · rw [if_pos hc, if_pos hc, ih, List.cons_append]
    · rw [if_neg hc, if_neg hc]
      simp

theorem lsInsert_concat_mid (F M T : List (Int × Int)) (k v : Int)
    (hF : ∀ a ∈ F, a.1 < k) (hT : ∀ b ∈ T, k < b.1) :
    lsInsert (F ++ M ++ T) k v = F ++ lsInsert M k v ++ T := by
  rw [List.append_assoc, lsInsert_append F (M ++ T) k v hF,
    lsInsert_trailing M T k v (fun s hs => not_lt.mpr (le_of_lt (hT s hs))),
    List.append_assoc]

theorem lsEraseK_append (A C : List (Int × Int)) (k : Int) (h : k ∉ lsKeys A) :
    lsEraseK (A ++ C) k = A ++ lsEraseK C k := by
  rw [lsEraseK, lsErase_append_left A C k h, lsEraseK]
  cases lsErase C k <;> simp

theorem lsEraseK_concat_mid (F M T : List (Int × Int)) (k : Int)
    (hF : k ∉ lsKeys F) (hT : k ∉ lsKeys T) :
    lsEraseK (F ++ M ++ T) k = F ++ lsEraseK M k ++ T := by
  rw [List.append_assoc, lsEraseK_append F (M ++ T) k hF,
    lsEraseK_trailing M T k hT, List.append_assoc]

theorem entries_sublist_flatTail (E : List (Int × Int)) (D : List BNode) :
    E.Sublist (flatTail E D) := by
  cases E with
  | nil => simp [flatTail_nil]
  | cons e E =>
    rw [flatTail_cons]
    exact List.Sublist.cons₂ e (entries_sublist_flatAux D E)

theorem bal_children (cap : Nat) (es : List (Int × Int)) (cs : List BNode) (h : Nat)
    (hb : Bal cap (.mk es cs) h) (hne : cs ≠ []) :
    1 ≤ h - 1 ∧ h = (h - 1) + 1 ∧ es.length ≤ cap ∧ cs.length = es.length + 1 ∧
      ∀ c ∈ cs, Bal cap c (h - 1) := by
  cases hb with
  | leaf es hlen => exact absurd rfl hne
  | node es cs hh hlen hcnt hall =>
    have hh1 : 1 ≤ hh := by
      have hcne : cs ≠ [] := hne
      cases hcs : cs with
      | nil => exact absurd hcs hcne
      | cons c csr =>
        have := hall c (by rw [hcs]; simp)
        cases this with
        | leaf es2 h2 => omega
        | node es2 cs2 h2 h3 h4 h5 => omega
    refine ⟨by omega, by omega, hlen, hcnt, ?_⟩
    intro c hc
    have : hh + 1 - 1 = hh := by omega
    rw [this]
    exact hall c hc

theorem bal_leaf_inv (cap : Nat) (es : List (Int × Int)) (h : Nat)
    (hb : Bal cap (.mk es []) h) : h = 1 ∧ es.length ≤ cap := by
  cases hb with
  | leaf es hlen => exact ⟨rfl, hlen⟩
  | node es cs hh hlen hcnt hall => simp at hcnt

theorem bal_size_le (cap : Nat) (t : BNode) (h : Nat) (hb : Bal cap t h) :
    t.size ≤ cap := by
  cases hb with
  | leaf es hlen => exact hlen
  | node es cs hh hlen hcnt hall => exact hlen

theorem minOK_size (cap : Nat) (t : BNode) (hm : MinOK cap t) :
    threshold cap - 1 ≤ t.size := by
  cases hm with
  | mk es cs hlen hall => exact hlen

theorem minOK_children (cap : Nat) (t : BNode) (hm : MinOK cap t) :
    ∀ c ∈ t.children, MinOK cap c := by
  cases hm with
  | mk es cs hlen hall => exact hall

theorem isLeaf_iff (t : BNode) : t.isLeaf = true ↔ t.children = [] := by
  rw [BNode.isLeaf, List.isEmpty_iff]

theorem size_mk (es : List (Int × Int)) (cs : List BNode) :
    (BNode.mk es cs).size = es.length := rfl

theorem getD_mem_of_lt (cs : List BNode) (i : Nat) (h : i < cs.length) :
    cs.getD i nilNode ∈ cs := by
  rw [List.getD_eq_getElem cs nilNode h]
  exact List.getElem_mem h

theorem getD_mem_of_lt_ent (es : List (Int × Int)) (i : Nat) (h : i < es.length) :
    es.getD i (0, 0) ∈ es := by
  rw [List.getD_eq_getElem es (0, 0) h]
  exact List.getElem_mem h

end Btree

namespace Btree

theorem getD_append_len {α : Type} (A : List α) (b : α) (C : List α) (d : α) :
    (A ++ b :: C).getD A.length d = b := by
  induction A with
  | nil => rfl
  | cons a A ih => simpa using ih

theorem getD_append_len_succ {α : Type} (A : List α) (b c : α) (C : List α) (d : α) :
    (A ++ b :: c :: C).getD (A.length + 1) d = c := by
  induction A with
  | nil => rfl
  | cons a A ih => simpa using ih

theorem set_append_len (A : List BNode) (b : BNode) (C : List BNode) (c' : BNode) :
    (A ++ b :: C).set A.length c' = A ++ c' :: C := by
  induction A with
  | nil => rfl
  | cons a A ih => simpa using ih

theorem set_append_len_succ (A : List BNode) (b c : BNode) (C : List BNode) (c' : BNode) :
    (A ++ b :: c :: C).set (A.length + 1) c' = A ++ b :: c' :: C := by
  induction A with
  | nil => rfl
  | cons a A ih => simpa using ih

theorem take_append_len {α : Type} (A : List α) (b : α) (C : List α) :
    (A ++ b :: C).take A.length = A := by
  induction A with
  | nil => rfl
  | cons a A ih => simpa using ih

theorem take_append_len_succ {α : Type} (A : List α) (b : α) (C : List α) :
    (A ++ b :: C).take (A.length + 1) = A ++ [b] := by
  induction A with
  | nil => rfl
  | cons a A ih => simpa using ih

theorem drop_append_len {α : Type} (A : List α) (b : α) (C : List α) :
    (A ++ b :: C).drop A.length = b :: C := by
  induction A with
  | nil => rfl
  | cons a A ih => simpa using ih

theorem drop_append_len_succ {α : Type} (A : List α) (b : α) (C : List α) :
    (A ++ b :: C).drop (A.length + 1) = C := by
  induction A with
  | nil => rfl
  | cons a A ih => simpa using ih

theorem flatten_set (es : List (Int × Int)) (cs : List BNode) (i : Nat) (c' : BNode)
    (hcnt : cs.length = es.length + 1) (hi : i ≤ es.length) :
    flatten (.mk es (cs.set i c')) =
      flatAux (es.take i) (cs.take i) ++ flatten c' ++
        flatTail (es.drop i) (cs.drop (i + 1)) := by
  rw [List.set_eq_take_cons_drop c' (show i < cs.length by omega)]
  rw [flatten_mk]
  conv_lhs => rw [← List.take_append_drop i es]
  rw [flatAux_append (es.take i) (cs.take i) _ _
    (by rw [List.length_take, List.length_take]; omega)]
  rw [flatAux_cons_eq (es.drop i) c' (cs.drop (i + 1)) (by
    intro hE
    have : i = es.length := by
      have := List.length_drop i es
      rw [hE] at this
      simp at this
      omega
    refine List.eq_nil_of_length_eq_zero ?_
    rw [List.length_drop]
    omega)]
  rw [List.append_assoc]

theorem insert_set_child (cap : Nat) (es : List (Int × Int)) (cs : List BNode)
    (I : Nat) (k v : Int) (c' : BNode) (hh : Nat)
    (hcnt : cs.length = es.length + 1) (hI : I ≤ es.length)
    (hbrF : ∀ a ∈ flatAux (es.take I) (cs.take I), a.1 < k)
    (hbrT : ∀ b ∈ flatTail (es.drop I) (cs.drop (I + 1)), k < b.1)
    (hcf : flatten c' = lsInsert (flatten (cs.getD I nilNode)) k v)
    (hcb : Bal cap c' hh)
    (hlen : es.length ≤ cap)
    (hallb : ∀ c ∈ cs, Bal cap c hh) :
    flatten (.mk es (cs.set I c')) = lsInsert (flatten (.mk es cs)) k v ∧
      Bal cap (.mk es (cs.set I c')) (hh + 1) := by
  constructor
  · rw [flatten_set es cs I c' hcnt hI, hcf]
    rw [flatten_decomp es cs I hcnt hI]
    rw [lsInsert_concat_mid _ _ _ k v hbrF hbrT]
  · refine Bal.node es (cs.set I c') hh hlen (by rw [List.length_set]; omega) ?_
    intro c hc
    rcases List.mem_or_eq_of_mem_set hc with hc | hc
    · exact hallb c hc
    · rw [hc]
      exact hcb

end Btree

namespace Btree

theorem isLeaf_false_of_ne (es : List (Int × Int)) (cs : List BNode) (h : cs ≠ []) :
    (BNode.mk es cs).isLeaf = false := by
  rw [BNode.isLeaf, children_mk]
  cases cs with
  | nil => exact absurd rfl h
  | cons a b => rfl

theorem bal_split_parts (cap : Nat) (hcap : 4 ≤ cap) (hev : cap % 2 = 0)
    (y : BNode) (hh : Nat) (hb : Bal cap y hh) (hyfull : y.size = cap) :
    Bal cap (BNode.mk (y.entries.take (splitMid cap))
      (if y.isLeaf then [] else y.children.take (splitRight cap))) hh ∧
    Bal cap (BNode.mk (y.entries.drop (splitRight cap))
      (if y.isLeaf then [] else y.children.drop (splitRight cap))) hh ∧
    threshold cap - 1 ≤ (y.entries.take (splitMid cap)).length ∧
    threshold cap - 1 ≤ (y.entries.drop (splitRight cap)).length ∧
    ((∀ c ∈ y.children, MinOK cap c) →
      MinOK cap (BNode.mk (y.entries.take (splitMid cap))
        (if y.isLeaf then [] else y.children.take (splitRight cap))) ∧
      MinOK cap (BNode.mk (y.entries.drop (splitRight cap))
        (if y.isLeaf then [] else y.children.drop (splitRight cap)))) := by
  have harith : splitMid cap < cap ∧ splitRight cap ≤ cap ∧
      threshold cap - 1 = splitMid cap ∧ splitMid cap + 1 = splitRight cap ∧
      cap - splitRight cap = splitRight cap := by
    rw [splitMid, splitRight, threshold]
    omega
  cases hb with
  | leaf yes hlen =>
    have hsz : yes.length = cap := hyfull
    have hleaf : (BNode.mk yes []).isLeaf = true := rfl
    rw [entries_mk, hleaf]
    simp only [if_pos]
    have h1 : (yes.take (splitMid cap)).length = splitMid cap := by
      rw [List.length_take]; omega
    have h2 : (yes.drop (splitRight cap)).length = cap - splitRight cap := by
      rw [List.length_drop]; omega
    refine ⟨Bal.leaf _ (by omega), Bal.leaf _ (by omega), by omega, by omega, ?_⟩
    intro hmo
    exact ⟨MinOK.mk _ _ (by omega) (by simp), MinOK.mk _ _ (by omega) (by simp)⟩
  | node yes ycs hh0 hlen hcnt hall =>
    have hsz : yes.length = cap := hyfull
    have hne : ycs ≠ [] := by
      intro hc
      rw [hc] at hcnt
      simp at hcnt
    have hleaf : (BNode.mk yes ycs).isLeaf = false := isLeaf_false_of_ne yes ycs hne
    rw [entries_mk, children_mk, hleaf]
    simp only [Bool.false_eq_true, if_false]
    have h1 : (yes.take (splitMid cap)).length = splitMid cap := by
      rw [List.length_take]; omega
    have h2 : (yes.drop (splitRight cap)).length = cap - splitRight cap := by
      rw [List.length_drop]; omega
    have h3 : (ycs.take (splitRight cap)).length = splitRight cap := by
      rw [List.length_take]; omega
    have h4 : (ycs.drop (splitRight cap)).length = ycs.length - splitRight cap := by
      rw [List.length_drop]
    refine ⟨?_, ?_, by omega, by omega, ?_⟩
    · refine Bal.node _ _ hh0 (by omega) (by omega) ?_
      intro c hc
      exact hall c (List.mem_of_mem_take hc)
    · refine Bal.node _ _ hh0 (by omega) (by omega) ?_
      intro c hc
      exact hall c (List.mem_of_mem_drop hc)
    · intro hmo
      constructor
      · refine MinOK.mk _ _ (by omega) ?_
        intro c hc
        exact hmo c (List.mem_of_mem_take hc)
      · refine MinOK.mk _ _ (by omega) ?_
        intro c hc
        exact hmo c (List.mem_of_mem_drop hc)

end Btree


namespace Btree

theorem bal_pos (cap : Nat) (t : BNode) (h : Nat) (hb : Bal cap t h) : 1 ≤ h := by
  cases hb <;> omega

theorem bal_shape (cap : Nat) (t : BNode) (h : Nat) (hb : Bal cap t h) :
    t.children = [] ∨ t.children.length = t.entries.length + 1 := by
  cases hb with
  | leaf es hlen => left; rfl
  | node es cs h hlen hcnt hall => right; rw [entries_mk, children_mk]; exact hcnt

theorem minOK_of_parts (cap : Nat) (t : BNode)
    (h1 : threshold cap - 1 ≤ t.size)
    (h2 : ∀ c ∈ t.children, MinOK cap c) : MinOK cap t := by
  cases t with
  | mk es cs => exact MinOK.mk es cs h1 h2

theorem not_mem_keys_mono (k : Int) (l1 l2 : List (Int × Int))
    (hsub : ∀ a ∈ l1, a ∈ l2) (h : k ∉ lsKeys l2) : k ∉ lsKeys l1 := by
  intro hc
  rcases mem_lsKeys.mp hc with ⟨v, hv⟩
  exact h (mem_lsKeys.mpr ⟨v, hsub _ hv⟩)

theorem flatten_eta (t : BNode) : flatten t = flatAux t.entries t.children := by
  cases t
  rfl

theorem all_lt_of_sorted_last (M : List (Int × Int)) (e : Int × Int) (k : Int)
    (hs : SortedEnt (M ++ [e])) (he : e.1 < k) : ∀ a ∈ M ++ [e], a.1 < k := by
  intro a ha
  rcases List.mem_append.mp ha with ha | ha
  · exact lt_trans (sortedEnt_cross hs a ha e (by simp)) he
  · rw [List.mem_singleton] at ha
    rw [ha]
    exact he

theorem all_gt_of_sorted_head (e : Int × Int) (M : List (Int × Int)) (k : Int)
    (hs : SortedEnt (e :: M)) (he : k < e.1) : ∀ b ∈ e :: M, k < b.1 := by
  intro b hb
  rcases List.mem_cons.mp hb with rfl | hb
  · exact he
  · rw [SortedEnt, List.pairwise_cons] at hs
    exact lt_trans he (hs.1 b hb)

theorem drop_append_len_succ2 {α : Type} (A : List α) (b c : α) (C : List α) :
    (A ++ b :: c :: C).drop (A.length + 2) = C := by
  induction A with
  | nil => rfl
  | cons a A ih => simpa using ih

theorem child_facts (es : List (Int × Int)) (cs : List BNode) (I : Nat) (k : Int)
    (hcnt : cs.length = es.length + 1) (hIle : I ≤ es.length)
    (hs : SortedEnt (flatten (.mk es cs)))
    (hk : k ∉ lsKeys (flatten (.mk es cs))) :
    SortedEnt (flatten (cs.getD I nilNode)) ∧
      k ∉ lsKeys (flatten (cs.getD I nilNode)) := by
  rw [flatten_decomp es cs I hcnt hIle] at hs hk
  constructor
  · exact sortedEnt_of_append_right (sortedEnt_of_append_left hs)
  · refine not_mem_keys_mono k _ _ ?_ hk
    intro a ha
    simp only [List.mem_append]
    exact Or.inl (Or.inr ha)

theorem insert_brackets (es : List (Int × Int)) (cs : List BNode) (k : Int) (I : Nat)
    (hI : I = match lsPred es k with | some p => p + 1 | none => 0)
    (hcnt : cs.length = es.length + 1)
    (hs : SortedEnt (flatten (.mk es cs)))
    (hk : k ∉ lsKeys (flatten (.mk es cs))) :
    I ≤ es.length ∧
    (∀ a ∈ flatAux (es.take I) (cs.take I), a.1 < k) ∧
    (∀ b ∈ flatTail (es.drop I) (cs.drop (I + 1)), k < b.1) := by
  have hse : SortedEnt es :=
    List.Pairwise.sublist (entries_sublist_flatten (.mk es cs)) hs
  cases hr : lsPred es k with
  | none =>
    have hI0 : I = 0 := by rw [hI, hr]
    subst hI0
    have hgt : ∀ e ∈ es, k < e.1 := lsPred_none es k hse hr
    refine ⟨by omega, by simp [flatAux_nil], ?_⟩
    have hd := flatten_decomp es cs 0 hcnt (by omega)
    rw [hd] at hs
    simp only [List.take_zero, flatAux_nil, List.nil_append] at hs
    have hst : SortedEnt (flatTail (es.drop 0) (cs.drop 1)) :=
      sortedEnt_of_append_right hs
    cases hes : es with
    | nil => simp [flatTail_nil]
    | cons e0 es2 =>
      subst hes
      have hst2 : SortedEnt (e0 :: flatAux es2 (cs.drop 1)) := hst
      intro b hb
      exact all_gt_of_sorted_head e0 _ k hst2 (hgt e0 (by simp)) b hb
  | some p =>
    rcases lsPred_some es k p hse hr with ⟨A, e, B, hesp, hAlen, hex, hAe, hB⟩
    have hIp : I = p + 1 := by rw [hI, hr]
    subst hIp
    have hple : p + 1 ≤ es.length := by
      rw [hesp]
      simp only [List.length_append, List.length_cons]
      omega
    have htk : es.take (p + 1) = A ++ [e] := by
      rw [hesp, ← hAlen, take_append_len_succ]
    have hdr : es.drop (p + 1) = B := by
      rw [hesp, ← hAlen, drop_append_len_succ]
    have hcstk : (cs.take (p + 1)).length = A.length + 1 := by
      rw [List.length_take, hAlen]
      omega
    have hek : e.1 < k := by
      rcases lt_or_eq_of_le hex with h1 | h1
      · exact h1
      · exfalso
        refine hk (mem_lsKeys.mpr ⟨e.2, ?_⟩)
        have hmem : e ∈ es := by rw [hesp]; simp
        have h2 : ((k, e.2) : Int × Int) = e := by rw [← h1]
        rw [h2]
        exact (entries_sublist_flatten (.mk es cs)).subset hmem
    refine ⟨hple, ?_, ?_⟩
    · rw [htk]
      rw [flatAux_append_entry A (cs.take (p + 1)) e hcstk]
      have hd := flatten_decomp es cs (p + 1) hcnt hple
      rw [hd] at hs
      have hsF : SortedEnt (flatAux (es.take (p + 1)) (cs.take (p + 1))) :=
        sortedEnt_of_append_left (sortedEnt_of_append_left hs)
      rw [htk, flatAux_append_entry A (cs.take (p + 1)) e hcstk] at hsF
      exact all_lt_of_sorted_last _ e k hsF hek
    · rw [hdr]
      have hd := flatten_decomp es cs (p + 1) hcnt hple
      rw [hd] at hs
      have hsT : SortedEnt (flatTail (es.drop (p + 1)) (cs.drop (p + 1 + 1))) :=
        sortedEnt_of_append_right hs
      rw [hdr] at hsT
      cases hBc : B with
      | nil => simp [flatTail_nil]
      | cons b0 B2 =>
        rw [hBc] at hsT hB
        rw [flatTail_cons] at hsT ⊢
        exact all_gt_of_sorted_head b0 _ k hsT (hB b0 (by simp))

end Btree


namespace Btree

theorem nInsert_leaf (cap fuel : Nat) (es : List (Int × Int)) (k v : Int) :
    nInsert cap (fuel + 1) (.mk es []) k v = .mk (lsInsert es k v) [] := rfl

theorem nInsert_node (cap fuel : Nat) (es : List (Int × Int)) (c0 : BNode)
    (cs : List BNode) (k v : Int) (I : Nat)
    (hI : I = match lsPred es k with | some p => p + 1 | none => 0) :
    nInsert cap (fuel + 1) (.mk es (c0 :: cs)) k v =
      if ((c0 :: cs).getD I nilNode).size = cap then
        BNode.mk (splitChild cap (.mk es (c0 :: cs)) I).entries
          ((splitChild cap (.mk es (c0 :: cs)) I).children.set
            (if ((splitChild cap (.mk es (c0 :: cs)) I).entries.getD I (0, 0)).1 < k
              then I + 1 else I)
            (nInsert cap fuel
              ((splitChild cap (.mk es (c0 :: cs)) I).children.getD
                (if ((splitChild cap (.mk es (c0 :: cs)) I).entries.getD I (0, 0)).1 < k
                  then I + 1 else I) nilNode) k v))
      else
        BNode.mk es ((c0 :: cs).set I (nInsert cap fuel ((c0 :: cs).getD I nilNode) k v)) := by
  subst hI
  rfl

theorem nInsert_split_branch (cap : Nat) (hcap : 4 ≤ cap) (hev : cap % 2 = 0)
    (fuel : Nat)
    (ih : ∀ (h : Nat) (t : BNode) (k v : Int),
      Bal cap t h → h ≤ fuel → SortedEnt (flatten t) →
      k ∉ lsKeys (flatten t) → t.size < cap →
      flatten (nInsert cap fuel t k v) = lsInsert (flatten t) k v ∧
      Bal cap (nInsert cap fuel t k v) h ∧
      t.size ≤ (nInsert cap fuel t k v).size ∧
      ((∀ c ∈ t.children, MinOK cap c) →
        ∀ c ∈ (nInsert cap fuel t k v).children, MinOK cap c))
    (es : List (Int × Int)) (cs : List BNode) (k v : Int) (h0 : Nat) (I : Nat)
    (t2 : BNode) (ht2 : t2 = splitChild cap (.mk es cs) I)
    (i2 : Nat) (hi2 : i2 = if (t2.entries.getD I (0, 0)).1 < k then I + 1 else I)
    (hcnt : cs.length = es.length + 1) (hIle : I ≤ es.length)
    (hlen : es.length < cap)
    (hall : ∀ c ∈ cs, Bal cap c h0) (hf : h0 ≤ fuel)
    (hs : SortedEnt (flatten (.mk es cs)))
    (hk : k ∉ lsKeys (flatten (.mk es cs)))
    (hbrF : ∀ a ∈ flatAux (es.take I) (cs.take I), a.1 < k)
    (hbrT : ∀ b ∈ flatTail (es.drop I) (cs.drop (I + 1)), k < b.1)
    (hfull : (cs.getD I nilNode).size = cap) :
    flatten (BNode.mk t2.entries
        (t2.children.set i2 (nInsert cap fuel (t2.children.getD i2 nilNode) k v))) =
      lsInsert (flatten (.mk es cs)) k v ∧
    Bal cap (BNode.mk t2.entries
        (t2.children.set i2 (nInsert cap fuel (t2.children.getD i2 nilNode) k v))) (h0 + 1) ∧
    es.length ≤ (BNode.mk t2.entries
        (t2.children.set i2 (nInsert cap fuel (t2.children.getD i2 nilNode) k v))).size ∧
    ((∀ c ∈ cs, MinOK cap c) →
      ∀ c ∈ (BNode.mk t2.entries
        (t2.children.set i2 (nInsert cap fuel (t2.children.getD i2 nilNode) k v))).children,
        MinOK cap c) := by
  have hIcs : I < cs.length := by omega
  have hyb : Bal cap (cs.getD I nilNode) h0 := hall _ (getD_mem_of_lt cs I hIcs)
  have hylen : (cs.getD I nilNode).entries.length = cap := hfull
  obtain ⟨hys, hyk⟩ := child_facts es cs I k hcnt hIle hs hk
  have hyse : SortedEnt (cs.getD I nilNode).entries :=
    List.Pairwise.sublist (entries_sublist_flatten _) hys
  have hmidlt : splitMid cap < (cs.getD I nilNode).entries.length := by
    rw [hylen, splitMid]
    omega
  have hmidmem : (cs.getD I nilNode).entries.getD (splitMid cap) (0, 0) ∈
      (cs.getD I nilNode).entries := getD_mem_of_lt_ent _ _ hmidlt
  have hmidflat : (cs.getD I nilNode).entries.getD (splitMid cap) (0, 0) ∈
      flatten (cs.getD I nilNode) := (entries_sublist_flatten _).subset hmidmem
  have hdec := flatten_decomp es cs I hcnt hIle
  have hsdec : SortedEnt (flatAux (es.take I) (cs.take I) ++ flatten (cs.getD I nilNode) ++
      flatTail (es.drop I) (cs.drop (I + 1))) := by
    rw [← hdec]
    exact hs
  have hm_hi : ∀ e ∈ es.take I,
      e.1 < ((cs.getD I nilNode).entries.getD (splitMid cap) (0, 0)).1 := by
    intro e he
    have heF : e ∈ flatAux (es.take I) (cs.take I) :=
      (entries_sublist_flatAux (cs.take I) (es.take I)).subset he
    exact sortedEnt_cross (sortedEnt_of_append_left hsdec) e heF _ hmidflat
  have hm_lo : ∀ e ∈ es.drop I,
      ¬e.1 < ((cs.getD I nilNode).entries.getD (splitMid cap) (0, 0)).1 := by
    intro e he
    have heT : e ∈ flatTail (es.drop I) (cs.drop (I + 1)) :=
      (entries_sublist_flatTail _ _).subset he
    have hlt := sortedEnt_cross hsdec _ (List.mem_append.mpr (Or.inr hmidflat)) e heT
    exact not_lt.mpr (le_of_lt hlt)
  have hsceq := splitChild_eq cap es cs I hcnt hIle hfull (by omega) hev hyse hm_hi hm_lo
  rw [if_leaf_take, if_leaf_drop] at hsceq
  have hsh2 : (cs.getD I nilNode).children = [] ∨
      (cs.getD I nilNode).children.length = cap + 1 := by
    rcases bal_shape cap _ h0 hyb with h | h
    · exact Or.inl h
    · right
      rw [h, hylen]
  have hscf := splitChild_flatten cap es cs I hcnt hIle hfull (by omega) hev hyse hm_hi hm_lo hsh2
  obtain ⟨hbaly2, hbalz, hcnty2, hcntz, hminparts⟩ := bal_split_parts cap hcap hev _ h0 hyb hfull
  rw [if_leaf_take] at hbaly2 hminparts
  rw [if_leaf_drop] at hbalz hminparts
  rw [hsceq] at ht2 hscf
  subst ht2
  simp only [entries_mk, children_mk] at hi2 ⊢
  set y := cs.getD I nilNode with hy
  set mid := y.entries.getD (splitMid cap) (0, 0) with hmidd
  set Y2 := BNode.mk (y.entries.take (splitMid cap)) (y.children.take (splitRight cap)) with hY2
  set Z := BNode.mk (y.entries.drop (splitRight cap)) (y.children.drop (splitRight cap)) with hZ
  have hAlen : (es.take I).length = I := by
    rw [List.length_take]
    omega
  have hAcs : (cs.take I).length = I := by
    rw [List.length_take]
    omega
  have hgmid : (es.take I ++ mid :: es.drop I).getD I (0, 0) = mid := by
    have h := getD_append_len (es.take I) mid (es.drop I) (0, 0)
    rwa [hAlen] at h
  simp only [hgmid] at hi2
  have hyflat : flatten y = flatten Y2 ++ mid :: flatten Z := by
    rw [flatten_eta y, hY2, hZ, flatten_mk, flatten_mk]
    exact split_parts_flatten cap _ _ hylen (by omega) hev hsh2
  have hsy2 : SortedEnt (flatten Y2 ++ mid :: flatten Z) := by
    rw [← hyflat]
    exact hys
  have hcnt2 : (cs.take I ++ Y2 :: Z :: cs.drop (I + 1)).length =
      (es.take I ++ mid :: es.drop I).length + 1 := by
    simp only [List.length_append, List.length_cons, hAlen, hAcs, List.length_drop]
    omega
  have hlen2 : (es.take I ++ mid :: es.drop I).length ≤ cap := by
    simp only [List.length_append, List.length_cons, hAlen, List.length_drop]
    omega
  have hallb2 : ∀ c ∈ cs.take I ++ Y2 :: Z :: cs.drop (I + 1), Bal cap c h0 := by
    intro c hc
    rcases List.mem_append.mp hc with hc | hc
    · exact hall c (List.mem_of_mem_take hc)
    · rcases List.mem_cons.mp hc with rfl | hc
      · exact hbaly2
      · rcases List.mem_cons.mp hc with rfl | hc
        · exact hbalz
        · exact hall c (List.mem_of_mem_drop hc)
  by_cases hmk : mid.1 < k
  · -- descend into the right half Z
    rw [if_pos hmk] at hi2
    subst hi2
    have hgz : (cs.take I ++ Y2 :: Z :: cs.drop (I + 1)).getD (I + 1) nilNode = Z := by
      have h := getD_append_len_succ (cs.take I) Y2 Z (cs.drop (I + 1)) nilNode
      rwa [hAcs] at h
    have hzsort : SortedEnt (flatten Z) := by
      have h1 := sortedEnt_of_append_right hsy2
      rw [SortedEnt, List.pairwise_cons] at h1
      exact h1.2
    have hzk : k ∉ lsKeys (flatten Z) := by
      refine not_mem_keys_mono k _ _ ?_ hyk
      intro a ha
      rw [hyflat]
      simp only [List.mem_append, List.mem_cons]
      tauto
    have hzsz : Z.size < cap := by
      rw [hZ, size_mk, List.length_drop, hylen, splitRight]
      omega
    obtain ⟨ihf, ihb, ihsz, ihmin⟩ := ih h0 Z k v hbalz hf hzsort hzk hzsz
    have htkE : (es.take I ++ mid :: es.drop I).take (I + 1) = es.take I ++ [mid] := by
      have h := take_append_len_succ (es.take I) mid (es.drop I)
      rwa [hAlen] at h
    have htkC : (cs.take I ++ Y2 :: Z :: cs.drop (I + 1)).take (I + 1) = cs.take I ++ [Y2] := by
      have h := take_append_len_succ (cs.take I) Y2 (Z :: cs.drop (I + 1))
      rwa [hAcs] at h
    have hdrE : (es.take I ++ mid :: es.drop I).drop (I + 1) = es.drop I := by
      have h := drop_append_len_succ (es.take I) mid (es.drop I)
      rwa [hAlen] at h
    have hdrC : (cs.take I ++ Y2 :: Z :: cs.drop (I + 1)).drop (I + 2) = cs.drop (I + 1) := by
      have h := drop_append_len_succ2 (cs.take I) Y2 Z (cs.drop (I + 1))
      rwa [hAcs] at h
    have hbrF2 : ∀ a ∈ flatAux ((es.take I ++ mid :: es.drop I).take (I + 1))
        ((cs.take I ++ Y2 :: Z :: cs.drop (I + 1)).take (I + 1)), a.1 < k := by
      rw [htkE, htkC]
      intro a ha
      rw [flatAux_append (es.take I) (cs.take I) [mid] [Y2] (by rw [hAlen, hAcs])] at ha
      rcases List.mem_append.mp ha with ha | ha
      · exact hbrF a ha
      · rw [flatAux_cons_cons, flatAux_nil] at ha
        rcases List.mem_append.mp ha with ha | ha
        · exact lt_trans (sortedEnt_cross hsy2 a ha mid (by simp)) hmk
        · rw [List.mem_singleton] at ha
          rw [ha]
          exact hmk
    have hbrT2 : ∀ b ∈ flatTail ((es.take I ++ mid :: es.drop I).drop (I + 1))
        ((cs.take I ++ Y2 :: Z :: cs.drop (I + 1)).drop (I + 1 + 1)), k < b.1 := by
      rw [hdrE, show I + 1 + 1 = I + 2 from rfl, hdrC]
      exact hbrT
    have hI2le : I + 1 ≤ (es.take I ++ mid :: es.drop I).length := by
      simp only [List.length_append, List.length_cons, hAlen, List.length_drop]
      omega
    obtain ⟨hfl, hbl⟩ := insert_set_child cap (es.take I ++ mid :: es.drop I)
      (cs.take I ++ Y2 :: Z :: cs.drop (I + 1)) (I + 1) k v
      (nInsert cap fuel ((cs.take I ++ Y2 :: Z :: cs.drop (I + 1)).getD (I + 1) nilNode) k v)
      h0 hcnt2 hI2le hbrF2 hbrT2 (by rw [hgz]; exact ihf) (by rw [hgz]; exact ihb)
      hlen2 hallb2
    refine ⟨?_, hbl, ?_, ?_⟩
    · rw [hfl, hscf]
    · rw [size_mk]
      simp only [List.length_append, List.length_cons, hAlen, List.length_drop]
      omega
    · intro hmin c hc
      have hmy := minOK_children cap _ (hmin _ (getD_mem_of_lt cs I hIcs))
      obtain ⟨hminY2, hminZ⟩ := hminparts hmy
      rcases List.mem_or_eq_of_mem_set hc with hc | hc
      · rcases List.mem_append.mp hc with hc | hc
        · exact hmin c (List.mem_of_mem_take hc)
        · rcases List.mem_cons.mp hc with rfl | hc
          · exact hminY2
          · rcases List.mem_cons.mp hc with rfl | hc
            · exact hminZ
            · exact hmin c (List.mem_of_mem_drop hc)
      · rw [hc, hgz]
        refine minOK_of_parts cap _ ?_ (ihmin (minOK_children cap Z hminZ))
        calc threshold cap - 1 ≤ Z.size := minOK_size cap Z hminZ
          _ ≤ _ := ihsz
  · -- descend into the left half Y2
    rw [if_neg hmk] at hi2
    subst i2
    have hmidt : mid ∈ flatten (BNode.mk es cs) := by
      rw [hdec]
      simp only [List.mem_append]
      exact Or.inl (Or.inr hmidflat)
    have hkm : k < mid.1 := by
      rcases lt_or_eq_of_le (not_lt.mp hmk) with h1 | h1
      · exact h1
      · exfalso
        refine hk (mem_lsKeys.mpr ⟨mid.2, ?_⟩)
        rw [h1]
        exact hmidt
    have hgy : (cs.take I ++ Y2 :: Z :: cs.drop (I + 1)).getD I nilNode = Y2 := by
      have h := getD_append_len (cs.take I) Y2 (Z :: cs.drop (I + 1)) nilNode
      rwa [hAcs] at h
    have hy2sort : SortedEnt (flatten Y2) := sortedEnt_of_append_left hsy2
    have hy2k : k ∉ lsKeys (flatten Y2) := by
      refine not_mem_keys_mono k _ _ ?_ hyk
      intro a ha
      rw [hyflat]
      simp only [List.mem_append]
      exact Or.inl ha
    have hy2sz : Y2.size < cap := by
      rw [hY2, size_mk, List.length_take, hylen, splitMid]
      omega
    obtain ⟨ihf, ihb, ihsz, ihmin⟩ := ih h0 Y2 k v hbaly2 hf hy2sort hy2k hy2sz
    have htkE : (es.take I ++ mid :: es.drop I).take I = es.take I := by
      have h := take_append_len (es.take I) mid (es.drop I)
      rwa [hAlen] at h
    have htkC : (cs.take I ++ Y2 :: Z :: cs.drop (I + 1)).take I = cs.take I := by
      have h := take_append_len (cs.take I) Y2 (Z :: cs.drop (I + 1))
      rwa [hAcs] at h
    have hdrE : (es.take I ++ mid :: es.drop I).drop I = mid :: es.drop I := by
      have h := drop_append_len (es.take I) mid (es.drop I)
      rwa [hAlen] at h
    have hdrC : (cs.take I ++ Y2 :: Z :: cs.drop (I + 1)).drop (I + 1) =
        Z :: cs.drop (I + 1) := by
      have h := drop_append_len_succ (cs.take I) Y2 (Z :: cs.drop (I + 1))
      rwa [hAcs] at h
    have hcond : es.drop I = [] → cs.drop (I + 1) = [] := by
      intro hE
      have h1 := List.length_drop I es
      rw [hE] at h1
      simp only [List.length_nil] at h1
      refine List.eq_nil_of_length_eq_zero ?_
      rw [List.length_drop]
      omega
    have hbrF2 : ∀ a ∈ flatAux ((es.take I ++ mid :: es.drop I).take I)
        ((cs.take I ++ Y2 :: Z :: cs.drop (I + 1)).take I), a.1 < k := by
      rw [htkE, htkC]
      exact hbrF
    have hbrT2 : ∀ b ∈ flatTail ((es.take I ++ mid :: es.drop I).drop I)
        ((cs.take I ++ Y2 :: Z :: cs.drop (I + 1)).drop (I + 1)), k < b.1 := by
      rw [hdrE, hdrC, flatTail_cons]
      intro b hb
      rw [flatAux_cons_eq (es.drop I) Z (cs.drop (I + 1)) hcond] at hb
      rcases List.mem_cons.mp hb with rfl | hb
      · exact hkm
      · rcases List.mem_append.mp hb with hb | hb
        · have h1 := sortedEnt_of_append_right hsy2
          rw [SortedEnt, List.pairwise_cons] at h1
          exact lt_trans hkm (h1.1 b hb)
        · exact hbrT b hb
    have hI2le : I ≤ (es.take I ++ mid :: es.drop I).length := by
      simp only [List.length_append, List.length_cons, hAlen, List.length_drop]
      omega
    obtain ⟨hfl, hbl⟩ := insert_set_child cap (es.take I ++ mid :: es.drop I)
      (cs.take I ++ Y2 :: Z :: cs.drop (I + 1)) I k v
      (nInsert cap fuel ((cs.take I ++ Y2 :: Z :: cs.drop (I + 1)).getD I nilNode) k v)
      h0 hcnt2 hI2le hbrF2 hbrT2 (by rw [hgy]; exact ihf) (by rw [hgy]; exact ihb)
      hlen2 hallb2
    refine ⟨?_, hbl, ?_, ?_⟩
    · rw [hfl, hscf]
    · rw [size_mk]
      simp only [List.length_append, List.length_cons, hAlen, List.length_drop]
      omega
    · intro hmin c hc
      have hmy := minOK_children cap _ (hmin _ (getD_mem_of_lt cs I hIcs))
      obtain ⟨hminY2, hminZ⟩ := hminparts hmy
      rcases List.mem_or_eq_of_mem_set hc with hc | hc
      · rcases List.mem_append.mp hc with hc | hc
        · exact hmin c (List.mem_of_mem_take hc)
        · rcases List.mem_cons.mp hc with rfl | hc
          · exact hminY2
          · rcases List.mem_cons.mp hc with rfl | hc
            · exact hminZ
            · exact hmin c (List.mem_of_mem_drop hc)
      · rw [hc, hgy]
        refine minOK_of_parts cap _ ?_ (ihmin (minOK_children cap Y2 hminY2))
        calc threshold cap - 1 ≤ Y2.size := minOK_size cap Y2 hminY2
          _ ≤ _ := ihsz

end Btree


namespace Btree

theorem nErase_leaf (cap fuel : Nat) (es : List (Int × Int)) (key : Int) :
    nErase cap (fuel + 1) (.mk es []) key =
      match lsErase es key with
      | some p => (true, BNode.mk p.2 [])
      | none => (false, BNode.mk es []) := rfl

theorem nErase_node (cap fuel : Nat) (es : List (Int × Int)) (c0 : BNode)
    (cs : List BNode) (key : Int)
    (i : Nat) (hi : i = match lsPred es key with | some p => p + 1 | none => 0)
    (hit : Bool)
    (hhit : hit = match lsPred es key with
      | some p => decide ((es.getD p (0, 0)).1 = key)
      | none => false)
    (c L R : BNode)
    (hc : c = (c0 :: cs).getD i nilNode)
    (hL : L = (c0 :: cs).getD (i - 1) nilNode)
    (hR : R = (c0 :: cs).getD (i + 1) nilNode)
    (sL sR : Int × Int)
    (hsL : sL = es.getD (i - 1) (0, 0))
    (hsR : sR = es.getD i (0, 0)) :
    nErase cap (fuel + 1) (.mk es (c0 :: cs)) key =
      (if hit then
        if threshold cap ≤ L.size then
          (true, BNode.mk
            (lsInsert (lsEraseK es key) (subtreeMax fuel L).1 (subtreeMax fuel L).2)
            ((c0 :: cs).set (i - 1) (nErase cap fuel L (subtreeMax fuel L).1).2))
        else if threshold cap ≤ c.size then
          (true, BNode.mk
            (lsInsert (lsEraseK es key) (subtreeMin fuel c).1 (subtreeMin fuel c).2)
            ((c0 :: cs).set i (nErase cap fuel c (subtreeMin fuel c).1).2))
        else
          (true, BNode.mk (lsEraseK es key)
            (((c0 :: cs).set (i - 1)
              (nErase cap fuel
                (BNode.mk (insEntries (lsInsert L.entries key (lsEraseV es key)) c.entries)
                  (if c.isLeaf then L.children else L.children ++ c.children)) key).2).eraseIdx i))
      else
        if c.size < threshold cap then
          if decide (0 < i) && decide (threshold cap ≤ L.size) then
            ((nErase cap fuel (BNode.mk (lsInsert c.entries sL.1 (lsEraseV es sL.1))
                (if L.isLeaf then c.children
                 else L.children.getLastD nilNode :: c.children)) key).1,
             BNode.mk (lsInsert (lsEraseK es sL.1) (L.entries.getLastD (0, 0)).1
                 (L.entries.getLastD (0, 0)).2)
               (((c0 :: cs).set (i - 1)
                  (BNode.mk (lsEraseK L.entries (L.entries.getLastD (0, 0)).1)
                    (if L.isLeaf then L.children else L.children.dropLast))).set i
                (nErase cap fuel (BNode.mk (lsInsert c.entries sL.1 (lsEraseV es sL.1))
                  (if L.isLeaf then c.children
                   else L.children.getLastD nilNode :: c.children)) key).2))
          else if decide (i + 1 < (c0 :: cs).length) && decide (threshold cap ≤ R.size) then
            ((nErase cap fuel (BNode.mk (lsInsert c.entries sR.1 (lsEraseV es sR.1))
                (if R.isLeaf then c.children
                 else c.children ++ [R.children.getD 0 nilNode])) key).1,
             BNode.mk (lsInsert (lsEraseK es sR.1) (R.entries.getD 0 (0, 0)).1
                 (R.entries.getD 0 (0, 0)).2)
               (((c0 :: cs).set (i + 1)
                  (BNode.mk (lsEraseK R.entries (R.entries.getD 0 (0, 0)).1)
                    (if R.isLeaf then R.children else R.children.drop 1))).set i
                (nErase cap fuel (BNode.mk (lsInsert c.entries sR.1 (lsEraseV es sR.1))
                  (if R.isLeaf then c.children
                   else c.children ++ [R.children.getD 0 nilNode])) key).2))
          else if decide (i + 1 < (c0 :: cs).length) then
            ((nErase cap fuel
                (BNode.mk (insEntries (lsInsert c.entries sR.1 (lsEraseV es sR.1)) R.entries)
                  (if R.isLeaf then c.children else c.children ++ R.children)) key).1,
             BNode.mk (lsEraseK es sR.1)
               (((c0 :: cs).set i
                 (nErase cap fuel
                   (BNode.mk (insEntries (lsInsert c.entries sR.1 (lsEraseV es sR.1)) R.entries)
                     (if R.isLeaf then c.children else c.children ++ R.children))
                   key).2).eraseIdx (i + 1)))
          else
            ((nErase cap fuel
                (BNode.mk (insEntries (lsInsert c.entries sL.1 (lsEraseV es sL.1)) L.entries)
                  (if L.isLeaf then c.children else L.children ++ c.children)) key).1,
             BNode.mk (lsEraseK es sL.1)
               (((c0 :: cs).eraseIdx (i - 1)).set (i - 1)
                (nErase cap fuel
                  (BNode.mk (insEntries (lsInsert c.entries sL.1 (lsEraseV es sL.1)) L.entries)
                    (if L.isLeaf then c.children else L.children ++ c.children)) key).2))
        else
          ((nErase cap fuel c key).1,
            BNode.mk es ((c0 :: cs).set i (nErase cap fuel c key).2))) := by
  subst hc hL hR hsL hsR
  subst hi hhit
  rfl

end Btree

namespace Btree

theorem flatAux_merge (E1 E2 : List (Int × Int)) (C1 C2 : List BNode) (e : Int × Int)
    (h1 : C1.length = E1.length + 1) :
    flatAux ((E1 ++ [e]) ++ E2) (C1 ++ C2) = flatAux (E1 ++ [e]) C1 ++ flatAux E2 C2 := by
  rw [flatAux_append (E1 ++ [e]) C1 E2 C2 (by simp [h1])]

theorem eraseIdx_append_len {α : Type} (A : List α) (b : α) (C : List α) :
    (A ++ b :: C).eraseIdx A.length = A ++ C := by
  induction A with
  | nil => rfl
  | cons a A ih => simpa using ih

theorem eraseIdx_append_len_succ {α : Type} (A : List α) (b c : α) (C : List α) :
    (A ++ b :: c :: C).eraseIdx (A.length + 1) = A ++ b :: C := by
  induction A with
  | nil => rfl
  | cons a A ih => simpa using ih

theorem drop_eq_getD_cons_ent (l : List (Int × Int)) (n : Nat) (h : n < l.length) :
    l.drop n = l.getD n (0, 0) :: l.drop (n + 1) := by
  rw [List.getD_eq_getElem l (0, 0) h]
  exact List.drop_eq_getElem_cons h

theorem drop_eq_getD_cons_node (l : List BNode) (n : Nat) (h : n < l.length) :
    l.drop n = l.getD n nilNode :: l.drop (n + 1) := by
  rw [List.getD_eq_getElem l nilNode h]
  exact List.drop_eq_getElem_cons h

theorem dropLast_append_getLastD {α : Type} : ∀ (l : List α) (d : α), l ≠ [] →
    l.dropLast ++ [l.getLastD d] = l
  | [], _, h => absurd rfl h
  | [_], _, _ => rfl
  | a :: b :: r, d, _ => by
    have ih := dropLast_append_getLastD (b :: r) d (by simp)
    rw [show (a :: b :: r).dropLast = a :: (b :: r).dropLast from rfl,
        show (a :: b :: r).getLastD d = (b :: r).getLastD d from rfl,
        List.cons_append, ih]

theorem keys_mid_iff (F M T : List (Int × Int)) (k : Int)
    (hF : ∀ a ∈ F, a.1 < k) (hT : ∀ b ∈ T, k < b.1) :
    k ∈ lsKeys (F ++ M ++ T) ↔ k ∈ lsKeys M := by
  constructor
  · intro h
    rcases mem_lsKeys.mp h with ⟨v, hv⟩
    rcases List.mem_append.mp hv with hv | hv
    · rcases List.mem_append.mp hv with hv | hv
      · have := hF _ hv
        simp at this
      · exact mem_lsKeys.mpr ⟨v, hv⟩
    · have := hT _ hv
      simp at this
  · intro h
    rcases mem_lsKeys.mp h with ⟨v, hv⟩
    exact mem_lsKeys.mpr ⟨v, by simp [hv]⟩

theorem lsEraseK_cons_self (e : Int × Int) (r : List (Int × Int)) (k : Int) (h : e.1 = k) :
    lsEraseK (e :: r) k = r := by
  rw [lsEraseK_cons, if_pos h]

theorem lsEraseK_concat_self (Y : List (Int × Int)) (pr : Int × Int)
    (h : pr.1 ∉ lsKeys Y) : lsEraseK (Y ++ [pr]) pr.1 = Y := by
  rw [lsEraseK_append Y [pr] pr.1 h, lsEraseK_cons_self pr [] pr.1 rfl]
  simp

theorem flatten_ne (t : BNode) (h : 1 ≤ t.size) : flatten t ≠ [] := by
  intro hc
  have h1 := (entries_sublist_flatten t).length_le
  rw [hc] at h1
  simp only [List.length_nil, Nat.le_zero] at h1
  rw [BNode.size] at h
  omega

theorem bal_child_any (cap : Nat) (t : BNode) (h : Nat) (hb : Bal cap t h)
    (c : BNode) (hc : c ∈ t.children) : Bal cap c (h - 1) := by
  cases hb with
  | leaf es hlen => simp [children_mk] at hc
  | node es cs h hlen hcnt hall =>
    rw [children_mk] at hc
    have := hall c hc
    simpa using this

theorem flatten_decomp2 (es : List (Int × Int)) (cs : List BNode) (p : Nat)
    (hcnt : cs.length = es.length + 1) (hp : p < es.length) :
    flatten (.mk es cs) =
      flatAux (es.take p) (cs.take p) ++ flatten (cs.getD p nilNode) ++
        es.getD p (0, 0) :: (flatten (cs.getD (p + 1) nilNode) ++
          flatTail (es.drop (p + 1)) (cs.drop (p + 2))) := by
  rw [flatten_decomp es cs p hcnt (by omega)]
  congr 1
  rw [drop_eq_getD_cons_ent es p hp, flatTail_cons]
  rw [drop_eq_getD_cons_node cs (p + 1) (by omega)]
  rw [flatAux_cons_eq (es.drop (p + 1)) _ (cs.drop (p + 1 + 1)) (by
    intro hE
    have h1 := List.length_drop (p + 1) es
    rw [hE] at h1
    simp only [List.length_nil] at h1
    refine List.eq_nil_of_length_eq_zero ?_
    rw [List.length_drop]
    omega)]

end Btree


namespace Btree

theorem getLastD_eq_getD_gen {α : Type} (l : List α) (d : α) (h : l ≠ []) :
    l.getLastD d = l.getD (l.length - 1) d := by
  have h2 : l.dropLast.length = l.length - 1 := by rw [List.length_dropLast]
  have h3 := getD_append_len l.dropLast (l.getLastD d) ([] : List α) d
  rw [h2] at h3
  rw [dropLast_append_getLastD l d h] at h3
  exact h3.symm

theorem getLastD_concat {α : Type} (X : List α) (e d : α) : (X ++ [e]).getLastD d = e := by
  rw [getLastD_eq_getD_gen (X ++ [e]) d (by simp)]
  have h3 := getD_append_len X e ([] : List α) d
  rw [show (X ++ [e]).length - 1 = X.length from by simp]
  exact h3

theorem getLastD_append_right {α : Type} (A B : List α) (d : α) (h : B ≠ []) :
    (A ++ B).getLastD d = B.getLastD d := by
  conv_lhs => rw [← dropLast_append_getLastD B d h]
  rw [← List.append_assoc, getLastD_concat]

theorem getD_zero_append {α : Type} (A B : List α) (d : α) (h : A ≠ []) :
    (A ++ B).getD 0 d = A.getD 0 d := by
  cases A with
  | nil => exact absurd rfl h
  | cons a A2 => rfl

theorem subtreeMax_ok (cap : Nat) (hcap : 4 ≤ cap) :
    ∀ (fuel h : Nat) (t : BNode), Bal cap t h → h ≤ fuel + 1 →
      1 ≤ t.size → (∀ c ∈ t.children, MinOK cap c) →
      subtreeMax fuel t = (flatten t).getLastD (0, 0) := by
  intro fuel
  induction fuel with
  | zero =>
    intro h t hb hf hsz hmin
    cases hb with
    | leaf es hlen => rw [flatten_leaf]; rfl
    | node es cs h0 hlen hcnt hall =>
      cases cs with
      | nil => simp at hcnt
      | cons c0 cs2 =>
        have h1 := bal_pos cap c0 h0 (hall c0 (by simp))
        omega
  | succ fuel ih =>
    intro h t hb hf hsz hmin
    cases hb with
    | leaf es hlen => rw [flatten_leaf]; rfl
    | node es cs h0 hlen hcnt hall =>
      have hcsne : cs ≠ [] := by
        intro hc
        rw [hc] at hcnt
        simp at hcnt
      have hleaf : (BNode.mk es cs).isLeaf = false := isLeaf_false_of_ne es cs hcsne
      have hstep : subtreeMax (fuel + 1) (.mk es cs) =
          subtreeMax fuel (cs.getLastD nilNode) := by
        rw [subtreeMax, hleaf]
        simp only [Bool.false_eq_true, if_false, children_mk]
      rw [hstep]
      have hgetl : cs.getLastD nilNode = cs.getD es.length nilNode := by
        rw [getLastD_eq_getD_gen cs nilNode hcsne, hcnt]
        simp
      have hclmem : cs.getLastD nilNode ∈ cs := by
        rw [hgetl]
        exact getD_mem_of_lt cs es.length (by omega)
      have hclmin : MinOK cap (cs.getLastD nilNode) := hmin _ (by rw [children_mk]; exact hclmem)
      have hclsz : 1 ≤ (cs.getLastD nilNode).size := by
        have := minOK_size cap _ hclmin
        rw [threshold] at this
        omega
      rw [ih h0 (cs.getLastD nilNode) (hall _ hclmem) (by omega) hclsz
        (minOK_children cap _ hclmin)]
      have hdec := flatten_decomp es cs es.length hcnt (by omega)
      have hdrop : es.drop es.length = [] := by simp
      rw [hdrop, flatTail_nil, List.append_nil] at hdec
      rw [hdec, ← hgetl]
      rw [getLastD_append_right _ _ _ (flatten_ne _ hclsz)]

theorem subtreeMin_ok (cap : Nat) (hcap : 4 ≤ cap) :
    ∀ (fuel h : Nat) (t : BNode), Bal cap t h → h ≤ fuel + 1 →
      1 ≤ t.size → (∀ c ∈ t.children, MinOK cap c) →
      subtreeMin fuel t = (flatten t).getD 0 (0, 0) := by
  intro fuel
  induction fuel with
  | zero =>
    intro h t hb hf hsz hmin
    cases hb with
    | leaf es hlen => rw [flatten_leaf]; rfl
    | node es cs h0 hlen hcnt hall =>
      cases cs with
      | nil => simp at hcnt
      | cons c0 cs2 =>
        have h1 := bal_pos cap c0 h0 (hall c0 (by simp))
        omega
  | succ fuel ih =>
    intro h t hb hf hsz hmin
    cases hb with
    | leaf es hlen => rw [flatten_leaf]; rfl
    | node es cs h0 hlen hcnt hall =>
      have hcsne : cs ≠ [] := by
        intro hc
        rw [hc] at hcnt
        simp at hcnt
      have hleaf : (BNode.mk es cs).isLeaf = false := isLeaf_false_of_ne es cs hcsne
      have hstep : subtreeMin (fuel + 1) (.mk es cs) =
          subtreeMin fuel (cs.getD 0 nilNode) := by
        rw [subtreeMin, hleaf]
        simp only [Bool.false_eq_true, if_false, children_mk]
      rw [hstep]
      have hclmem : cs.getD 0 nilNode ∈ cs := getD_mem_of_lt cs 0 (by omega)
      have hclmin : MinOK cap (cs.getD 0 nilNode) := hmin _ (by rw [children_mk]; exact hclmem)
      have hclsz : 1 ≤ (cs.getD 0 nilNode).size := by
        have := minOK_size cap _ hclmin
        rw [threshold] at this
        omega
      rw [ih h0 (cs.getD 0 nilNode) (hall _ hclmem) (by omega) hclsz
        (minOK_children cap _ hclmin)]
      have hdec := flatten_decomp es cs 0 hcnt (by omega)
      simp only [List.take_zero, flatAux_nil, List.nil_append] at hdec
      rw [hdec]
      rw [getD_zero_append _ _ _ (flatten_ne _ hclsz)]

theorem erase_brackets (es : List (Int × Int)) (cs : List BNode) (key : Int) (I : Nat)
    (hI : I = match lsPred es key with | some p => p + 1 | none => 0)
    (hhit : (match lsPred es key with
      | some p => decide ((es.getD p (0, 0)).1 = key)
      | none => false) = false)
    (hcnt : cs.length = es.length + 1)
    (hs : SortedEnt (flatten (.mk es cs))) :
    I ≤ es.length ∧
    (∀ a ∈ flatAux (es.take I) (cs.take I), a.1 < key) ∧
    (∀ b ∈ flatTail (es.drop I) (cs.drop (I + 1)), key < b.1) := by
  have hse : SortedEnt es :=
    List.Pairwise.sublist (entries_sublist_flatten (.mk es cs)) hs
  cases hr : lsPred es key with
  | none =>
    have hI0 : I = 0 := by rw [hI, hr]
    subst hI0
    have hgt : ∀ e ∈ es, key < e.1 := lsPred_none es key hse hr
    refine ⟨by omega, by simp [flatAux_nil], ?_⟩
    have hd := flatten_decomp es cs 0 hcnt (by omega)
    rw [hd] at hs
    simp only [List.take_zero, flatAux_nil, List.nil_append] at hs
    have hst : SortedEnt (flatTail (es.drop 0) (cs.drop 1)) :=
      sortedEnt_of_append_right hs
    cases hes : es with
    | nil => simp [flatTail_nil]
    | cons e0 es2 =>
      subst hes
      have hst2 : SortedEnt (e0 :: flatAux es2 (cs.drop 1)) := hst
      intro b hb
      exact all_gt_of_sorted_head e0 _ key hst2 (hgt e0 (by simp)) b hb
  | some p =>
    rcases lsPred_some es key p hse hr with ⟨A, e, B, hesp, hAlen, hex, hAe, hB⟩
    have hIp : I = p + 1 := by rw [hI, hr]
    subst hIp
    have hgDp : es.getD p (0, 0) = e := by
      rw [hesp, ← hAlen]
      exact getD_append_len A e B (0, 0)
    have hhit2 : decide ((es.getD p (0, 0)).1 = key) = false := by
      rw [hr] at hhit
      exact hhit
    have hnek : e.1 ≠ key := by
      rw [hgDp] at hhit2
      simpa using hhit2
    have hek : e.1 < key := lt_of_le_of_ne hex hnek
    have hple : p + 1 ≤ es.length := by
      rw [hesp]
      simp only [List.length_append, List.length_cons]
      omega
    have htk : es.take (p + 1) = A ++ [e] := by
      rw [hesp, ← hAlen, take_append_len_succ]
    have hdr : es.drop (p + 1) = B := by
      rw [hesp, ← hAlen, drop_append_len_succ]
    have hcstk : (cs.take (p + 1)).length = A.length + 1 := by
      rw [List.length_take, hAlen]
      omega
    refine ⟨hple, ?_, ?_⟩
    · rw [htk]
      rw [flatAux_append_entry A (cs.take (p + 1)) e hcstk]
      have hd := flatten_decomp es cs (p + 1) hcnt hple
      rw [hd] at hs
      have hsF : SortedEnt (flatAux (es.take (p + 1)) (cs.take (p + 1))) :=
        sortedEnt_of_append_left (sortedEnt_of_append_left hs)
      rw [htk, flatAux_append_entry A (cs.take (p + 1)) e hcstk] at hsF
      exact all_lt_of_sorted_last _ e key hsF hek
    · rw [hdr]
      have hd := flatten_decomp es cs (p + 1) hcnt hple
      rw [hd] at hs
      have hsT : SortedEnt (flatTail (es.drop (p + 1)) (cs.drop (p + 1 + 1))) :=
        sortedEnt_of_append_right hs
      rw [hdr] at hsT
      cases hBc : B with
      | nil => simp [flatTail_nil]
      | cons b0 B2 =>
        rw [hBc] at hsT hB
        rw [flatTail_cons] at hsT ⊢
        exact all_gt_of_sorted_head b0 _ key hsT (hB b0 (by simp))

end Btree


namespace Btree

theorem not_mem_keys_of_lt (F : List (Int × Int)) (k : Int)
    (h : ∀ a ∈ F, a.1 < k) : k ∉ lsKeys F := by
  intro hc
  rcases mem_lsKeys.mp hc with ⟨v, hv⟩
  have := h _ hv
  simp at this

theorem not_mem_keys_of_gt (T : List (Int × Int)) (k : Int)
    (h : ∀ b ∈ T, k < b.1) : k ∉ lsKeys T := by
  intro hc
  rcases mem_lsKeys.mp hc with ⟨v, hv⟩
  have := h _ hv
  simp at this

theorem child_sorted (es : List (Int × Int)) (cs : List BNode) (I : Nat)
    (hcnt : cs.length = es.length + 1) (hIle : I ≤ es.length)
    (hs : SortedEnt (flatten (.mk es cs))) :
    SortedEnt (flatten (cs.getD I nilNode)) := by
  rw [flatten_decomp es cs I hcnt hIle] at hs
  exact sortedEnt_of_append_right (sortedEnt_of_append_left hs)

theorem erase_descend (cap : Nat) (hcap : 4 ≤ cap) (hev : cap % 2 = 0) (fuel : Nat)
    (ih : ∀ (h : Nat) (t : BNode) (key : Int),
      Bal cap t h → h ≤ fuel → SortedEnt (flatten t) →
      (∀ c ∈ t.children, MinOK cap c) → 1 ≤ t.size →
      ((nErase cap fuel t key).1 = true ↔ key ∈ lsKeys (flatten t)) ∧
      flatten (nErase cap fuel t key).2 = lsEraseK (flatten t) key ∧
      Bal cap (nErase cap fuel t key).2 h ∧
      t.size - 1 ≤ (nErase cap fuel t key).2.size ∧
      (∀ c ∈ (nErase cap fuel t key).2.children, MinOK cap c))
    (es : List (Int × Int)) (cs : List BNode) (key : Int) (h0 I : Nat)
    (hcnt : cs.length = es.length + 1) (hIle : I ≤ es.length)
    (hesle : es.length ≤ cap)
    (hall : ∀ c ∈ cs, Bal cap c h0) (hf : h0 ≤ fuel)
    (hs : SortedEnt (flatten (.mk es cs)))
    (hmin : ∀ c ∈ cs, MinOK cap c)
    (hbrF : ∀ a ∈ flatAux (es.take I) (cs.take I), a.1 < key)
    (hbrT : ∀ b ∈ flatTail (es.drop I) (cs.drop (I + 1)), key < b.1)
    (hth : threshold cap ≤ (cs.getD I nilNode).size) :
    ((nErase cap fuel (cs.getD I nilNode) key).1 = true ↔
      key ∈ lsKeys (flatten (.mk es cs))) ∧
    flatten (.mk es (cs.set I (nErase cap fuel (cs.getD I nilNode) key).2)) =
      lsEraseK (flatten (.mk es cs)) key ∧
    Bal cap (.mk es (cs.set I (nErase cap fuel (cs.getD I nilNode) key).2)) (h0 + 1) ∧
    (∀ c ∈ cs.set I (nErase cap fuel (cs.getD I nilNode) key).2, MinOK cap c) := by
  have hIcs : I < cs.length := by omega
  have hcmem : cs.getD I nilNode ∈ cs := getD_mem_of_lt cs I hIcs
  have hcb : Bal cap (cs.getD I nilNode) h0 := hall _ hcmem
  have hcsort := child_sorted es cs I hcnt hIle hs
  have hcsz : 1 ≤ (cs.getD I nilNode).size := by
    rw [threshold] at hth
    omega
  obtain ⟨ihr, ihflat, ihbal, ihsz, ihminc⟩ := ih h0 (cs.getD I nilNode) key hcb hf hcsort
    (minOK_children cap _ (hmin _ hcmem)) hcsz
  have hdec := flatten_decomp es cs I hcnt hIle
  have hnF : key ∉ lsKeys (flatAux (es.take I) (cs.take I)) := not_mem_keys_of_lt _ _ hbrF
  have hnT : key ∉ lsKeys (flatTail (es.drop I) (cs.drop (I + 1))) := not_mem_keys_of_gt _ _ hbrT
  refine ⟨?_, ?_, ?_, ?_⟩
  · rw [hdec]
    rw [keys_mid_iff _ _ _ key hbrF hbrT]
    exact ihr
  · rw [flatten_set es cs I _ hcnt hIle, ihflat, hdec]
    rw [lsEraseK_concat_mid _ _ _ key hnF hnT]
  · refine Bal.node es _ h0 hesle (by
      rw [List.length_set]
      omega) ?_
    intro c hc
    rcases List.mem_or_eq_of_mem_set hc with hc | hc
    · exact hall c hc
    · rw [hc]
      exact ihbal
  · intro c hc
    rcases List.mem_or_eq_of_mem_set hc with hc | hc
    · exact hmin c hc
    · rw [hc]
      refine minOK_of_parts cap _ ?_ ihminc
      calc threshold cap - 1 ≤ (cs.getD I nilNode).size - 1 := by omega
        _ ≤ _ := ihsz

end Btree

namespace Btree

theorem take_succ_getD {α : Type} : ∀ (l : List α) (n : Nat) (d : α), n < l.length →
    l.take (n + 1) = l.take n ++ [l.getD n d]
  | [], _, _, h => by simp at h
  | _ :: _, 0, _, _ => rfl
  | a :: r, n + 1, d, h => by
    have ih := take_succ_getD r n d (by simpa using h)
    simp only [List.take_succ_cons, ih, List.cons_append, List.getD_cons_succ]

end Btree


namespace Btree

theorem bal_one_leaf (cap : Nat) (t : BNode) (hb : Bal cap t 1) : t.children = [] := by
  cases hb with
  | leaf es hlen => rfl
  | node es cs h hlen hcnt hall =>
    exfalso
    cases cs with
    | nil => simp at hcnt
    | cons c0 cs2 =>
      have h1 := bal_pos cap c0 0 (hall c0 (by simp))
      omega

theorem bal_nil_children (cap : Nat) (t : BNode) (h : Nat) (hb : Bal cap t h)
    (hc : t.children = []) : h = 1 := by
  cases hb with
  | leaf es hlen => rfl
  | node es cs h hlen hcnt hall =>
    rw [children_mk] at hc
    rw [hc] at hcnt
    simp at hcnt

theorem cs_decomp2 (cs : List BNode) (p : Nat) (h : p + 1 < cs.length) :
    cs = cs.take p ++ cs.getD p nilNode :: cs.getD (p + 1) nilNode :: cs.drop (p + 2) := by
  conv_lhs => rw [← List.take_append_drop p cs]
  congr 1
  rw [drop_eq_getD_cons_node cs p (by omega)]
  congr 1
  exact drop_eq_getD_cons_node cs (p + 1) h

end Btree

namespace Btree

theorem erase_hit_merge (cap : Nat) (hcap : 4 ≤ cap) (hev : cap % 2 = 0) (fuel : Nat)
    (ih : ∀ (h : Nat) (t : BNode) (key : Int),
      Bal cap t h → h ≤ fuel → SortedEnt (flatten t) →
      (∀ c ∈ t.children, MinOK cap c) → 1 ≤ t.size →
      ((nErase cap fuel t key).1 = true ↔ key ∈ lsKeys (flatten t)) ∧
      flatten (nErase cap fuel t key).2 = lsEraseK (flatten t) key ∧
      Bal cap (nErase cap fuel t key).2 h ∧
      t.size - 1 ≤ (nErase cap fuel t key).2.size ∧
      (∀ c ∈ (nErase cap fuel t key).2.children, MinOK cap c))
    (es : List (Int × Int)) (cs : List BNode) (key : Int) (h0 p : Nat)
    (y z : BNode) (hy : y = cs.getD p nilNode) (hz : z = cs.getD (p + 1) nilNode)
    (hcnt : cs.length = es.length + 1)
    (hesle : es.length ≤ cap)
    (hall : ∀ c ∈ cs, Bal cap c h0) (hf : h0 ≤ fuel)
    (hs : SortedEnt (flatten (.mk es cs)))
    (hmin : ∀ c ∈ cs, MinOK cap c)
    (hple : p < es.length)
    (hkey : (es.getD p (0, 0)).1 = key)
    (hthy : y.size < threshold cap)
    (hthz : z.size < threshold cap) :
    flatten (.mk (lsEraseK es key)
      ((cs.set p (nErase cap fuel
        (BNode.mk (insEntries (lsInsert y.entries key (lsEraseV es key)) z.entries)
          (if z.isLeaf then y.children else y.children ++ z.children)) key).2).eraseIdx
        (p + 1))) = lsEraseK (flatten (.mk es cs)) key ∧
    Bal cap (.mk (lsEraseK es key)
      ((cs.set p (nErase cap fuel
        (BNode.mk (insEntries (lsInsert y.entries key (lsEraseV es key)) z.entries)
          (if z.isLeaf then y.children else y.children ++ z.children)) key).2).eraseIdx
        (p + 1))) (h0 + 1) ∧
    (lsEraseK es key).length + 1 = es.length ∧
    (∀ c ∈ (cs.set p (nErase cap fuel
        (BNode.mk (insEntries (lsInsert y.entries key (lsEraseV es key)) z.entries)
          (if z.isLeaf then y.children else y.children ++ z.children)) key).2).eraseIdx
        (p + 1), MinOK cap c) := by
  have hpcs : p + 1 < cs.length := by omega
  have hymem : y ∈ cs := by
    rw [hy]
    exact getD_mem_of_lt cs p (by omega)
  have hzmem : z ∈ cs := by
    rw [hz]
    exact getD_mem_of_lt cs (p + 1) hpcs
  have hyb : Bal cap y h0 := hall _ hymem
  have hzb : Bal cap z h0 := hall _ hzmem
  have hymin : MinOK cap y := hmin _ hymem
  have hzmin : MinOK cap z := hmin _ hzmem
  have hysz : y.size = threshold cap - 1 := by
    have := minOK_size cap y hymin
    omega
  have hzsz : z.size = threshold cap - 1 := by
    have := minOK_size cap z hzmin
    omega
  have hysort : SortedEnt (flatten y) := by
    rw [hy]
    exact child_sorted es cs p hcnt (by omega) hs
  have hzsort : SortedEnt (flatten z) := by
    rw [hz]
    exact child_sorted es cs (p + 1) hcnt (by omega) hs
  have hdec2 := flatten_decomp2 es cs p hcnt hple
  rw [← hy, ← hz] at hdec2
  have hs2 : SortedEnt (flatAux (es.take p) (cs.take p) ++ flatten y ++
      es.getD p (0, 0) :: (flatten z ++
        flatTail (es.drop (p + 1)) (cs.drop (p + 2)))) := by
    rw [← hdec2]
    exact hs
  have hltE : ∀ a ∈ flatAux (es.take p) (cs.take p) ++ flatten y, a.1 < key := by
    intro a ha
    rw [← hkey]
    exact sortedEnt_cross hs2 a ha _ (by simp)
  have hgtE : ∀ b ∈ flatten z ++
      flatTail (es.drop (p + 1)) (cs.drop (p + 2)), key < b.1 := by
    have h1 := sortedEnt_of_append_right hs2
    rw [SortedEnt, List.pairwise_cons] at h1
    intro b hb
    rw [← hkey]
    exact h1.1 b hb
  have hesdec : es = es.take p ++ es.getD p (0, 0) :: es.drop (p + 1) :=
    take_getD_drop es p hple
  have hAlen : (es.take p).length = p := by
    rw [List.length_take]
    omega
  have hAcs : (cs.take p).length = p := by
    rw [List.length_take]
    omega
  have hAkeys : ∀ a ∈ es.take p, a.1 < key := by
    intro a ha
    exact hltE a (List.mem_append.mpr (Or.inl
      ((entries_sublist_flatAux (cs.take p) (es.take p)).subset ha)))
  have hE : es.getD p (0, 0) = (key, (es.getD p (0, 0)).2) := by
    rw [← hkey]
  have herase : lsEraseK es key = es.take p ++ es.drop (p + 1) ∧
      lsEraseV es key = (es.getD p (0, 0)).2 := by
    have h1 := lsEraseK_middle (es.take p) (es.drop (p + 1)) key
      (es.getD p (0, 0)).2 (not_mem_keys_of_lt _ _ hAkeys)
    constructor
    · conv_lhs => rw [hesdec, hE]
      exact h1.1
    · conv_lhs => rw [hesdec, hE]
      exact h1.2
  have heraselen : (lsEraseK es key).length + 1 = es.length := by
    rw [herase.1]
    conv_rhs => rw [hesdec]
    simp only [List.length_append, List.length_cons]
    omega
  -- the merged entry array
  have hykeys : ∀ a ∈ y.entries, a.1 < key := by
    intro a ha
    exact hltE a (List.mem_append.mpr (Or.inr ((entries_sublist_flatten y).subset ha)))
  have hzkeys : ∀ b ∈ z.entries, key < b.1 := by
    intro b hb
    exact hgtE b (List.mem_append.mpr (Or.inl ((entries_sublist_flatten z).subset hb)))
  have hins : lsInsert y.entries key (lsEraseV es key) =
      y.entries ++ [es.getD p (0, 0)] := by
    rw [herase.2]
    have h1 := lsInsert_split y.entries [] key (es.getD p (0, 0)).2 hykeys (by simp)
    rw [← hE] at h1
    simpa using h1
  have hmerged : insEntries (lsInsert y.entries key (lsEraseV es key)) z.entries =
      (y.entries ++ [es.getD p (0, 0)]) ++ z.entries := by
    rw [hins]
    refine insEntries_sorted_append _ _ ?_ ?_
    · intro a ha b hb
      rcases List.mem_append.mp ha with ha | ha
      · exact lt_trans (hykeys a ha) (hzkeys b hb)
      · rw [List.mem_singleton] at ha
        rw [ha, hkey]
        exact hzkeys b hb
    · exact List.Pairwise.sublist (entries_sublist_flatten z) hzsort
  have hchild : (if z.isLeaf then y.children else y.children ++ z.children) =
      y.children ++ z.children := by
    by_cases hzl : z.isLeaf = true
    · rw [if_pos hzl]
      rw [isLeaf_iff] at hzl
      rw [hzl, List.append_nil]
    · rw [if_neg (by simpa using hzl)]
  -- flattening of the merged node
  have hymflat : flatten (BNode.mk (insEntries (lsInsert y.entries key (lsEraseV es key))
      z.entries) (if z.isLeaf then y.children else y.children ++ z.children)) =
      flatten y ++ es.getD p (0, 0) :: flatten z := by
    rw [hmerged, hchild, flatten_mk]
    rcases bal_shape cap y h0 hyb with hyc | hyc
    · have h01 : h0 = 1 := bal_nil_children cap y h0 hyb hyc
      have hzc : z.children = [] := bal_one_leaf cap z (h01 ▸ hzb)
      rw [hyc, hzc]
      simp only [List.append_nil, flatAux_nil]
      rw [flatten_eta y, flatten_eta z, hyc, hzc, flatAux_nil, flatAux_nil]
      simp
    · rw [flatAux_merge y.entries z.entries y.children z.children (es.getD p (0, 0)) hyc]
      rw [flatAux_append_entry y.entries y.children (es.getD p (0, 0)) hyc]
      rw [← flatten_eta y, ← flatten_eta z]
      simp
  -- balance of the merged node
  have h0pos : 1 ≤ h0 := bal_pos cap y h0 hyb
  have hymsize : (insEntries (lsInsert y.entries key (lsEraseV es key)) z.entries).length =
      cap - 1 := by
    rw [hmerged]
    have h1 : y.entries.length = threshold cap - 1 := hysz
    have h2 : z.entries.length = threshold cap - 1 := hzsz
    simp only [List.length_append, List.length_cons, List.length_nil, h1, h2]
    rw [threshold]
    omega
  have hymbal : Bal cap (BNode.mk (insEntries (lsInsert y.entries key (lsEraseV es key))
      z.entries) (if z.isLeaf then y.children else y.children ++ z.children)) h0 := by
    rw [hchild]
    rcases bal_shape cap y h0 hyb with hyc | hyc
    · have h01 : h0 = 1 := bal_nil_children cap y h0 hyb hyc
      have hzc : z.children = [] := bal_one_leaf cap z (h01 ▸ hzb)
      rw [hyc, hzc, h01]
      exact Bal.leaf _ (by rw [hymsize]; omega)
    · have hzc : z.children.length = z.entries.length + 1 := by
        rcases bal_shape cap z h0 hzb with hzc | hzc
        · have h01 : h0 = 1 := bal_nil_children cap z h0 hzb hzc
          rw [h01] at hyb
          have := bal_one_leaf cap y hyb
          rw [this] at hyc
          simp at hyc
        · exact hzc
      have hrw : h0 = (h0 - 1) + 1 := by omega
      rw [hrw]
      refine Bal.node _ _ (h0 - 1) (by rw [hymsize]; omega) (by
        rw [hymsize]
        simp only [List.length_append, hyc, hzc]
        have h1 : y.entries.length = threshold cap - 1 := hysz
        have h2 : z.entries.length = threshold cap - 1 := hzsz
        rw [h1, h2, threshold]
        omega) ?_
      intro c hc
      rcases List.mem_append.mp hc with hc | hc
      · exact bal_child_any cap y h0 hyb c hc
      · exact bal_child_any cap z h0 hzb c hc
  -- sortedness, membership and occupancy of the merged node
  have hresh : flatAux (es.take p) (cs.take p) ++ flatten y ++
      es.getD p (0, 0) :: (flatten z ++ flatTail (es.drop (p + 1)) (cs.drop (p + 2))) =
      flatAux (es.take p) (cs.take p) ++ ((flatten y ++ es.getD p (0, 0) :: flatten z) ++
        flatTail (es.drop (p + 1)) (cs.drop (p + 2))) := by
    simp [List.append_assoc]
  have hymsort : SortedEnt (flatten (BNode.mk (insEntries (lsInsert y.entries key
      (lsEraseV es key)) z.entries)
      (if z.isLeaf then y.children else y.children ++ z.children))) := by
    rw [hymflat]
    have h2 := hs2
    rw [hresh] at h2
    exact sortedEnt_of_append_left (sortedEnt_of_append_right h2)
  have hymmin : ∀ c ∈ (BNode.mk (insEntries (lsInsert y.entries key (lsEraseV es key))
      z.entries) (if z.isLeaf then y.children else y.children ++ z.children)).children,
      MinOK cap c := by
    rw [children_mk, hchild]
    intro c hc
    rcases List.mem_append.mp hc with hc | hc
    · exact minOK_children cap y hymin c hc
    · exact minOK_children cap z hzmin c hc
  have hymsz1 : 1 ≤ (BNode.mk (insEntries (lsInsert y.entries key (lsEraseV es key))
      z.entries) (if z.isLeaf then y.children else y.children ++ z.children)).size := by
    rw [size_mk, hymsize]
    omega
  have hykeys2 : ∀ a ∈ flatten y, a.1 < key := by
    intro a ha
    exact hltE a (List.mem_append.mpr (Or.inr ha))
  obtain ⟨ihr, ihflat, ihbal, ihsz, ihminc⟩ := ih h0 _ key hymbal hf hymsort hymmin hymsz1
  have hym2flat : flatten (nErase cap fuel (BNode.mk (insEntries (lsInsert y.entries key
      (lsEraseV es key)) z.entries)
      (if z.isLeaf then y.children else y.children ++ z.children)) key).2 =
      flatten y ++ flatten z := by
    rw [ihflat, hymflat]
    rw [lsEraseK_append _ _ key (not_mem_keys_of_lt _ _ hykeys2)]
    exact congrArg _ (lsEraseK_cons_self _ _ key hkey)
  -- the rebuilt child array
  have hcsd := cs_decomp2 cs p hpcs
  rw [← hy, ← hz] at hcsd
  have hsetcs : cs.set p (nErase cap fuel (BNode.mk (insEntries (lsInsert y.entries key
        (lsEraseV es key)) z.entries)
        (if z.isLeaf then y.children else y.children ++ z.children)) key).2 =
      cs.take p ++ (nErase cap fuel (BNode.mk (insEntries (lsInsert y.entries key
        (lsEraseV es key)) z.entries)
        (if z.isLeaf then y.children else y.children ++ z.children)) key).2 ::
        z :: cs.drop (p + 2) := by
    conv_lhs => rw [hcsd]
    have h := set_append_len (cs.take p) y (z :: cs.drop (p + 2))
      (nErase cap fuel (BNode.mk (insEntries (lsInsert y.entries key
        (lsEraseV es key)) z.entries)
        (if z.isLeaf then y.children else y.children ++ z.children)) key).2
    rwa [hAcs] at h
  have herasecs : (cs.set p (nErase cap fuel (BNode.mk (insEntries (lsInsert y.entries key
        (lsEraseV es key)) z.entries)
        (if z.isLeaf then y.children else y.children ++ z.children)) key).2).eraseIdx
        (p + 1) =
      cs.take p ++ (nErase cap fuel (BNode.mk (insEntries (lsInsert y.entries key
        (lsEraseV es key)) z.entries)
        (if z.isLeaf then y.children else y.children ++ z.children)) key).2 ::
        cs.drop (p + 2) := by
    rw [hsetcs]
    have h := eraseIdx_append_len_succ (cs.take p)
      (nErase cap fuel (BNode.mk (insEntries (lsInsert y.entries key
        (lsEraseV es key)) z.entries)
        (if z.isLeaf then y.children else y.children ++ z.children)) key).2 z
      (cs.drop (p + 2))
    rwa [hAcs] at h
  have hcond : es.drop (p + 1) = [] → cs.drop (p + 2) = [] := by
    intro hEnil
    have h1 := List.length_drop (p + 1) es
    rw [hEnil] at h1
    simp only [List.length_nil] at h1
    refine List.eq_nil_of_length_eq_zero ?_
    rw [List.length_drop]
    omega
  refine ⟨?_, ?_, heraselen, ?_⟩
  · rw [herasecs, flatten_mk]
    conv_lhs => rw [herase.1]
    rw [flatAux_append (es.take p) (cs.take p) (es.drop (p + 1)) _ (by rw [hAlen, hAcs])]
    rw [flatAux_cons_eq (es.drop (p + 1)) _ (cs.drop (p + 2)) hcond]
    rw [hym2flat]
    rw [hdec2]
    rw [lsEraseK_append _ _ key (not_mem_keys_of_lt _ _ hltE)]
    rw [lsEraseK_cons_self _ _ key hkey]
    simp [List.append_assoc]
  · rw [herasecs]
    refine Bal.node _ _ h0 (by omega) (by
      simp only [List.length_append, List.length_cons, hAcs, List.length_drop]
      omega) ?_
    intro c hc
    rcases List.mem_append.mp hc with hc | hc
    · exact hall c (List.mem_of_mem_take hc)
    · rcases List.mem_cons.mp hc with rfl | hc
      · exact ihbal
      · exact hall c (List.mem_of_mem_drop hc)
  · intro c hc
    rw [herasecs] at hc
    rcases List.mem_append.mp hc with hc | hc
    · exact hmin c (List.mem_of_mem_take hc)
    · rcases List.mem_cons.mp hc with rfl | hc
      · refine minOK_of_parts cap _ ?_ ihminc
        have h1 : (BNode.mk (insEntries (lsInsert y.entries key (lsEraseV es key))
            z.entries)
            (if z.isLeaf then y.children else y.children ++ z.children)).size = cap - 1 := by
          rw [size_mk, hymsize]
        rw [h1] at ihsz
        rw [threshold] at *
        omega
      · exact hmin c (List.mem_of_mem_drop hc)

end Btree

namespace Btree

theorem key_mem_of_hit (es : List (Int × Int)) (cs : List BNode) (p : Nat) (key : Int)
    (hple : p < es.length) (hkey : (es.getD p (0, 0)).1 = key) :
    key ∈ lsKeys (flatten (.mk es cs)) := by
  refine mem_lsKeys.mpr ⟨(es.getD p (0, 0)).2, ?_⟩
  have hmem : es.getD p (0, 0) ∈ es := getD_mem_of_lt_ent es p hple
  have h2 : ((key, (es.getD p (0, 0)).2) : Int × Int) = es.getD p (0, 0) := by rw [← hkey]
  rw [h2]
  exact (entries_sublist_flatten (.mk es cs)).subset hmem

theorem node_last_decomp (cap : Nat) (L : BNode) (h0 : Nat) (hb : Bal cap L h0)
    (hsz : 1 ≤ L.size) (hsort : SortedEnt (flatten L)) :
    L.entries = L.entries.dropLast ++ [L.entries.getLastD (0, 0)] ∧
    lsEraseK L.entries (L.entries.getLastD (0, 0)).1 = L.entries.dropLast ∧
    flatten L = flatAux L.entries.dropLast L.children.dropLast ++
      L.entries.getLastD (0, 0) ::
        flatAux [] (if L.isLeaf then [] else [L.children.getLastD nilNode]) := by
  have hene : L.entries ≠ [] := by
    intro hc
    rw [BNode.size, hc] at hsz
    simp at hsz
  have hsorte : SortedEnt L.entries :=
    List.Pairwise.sublist (entries_sublist_flatten L) hsort
  have hdecE : L.entries = L.entries.dropLast ++ [L.entries.getLastD (0, 0)] :=
    (dropLast_append_getLastD L.entries (0, 0) hene).symm
  have hllnd : (L.entries.getLastD (0, 0)).1 ∉ lsKeys L.entries.dropLast := by
    refine not_mem_keys_of_lt _ _ ?_
    intro a ha
    have hs1 : SortedEnt (L.entries.dropLast ++ [L.entries.getLastD (0, 0)]) := by
      rw [← hdecE]
      exact hsorte
    exact sortedEnt_cross hs1 a ha _ (by simp)
  have herased : lsEraseK L.entries (L.entries.getLastD (0, 0)).1 =
      L.entries.dropLast := by
    have h1 := lsEraseK_concat_self L.entries.dropLast (L.entries.getLastD (0, 0)) hllnd
    rw [← hdecE] at h1
    exact h1
  refine ⟨hdecE, herased, ?_⟩
  rcases bal_shape cap L h0 hb with hlc | hlc
  · have hleaf : L.isLeaf = true := by
      rw [isLeaf_iff]
      exact hlc
    rw [if_pos hleaf]
    rw [flatten_eta L, hlc]
    simp only [List.dropLast_nil, flatAux_nil]
    simpa using hdecE
  · have hcne : L.children ≠ [] := by
      intro hc
      rw [hc] at hlc
      simp at hlc
    have hleaf : L.isLeaf = false := by
      cases hLc : L.children with
      | nil => exact absurd hLc hcne
      | cons a b =>
        rw [BNode.isLeaf, hLc]
        rfl
    rw [hleaf]
    simp only [Bool.false_eq_true, if_false]
    have hdecC : L.children = L.children.dropLast ++ [L.children.getLastD nilNode] :=
      (dropLast_append_getLastD L.children nilNode hcne).symm
    have hlen2 : L.children.dropLast.length = L.entries.dropLast.length + 1 := by
      rw [List.length_dropLast, List.length_dropLast, hlc]
      have : 1 ≤ L.entries.length := by
        rw [BNode.size] at hsz
        omega
      omega
    conv_lhs => rw [flatten_eta L, hdecE, hdecC]
    rw [show L.entries.dropLast ++ [L.entries.getLastD (0, 0)] =
      (L.entries.dropLast ++ [L.entries.getLastD (0, 0)]) ++ [] from by simp]
    rw [flatAux_append (L.entries.dropLast ++ [L.entries.getLastD (0, 0)])
      L.children.dropLast [] [L.children.getLastD nilNode] (by simp [hlen2])]
    rw [flatAux_append_entry L.entries.dropLast L.children.dropLast _ hlen2]
    simp

end Btree

namespace Btree

theorem node_head_decomp (cap : Nat) (R : BNode) (h0 : Nat) (hb : Bal cap R h0)
    (hsz : 1 ≤ R.size) :
    R.entries = R.entries.getD 0 (0, 0) :: R.entries.drop 1 ∧
    lsEraseK R.entries (R.entries.getD 0 (0, 0)).1 = R.entries.drop 1 ∧
    flatten R = flatAux [] (if R.isLeaf then [] else [R.children.getD 0 nilNode]) ++
      R.entries.getD 0 (0, 0) :: flatAux (R.entries.drop 1) (R.children.drop 1) := by
  have hene : 0 < R.entries.length := by
    rw [BNode.size] at hsz
    omega
  have hdecE : R.entries = R.entries.getD 0 (0, 0) :: R.entries.drop 1 := by
    have h1 := drop_eq_getD_cons_ent R.entries 0 hene
    rw [List.drop_zero] at h1
    exact h1
  have herased : lsEraseK R.entries (R.entries.getD 0 (0, 0)).1 = R.entries.drop 1 := by
    have h1 := lsEraseK_cons_self (R.entries.getD 0 (0, 0)) (R.entries.drop 1)
      (R.entries.getD 0 (0, 0)).1 rfl
    rw [← hdecE] at h1
    exact h1
  refine ⟨hdecE, herased, ?_⟩
  rcases bal_shape cap R h0 hb with hrc | hrc
  · have hleaf : R.isLeaf = true := by
      rw [isLeaf_iff]
      exact hrc
    rw [if_pos hleaf]
    rw [flatten_eta R, hrc]
    simp only [List.drop_nil, flatAux_nil]
    simpa using hdecE
  · have hcne : R.children ≠ [] := by
      intro hc
      rw [hc] at hrc
      simp at hrc
    have hleaf : R.isLeaf = false := by
      cases hRc : R.children with
      | nil => exact absurd hRc hcne
      | cons a b =>
        rw [BNode.isLeaf, hRc]
        rfl
    rw [hleaf]
    simp only [Bool.false_eq_true, if_false]
    have hc0 : 0 < R.children.length := by
      cases hRc : R.children with
      | nil => exact absurd hRc hcne
      | cons a b => simp
    have hdecC : R.children = R.children.getD 0 nilNode :: R.children.drop 1 := by
      have h1 := drop_eq_getD_cons_node R.children 0 hc0
      rw [List.drop_zero] at h1
      exact h1
    conv_lhs => rw [flatten_eta R, hdecE, hdecC]
    rw [flatAux_cons_cons]
    rw [flatAux_nil_cons, flatAux_nil]
    simp

end Btree


namespace Btree

theorem mem_getLastD_of_ne {α : Type} (l : List α) (d : α) (h : l ≠ []) :
    l.getLastD d ∈ l := by
  have h1 := dropLast_append_getLastD l d h
  nth_rewrite 1 [← h1]
  exact List.mem_append.mpr (Or.inr (List.mem_singleton.mpr rfl))

theorem erase_borrow_left (cap : Nat) (hcap : 4 ≤ cap) (hev : cap % 2 = 0) (fuel : Nat)
    (ih : ∀ (h : Nat) (t : BNode) (key : Int),
      Bal cap t h → h ≤ fuel → SortedEnt (flatten t) →
      (∀ c ∈ t.children, MinOK cap c) → 1 ≤ t.size →
      ((nErase cap fuel t key).1 = true ↔ key ∈ lsKeys (flatten t)) ∧
      flatten (nErase cap fuel t key).2 = lsEraseK (flatten t) key ∧
      Bal cap (nErase cap fuel t key).2 h ∧
      t.size - 1 ≤ (nErase cap fuel t key).2.size ∧
      (∀ c ∈ (nErase cap fuel t key).2.children, MinOK cap c))
    (es : List (Int × Int)) (cs : List BNode) (key : Int) (h0 p : Nat)
    (L c : BNode) (hL : L = cs.getD p nilNode) (hc : c = cs.getD (p + 1) nilNode)
    (C2 : BNode) (hC2 : C2 = BNode.mk
      (lsInsert c.entries (es.getD p (0, 0)).1 (lsEraseV es (es.getD p (0, 0)).1))
      (if L.isLeaf then c.children else L.children.getLastD nilNode :: c.children))
    (L2 : BNode) (hL2 : L2 = BNode.mk
      (lsEraseK L.entries (L.entries.getLastD (0, 0)).1)
      (if L.isLeaf then L.children else L.children.dropLast))
    (ES3 : List (Int × Int)) (hES3 : ES3 = lsInsert (lsEraseK es (es.getD p (0, 0)).1)
      (L.entries.getLastD (0, 0)).1 (L.entries.getLastD (0, 0)).2)
    (hcnt : cs.length = es.length + 1)
    (hesle : es.length ≤ cap)
    (hall : ∀ c ∈ cs, Bal cap c h0) (hf : h0 ≤ fuel)
    (hs : SortedEnt (flatten (.mk es cs)))
    (hmin : ∀ c ∈ cs, MinOK cap c)
    (hIle : p + 1 ≤ es.length)
    (hbrF : ∀ a ∈ flatAux (es.take (p + 1)) (cs.take (p + 1)), a.1 < key)
    (hbrT : ∀ b ∈ flatTail (es.drop (p + 1)) (cs.drop (p + 2)), key < b.1)
    (hthL : threshold cap ≤ L.size)
    (hthc : c.size < threshold cap) :
    ((nErase cap fuel C2 key).1 = true ↔ key ∈ lsKeys (flatten (.mk es cs))) ∧
    flatten (.mk ES3 ((cs.set p L2).set (p + 1) (nErase cap fuel C2 key).2)) =
      lsEraseK (flatten (.mk es cs)) key ∧
    Bal cap (.mk ES3 ((cs.set p L2).set (p + 1) (nErase cap fuel C2 key).2)) (h0 + 1) ∧
    ES3.length = es.length ∧
    (∀ c ∈ (cs.set p L2).set (p + 1) (nErase cap fuel C2 key).2, MinOK cap c) := by
  have hpes : p < es.length := by omega
  have hpcs : p + 1 < cs.length := by omega
  have hLmem : L ∈ cs := by
    rw [hL]
    exact getD_mem_of_lt cs p (by omega)
  have hcmem : c ∈ cs := by
    rw [hc]
    exact getD_mem_of_lt cs (p + 1) hpcs
  have hLb : Bal cap L h0 := hall _ hLmem
  have hcb : Bal cap c h0 := hall _ hcmem
  have hLmin : MinOK cap L := hmin _ hLmem
  have hcmin : MinOK cap c := hmin _ hcmem
  have hLsort : SortedEnt (flatten L) := by
    rw [hL]
    exact child_sorted es cs p hcnt (by omega) hs
  have hcsort0 : SortedEnt (flatten c) := by
    rw [hc]
    exact child_sorted es cs (p + 1) hcnt (by omega) hs
  have hLsz : 1 ≤ L.size := by
    rw [threshold] at hthL
    omega
  have hdec2 := flatten_decomp2 es cs p hcnt hpes
  rw [← hL, ← hc] at hdec2
  have hs2 : SortedEnt (flatAux (es.take p) (cs.take p) ++ flatten L ++
      es.getD p (0, 0) :: (flatten c ++
        flatTail (es.drop (p + 1)) (cs.drop (p + 2)))) := by
    rw [← hdec2]
    exact hs
  -- the prefix up to and including the separator is below the key
  have htkE : es.take (p + 1) = es.take p ++ [es.getD p (0, 0)] :=
    take_succ_getD es p (0, 0) hpes
  have htkC : cs.take (p + 1) = cs.take p ++ [L] := by
    rw [hL]
    exact take_succ_getD cs p nilNode (by omega)
  have hAlen : (es.take p).length = p := by
    rw [List.length_take]
    omega
  have hAcs : (cs.take p).length = p := by
    rw [List.length_take]
    omega
  have hbrF2 : ∀ a ∈ flatAux (es.take p) (cs.take p) ++ (flatten L ++ [es.getD p (0, 0)]),
      a.1 < key := by
    intro a ha
    refine hbrF a ?_
    rw [htkE, htkC]
    rw [flatAux_append (es.take p) (cs.take p) [es.getD p (0, 0)] [L] (by rw [hAlen, hAcs])]
    rw [flatAux_cons_cons, flatAux_nil]
    simpa using ha
  have hsplk : (es.getD p (0, 0)).1 < key :=
    hbrF2 _ (List.mem_append.mpr (Or.inr (List.mem_append.mpr (Or.inr (by simp)))))
  have hcgt : ∀ b ∈ flatten c ++ flatTail (es.drop (p + 1)) (cs.drop (p + 2)),
      (es.getD p (0, 0)).1 < b.1 := by
    have h1 := sortedEnt_of_append_right hs2
    rw [SortedEnt, List.pairwise_cons] at h1
    exact h1.1
  -- decomposition of the left sibling
  obtain ⟨hLdecE, hLerase, hLflat⟩ := node_last_decomp cap L h0 hLb hLsz hLsort
  have hllmem : L.entries.getLastD (0, 0) ∈ flatten L := by
    refine (entries_sublist_flatten L).subset ?_
    rw [hLdecE]
    simp
  have hllk : (L.entries.getLastD (0, 0)).1 < key :=
    hbrF2 _ (List.mem_append.mpr (Or.inr (List.mem_append.mpr (Or.inl hllmem))))
  -- the entry array of the parent
  have hesdec : es = es.take p ++ es.getD p (0, 0) :: es.drop (p + 1) :=
    take_getD_drop es p hpes
  have hEeta : es.getD p (0, 0) = ((es.getD p (0, 0)).1, (es.getD p (0, 0)).2) := rfl
  have hAspl : ∀ a ∈ es.take p, a.1 < (es.getD p (0, 0)).1 := by
    intro a ha
    have haF : a ∈ flatAux (es.take p) (cs.take p) :=
      (entries_sublist_flatAux (cs.take p) (es.take p)).subset ha
    exact sortedEnt_cross hs2 a (List.mem_append.mpr (Or.inl haF)) _ (by simp)
  have herase3 : lsEraseK es (es.getD p (0, 0)).1 = es.take p ++ es.drop (p + 1) ∧
      lsEraseV es (es.getD p (0, 0)).1 = (es.getD p (0, 0)).2 := by
    have h1 := lsEraseK_middle (es.take p) (es.drop (p + 1)) (es.getD p (0, 0)).1
      (es.getD p (0, 0)).2 (not_mem_keys_of_lt _ _ hAspl)
    rw [← hEeta, ← hesdec] at h1
    exact h1
  have hApr : ∀ a ∈ es.take p, a.1 < (L.entries.getLastD (0, 0)).1 := by
    intro a ha
    have haF : a ∈ flatAux (es.take p) (cs.take p) :=
      (entries_sublist_flatAux (cs.take p) (es.take p)).subset ha
    exact sortedEnt_cross (sortedEnt_of_append_left hs2) a haF _ hllmem
  have hBpr : ∀ b ∈ es.drop (p + 1), ¬b.1 < (L.entries.getLastD (0, 0)).1 := by
    intro b hb
    have hbT : b ∈ flatTail (es.drop (p + 1)) (cs.drop (p + 2)) :=
      (entries_sublist_flatTail _ _).subset hb
    have h1 := hbrT b hbT
    have h2 := hllk
    omega
  have hES3eq : ES3 = es.take p ++ L.entries.getLastD (0, 0) :: es.drop (p + 1) := by
    rw [hES3, herase3.1]
    rw [lsInsert_split _ _ _ _ hApr hBpr]
  have hES3len : ES3.length = es.length := by
    rw [hES3eq]
    conv_rhs => rw [hesdec]
    simp
  -- the rebalanced child
  have hc2ent : lsInsert c.entries (es.getD p (0, 0)).1 (lsEraseV es (es.getD p (0, 0)).1) =
      es.getD p (0, 0) :: c.entries := by
    rw [herase3.2]
    rw [lsInsert_all_ge c.entries _ _ (by
      intro e he
      have h1 := hcgt e (List.mem_append.mpr (Or.inl ((entries_sublist_flatten c).subset he)))
      omega)]
  have hCLX : (if L.isLeaf then c.children else L.children.getLastD nilNode :: c.children) =
      (if L.isLeaf then [] else [L.children.getLastD nilNode]) ++ c.children := by
    by_cases hLl : L.isLeaf = true
    · rw [if_pos hLl, if_pos hLl]
      rfl
    · rw [if_neg (by simpa using hLl), if_neg (by simpa using hLl)]
      rfl
  have hL2ch : (if L.isLeaf then L.children else L.children.dropLast) =
      L.children.dropLast := by
    by_cases hLl : L.isLeaf = true
    · rw [if_pos hLl]
      rw [isLeaf_iff] at hLl
      rw [hLl]
      rfl
    · rw [if_neg (by simpa using hLl)]
  have hL2flat : flatten L2 = flatAux L.entries.dropLast L.children.dropLast := by
    rw [hL2, hL2ch, hLerase, flatten_mk]
  have hLflat2 : flatten L = flatten L2 ++ L.entries.getLastD (0, 0) ::
      flatAux [] (if L.isLeaf then [] else [L.children.getLastD nilNode]) := by
    rw [hL2flat]
    exact hLflat
  have hc2flat : flatten C2 =
      flatAux [] (if L.isLeaf then [] else [L.children.getLastD nilNode]) ++
        es.getD p (0, 0) :: flatten c := by
    rw [hC2, flatten_mk, hc2ent, hCLX]
    by_cases hLl : L.isLeaf = true
    · rw [if_pos hLl]
      have h01 : h0 = 1 := by
        refine bal_nil_children cap L h0 hLb ?_
        rw [← isLeaf_iff]
        exact hLl
      have hcc : c.children = [] := bal_one_leaf cap c (h01 ▸ hcb)
      rw [hcc]
      simp only [flatAux_nil, List.nil_append, List.append_nil]
      rw [flatten_eta c, hcc, flatAux_nil]
    · rw [if_neg (by simpa using hLl)]
      rw [List.singleton_append, flatAux_cons_cons]
      rw [flatAux_nil_cons, flatAux_nil, ← flatten_eta c]
      simp
  -- re-association of the whole tree around the rebalanced child
  have hreassoc : flatten (.mk es cs) =
      (flatAux (es.take p) (cs.take p) ++ flatten L2 ++ [L.entries.getLastD (0, 0)]) ++
        flatten C2 ++ flatTail (es.drop (p + 1)) (cs.drop (p + 2)) := by
    rw [hdec2, hLflat2, hc2flat]
    simp [List.append_assoc]
  have hPREkeys : ∀ a ∈ flatAux (es.take p) (cs.take p) ++ flatten L2 ++
      [L.entries.getLastD (0, 0)], a.1 < key := by
    intro a ha
    simp only [List.mem_append, List.mem_singleton] at ha
    rcases ha with (ha | ha) | ha
    · exact hbrF2 a (List.mem_append.mpr (Or.inl ha))
    · refine hbrF2 a (List.mem_append.mpr (Or.inr (List.mem_append.mpr (Or.inl ?_))))
      rw [hLflat2]
      exact List.mem_append.mpr (Or.inl ha)
    · rw [ha]
      exact hllk
  have hkeysiff : key ∈ lsKeys (flatten (.mk es cs)) ↔ key ∈ lsKeys (flatten C2) := by
    rw [hreassoc]
    exact keys_mid_iff _ _ _ key hPREkeys hbrT
  -- invariants of the rebalanced child
  have hc2sort : SortedEnt (flatten C2) := by
    have h1 := hs
    rw [hreassoc] at h1
    exact sortedEnt_of_append_right (sortedEnt_of_append_left h1)
  have hcsz : c.size = c.entries.length := rfl
  have hc2size : C2.size = c.size + 1 := by
    rw [hC2, size_mk, hc2ent]
    simp [BNode.size]
  have hc2bal : Bal cap C2 h0 := by
    rw [hC2]
    by_cases hLl : L.isLeaf = true
    · rw [if_pos hLl]
      have h01 : h0 = 1 := by
        refine bal_nil_children cap L h0 hLb ?_
        rw [← isLeaf_iff]
        exact hLl
      have hcc : c.children = [] := bal_one_leaf cap c (h01 ▸ hcb)
      rw [hcc, h01]
      refine Bal.leaf _ ?_
      rw [hc2ent]
      simp only [List.length_cons]
      have h3 : c.entries.length < threshold cap := hthc
      rw [threshold] at h3
      omega
    · rw [if_neg (by simpa using hLl)]
      have hLcne : L.children ≠ [] := fun hcn => hLl (by rw [isLeaf_iff]; exact hcn)
      have hLint : L.children.length = L.entries.length + 1 := by
        rcases bal_shape cap L h0 hLb with h1 | h1
        · exact absurd h1 hLcne
        · exact h1
      have h0ge : 2 ≤ h0 := by
        rcases Nat.lt_or_ge h0 2 with h1 | h1
        · exfalso
          have h2 := bal_pos cap L h0 hLb
          have h01 : h0 = 1 := by omega
          have := bal_one_leaf cap L (h01 ▸ hLb)
          exact absurd this hLcne
        · exact h1
      have hcint : c.children.length = c.entries.length + 1 := by
        rcases bal_shape cap c h0 hcb with h1 | h1
        · exfalso
          have h2 := bal_nil_children cap c h0 hcb h1
          omega
        · exact h1
      have hrw : h0 = (h0 - 1) + 1 := by omega
      rw [hrw]
      refine Bal.node _ _ (h0 - 1) ?_ ?_ ?_
      · rw [hc2ent]
        simp only [List.length_cons]
        have h3 : c.entries.length < threshold cap := hthc
        rw [threshold] at h3
        omega
      · rw [hc2ent]
        simp only [List.length_cons, List.length_cons, hcint]
      · intro c3 hc3
        rcases List.mem_cons.mp hc3 with rfl | hc3
        · exact bal_child_any cap L h0 hLb _ (mem_getLastD_of_ne L.children nilNode hLcne)
        · exact bal_child_any cap c h0 hcb c3 hc3
  have hc2min : ∀ c3 ∈ C2.children, MinOK cap c3 := by
    rw [hC2, children_mk, hCLX]
    intro c3 hc3
    rcases List.mem_append.mp hc3 with hc3 | hc3
    · by_cases hLl : L.isLeaf = true
      · rw [if_pos hLl] at hc3
        simp at hc3
      · rw [if_neg (by simpa using hLl)] at hc3
        rw [List.mem_singleton] at hc3
        rw [hc3]
        have hLcne : L.children ≠ [] := fun hcn => hLl (by rw [isLeaf_iff]; exact hcn)
        exact minOK_children cap L hLmin _ (mem_getLastD_of_ne L.children nilNode hLcne)
    · exact minOK_children cap c hcmin c3 hc3
  have hc2sz1 : 1 ≤ C2.size := by
    rw [hc2size]
    omega
  obtain ⟨ihr, ihflat, ihbal, ihsz, ihminc⟩ := ih h0 C2 key hc2bal hf hc2sort hc2min hc2sz1
  -- the rebuilt child array
  have hcsd := cs_decomp2 cs p hpcs
  rw [← hL, ← hc] at hcsd
  have hset1 : cs.set p L2 = cs.take p ++ L2 :: c :: cs.drop (p + 2) := by
    conv_lhs => rw [hcsd]
    have h := set_append_len (cs.take p) L (c :: cs.drop (p + 2)) L2
    rwa [hAcs] at h
  have hset2 : (cs.set p L2).set (p + 1) (nErase cap fuel C2 key).2 =
      cs.take p ++ L2 :: (nErase cap fuel C2 key).2 :: cs.drop (p + 2) := by
    rw [hset1]
    have h := set_append_len_succ (cs.take p) L2 c (cs.drop (p + 2))
      (nErase cap fuel C2 key).2
    rwa [hAcs] at h
  have hcond : es.drop (p + 1) = [] → cs.drop (p + 2) = [] := by
    intro hEnil
    have h1 := List.length_drop (p + 1) es
    rw [hEnil] at h1
    simp only [List.length_nil] at h1
    refine List.eq_nil_of_length_eq_zero ?_
    rw [List.length_drop]
    omega
  refine ⟨?_, ?_, ?_, hES3len, ?_⟩
  · exact ihr.trans hkeysiff.symm
  · rw [hset2, flatten_mk]
    conv_lhs => rw [hES3eq]
    rw [flatAux_append (es.take p) (cs.take p) _ _ (by rw [hAlen, hAcs])]
    rw [flatAux_cons_cons]
    rw [flatAux_cons_eq (es.drop (p + 1)) _ (cs.drop (p + 2)) hcond]
    rw [ihflat]
    rw [hreassoc]
    rw [lsEraseK_concat_mid _ _ _ key (not_mem_keys_of_lt _ _ hPREkeys)
      (not_mem_keys_of_gt _ _ hbrT)]
    simp [List.append_assoc]
  · rw [hset2]
    refine Bal.node _ _ h0 (by rw [hES3len]; exact hesle) (by
      simp only [List.length_append, List.length_cons, hAcs, List.length_drop]
      rw [hES3len]
      omega) ?_
    intro c3 hc3
    rcases List.mem_append.mp hc3 with hc3 | hc3
    · exact hall c3 (List.mem_of_mem_take hc3)
    · rcases List.mem_cons.mp hc3 with rfl | hc3
      · -- balance of the shrunk left sibling
        rw [hL2, hL2ch]
        by_cases hLl : L.isLeaf = true
        · have h01 : h0 = 1 := by
            refine bal_nil_children cap L h0 hLb ?_
            rw [← isLeaf_iff]
            exact hLl
          rw [isLeaf_iff] at hLl
          rw [hLl, h01]
          simp only [List.dropLast_nil]
          refine Bal.leaf _ ?_
          rw [hLerase]
          have h2 := bal_size_le cap L h0 hLb
          rw [BNode.size] at h2
          rw [List.length_dropLast]
          omega
        · have hLcne : L.children ≠ [] := fun hcn => hLl (by rw [isLeaf_iff]; exact hcn)
          have hLint : L.children.length = L.entries.length + 1 := by
            rcases bal_shape cap L h0 hLb with h1 | h1
            · exact absurd h1 hLcne
            · exact h1
          have hrw : h0 = (h0 - 1) + 1 := by
            have := bal_pos cap L h0 hLb
            have h0ge : 2 ≤ h0 := by
              rcases Nat.lt_or_ge h0 2 with h1 | h1
              · exfalso
                have h01 : h0 = 1 := by omega
                have := bal_one_leaf cap L (h01 ▸ hLb)
                exact absurd this hLcne
              · exact h1
            omega
          rw [hrw]
          refine Bal.node _ _ (h0 - 1) ?_ ?_ ?_
          · rw [hLerase, List.length_dropLast]
            have h2 := bal_size_le cap L h0 hLb
            rw [BNode.size] at h2
            omega
          · rw [hLerase, List.length_dropLast, List.length_dropLast, hLint]
            rw [BNode.size] at hLsz
            omega
          · intro c4 hc4
            exact bal_child_any cap L h0 hLb c4 ((List.dropLast_sublist L.children).subset hc4)
      · rcases List.mem_cons.mp hc3 with rfl | hc3
        · exact ihbal
        · exact hall c3 (List.mem_of_mem_drop hc3)
  · intro c3 hc3
    rw [hset2] at hc3
    rcases List.mem_append.mp hc3 with hc3 | hc3
    · exact hmin c3 (List.mem_of_mem_take hc3)
    · rcases List.mem_cons.mp hc3 with rfl | hc3
      · rw [hL2, hL2ch]
        refine minOK_of_parts cap _ ?_ ?_
        · rw [size_mk, hLerase, List.length_dropLast]
          rw [BNode.size] at hthL
          omega
        · rw [children_mk]
          intro c4 hc4
          exact minOK_children cap L hLmin c4 ((List.dropLast_sublist L.children).subset hc4)
      · rcases List.mem_cons.mp hc3 with rfl | hc3
        · refine minOK_of_parts cap _ ?_ ihminc
          rw [hc2size] at ihsz
          have h2 : threshold cap - 1 ≤ c.size := minOK_size cap c hcmin
          omega
        · exact hmin c3 (List.mem_of_mem_drop hc3)

end Btree

namespace Btree

theorem erase_borrow_right (cap : Nat) (hcap : 4 ≤ cap) (hev : cap % 2 = 0) (fuel : Nat)
    (ih : ∀ (h : Nat) (t : BNode) (key : Int),
      Bal cap t h → h ≤ fuel → SortedEnt (flatten t) →
      (∀ c ∈ t.children, MinOK cap c) → 1 ≤ t.size →
      ((nErase cap fuel t key).1 = true ↔ key ∈ lsKeys (flatten t)) ∧
      flatten (nErase cap fuel t key).2 = lsEraseK (flatten t) key ∧
      Bal cap (nErase cap fuel t key).2 h ∧
      t.size - 1 ≤ (nErase cap fuel t key).2.size ∧
      (∀ c ∈ (nErase cap fuel t key).2.children, MinOK cap c))
    (es : List (Int × Int)) (cs : List BNode) (key : Int) (h0 I : Nat)
    (c R : BNode) (hc : c = cs.getD I nilNode) (hR : R = cs.getD (I + 1) nilNode)
    (C2 : BNode) (hC2 : C2 = BNode.mk
      (lsInsert c.entries (es.getD I (0, 0)).1 (lsEraseV es (es.getD I (0, 0)).1))
      (if R.isLeaf then c.children else c.children ++ [R.children.getD 0 nilNode]))
    (R2 : BNode) (hR2 : R2 = BNode.mk
      (lsEraseK R.entries (R.entries.getD 0 (0, 0)).1)
      (if R.isLeaf then R.children else R.children.drop 1))
    (ES3 : List (Int × Int)) (hES3 : ES3 = lsInsert (lsEraseK es (es.getD I (0, 0)).1)
      (R.entries.getD 0 (0, 0)).1 (R.entries.getD 0 (0, 0)).2)
    (hcnt : cs.length = es.length + 1)
    (hesle : es.length ≤ cap)
    (hall : ∀ c ∈ cs, Bal cap c h0) (hf : h0 ≤ fuel)
    (hs : SortedEnt (flatten (.mk es cs)))
    (hmin : ∀ c ∈ cs, MinOK cap c)
    (hIes : I < es.length)
    (hbrF : ∀ a ∈ flatAux (es.take I) (cs.take I), a.1 < key)
    (hbrT : ∀ b ∈ flatTail (es.drop I) (cs.drop (I + 1)), key < b.1)
    (hthR : threshold cap ≤ R.size)
    (hthc : c.size < threshold cap) :
    ((nErase cap fuel C2 key).1 = true ↔ key ∈ lsKeys (flatten (.mk es cs))) ∧
    flatten (.mk ES3 ((cs.set (I + 1) R2).set I (nErase cap fuel C2 key).2)) =
      lsEraseK (flatten (.mk es cs)) key ∧
    Bal cap (.mk ES3 ((cs.set (I + 1) R2).set I (nErase cap fuel C2 key).2)) (h0 + 1) ∧
    ES3.length = es.length ∧
    (∀ c ∈ (cs.set (I + 1) R2).set I (nErase cap fuel C2 key).2, MinOK cap c) := by
  have hpcs : I + 1 < cs.length := by omega
  have hcmem : c ∈ cs := by
    rw [hc]
    exact getD_mem_of_lt cs I (by omega)
  have hRmem : R ∈ cs := by
    rw [hR]
    exact getD_mem_of_lt cs (I + 1) hpcs
  have hcb : Bal cap c h0 := hall _ hcmem
  have hRb : Bal cap R h0 := hall _ hRmem
  have hcmin : MinOK cap c := hmin _ hcmem
  have hRmin : MinOK cap R := hmin _ hRmem
  have hcsort0 : SortedEnt (flatten c) := by
    rw [hc]
    exact child_sorted es cs I hcnt (by omega) hs
  have hRsort : SortedEnt (flatten R) := by
    rw [hR]
    exact child_sorted es cs (I + 1) hcnt (by omega) hs
  have hRsz : 1 ≤ R.size := by
    rw [threshold] at hthR
    omega
  have hdec2 := flatten_decomp2 es cs I hcnt hIes
  rw [← hc, ← hR] at hdec2
  have hs2 : SortedEnt (flatAux (es.take I) (cs.take I) ++ flatten c ++
      es.getD I (0, 0) :: (flatten R ++
        flatTail (es.drop (I + 1)) (cs.drop (I + 2)))) := by
    rw [← hdec2]
    exact hs
  have hAlen : (es.take I).length = I := by
    rw [List.length_take]
    omega
  have hAcs : (cs.take I).length = I := by
    rw [List.length_take]
    omega
  -- the trailing zone is above the key
  have hTexp : flatTail (es.drop I) (cs.drop (I + 1)) =
      es.getD I (0, 0) :: (flatten R ++
        flatTail (es.drop (I + 1)) (cs.drop (I + 2))) := by
    rw [drop_eq_getD_cons_ent es I hIes, flatTail_cons]
    rw [drop_eq_getD_cons_node cs (I + 1) hpcs, ← hR]
    rw [flatAux_cons_eq (es.drop (I + 1)) _ (cs.drop (I + 1 + 1)) (by
      intro hEnil
      have h1 := List.length_drop (I + 1) es
      rw [hEnil] at h1
      simp only [List.length_nil] at h1
      refine List.eq_nil_of_length_eq_zero ?_
      rw [List.length_drop]
      omega)]
  have hbrT2 : ∀ b ∈ es.getD I (0, 0) :: (flatten R ++
      flatTail (es.drop (I + 1)) (cs.drop (I + 2))), key < b.1 := by
    rw [← hTexp]
    exact hbrT
  have hsplk : key < (es.getD I (0, 0)).1 := hbrT2 _ (by simp)
  -- head decomposition of the right sibling
  obtain ⟨hRdecE, hRerase, hRflat⟩ := node_head_decomp cap R h0 hRb hRsz
  have hrsmem : R.entries.getD 0 (0, 0) ∈ flatten R := by
    refine (entries_sublist_flatten R).subset ?_
    rw [hRdecE]
    simp
  have hrsk : key < (R.entries.getD 0 (0, 0)).1 :=
    hbrT2 _ (List.mem_cons.mpr (Or.inr (List.mem_append.mpr (Or.inl hrsmem))))
  -- the entry array of the parent
  have hesdec : es = es.take I ++ es.getD I (0, 0) :: es.drop (I + 1) :=
    take_getD_drop es I hIes
  have hEeta : es.getD I (0, 0) = ((es.getD I (0, 0)).1, (es.getD I (0, 0)).2) := rfl
  have hAspl : ∀ a ∈ es.take I, a.1 < (es.getD I (0, 0)).1 := by
    intro a ha
    have haF : a ∈ flatAux (es.take I) (cs.take I) :=
      (entries_sublist_flatAux (cs.take I) (es.take I)).subset ha
    exact sortedEnt_cross hs2 a (List.mem_append.mpr (Or.inl haF)) _ (by simp)
  have herase3 : lsEraseK es (es.getD I (0, 0)).1 = es.take I ++ es.drop (I + 1) ∧
      lsEraseV es (es.getD I (0, 0)).1 = (es.getD I (0, 0)).2 := by
    have h1 := lsEraseK_middle (es.take I) (es.drop (I + 1)) (es.getD I (0, 0)).1
      (es.getD I (0, 0)).2 (not_mem_keys_of_lt _ _ hAspl)
    rw [← hEeta, ← hesdec] at h1
    exact h1
  have hApr : ∀ a ∈ es.take I, a.1 < (R.entries.getD 0 (0, 0)).1 := by
    intro a ha
    have h1 := hbrF a ((entries_sublist_flatAux (cs.take I) (es.take I)).subset ha)
    omega
  have hBpr : ∀ b ∈ es.drop (I + 1), ¬b.1 < (R.entries.getD 0 (0, 0)).1 := by
    intro b hb
    have hbT : b ∈ flatTail (es.drop (I + 1)) (cs.drop (I + 2)) :=
      (entries_sublist_flatTail _ _).subset hb
    have hRT : SortedEnt (flatten R ++ flatTail (es.drop (I + 1)) (cs.drop (I + 2))) := by
      have h1 := sortedEnt_of_append_right hs2
      rw [SortedEnt, List.pairwise_cons] at h1
      exact h1.2
    have h2 := sortedEnt_cross hRT _ hrsmem b hbT
    omega
  have hES3eq : ES3 = es.take I ++ R.entries.getD 0 (0, 0) :: es.drop (I + 1) := by
    rw [hES3, herase3.1]
    rw [lsInsert_split _ _ _ _ hApr hBpr]
  have hES3len : ES3.length = es.length := by
    rw [hES3eq]
    conv_rhs => rw [hesdec]
    simp
  -- the rebalanced child
  have hckeys : ∀ a ∈ flatten c, a.1 < (es.getD I (0, 0)).1 := by
    intro a ha
    exact sortedEnt_cross hs2 a (List.mem_append.mpr (Or.inr ha)) _ (by simp)
  have hc2ent : lsInsert c.entries (es.getD I (0, 0)).1 (lsEraseV es (es.getD I (0, 0)).1) =
      c.entries ++ [es.getD I (0, 0)] := by
    rw [herase3.2]
    have h1 := lsInsert_split c.entries [] (es.getD I (0, 0)).1 (es.getD I (0, 0)).2
      (by
        intro e he
        exact hckeys e ((entries_sublist_flatten c).subset he))
      (by simp)
    rw [← hEeta] at h1
    simpa using h1
  have hCRX : (if R.isLeaf then c.children else c.children ++ [R.children.getD 0 nilNode]) =
      c.children ++ (if R.isLeaf then [] else [R.children.getD 0 nilNode]) := by
    by_cases hRl : R.isLeaf = true
    · rw [if_pos hRl, if_pos hRl]
      simp
    · rw [if_neg (by simpa using hRl), if_neg (by simpa using hRl)]
  have hR2ch : (if R.isLeaf then R.children else R.children.drop 1) =
      R.children.drop 1 := by
    by_cases hRl : R.isLeaf = true
    · rw [if_pos hRl]
      rw [isLeaf_iff] at hRl
      rw [hRl]
      rfl
    · rw [if_neg (by simpa using hRl)]
  have hR2flat : flatten R2 = flatAux (R.entries.drop 1) (R.children.drop 1) := by
    rw [hR2, hR2ch, hRerase, flatten_mk]
  have hRflat2 : flatten R =
      flatAux [] (if R.isLeaf then [] else [R.children.getD 0 nilNode]) ++
        R.entries.getD 0 (0, 0) :: flatten R2 := by
    rw [hR2flat]
    exact hRflat
  have hc2flat : flatten C2 = flatten c ++ es.getD I (0, 0) ::
      flatAux [] (if R.isLeaf then [] else [R.children.getD 0 nilNode]) := by
    rw [hC2, flatten_mk, hc2ent, hCRX]
    by_cases hRl : R.isLeaf = true
    · rw [if_pos hRl]
      have h01 : h0 = 1 := by
        refine bal_nil_children cap R h0 hRb ?_
        rw [← isLeaf_iff]
        exact hRl
      have hcc : c.children = [] := bal_one_leaf cap c (h01 ▸ hcb)
      rw [hcc]
      simp only [flatAux_nil, List.nil_append, List.append_nil]
      rw [flatten_eta c, hcc, flatAux_nil]
    · rw [if_neg (by simpa using hRl)]
      have hccne : c.children.length = c.entries.length + 1 := by
        have hRcne : R.children ≠ [] := fun hcn => (by simpa using hRl : ¬R.isLeaf = true)
          (by rw [isLeaf_iff]; exact hcn)
        have h0ge : 2 ≤ h0 := by
          rcases Nat.lt_or_ge h0 2 with h1 | h1
          · exfalso
            have h2 := bal_pos cap R h0 hRb
            have h01 : h0 = 1 := by omega
            exact absurd (bal_one_leaf cap R (h01 ▸ hRb)) hRcne
          · exact h1
        rcases bal_shape cap c h0 hcb with h1 | h1
        · exfalso
          have h2 := bal_nil_children cap c h0 hcb h1
          omega
        · exact h1
      rw [show c.entries ++ [es.getD I (0, 0)] =
        (c.entries ++ [es.getD I (0, 0)]) ++ [] from by simp]
      rw [flatAux_append (c.entries ++ [es.getD I (0, 0)]) c.children []
        [R.children.getD 0 nilNode] (by simp [hccne])]
      rw [flatAux_append_entry c.entries c.children (es.getD I (0, 0)) hccne]
      rw [flatAux_nil_cons, flatAux_nil, ← flatten_eta c]
      simp
  -- re-association of the whole tree around the rebalanced child
  have hreassoc : flatten (.mk es cs) =
      flatAux (es.take I) (cs.take I) ++ flatten C2 ++
        (R.entries.getD 0 (0, 0) :: (flatten R2 ++
          flatTail (es.drop (I + 1)) (cs.drop (I + 2)))) := by
    rw [hdec2, hRflat2, hc2flat]
    simp [List.append_assoc]
  have hPOSTkeys : ∀ b ∈ R.entries.getD 0 (0, 0) :: (flatten R2 ++
      flatTail (es.drop (I + 1)) (cs.drop (I + 2))), key < b.1 := by
    intro b hb
    rcases List.mem_cons.mp hb with rfl | hb
    · exact hrsk
    · rcases List.mem_append.mp hb with hb | hb
      · refine hbrT2 b (List.mem_cons.mpr (Or.inr (List.mem_append.mpr (Or.inl ?_))))
        rw [hRflat2]
        simp only [List.mem_append, List.mem_cons]
        tauto
      · exact hbrT2 b (List.mem_cons.mpr (Or.inr (List.mem_append.mpr (Or.inr hb))))
  have hkeysiff : key ∈ lsKeys (flatten (.mk es cs)) ↔ key ∈ lsKeys (flatten C2) := by
    rw [hreassoc]
    exact keys_mid_iff _ _ _ key hbrF hPOSTkeys
  -- invariants of the rebalanced child
  have hc2sort : SortedEnt (flatten C2) := by
    have h1 := hs
    rw [hreassoc] at h1
    exact sortedEnt_of_append_right (sortedEnt_of_append_left h1)
  have hc2size : C2.size = c.size + 1 := by
    rw [hC2, size_mk, hc2ent]
    simp [BNode.size]
  have hc2bal : Bal cap C2 h0 := by
    rw [hC2]
    by_cases hRl : R.isLeaf = true
    · rw [if_pos hRl]
      have h01 : h0 = 1 := by
        refine bal_nil_children cap R h0 hRb ?_
        rw [← isLeaf_iff]
        exact hRl
      have hcc : c.children = [] := bal_one_leaf cap c (h01 ▸ hcb)
      rw [hcc, h01]
      refine Bal.leaf _ ?_
      rw [hc2ent]
      simp only [List.length_append, List.length_cons, List.length_nil]
      have h3 : c.entries.length < threshold cap := hthc
      rw [threshold] at h3
      omega
    · rw [if_neg (by simpa using hRl)]
      have hRcne : R.children ≠ [] := fun hcn => (by simpa using hRl : ¬R.isLeaf = true)
        (by rw [isLeaf_iff]; exact hcn)
      have h0ge : 2 ≤ h0 := by
        rcases Nat.lt_or_ge h0 2 with h1 | h1
        · exfalso
          have h2 := bal_pos cap R h0 hRb
          have h01 : h0 = 1 := by omega
          exact absurd (bal_one_leaf cap R (h01 ▸ hRb)) hRcne
        · exact h1
      have hcint : c.children.length = c.entries.length + 1 := by
        rcases bal_shape cap c h0 hcb with h1 | h1
        · exfalso
          have h2 := bal_nil_children cap c h0 hcb h1
          omega
        · exact h1
      have hrw : h0 = (h0 - 1) + 1 := by omega
      rw [hrw]
      refine Bal.node _ _ (h0 - 1) ?_ ?_ ?_
      · rw [hc2ent]
        simp only [List.length_append, List.length_cons, List.length_nil]
        have h3 : c.entries.length < threshold cap := hthc
        rw [threshold] at h3
        omega
      · rw [hc2ent]
        simp only [List.length_append, List.length_cons, List.length_nil, hcint]
      · intro c3 hc3
        rcases List.mem_append.mp hc3 with hc3 | hc3
        · exact bal_child_any cap c h0 hcb c3 hc3
        · rw [List.mem_singleton] at hc3
          rw [hc3]
          refine bal_child_any cap R h0 hRb _ ?_
          refine getD_mem_of_lt R.children 0 ?_
          cases hRc : R.children with
          | nil => exact absurd hRc hRcne
          | cons a b => simp
  have hc2min : ∀ c3 ∈ C2.children, MinOK cap c3 := by
    rw [hC2, children_mk, hCRX]
    intro c3 hc3
    rcases List.mem_append.mp hc3 with hc3 | hc3
    · exact minOK_children cap c hcmin c3 hc3
    · by_cases hRl : R.isLeaf = true
      · rw [if_pos hRl] at hc3
        simp at hc3
      · rw [if_neg (by simpa using hRl)] at hc3
        rw [List.mem_singleton] at hc3
        rw [hc3]
        have hRcne : R.children ≠ [] := fun hcn => (by simpa using hRl : ¬R.isLeaf = true)
          (by rw [isLeaf_iff]; exact hcn)
        refine minOK_children cap R hRmin _ (getD_mem_of_lt R.children 0 ?_)
        cases hRc : R.children with
        | nil => exact absurd hRc hRcne
        | cons a b => simp
  have hc2sz1 : 1 ≤ C2.size := by
    rw [hc2size]
    omega
  obtain ⟨ihr, ihflat, ihbal, ihsz, ihminc⟩ := ih h0 C2 key hc2bal hf hc2sort hc2min hc2sz1
  -- the rebuilt child array
  have hcsd := cs_decomp2 cs I hpcs
  rw [← hc, ← hR] at hcsd
  have hset1 : cs.set (I + 1) R2 = cs.take I ++ c :: R2 :: cs.drop (I + 2) := by
    conv_lhs => rw [hcsd]
    have h := set_append_len_succ (cs.take I) c R (cs.drop (I + 2)) R2
    rwa [hAcs] at h
  have hset2 : (cs.set (I + 1) R2).set I (nErase cap fuel C2 key).2 =
      cs.take I ++ (nErase cap fuel C2 key).2 :: R2 :: cs.drop (I + 2) := by
    rw [hset1]
    have h := set_append_len (cs.take I) c (R2 :: cs.drop (I + 2))
      (nErase cap fuel C2 key).2
    rwa [hAcs] at h
  have hcond : es.drop (I + 1) = [] → cs.drop (I + 2) = [] := by
    intro hEnil
    have h1 := List.length_drop (I + 1) es
    rw [hEnil] at h1
    simp only [List.length_nil] at h1
    refine List.eq_nil_of_length_eq_zero ?_
    rw [List.length_drop]
    omega
  refine ⟨?_, ?_, ?_, hES3len, ?_⟩
  · exact ihr.trans hkeysiff.symm
  · rw [hset2, flatten_mk]
    conv_lhs => rw [hES3eq]
    rw [flatAux_append (es.take I) (cs.take I) _ _ (by rw [hAlen, hAcs])]
    rw [flatAux_cons_cons]
    rw [flatAux_cons_eq (es.drop (I + 1)) _ (cs.drop (I + 2)) hcond]
    rw [ihflat, hR2flat]
    rw [hreassoc]
    rw [lsEraseK_concat_mid _ _ _ key (not_mem_keys_of_lt _ _ hbrF)
      (not_mem_keys_of_gt _ _ hPOSTkeys)]
    rw [hR2flat]
    simp [List.append_assoc]
  · rw [hset2]
    refine Bal.node _ _ h0 (by rw [hES3len]; exact hesle) (by
      simp only [List.length_append, List.length_cons, hAcs, List.length_drop]
      rw [hES3len]
      omega) ?_
    intro c3 hc3
    rcases List.mem_append.mp hc3 with hc3 | hc3
    · exact hall c3 (List.mem_of_mem_take hc3)
    · rcases List.mem_cons.mp hc3 with rfl | hc3
      · exact ihbal
      · rcases List.mem_cons.mp hc3 with rfl | hc3
        · -- balance of the shrunk right sibling
          rw [hR2, hR2ch]
          by_cases hRl : R.isLeaf = true
          · have h01 : h0 = 1 := by
              refine bal_nil_children cap R h0 hRb ?_
              rw [← isLeaf_iff]
              exact hRl
            rw [isLeaf_iff] at hRl
            rw [hRl, h01]
            simp only [List.drop_nil]
            refine Bal.leaf _ ?_
            rw [hRerase]
            have h2 := bal_size_le cap R h0 hRb
            rw [BNode.size] at h2
            rw [List.length_drop]
            omega
          · have hRcne : R.children ≠ [] := fun hcn => (by simpa using hRl : ¬R.isLeaf = true)
              (by rw [isLeaf_iff]; exact hcn)
            have hRint : R.children.length = R.entries.length + 1 := by
              rcases bal_shape cap R h0 hRb with h1 | h1
              · exact absurd h1 hRcne
              · exact h1
            have hrw : h0 = (h0 - 1) + 1 := by
              have := bal_pos cap R h0 hRb
              have h0ge : 2 ≤ h0 := by
                rcases Nat.lt_or_ge h0 2 with h1 | h1
                · exfalso
                  have h01 : h0 = 1 := by omega
                  exact absurd (bal_one_leaf cap R (h01 ▸ hRb)) hRcne
                · exact h1
              omega
            rw [hrw]
            refine Bal.node _ _ (h0 - 1) ?_ ?_ ?_
            · rw [hRerase, List.length_drop]
              have h2 := bal_size_le cap R h0 hRb
              rw [BNode.size] at h2
              omega
            · rw [hRerase, List.length_drop, List.length_drop, hRint]
              rw [BNode.size] at hRsz
              omega
            · intro c4 hc4
              exact bal_child_any cap R h0 hRb c4 (List.mem_of_mem_drop hc4)
        · exact hall c3 (List.mem_of_mem_drop hc3)
  · intro c3 hc3
    rw [hset2] at hc3
    rcases List.mem_append.mp hc3 with hc3 | hc3
    · exact hmin c3 (List.mem_of_mem_take hc3)
    · rcases List.mem_cons.mp hc3 with rfl | hc3
      · refine minOK_of_parts cap _ ?_ ihminc
        rw [hc2size] at ihsz
        have h2 : threshold cap - 1 ≤ c.size := minOK_size cap c hcmin
        omega
      · rcases List.mem_cons.mp hc3 with rfl | hc3
        · rw [hR2, hR2ch]
          refine minOK_of_parts cap _ ?_ ?_
          · rw [size_mk, hRerase, List.length_drop]
            rw [BNode.size] at hthR
            omega
          · rw [children_mk]
            intro c4 hc4
            exact minOK_children cap R hRmin c4 (List.mem_of_mem_drop hc4)
        · exact hmin c3 (List.mem_of_mem_drop hc3)

end Btree


namespace Btree

theorem erase_hit_left (cap : Nat) (hcap : 4 ≤ cap) (hev : cap % 2 = 0) (fuel : Nat)
    (ih : ∀ (h : Nat) (t : BNode) (key : Int),
      Bal cap t h → h ≤ fuel → SortedEnt (flatten t) →
      (∀ c ∈ t.children, MinOK cap c) → 1 ≤ t.size →
      ((nErase cap fuel t key).1 = true ↔ key ∈ lsKeys (flatten t)) ∧
      flatten (nErase cap fuel t key).2 = lsEraseK (flatten t) key ∧
      Bal cap (nErase cap fuel t key).2 h ∧
      t.size - 1 ≤ (nErase cap fuel t key).2.size ∧
      (∀ c ∈ (nErase cap fuel t key).2.children, MinOK cap c))
    (es : List (Int × Int)) (cs : List BNode) (key : Int) (h0 p : Nat)
    (y : BNode) (hy : y = cs.getD p nilNode)
    (hcnt : cs.length = es.length + 1)
    (hesle : es.length ≤ cap)
    (hall : ∀ c ∈ cs, Bal cap c h0) (hf : h0 ≤ fuel)
    (hs : SortedEnt (flatten (.mk es cs)))
    (hmin : ∀ c ∈ cs, MinOK cap c)
    (hple : p < es.length)
    (hkey : (es.getD p (0, 0)).1 = key)
    (hth : threshold cap ≤ y.size) :
    key ∈ lsKeys (flatten (.mk es cs)) ∧
    flatten (.mk (lsInsert (lsEraseK es key) (subtreeMax fuel y).1 (subtreeMax fuel y).2)
      (cs.set p (nErase cap fuel y (subtreeMax fuel y).1).2)) =
      lsEraseK (flatten (.mk es cs)) key ∧
    Bal cap (.mk (lsInsert (lsEraseK es key) (subtreeMax fuel y).1 (subtreeMax fuel y).2)
      (cs.set p (nErase cap fuel y (subtreeMax fuel y).1).2)) (h0 + 1) ∧
    (lsInsert (lsEraseK es key) (subtreeMax fuel y).1 (subtreeMax fuel y).2).length =
      es.length ∧
    (∀ c ∈ cs.set p (nErase cap fuel y (subtreeMax fuel y).1).2, MinOK cap c) := by
  have hpcs : p < cs.length := by omega
  have hymem : y ∈ cs := by
    rw [hy]
    exact getD_mem_of_lt cs p hpcs
  have hyb : Bal cap y h0 := hall _ hymem
  have hysort : SortedEnt (flatten y) := by
    rw [hy]
    exact child_sorted es cs p hcnt (by omega) hs
  have hymin : MinOK cap y := hmin _ hymem
  have hysz : 1 ≤ y.size := by
    rw [threshold] at hth
    omega
  have hprv : subtreeMax fuel y = (flatten y).getLastD (0, 0) := by
    rcases Nat.exists_eq_add_of_le hf with ⟨d, hd⟩
    exact subtreeMax_ok cap hcap fuel h0 y hyb (by omega) hysz (minOK_children cap _ hymin)
  have hfyne : flatten y ≠ [] := flatten_ne y hysz
  have hydecomp : flatten y = (flatten y).dropLast ++ [subtreeMax fuel y] := by
    rw [hprv]
    exact (dropLast_append_getLastD (flatten y) (0, 0) hfyne).symm
  have hdec2 := flatten_decomp2 es cs p hcnt hple
  rw [← hy] at hdec2
  have hs2 : SortedEnt (flatAux (es.take p) (cs.take p) ++ flatten y ++
      es.getD p (0, 0) :: (flatten (cs.getD (p + 1) nilNode) ++
        flatTail (es.drop (p + 1)) (cs.drop (p + 2)))) := by
    rw [← hdec2]
    exact hs
  have hltE : ∀ a ∈ flatAux (es.take p) (cs.take p) ++ flatten y, a.1 < key := by
    intro a ha
    rw [← hkey]
    exact sortedEnt_cross hs2 a ha _ (by simp)
  have hgtE : ∀ b ∈ flatten (cs.getD (p + 1) nilNode) ++
      flatTail (es.drop (p + 1)) (cs.drop (p + 2)), key < b.1 := by
    have h1 := sortedEnt_of_append_right hs2
    rw [SortedEnt, List.pairwise_cons] at h1
    intro b hb
    rw [← hkey]
    exact h1.1 b hb
  -- the deleted entry and the entry-array decomposition
  have hesdec : es = es.take p ++ es.getD p (0, 0) :: es.drop (p + 1) :=
    take_getD_drop es p hple
  have hAlen : (es.take p).length = p := by
    rw [List.length_take]
    omega
  have hAkeys : ∀ a ∈ es.take p, a.1 < key := by
    intro a ha
    exact hltE a (List.mem_append.mpr (Or.inl
      ((entries_sublist_flatAux (cs.take p) (es.take p)).subset ha)))
  have hBkeys : ∀ b ∈ es.drop (p + 1), key < b.1 := by
    intro b hb
    exact hgtE b (List.mem_append.mpr (Or.inr
      ((entries_sublist_flatTail (es.drop (p + 1)) (cs.drop (p + 2))).subset hb)))
  have hE : es.getD p (0, 0) = (key, (es.getD p (0, 0)).2) := by
    rw [← hkey]
  -- erase the separator from the entry array
  have herase : lsEraseK es key = es.take p ++ es.drop (p + 1) ∧
      lsEraseV es key = (es.getD p (0, 0)).2 := by
    have h1 := lsEraseK_middle (es.take p) (es.drop (p + 1)) key
      (es.getD p (0, 0)).2 (not_mem_keys_of_lt _ _ hAkeys)
    constructor
    · conv_lhs => rw [hesdec, hE]
      exact h1.1
    · conv_lhs => rw [hesdec, hE]
      exact h1.2
  -- the predecessor entry
  have hprmem : subtreeMax fuel y ∈ flatten y := by
    rw [hydecomp]
    simp
  have hprlt : (subtreeMax fuel y).1 < key :=
    hltE _ (List.mem_append.mpr (Or.inr hprmem))
  have hApr : ∀ a ∈ es.take p, a.1 < (subtreeMax fuel y).1 := by
    intro a ha
    have haF : a ∈ flatAux (es.take p) (cs.take p) :=
      (entries_sublist_flatAux (cs.take p) (es.take p)).subset ha
    exact sortedEnt_cross (sortedEnt_of_append_left hs2) a haF _ hprmem
  have hBpr : ∀ b ∈ es.drop (p + 1), ¬b.1 < (subtreeMax fuel y).1 := by
    intro b hb
    have := hBkeys b hb
    have := hprlt
    omega
  have hes2 : lsInsert (lsEraseK es key) (subtreeMax fuel y).1 (subtreeMax fuel y).2 =
      es.take p ++ subtreeMax fuel y :: es.drop (p + 1) := by
    rw [herase.1]
    rw [lsInsert_split _ _ _ _ hApr hBpr]
  have hes2len : (lsInsert (lsEraseK es key) (subtreeMax fuel y).1
      (subtreeMax fuel y).2).length = es.length := by
    rw [hes2]
    conv_rhs => rw [hesdec]
    simp
  -- distinctness of the predecessor key inside y
  have hprnd : (subtreeMax fuel y).1 ∉ lsKeys (flatten y).dropLast := by
    refine not_mem_keys_of_lt _ _ ?_
    intro a ha
    have hsy : SortedEnt ((flatten y).dropLast ++ [subtreeMax fuel y]) := by
      rw [← hydecomp]
      exact hysort
    exact sortedEnt_cross hsy a ha _ (by simp)
  -- the recursive erase inside y
  obtain ⟨ihr, ihflat, ihbal, ihsz, ihminc⟩ := ih h0 y (subtreeMax fuel y).1 hyb hf hysort
    (minOK_children cap _ hymin) hysz
  have hy2flat : flatten (nErase cap fuel y (subtreeMax fuel y).1).2 =
      (flatten y).dropLast := by
    rw [ihflat]
    conv_lhs => rw [hydecomp]
    exact lsEraseK_concat_self _ _ hprnd
  refine ⟨?_, ?_, ?_, hes2len, ?_⟩
  · refine mem_lsKeys.mpr ⟨(es.getD p (0, 0)).2, ?_⟩
    rw [hdec2, ← hE]
    simp
  · have hset := flatten_set (lsInsert (lsEraseK es key) (subtreeMax fuel y).1
        (subtreeMax fuel y).2) cs p (nErase cap fuel y (subtreeMax fuel y).1).2
      (by rw [hes2len, hcnt]) (by rw [hes2len]; omega)
    rw [hset, hy2flat]
    have htk2 : (lsInsert (lsEraseK es key) (subtreeMax fuel y).1
        (subtreeMax fuel y).2).take p = es.take p := by
      rw [hes2]
      have h := take_append_len (es.take p) (subtreeMax fuel y) (es.drop (p + 1))
      rwa [hAlen] at h
    have hdr2 : (lsInsert (lsEraseK es key) (subtreeMax fuel y).1
        (subtreeMax fuel y).2).drop p = subtreeMax fuel y :: es.drop (p + 1) := by
      rw [hes2]
      have h := drop_append_len (es.take p) (subtreeMax fuel y) (es.drop (p + 1))
      rwa [hAlen] at h
    rw [htk2, hdr2, flatTail_cons]
    rw [drop_eq_getD_cons_node cs (p + 1) (by omega)]
    rw [flatAux_cons_eq (es.drop (p + 1)) _ (cs.drop (p + 1 + 1)) (by
      intro hEnil
      have h1 := List.length_drop (p + 1) es
      rw [hEnil] at h1
      simp only [List.length_nil] at h1
      refine List.eq_nil_of_length_eq_zero ?_
      rw [List.length_drop]
      omega)]
    rw [hdec2]
    rw [lsEraseK_append _ _ key (not_mem_keys_of_lt _ _ hltE)]
    rw [lsEraseK_cons_self _ _ key hkey]
    conv_rhs => rw [hydecomp]
    simp
  · refine Bal.node _ _ h0 (by rw [hes2len]; exact hesle) (by
      rw [List.length_set, hes2len]
      exact hcnt) ?_
    intro c hc
    rcases List.mem_or_eq_of_mem_set hc with hc | hc
    · exact hall c hc
    · rw [hc]
      exact ihbal
  · intro c hc
    rcases List.mem_or_eq_of_mem_set hc with hc | hc
    · exact hmin c hc
    · rw [hc]
      refine minOK_of_parts cap _ ?_ ihminc
      calc threshold cap - 1 ≤ y.size - 1 := by omega
        _ ≤ _ := ihsz

end Btree

namespace Btree

theorem erase_hit_right (cap : Nat) (hcap : 4 ≤ cap) (hev : cap % 2 = 0) (fuel : Nat)
    (ih : ∀ (h : Nat) (t : BNode) (key : Int),
      Bal cap t h → h ≤ fuel → SortedEnt (flatten t) →
      (∀ c ∈ t.children, MinOK cap c) → 1 ≤ t.size →
      ((nErase cap fuel t key).1 = true ↔ key ∈ lsKeys (flatten t)) ∧
      flatten (nErase cap fuel t key).2 = lsEraseK (flatten t) key ∧
      Bal cap (nErase cap fuel t key).2 h ∧
      t.size - 1 ≤ (nErase cap fuel t key).2.size ∧
      (∀ c ∈ (nErase cap fuel t key).2.children, MinOK cap c))
    (es : List (Int × Int)) (cs : List BNode) (key : Int) (h0 p : Nat)
    (z : BNode) (hz : z = cs.getD (p + 1) nilNode)
    (hcnt : cs.length = es.length + 1)
    (hesle : es.length ≤ cap)
    (hall : ∀ c ∈ cs, Bal cap c h0) (hf : h0 ≤ fuel)
    (hs : SortedEnt (flatten (.mk es cs)))
    (hmin : ∀ c ∈ cs, MinOK cap c)
    (hple : p < es.length)
    (hkey : (es.getD p (0, 0)).1 = key)
    (hth : threshold cap ≤ z.size) :
    flatten (.mk (lsInsert (lsEraseK es key) (subtreeMin fuel z).1 (subtreeMin fuel z).2)
      (cs.set (p + 1) (nErase cap fuel z (subtreeMin fuel z).1).2)) =
      lsEraseK (flatten (.mk es cs)) key ∧
    Bal cap (.mk (lsInsert (lsEraseK es key) (subtreeMin fuel z).1 (subtreeMin fuel z).2)
      (cs.set (p + 1) (nErase cap fuel z (subtreeMin fuel z).1).2)) (h0 + 1) ∧
    (lsInsert (lsEraseK es key) (subtreeMin fuel z).1 (subtreeMin fuel z).2).length =
      es.length ∧
    (∀ c ∈ cs.set (p + 1) (nErase cap fuel z (subtreeMin fuel z).1).2, MinOK cap c) := by
  have hpcs : p + 1 < cs.length := by omega
  have hzmem : z ∈ cs := by
    rw [hz]
    exact getD_mem_of_lt cs (p + 1) hpcs
  have hzb : Bal cap z h0 := hall _ hzmem
  have hzsort : SortedEnt (flatten z) := by
    rw [hz]
    exact child_sorted es cs (p + 1) hcnt (by omega) hs
  have hzmin : MinOK cap z := hmin _ hzmem
  have hzsz : 1 ≤ z.size := by
    rw [threshold] at hth
    omega
  have hscv : subtreeMin fuel z = (flatten z).getD 0 (0, 0) :=
    subtreeMin_ok cap hcap fuel h0 z hzb (by omega) hzsz (minOK_children cap _ hzmin)
  have hfzne : flatten z ≠ [] := flatten_ne z hzsz
  have hzdecomp : flatten z = subtreeMin fuel z :: (flatten z).drop 1 := by
    rw [hscv]
    have h1 := drop_eq_getD_cons_ent (flatten z) 0 (by
      cases hfz : flatten z with
      | nil => exact absurd hfz hfzne
      | cons a r => simp)
    rw [List.drop_zero] at h1
    exact h1
  have hdec2 := flatten_decomp2 es cs p hcnt hple
  rw [← hz] at hdec2
  have hs2 : SortedEnt (flatAux (es.take p) (cs.take p) ++ flatten (cs.getD p nilNode) ++
      es.getD p (0, 0) :: (flatten z ++
        flatTail (es.drop (p + 1)) (cs.drop (p + 2)))) := by
    rw [← hdec2]
    exact hs
  have hltE : ∀ a ∈ flatAux (es.take p) (cs.take p) ++ flatten (cs.getD p nilNode),
      a.1 < key := by
    intro a ha
    rw [← hkey]
    exact sortedEnt_cross hs2 a ha _ (by simp)
  have hgtE : ∀ b ∈ flatten z ++
      flatTail (es.drop (p + 1)) (cs.drop (p + 2)), key < b.1 := by
    have h1 := sortedEnt_of_append_right hs2
    rw [SortedEnt, List.pairwise_cons] at h1
    intro b hb
    rw [← hkey]
    exact h1.1 b hb
  have hesdec : es = es.take p ++ es.getD p (0, 0) :: es.drop (p + 1) :=
    take_getD_drop es p hple
  have hAlen : (es.take p).length = p := by
    rw [List.length_take]
    omega
  have hAcs : (cs.take p).length = p := by
    rw [List.length_take]
    omega
  have hAkeys : ∀ a ∈ es.take p, a.1 < key := by
    intro a ha
    exact hltE a (List.mem_append.mpr (Or.inl
      ((entries_sublist_flatAux (cs.take p) (es.take p)).subset ha)))
  have hBkeys : ∀ b ∈ es.drop (p + 1), key < b.1 := by
    intro b hb
    exact hgtE b (List.mem_append.mpr (Or.inr
      ((entries_sublist_flatTail (es.drop (p + 1)) (cs.drop (p + 2))).subset hb)))
  have hE : es.getD p (0, 0) = (key, (es.getD p (0, 0)).2) := by
    rw [← hkey]
  have herase : lsEraseK es key = es.take p ++ es.drop (p + 1) := by
    have h1 := lsEraseK_middle (es.take p) (es.drop (p + 1)) key
      (es.getD p (0, 0)).2 (not_mem_keys_of_lt _ _ hAkeys)
    conv_lhs => rw [hesdec, hE]
    exact h1.1
  have hscmem : subtreeMin fuel z ∈ flatten z := by
    rw [hzdecomp]
    simp
  have hscgt : key < (subtreeMin fuel z).1 :=
    hgtE _ (List.mem_append.mpr (Or.inl hscmem))
  have hAsc : ∀ a ∈ es.take p, a.1 < (subtreeMin fuel z).1 := by
    intro a ha
    have := hAkeys a ha
    omega
  have hBsc : ∀ b ∈ es.drop (p + 1), ¬b.1 < (subtreeMin fuel z).1 := by
    intro b hb
    have hbT : b ∈ flatTail (es.drop (p + 1)) (cs.drop (p + 2)) :=
      (entries_sublist_flatTail (es.drop (p + 1)) (cs.drop (p + 2))).subset hb
    have hZT : SortedEnt (flatten z ++ flatTail (es.drop (p + 1)) (cs.drop (p + 2))) := by
      have h1 := sortedEnt_of_append_right hs2
      rw [SortedEnt, List.pairwise_cons] at h1
      exact h1.2
    have := sortedEnt_cross hZT _ hscmem b hbT
    omega
  have hes2 : lsInsert (lsEraseK es key) (subtreeMin fuel z).1 (subtreeMin fuel z).2 =
      es.take p ++ subtreeMin fuel z :: es.drop (p + 1) := by
    rw [herase]
    rw [lsInsert_split _ _ _ _ hAsc hBsc]
  have hes2len : (lsInsert (lsEraseK es key) (subtreeMin fuel z).1
      (subtreeMin fuel z).2).length = es.length := by
    rw [hes2]
    conv_rhs => rw [hesdec]
    simp
  have hscnd : (subtreeMin fuel z).1 ∉ lsKeys ((flatten z).drop 1) := by
    refine not_mem_keys_of_gt _ _ ?_
    intro a ha
    have hsz2 : SortedEnt (subtreeMin fuel z :: (flatten z).drop 1) := by
      rw [← hzdecomp]
      exact hzsort
    rw [SortedEnt, List.pairwise_cons] at hsz2
    exact hsz2.1 a ha
  obtain ⟨ihr, ihflat, ihbal, ihsz, ihminc⟩ := ih h0 z (subtreeMin fuel z).1 hzb hf hzsort
    (minOK_children cap _ hzmin) hzsz
  have hz2flat : flatten (nErase cap fuel z (subtreeMin fuel z).1).2 =
      (flatten z).drop 1 := by
    rw [ihflat]
    conv_lhs => rw [hzdecomp]
    exact lsEraseK_cons_self _ _ _ rfl
  refine ⟨?_, ?_, hes2len, ?_⟩
  · have hset := flatten_set (lsInsert (lsEraseK es key) (subtreeMin fuel z).1
        (subtreeMin fuel z).2) cs (p + 1) (nErase cap fuel z (subtreeMin fuel z).1).2
      (by rw [hes2len, hcnt]) (by rw [hes2len]; omega)
    rw [hset, hz2flat]
    have htk2 : (lsInsert (lsEraseK es key) (subtreeMin fuel z).1
        (subtreeMin fuel z).2).take (p + 1) = es.take p ++ [subtreeMin fuel z] := by
      rw [hes2]
      have h := take_append_len_succ (es.take p) (subtreeMin fuel z) (es.drop (p + 1))
      rwa [hAlen] at h
    have hdr2 : (lsInsert (lsEraseK es key) (subtreeMin fuel z).1
        (subtreeMin fuel z).2).drop (p + 1) = es.drop (p + 1) := by
      rw [hes2]
      have h := drop_append_len_succ (es.take p) (subtreeMin fuel z) (es.drop (p + 1))
      rwa [hAlen] at h
    have htkc : cs.take (p + 1) = cs.take p ++ [cs.getD p nilNode] :=
      take_succ_getD cs p nilNode (by omega)
    rw [htk2, hdr2, htkc]
    rw [flatAux_append (es.take p) (cs.take p) [subtreeMin fuel z] [cs.getD p nilNode]
      (by rw [hAlen, hAcs])]
    rw [flatAux_cons_cons, flatAux_nil]
    rw [hdec2]
    rw [lsEraseK_append _ _ key (not_mem_keys_of_lt _ _ hltE)]
    rw [lsEraseK_cons_self _ _ key hkey]
    conv_rhs => rw [hzdecomp]
    simp
  · refine Bal.node _ _ h0 (by rw [hes2len]; exact hesle) (by
      rw [List.length_set, hes2len]
      exact hcnt) ?_
    intro c hc
    rcases List.mem_or_eq_of_mem_set hc with hc | hc
    · exact hall c hc
    · rw [hc]
      exact ihbal
  · intro c hc
    rcases List.mem_or_eq_of_mem_set hc with hc | hc
    · exact hmin c hc
    · rw [hc]
      refine minOK_of_parts cap _ ?_ ihminc
      calc threshold cap - 1 ≤ z.size - 1 := by omega
        _ ≤ _ := ihsz

end Btree


namespace Btree

theorem insEntries_between : ∀ (moved low high : List (Int × Int)),
    (∀ b ∈ moved, ∀ a ∈ low, a.1 < b.1) →
    (∀ b ∈ moved, ∀ c ∈ high, b.1 < c.1) →
    SortedEnt moved →
    insEntries (low ++ high) moved = low ++ moved ++ high
  | [], low, high, _, _, _ => by simp [insEntries]
  | m :: rest, low, high, hlow, hhigh, hm => by
    rw [SortedEnt, List.pairwise_cons] at hm
    rw [insEntries, List.foldl_cons, ← insEntries]
    have h1 : lsInsert (low ++ high) m.1 m.2 = low ++ m :: high := by
      have h2 := lsInsert_split low high m.1 m.2
        (fun a ha => hlow m (by simp) a ha)
        (fun c hc => not_lt.mpr (le_of_lt (hhigh m (by simp) c hc)))
      exact h2
    rw [h1]
    rw [show low ++ m :: high = (low ++ [m]) ++ high from by simp]
    rw [insEntries_between rest (low ++ [m]) high
      (by
        intro b hb a ha
        rcases List.mem_append.mp ha with ha | ha
        · exact hlow b (by simp [hb]) a ha
        · rw [List.mem_singleton] at ha
          rw [ha]
          exact hm.1 b hb)
      (fun b hb c hc => hhigh b (by simp [hb]) c hc)
      hm.2]
    simp

theorem erase_merge_right (cap : Nat) (hcap : 4 ≤ cap) (hev : cap % 2 = 0) (fuel : Nat)
    (ih : ∀ (h : Nat) (t : BNode) (key : Int),
      Bal cap t h → h ≤ fuel → SortedEnt (flatten t) →
      (∀ c ∈ t.children, MinOK cap c) → 1 ≤ t.size →
      ((nErase cap fuel t key).1 = true ↔ key ∈ lsKeys (flatten t)) ∧
      flatten (nErase cap fuel t key).2 = lsEraseK (flatten t) key ∧
      Bal cap (nErase cap fuel t key).2 h ∧
      t.size - 1 ≤ (nErase cap fuel t key).2.size ∧
      (∀ c ∈ (nErase cap fuel t key).2.children, MinOK cap c))
    (es : List (Int × Int)) (cs : List BNode) (key : Int) (h0 I : Nat)
    (c R : BNode) (hc : c = cs.getD I nilNode) (hR : R = cs.getD (I + 1) nilNode)
    (C2 : BNode) (hC2 : C2 = BNode.mk
      (insEntries (lsInsert c.entries (es.getD I (0, 0)).1
        (lsEraseV es (es.getD I (0, 0)).1)) R.entries)
      (if R.isLeaf then c.children else c.children ++ R.children))
    (hcnt : cs.length = es.length + 1)
    (hesle : es.length ≤ cap)
    (hall : ∀ c ∈ cs, Bal cap c h0) (hf : h0 ≤ fuel)
    (hs : SortedEnt (flatten (.mk es cs)))
    (hmin : ∀ c ∈ cs, MinOK cap c)
    (hIes : I < es.length)
    (hbrF : ∀ a ∈ flatAux (es.take I) (cs.take I), a.1 < key)
    (hbrT : ∀ b ∈ flatTail (es.drop I) (cs.drop (I + 1)), key < b.1)
    (hthR : R.size < threshold cap)
    (hthc : c.size < threshold cap) :
    ((nErase cap fuel C2 key).1 = true ↔ key ∈ lsKeys (flatten (.mk es cs))) ∧
    flatten (.mk (lsEraseK es (es.getD I (0, 0)).1)
      ((cs.set I (nErase cap fuel C2 key).2).eraseIdx (I + 1))) =
      lsEraseK (flatten (.mk es cs)) key ∧
    Bal cap (.mk (lsEraseK es (es.getD I (0, 0)).1)
      ((cs.set I (nErase cap fuel C2 key).2).eraseIdx (I + 1))) (h0 + 1) ∧
    (lsEraseK es (es.getD I (0, 0)).1).length + 1 = es.length ∧
    (∀ c ∈ (cs.set I (nErase cap fuel C2 key).2).eraseIdx (I + 1), MinOK cap c) := by
  have hpcs : I + 1 < cs.length := by omega
  have hcmem : c ∈ cs := by
    rw [hc]
    exact getD_mem_of_lt cs I (by omega)
  have hRmem : R ∈ cs := by
    rw [hR]
    exact getD_mem_of_lt cs (I + 1) hpcs
  have hcb : Bal cap c h0 := hall _ hcmem
  have hRb : Bal cap R h0 := hall _ hRmem
  have hcmin : MinOK cap c := hmin _ hcmem
  have hRmin : MinOK cap R := hmin _ hRmem
  have hcsz : c.size = threshold cap - 1 := by
    have := minOK_size cap c hcmin
    omega
  have hRsz : R.size = threshold cap - 1 := by
    have := minOK_size cap R hRmin
    omega
  have hcsort0 : SortedEnt (flatten c) := by
    rw [hc]
    exact child_sorted es cs I hcnt (by omega) hs
  have hRsort : SortedEnt (flatten R) := by
    rw [hR]
    exact child_sorted es cs (I + 1) hcnt (by omega) hs
  have hdec2 := flatten_decomp2 es cs I hcnt hIes
  rw [← hc, ← hR] at hdec2
  have hs2 : SortedEnt (flatAux (es.take I) (cs.take I) ++ flatten c ++
      es.getD I (0, 0) :: (flatten R ++
        flatTail (es.drop (I + 1)) (cs.drop (I + 2)))) := by
    rw [← hdec2]
    exact hs
  have hAlen : (es.take I).length = I := by
    rw [List.length_take]
    omega
  have hAcs : (cs.take I).length = I := by
    rw [List.length_take]
    omega
  have hTexp : flatTail (es.drop I) (cs.drop (I + 1)) =
      es.getD I (0, 0) :: (flatten R ++
        flatTail (es.drop (I + 1)) (cs.drop (I + 2))) := by
    rw [drop_eq_getD_cons_ent es I hIes, flatTail_cons]
    rw [drop_eq_getD_cons_node cs (I + 1) hpcs, ← hR]
    rw [flatAux_cons_eq (es.drop (I + 1)) _ (cs.drop (I + 1 + 1)) (by
      intro hEnil
      have h1 := List.length_drop (I + 1) es
      rw [hEnil] at h1
      simp only [List.length_nil] at h1
      refine List.eq_nil_of_length_eq_zero ?_
      rw [List.length_drop]
      omega)]
  have hbrT2 : ∀ b ∈ es.getD I (0, 0) :: (flatten R ++
      flatTail (es.drop (I + 1)) (cs.drop (I + 2))), key < b.1 := by
    rw [← hTexp]
    exact hbrT
  have hesdec : es = es.take I ++ es.getD I (0, 0) :: es.drop (I + 1) :=
    take_getD_drop es I hIes
  have hEeta : es.getD I (0, 0) = ((es.getD I (0, 0)).1, (es.getD I (0, 0)).2) := rfl
  have hAspl : ∀ a ∈ es.take I, a.1 < (es.getD I (0, 0)).1 := by
    intro a ha
    have haF : a ∈ flatAux (es.take I) (cs.take I) :=
      (entries_sublist_flatAux (cs.take I) (es.take I)).subset ha
    exact sortedEnt_cross hs2 a (List.mem_append.mpr (Or.inl haF)) _ (by simp)
  have herase3 : lsEraseK es (es.getD I (0, 0)).1 = es.take I ++ es.drop (I + 1) ∧
      lsEraseV es (es.getD I (0, 0)).1 = (es.getD I (0, 0)).2 := by
    have h1 := lsEraseK_middle (es.take I) (es.drop (I + 1)) (es.getD I (0, 0)).1
      (es.getD I (0, 0)).2 (not_mem_keys_of_lt _ _ hAspl)
    rw [← hEeta, ← hesdec] at h1
    exact h1
  have heraselen : (lsEraseK es (es.getD I (0, 0)).1).length + 1 = es.length := by
    rw [herase3.1]
    conv_rhs => rw [hesdec]
    simp only [List.length_append, List.length_cons]
    omega
  -- the merged node
  have hckeys : ∀ a ∈ flatten c, a.1 < (es.getD I (0, 0)).1 := by
    intro a ha
    exact sortedEnt_cross hs2 a (List.mem_append.mpr (Or.inr ha)) _ (by simp)
  have hRkeys : ∀ b ∈ flatten R, (es.getD I (0, 0)).1 < b.1 := by
    have h1 := sortedEnt_of_append_right hs2
    rw [SortedEnt, List.pairwise_cons] at h1
    intro b hb
    exact h1.1 b (List.mem_append.mpr (Or.inl hb))
  have hins : lsInsert c.entries (es.getD I (0, 0)).1 (lsEraseV es (es.getD I (0, 0)).1) =
      c.entries ++ [es.getD I (0, 0)] := by
    rw [herase3.2]
    have h1 := lsInsert_split c.entries [] (es.getD I (0, 0)).1 (es.getD I (0, 0)).2
      (fun e he => hckeys e ((entries_sublist_flatten c).subset he))
      (by simp)
    rw [← hEeta] at h1
    simpa using h1
  have hmerged : insEntries (lsInsert c.entries (es.getD I (0, 0)).1
      (lsEraseV es (es.getD I (0, 0)).1)) R.entries =
      (c.entries ++ [es.getD I (0, 0)]) ++ R.entries := by
    rw [hins]
    refine insEntries_sorted_append _ _ ?_ ?_
    · intro a ha b hb
      have hbR : (es.getD I (0, 0)).1 < b.1 :=
        hRkeys b ((entries_sublist_flatten R).subset hb)
      rcases List.mem_append.mp ha with ha | ha
      · have := hckeys a ((entries_sublist_flatten c).subset ha)
        omega
      · rw [List.mem_singleton] at ha
        rw [ha]
        exact hbR
    · exact List.Pairwise.sublist (entries_sublist_flatten R) hRsort
  have hchild : (if R.isLeaf then c.children else c.children ++ R.children) =
      c.children ++ R.children := by
    by_cases hRl : R.isLeaf = true
    · rw [if_pos hRl]
      rw [isLeaf_iff] at hRl
      rw [hRl, List.append_nil]
    · rw [if_neg (by simpa using hRl)]
  have hc2flat : flatten C2 = flatten c ++ es.getD I (0, 0) :: flatten R := by
    rw [hC2, hmerged, hchild, flatten_mk]
    rcases bal_shape cap c h0 hcb with hcc | hcc
    · have h01 : h0 = 1 := bal_nil_children cap c h0 hcb hcc
      have hRc : R.children = [] := bal_one_leaf cap R (h01 ▸ hRb)
      rw [hcc, hRc]
      simp only [List.append_nil, flatAux_nil]
      rw [flatten_eta c, flatten_eta R, hcc, hRc, flatAux_nil, flatAux_nil]
      simp
    · rw [flatAux_merge c.entries R.entries c.children R.children (es.getD I (0, 0)) hcc]
      rw [flatAux_append_entry c.entries c.children (es.getD I (0, 0)) hcc]
      rw [← flatten_eta c, ← flatten_eta R]
      simp
  have h0pos : 1 ≤ h0 := bal_pos cap c h0 hcb
  have hc2size : (insEntries (lsInsert c.entries (es.getD I (0, 0)).1
      (lsEraseV es (es.getD I (0, 0)).1)) R.entries).length = cap - 1 := by
    rw [hmerged]
    have h1 : c.entries.length = threshold cap - 1 := hcsz
    have h2 : R.entries.length = threshold cap - 1 := hRsz
    simp only [List.length_append, List.length_cons, List.length_nil, h1, h2]
    rw [threshold]
    omega
  have hc2bal : Bal cap C2 h0 := by
    rw [hC2, hchild]
    rcases bal_shape cap c h0 hcb with hcc | hcc
    · have h01 : h0 = 1 := bal_nil_children cap c h0 hcb hcc
      have hRc : R.children = [] := bal_one_leaf cap R (h01 ▸ hRb)
      rw [hcc, hRc, h01]
      exact Bal.leaf _ (by rw [hc2size]; omega)
    · have hRc : R.children.length = R.entries.length + 1 := by
        rcases bal_shape cap R h0 hRb with hRc | hRc
        · have h01 : h0 = 1 := bal_nil_children cap R h0 hRb hRc
          have := bal_one_leaf cap c (h01 ▸ hcb)
          rw [this] at hcc
          simp at hcc
        · exact hRc
      have hrw : h0 = (h0 - 1) + 1 := by omega
      rw [hrw]
      refine Bal.node _ _ (h0 - 1) (by rw [hc2size]; omega) (by
        rw [hc2size]
        simp only [List.length_append, hcc, hRc]
        have h1 : c.entries.length = threshold cap - 1 := hcsz
        have h2 : R.entries.length = threshold cap - 1 := hRsz
        rw [h1, h2, threshold]
        omega) ?_
      intro c3 hc3
      rcases List.mem_append.mp hc3 with hc3 | hc3
      · exact bal_child_any cap c h0 hcb c3 hc3
      · exact bal_child_any cap R h0 hRb c3 hc3
  have hresh : flatAux (es.take I) (cs.take I) ++ flatten c ++
      es.getD I (0, 0) :: (flatten R ++ flatTail (es.drop (I + 1)) (cs.drop (I + 2))) =
      flatAux (es.take I) (cs.take I) ++ ((flatten c ++ es.getD I (0, 0) :: flatten R) ++
        flatTail (es.drop (I + 1)) (cs.drop (I + 2))) := by
    simp [List.append_assoc]
  have hc2sort : SortedEnt (flatten C2) := by
    rw [hc2flat]
    have h2 := hs2
    rw [hresh] at h2
    exact sortedEnt_of_append_left (sortedEnt_of_append_right h2)
  have hc2min : ∀ c3 ∈ C2.children, MinOK cap c3 := by
    rw [hC2, children_mk, hchild]
    intro c3 hc3
    rcases List.mem_append.mp hc3 with hc3 | hc3
    · exact minOK_children cap c hcmin c3 hc3
    · exact minOK_children cap R hRmin c3 hc3
  have hc2sz1 : 1 ≤ C2.size := by
    rw [hC2, size_mk, hc2size]
    omega
  have hreassoc : flatten (.mk es cs) =
      flatAux (es.take I) (cs.take I) ++ flatten C2 ++
        flatTail (es.drop (I + 1)) (cs.drop (I + 2)) := by
    rw [hdec2, hc2flat]
    simp [List.append_assoc]
  have hT2gt : ∀ b ∈ flatTail (es.drop (I + 1)) (cs.drop (I + 2)), key < b.1 := by
    intro b hb
    exact hbrT2 b (List.mem_cons.mpr (Or.inr (List.mem_append.mpr (Or.inr hb))))
  have hkeysiff : key ∈ lsKeys (flatten (.mk es cs)) ↔ key ∈ lsKeys (flatten C2) := by
    rw [hreassoc]
    exact keys_mid_iff _ _ _ key hbrF hT2gt
  obtain ⟨ihr, ihflat, ihbal, ihsz, ihminc⟩ := ih h0 C2 key hc2bal hf hc2sort hc2min hc2sz1
  -- the rebuilt child array
  have hcsd := cs_decomp2 cs I hpcs
  rw [← hc, ← hR] at hcsd
  have hset1 : cs.set I (nErase cap fuel C2 key).2 =
      cs.take I ++ (nErase cap fuel C2 key).2 :: R :: cs.drop (I + 2) := by
    conv_lhs => rw [hcsd]
    have h := set_append_len (cs.take I) c (R :: cs.drop (I + 2))
      (nErase cap fuel C2 key).2
    rwa [hAcs] at h
  have hset2 : (cs.set I (nErase cap fuel C2 key).2).eraseIdx (I + 1) =
      cs.take I ++ (nErase cap fuel C2 key).2 :: cs.drop (I + 2) := by
    rw [hset1]
    have h := eraseIdx_append_len_succ (cs.take I) (nErase cap fuel C2 key).2 R
      (cs.drop (I + 2))
    rwa [hAcs] at h
  have hcond : es.drop (I + 1) = [] → cs.drop (I + 2) = [] := by
    intro hEnil
    have h1 := List.length_drop (I + 1) es
    rw [hEnil] at h1
    simp only [List.length_nil] at h1
    refine List.eq_nil_of_length_eq_zero ?_
    rw [List.length_drop]
    omega
  refine ⟨?_, ?_, ?_, heraselen, ?_⟩
  · exact ihr.trans hkeysiff.symm
  · rw [hset2, flatten_mk]
    conv_lhs => rw [herase3.1]
    rw [flatAux_append (es.take I) (cs.take I) _ _ (by rw [hAlen, hAcs])]
    rw [flatAux_cons_eq (es.drop (I + 1)) _ (cs.drop (I + 2)) hcond]
    rw [ihflat]
    rw [hreassoc]
    rw [lsEraseK_concat_mid _ _ _ key (not_mem_keys_of_lt _ _ hbrF)
      (not_mem_keys_of_gt _ _ hT2gt)]
    simp [List.append_assoc]
  · rw [hset2]
    refine Bal.node _ _ h0 (by omega) (by
      simp only [List.length_append, List.length_cons, hAcs, List.length_drop]
      omega) ?_
    intro c3 hc3
    rcases List.mem_append.mp hc3 with hc3 | hc3
    · exact hall c3 (List.mem_of_mem_take hc3)
    · rcases List.mem_cons.mp hc3 with rfl | hc3
      · exact ihbal
      · exact hall c3 (List.mem_of_mem_drop hc3)
  · intro c3 hc3
    rw [hset2] at hc3
    rcases List.mem_append.mp hc3 with hc3 | hc3
    · exact hmin c3 (List.mem_of_mem_take hc3)
    · rcases List.mem_cons.mp hc3 with rfl | hc3
      · refine minOK_of_parts cap _ ?_ ihminc
        have h1 : C2.size = cap - 1 := by
          rw [hC2, size_mk, hc2size]
        rw [h1] at ihsz
        rw [threshold] at *
        omega
      · exact hmin c3 (List.mem_of_mem_drop hc3)

end Btree

namespace Btree

theorem erase_merge_left (cap : Nat) (hcap : 4 ≤ cap) (hev : cap % 2 = 0) (fuel : Nat)
    (ih : ∀ (h : Nat) (t : BNode) (key : Int),
      Bal cap t h → h ≤ fuel → SortedEnt (flatten t) →
      (∀ c ∈ t.children, MinOK cap c) → 1 ≤ t.size →
      ((nErase cap fuel t key).1 = true ↔ key ∈ lsKeys (flatten t)) ∧
      flatten (nErase cap fuel t key).2 = lsEraseK (flatten t) key ∧
      Bal cap (nErase cap fuel t key).2 h ∧
      t.size - 1 ≤ (nErase cap fuel t key).2.size ∧
      (∀ c ∈ (nErase cap fuel t key).2.children, MinOK cap c))
    (es : List (Int × Int)) (cs : List BNode) (key : Int) (h0 p : Nat)
    (L c : BNode) (hL : L = cs.getD p nilNode) (hc : c = cs.getD (p + 1) nilNode)
    (C2 : BNode) (hC2 : C2 = BNode.mk
      (insEntries (lsInsert c.entries (es.getD p (0, 0)).1
        (lsEraseV es (es.getD p (0, 0)).1)) L.entries)
      (if L.isLeaf then c.children else L.children ++ c.children))
    (hcnt : cs.length = es.length + 1)
    (hesle : es.length ≤ cap)
    (hall : ∀ c ∈ cs, Bal cap c h0) (hf : h0 ≤ fuel)
    (hs : SortedEnt (flatten (.mk es cs)))
    (hmin : ∀ c ∈ cs, MinOK cap c)
    (hIle : p + 1 ≤ es.length)
    (hbrF : ∀ a ∈ flatAux (es.take (p + 1)) (cs.take (p + 1)), a.1 < key)
    (hbrT : ∀ b ∈ flatTail (es.drop (p + 1)) (cs.drop (p + 2)), key < b.1)
    (hthL : L.size < threshold cap)
    (hthc : c.size < threshold cap) :
    ((nErase cap fuel C2 key).1 = true ↔ key ∈ lsKeys (flatten (.mk es cs))) ∧
    flatten (.mk (lsEraseK es (es.getD p (0, 0)).1)
      ((cs.eraseIdx p).set p (nErase cap fuel C2 key).2)) =
      lsEraseK (flatten (.mk es cs)) key ∧
    Bal cap (.mk (lsEraseK es (es.getD p (0, 0)).1)
      ((cs.eraseIdx p).set p (nErase cap fuel C2 key).2)) (h0 + 1) ∧
    (lsEraseK es (es.getD p (0, 0)).1).length + 1 = es.length ∧
    (∀ c ∈ (cs.eraseIdx p).set p (nErase cap fuel C2 key).2, MinOK cap c) := by
  have hpes : p < es.length := by omega
  have hpcs : p + 1 < cs.length := by omega
  have hLmem : L ∈ cs := by
    rw [hL]
    exact getD_mem_of_lt cs p (by omega)
  have hcmem : c ∈ cs := by
    rw [hc]
    exact getD_mem_of_lt cs (p + 1) hpcs
  have hLb : Bal cap L h0 := hall _ hLmem
  have hcb : Bal cap c h0 := hall _ hcmem
  have hLmin : MinOK cap L := hmin _ hLmem
  have hcmin : MinOK cap c := hmin _ hcmem
  have hLsz : L.size = threshold cap - 1 := by
    have := minOK_size cap L hLmin
    omega
  have hcsz : c.size = threshold cap - 1 := by
    have := minOK_size cap c hcmin
    omega
  have hLsort : SortedEnt (flatten L) := by
    rw [hL]
    exact child_sorted es cs p hcnt (by omega) hs
  have hcsort0 : SortedEnt (flatten c) := by
    rw [hc]
    exact child_sorted es cs (p + 1) hcnt (by omega) hs
  have hdec2 := flatten_decomp2 es cs p hcnt hpes
  rw [← hL, ← hc] at hdec2
  have hs2 : SortedEnt (flatAux (es.take p) (cs.take p) ++ flatten L ++
      es.getD p (0, 0) :: (flatten c ++
        flatTail (es.drop (p + 1)) (cs.drop (p + 2)))) := by
    rw [← hdec2]
    exact hs
  have htkE : es.take (p + 1) = es.take p ++ [es.getD p (0, 0)] :=
    take_succ_getD es p (0, 0) hpes
  have htkC : cs.take (p + 1) = cs.take p ++ [L] := by
    rw [hL]
    exact take_succ_getD cs p nilNode (by omega)
  have hAlen : (es.take p).length = p := by
    rw [List.length_take]
    omega
  have hAcs : (cs.take p).length = p := by
    rw [List.length_take]
    omega
  have hbrF2 : ∀ a ∈ flatAux (es.take p) (cs.take p) ++ (flatten L ++ [es.getD p (0, 0)]),
      a.1 < key := by
    intro a ha
    refine hbrF a ?_
    rw [htkE, htkC]
    rw [flatAux_append (es.take p) (cs.take p) [es.getD p (0, 0)] [L] (by rw [hAlen, hAcs])]
    rw [flatAux_cons_cons, flatAux_nil]
    simpa using ha
  have hsplk : (es.getD p (0, 0)).1 < key :=
    hbrF2 _ (List.mem_append.mpr (Or.inr (List.mem_append.mpr (Or.inr (by simp)))))
  have hcgt : ∀ b ∈ flatten c ++ flatTail (es.drop (p + 1)) (cs.drop (p + 2)),
      (es.getD p (0, 0)).1 < b.1 := by
    have h1 := sortedEnt_of_append_right hs2
    rw [SortedEnt, List.pairwise_cons] at h1
    exact h1.1
  have hesdec : es = es.take p ++ es.getD p (0, 0) :: es.drop (p + 1) :=
    take_getD_drop es p hpes
  have hEeta : es.getD p (0, 0) = ((es.getD p (0, 0)).1, (es.getD p (0, 0)).2) := rfl
  have hAspl : ∀ a ∈ es.take p, a.1 < (es.getD p (0, 0)).1 := by
    intro a ha
    have haF : a ∈ flatAux (es.take p) (cs.take p) :=
      (entries_sublist_flatAux (cs.take p) (es.take p)).subset ha
    exact sortedEnt_cross hs2 a (List.mem_append.mpr (Or.inl haF)) _ (by simp)
  have herase3 : lsEraseK es (es.getD p (0, 0)).1 = es.take p ++ es.drop (p + 1) ∧
      lsEraseV es (es.getD p (0, 0)).1 = (es.getD p (0, 0)).2 := by
    have h1 := lsEraseK_middle (es.take p) (es.drop (p + 1)) (es.getD p (0, 0)).1
      (es.getD p (0, 0)).2 (not_mem_keys_of_lt _ _ hAspl)
    rw [← hEeta, ← hesdec] at h1
    exact h1
  have heraselen : (lsEraseK es (es.getD p (0, 0)).1).length + 1 = es.length := by
    rw [herase3.1]
    conv_rhs => rw [hesdec]
    simp only [List.length_append, List.length_cons]
    omega
  -- the merged node
  have hLkeys : ∀ a ∈ flatten L, a.1 < (es.getD p (0, 0)).1 := by
    intro a ha
    exact sortedEnt_cross hs2 a (List.mem_append.mpr (Or.inr ha)) _ (by simp)
  have hins : lsInsert c.entries (es.getD p (0, 0)).1 (lsEraseV es (es.getD p (0, 0)).1) =
      es.getD p (0, 0) :: c.entries := by
    rw [herase3.2]
    rw [lsInsert_all_ge c.entries _ _ (by
      intro e he
      have h1 := hcgt e (List.mem_append.mpr (Or.inl ((entries_sublist_flatten c).subset he)))
      omega)]
  have hmerged : insEntries (lsInsert c.entries (es.getD p (0, 0)).1
      (lsEraseV es (es.getD p (0, 0)).1)) L.entries =
      L.entries ++ es.getD p (0, 0) :: c.entries := by
    rw [hins]
    have h1 := insEntries_between L.entries [] (es.getD p (0, 0) :: c.entries)
      (by intro b hb a ha; simp at ha)
      (by
        intro b hb x hx
        have hbL : b.1 < (es.getD p (0, 0)).1 :=
          hLkeys b ((entries_sublist_flatten L).subset hb)
        rcases List.mem_cons.mp hx with rfl | hx
        · exact hbL
        · have h2 := hcgt x (List.mem_append.mpr
            (Or.inl ((entries_sublist_flatten c).subset hx)))
          omega)
      (List.Pairwise.sublist (entries_sublist_flatten L) hLsort)
    simpa using h1
  have hchild : (if L.isLeaf then c.children else L.children ++ c.children) =
      L.children ++ c.children := by
    by_cases hLl : L.isLeaf = true
    · rw [if_pos hLl]
      rw [isLeaf_iff] at hLl
      rw [hLl, List.nil_append]
    · rw [if_neg (by simpa using hLl)]
  have hc2flat : flatten C2 = flatten L ++ es.getD p (0, 0) :: flatten c := by
    rw [hC2, hmerged, hchild, flatten_mk]
    rcases bal_shape cap L h0 hLb with hLc | hLc
    · have h01 : h0 = 1 := bal_nil_children cap L h0 hLb hLc
      have hcc : c.children = [] := bal_one_leaf cap c (h01 ▸ hcb)
      rw [hLc, hcc]
      simp only [List.append_nil, List.nil_append, flatAux_nil]
      rw [flatten_eta L, flatten_eta c, hLc, hcc, flatAux_nil, flatAux_nil]
    · rw [show L.entries ++ es.getD p (0, 0) :: c.entries =
        (L.entries ++ [es.getD p (0, 0)]) ++ c.entries from by simp]
      rw [flatAux_merge L.entries c.entries L.children c.children (es.getD p (0, 0)) hLc]
      rw [flatAux_append_entry L.entries L.children (es.getD p (0, 0)) hLc]
      rw [← flatten_eta L, ← flatten_eta c]
      simp
  have h0pos : 1 ≤ h0 := bal_pos cap L h0 hLb
  have hc2size : (insEntries (lsInsert c.entries (es.getD p (0, 0)).1
      (lsEraseV es (es.getD p (0, 0)).1)) L.entries).length = cap - 1 := by
    rw [hmerged]
    have h1 : L.entries.length = threshold cap - 1 := hLsz
    have h2 : c.entries.length = threshold cap - 1 := hcsz
    simp only [List.length_append, List.length_cons, h1, h2]
    rw [threshold]
    omega
  have hc2bal : Bal cap C2 h0 := by
    rw [hC2, hchild]
    rcases bal_shape cap L h0 hLb with hLc | hLc
    · have h01 : h0 = 1 := bal_nil_children cap L h0 hLb hLc
      have hcc : c.children = [] := bal_one_leaf cap c (h01 ▸ hcb)
      rw [hLc, hcc, h01]
      exact Bal.leaf _ (by rw [hc2size]; omega)
    · have hcc : c.children.length = c.entries.length + 1 := by
        rcases bal_shape cap c h0 hcb with hcc | hcc
        · have h01 : h0 = 1 := bal_nil_children cap c h0 hcb hcc
          have := bal_one_leaf cap L (h01 ▸ hLb)
          rw [this] at hLc
          simp at hLc
        · exact hcc
      have hrw : h0 = (h0 - 1) + 1 := by omega
      rw [hrw]
      refine Bal.node _ _ (h0 - 1) (by rw [hc2size]; omega) (by
        rw [hc2size]
        simp only [List.length_append, hLc, hcc]
        have h1 : L.entries.length = threshold cap - 1 := hLsz
        have h2 : c.entries.length = threshold cap - 1 := hcsz
        rw [h1, h2, threshold]
        omega) ?_
      intro c3 hc3
      rcases List.mem_append.mp hc3 with hc3 | hc3
      · exact bal_child_any cap L h0 hLb c3 hc3
      · exact bal_child_any cap c h0 hcb c3 hc3
  have hresh : flatAux (es.take p) (cs.take p) ++ flatten L ++
      es.getD p (0, 0) :: (flatten c ++ flatTail (es.drop (p + 1)) (cs.drop (p + 2))) =
      flatAux (es.take p) (cs.take p) ++ ((flatten L ++ es.getD p (0, 0) :: flatten c) ++
        flatTail (es.drop (p + 1)) (cs.drop (p + 2))) := by
    simp [List.append_assoc]
  have hc2sort : SortedEnt (flatten C2) := by
    rw [hc2flat]
    have h2 := hs2
    rw [hresh] at h2
    exact sortedEnt_of_append_left (sortedEnt_of_append_right h2)
  have hc2min : ∀ c3 ∈ C2.children, MinOK cap c3 := by
    rw [hC2, children_mk, hchild]
    intro c3 hc3
    rcases List.mem_append.mp hc3 with hc3 | hc3
    · exact minOK_children cap L hLmin c3 hc3
    · exact minOK_children cap c hcmin c3 hc3
  have hc2sz1 : 1 ≤ C2.size := by
    rw [hC2, size_mk, hc2size]
    omega
  have hFp : ∀ a ∈ flatAux (es.take p) (cs.take p), a.1 < key := by
    intro a ha
    exact hbrF2 a (List.mem_append.mpr (Or.inl ha))
  have hreassoc : flatten (.mk es cs) =
      flatAux (es.take p) (cs.take p) ++ flatten C2 ++
        flatTail (es.drop (p + 1)) (cs.drop (p + 2)) := by
    rw [hdec2, hc2flat]
    simp [List.append_assoc]
  have hkeysiff : key ∈ lsKeys (flatten (.mk es cs)) ↔ key ∈ lsKeys (flatten C2) := by
    rw [hreassoc]
    exact keys_mid_iff _ _ _ key hFp hbrT
  obtain ⟨ihr, ihflat, ihbal, ihsz, ihminc⟩ := ih h0 C2 key hc2bal hf hc2sort hc2min hc2sz1
  -- the rebuilt child array
  have hcsd := cs_decomp2 cs p hpcs
  rw [← hL, ← hc] at hcsd
  have hset1 : cs.eraseIdx p = cs.take p ++ c :: cs.drop (p + 2) := by
    conv_lhs => rw [hcsd]
    have h := eraseIdx_append_len (cs.take p) L (c :: cs.drop (p + 2))
    rwa [hAcs] at h
  have hset2 : (cs.eraseIdx p).set p (nErase cap fuel C2 key).2 =
      cs.take p ++ (nErase cap fuel C2 key).2 :: cs.drop (p + 2) := by
    rw [hset1]
    have h := set_append_len (cs.take p) c (cs.drop (p + 2)) (nErase cap fuel C2 key).2
    rwa [hAcs] at h
  have hcond : es.drop (p + 1) = [] → cs.drop (p + 2) = [] := by
    intro hEnil
    have h1 := List.length_drop (p + 1) es
    rw [hEnil] at h1
    simp only [List.length_nil] at h1
    refine List.eq_nil_of_length_eq_zero ?_
    rw [List.length_drop]
    omega
  refine ⟨?_, ?_, ?_, heraselen, ?_⟩
  · exact ihr.trans hkeysiff.symm
  · rw [hset2, flatten_mk]
    conv_lhs => rw [herase3.1]
    rw [flatAux_append (es.take p) (cs.take p) _ _ (by rw [hAlen, hAcs])]
    rw [flatAux_cons_eq (es.drop (p + 1)) _ (cs.drop (p + 2)) hcond]
    rw [ihflat]
    rw [hreassoc]
    rw [lsEraseK_concat_mid _ _ _ key (not_mem_keys_of_lt _ _ hFp)
      (not_mem_keys_of_gt _ _ hbrT)]
    simp [List.append_assoc]
  · rw [hset2]
    refine Bal.node _ _ h0 (by omega) (by
      simp only [List.length_append, List.length_cons, hAcs, List.length_drop]
      omega) ?_
    intro c3 hc3
    rcases List.mem_append.mp hc3 with hc3 | hc3
    · exact hall c3 (List.mem_of_mem_take hc3)
    · rcases List.mem_cons.mp hc3 with rfl | hc3
      · exact ihbal
      · exact hall c3 (List.mem_of_mem_drop hc3)
  · intro c3 hc3
    rw [hset2] at hc3
    rcases List.mem_append.mp hc3 with hc3 | hc3
    · exact hmin c3 (List.mem_of_mem_take hc3)
    · rcases List.mem_cons.mp hc3 with rfl | hc3
      · refine minOK_of_parts cap _ ?_ ihminc
        have h1 : C2.size = cap - 1 := by
          rw [hC2, size_mk, hc2size]
        rw [h1] at ihsz
        rw [threshold] at *
        omega
      · exact hmin c3 (List.mem_of_mem_drop hc3)

end Btree


namespace Btree

theorem lsErase_some_length : ∀ (es : List (Int × Int)) (k : Int)
    (p : Int × List (Int × Int)), lsErase es k = some p → p.2.length + 1 = es.length
  | [], k, p, h => by simp [lsErase] at h
  | e :: r, k, p, h => by
    rw [lsErase_cons] at h
    by_cases he : e.1 = k
    · rw [if_pos he] at h
      have h2 : p = (e.2, r) := (Option.some.inj h).symm
      rw [h2]
      simp
    · rw [if_neg he] at h
      cases hr2 : lsErase r k with
      | none =>
        rw [hr2] at h
        simp at h
      | some q =>
        rw [hr2] at h
        rw [Option.map_some'] at h
        have h4 := Option.some.inj h
        have h3 := lsErase_some_length r k q hr2
        rw [← h4]
        simp only [List.length_cons]
        omega

theorem nErase_ok (cap : Nat) (hcap : 4 ≤ cap) (hev : cap % 2 = 0) :
    ∀ (fuel : Nat) (h : Nat) (t : BNode) (key : Int),
      Bal cap t h → h ≤ fuel → SortedEnt (flatten t) →
      (∀ c ∈ t.children, MinOK cap c) → 1 ≤ t.size →
      ((nErase cap fuel t key).1 = true ↔ key ∈ lsKeys (flatten t)) ∧
      flatten (nErase cap fuel t key).2 = lsEraseK (flatten t) key ∧
      Bal cap (nErase cap fuel t key).2 h ∧
      t.size - 1 ≤ (nErase cap fuel t key).2.size ∧
      (∀ c ∈ (nErase cap fuel t key).2.children, MinOK cap c) := by
  intro fuel
  induction fuel with
  | zero =>
    intro h t key hb hf
    exact absurd (bal_pos cap t h hb) (by omega)
  | succ fuel ih =>
    intro h t key hb hf hs hmin hsz
    obtain ⟨es, cs⟩ := t
    cases cs with
    | nil =>
      cases hb with
      | node es2 cs2 h2 hlen2 hcnt2 hall2 => simp at hcnt2
      | leaf es hlen =>
        rw [nErase_leaf]
        cases helem : lsErase es key with
        | none =>
          have hnm : key ∉ lsKeys es := (lsErase_eq_none_iff es key).mp helem
          refine ⟨?_, ?_, Bal.leaf es hlen, Nat.sub_le _ _, ?_⟩
          · rw [flatten_leaf]
            constructor
            · intro hc
              simp at hc
            · intro hc
              exact absurd hc hnm
          · rw [flatten_leaf, lsEraseK, helem]
          · intro c hc
            rw [children_mk] at hc
            simp at hc
        | some pr =>
          have hkm : key ∈ lsKeys es := by
            by_contra hc
            rw [lsErase_not_mem es key hc] at helem
            exact absurd helem (by simp)
          have hlen2 := lsErase_some_length es key pr helem
          refine ⟨?_, ?_, ?_, ?_, ?_⟩
          · rw [flatten_leaf]
            exact ⟨fun _ => hkm, fun _ => rfl⟩
          · rw [flatten_leaf pr.2, flatten_leaf es, lsEraseK, helem]
          · exact Bal.leaf _ (by omega)
          · exact le_of_eq (by rw [size_mk, size_mk]; omega)
          · intro c hc
            rw [children_mk] at hc
            simp at hc
    | cons c0 cs' =>
      cases hb with
      | node es cs0 h0 hesle hcnt hall =>
        have hf0 : h0 ≤ fuel := by omega
        have hmin2 : ∀ c ∈ c0 :: cs', MinOK cap c := fun c hc => hmin c hc
        have hsz' : 1 ≤ es.length := hsz
        have hse : SortedEnt es :=
          List.Pairwise.sublist (entries_sublist_flatten (.mk es (c0 :: cs'))) hs
        rw [nErase_node cap fuel es c0 cs' key _ rfl _ rfl _ _ _ rfl rfl rfl _ _ rfl rfl]
        cases hr : lsPred es key with
        | some p =>
          simp only [hr, Nat.add_sub_cancel, Bool.and_eq_true, decide_eq_true_eq]
          obtain ⟨A, e, B, hesdec, hAlen, he1, he2, he3⟩ := lsPred_some es key p hse hr
          have hple : p < es.length := by
            rw [hesdec]
            simp only [List.length_append, List.length_cons]
            omega
          by_cases hkey : (es.getD p (0, 0)).1 = key
          · rw [if_pos hkey]
            by_cases hthy : threshold cap ≤ ((c0 :: cs').getD p nilNode).size
            · rw [if_pos hthy]
              obtain ⟨hkm, hfl, hbal, hlen, hminres⟩ :=
                erase_hit_left cap hcap hev fuel ih es (c0 :: cs') key h0 p _ rfl
                  hcnt hesle hall hf0 hs hmin2 hple hkey hthy
              refine ⟨⟨fun _ => hkm, fun _ => rfl⟩, hfl, hbal, ?_, hminres⟩
              exact le_trans (Nat.sub_le _ 1) (le_of_eq hlen.symm)
            · rw [if_neg hthy]
              have hkm := key_mem_of_hit es (c0 :: cs') p key hple hkey
              by_cases hthz : threshold cap ≤ ((c0 :: cs').getD (p + 1) nilNode).size
              · rw [if_pos hthz]
                obtain ⟨hfl, hbal, hlen, hminres⟩ :=
                  erase_hit_right cap hcap hev fuel ih es (c0 :: cs') key h0 p _ rfl
                    hcnt hesle hall hf0 hs hmin2 hple hkey hthz
                refine ⟨⟨fun _ => hkm, fun _ => rfl⟩, hfl, hbal, ?_, hminres⟩
                exact le_trans (Nat.sub_le _ 1) (le_of_eq hlen.symm)
              · rw [if_neg hthz]
                obtain ⟨hfl, hbal, hlen, hminres⟩ :=
                  erase_hit_merge cap hcap hev fuel ih es (c0 :: cs') key h0 p _ _ rfl rfl
                    hcnt hesle hall hf0 hs hmin2 hple hkey
                    (Nat.lt_of_not_le hthy) (Nat.lt_of_not_le hthz)
                refine ⟨⟨fun _ => hkm, fun _ => rfl⟩, hfl, hbal, ?_, hminres⟩
                have h4 : es.length - 1 ≤ (lsEraseK es key).length := by omega
                exact h4
          · rw [if_neg hkey]
            obtain ⟨hIle, hbrF, hbrT⟩ :=
              erase_brackets es (c0 :: cs') key (p + 1) (by rw [hr])
                (by rw [hr]; exact decide_eq_false hkey) hcnt hs
            by_cases hth : ((c0 :: cs').getD (p + 1) nilNode).size < threshold cap
            · rw [if_pos hth]
              by_cases hbL : threshold cap ≤ ((c0 :: cs').getD p nilNode).size
              · rw [if_pos ⟨Nat.succ_pos p, hbL⟩]
                obtain ⟨hiff, hfl, hbal, hlen, hminres⟩ :=
                  erase_borrow_left cap hcap hev fuel ih es (c0 :: cs') key h0 p
                    _ _ rfl rfl _ rfl _ rfl _ rfl
                    hcnt hesle hall hf0 hs hmin2 hIle hbrF hbrT hbL hth
                refine ⟨hiff, hfl, hbal, ?_, hminres⟩
                exact le_trans (Nat.sub_le _ 1) (le_of_eq hlen.symm)
              · rw [if_neg (fun hcon => hbL hcon.2)]
                by_cases hR1 : p + 1 + 1 < (c0 :: cs').length
                · have hIes : p + 1 < es.length := by
                    rw [hcnt] at hR1
                    omega
                  by_cases hbR : threshold cap ≤ ((c0 :: cs').getD (p + 1 + 1) nilNode).size
                  · rw [if_pos ⟨hR1, hbR⟩]
                    obtain ⟨hiff, hfl, hbal, hlen, hminres⟩ :=
                      erase_borrow_right cap hcap hev fuel ih es (c0 :: cs') key h0 (p + 1)
                        _ _ rfl rfl _ rfl _ rfl _ rfl
                        hcnt hesle hall hf0 hs hmin2 hIes hbrF hbrT hbR hth
                    refine ⟨hiff, hfl, hbal, ?_, hminres⟩
                    exact le_trans (Nat.sub_le _ 1) (le_of_eq hlen.symm)
                  · rw [if_neg (fun hcon => hbR hcon.2), if_pos hR1]
                    obtain ⟨hiff, hfl, hbal, hlen, hminres⟩ :=
                      erase_merge_right cap hcap hev fuel ih es (c0 :: cs') key h0 (p + 1)
                        _ _ rfl rfl _ rfl
                        hcnt hesle hall hf0 hs hmin2 hIes hbrF hbrT
                        (Nat.lt_of_not_le hbR) hth
                    refine ⟨hiff, hfl, hbal, ?_, hminres⟩
                    have h4 : es.length - 1 ≤ (lsEraseK es (es.getD (p + 1) (0, 0)).1).length := by
                      omega
                    exact h4
                · rw [if_neg (fun hcon => hR1 hcon.1), if_neg hR1]
                  obtain ⟨hiff, hfl, hbal, hlen, hminres⟩ :=
                    erase_merge_left cap hcap hev fuel ih es (c0 :: cs') key h0 p
                      _ _ rfl rfl _ rfl
                      hcnt hesle hall hf0 hs hmin2 hIle hbrF hbrT
                      (Nat.lt_of_not_le hbL) hth
                  refine ⟨hiff, hfl, hbal, ?_, hminres⟩
                  have h4 : es.length - 1 ≤ (lsEraseK es (es.getD p (0, 0)).1).length := by
                    omega
                  exact h4
            · rw [if_neg hth]
              obtain ⟨hiff, hfl, hbal, hminres⟩ :=
                erase_descend cap hcap hev fuel ih es (c0 :: cs') key h0 (p + 1)
                  hcnt hIle hesle hall hf0 hs hmin2 hbrF hbrT (Nat.le_of_not_lt hth)
              exact ⟨hiff, hfl, hbal, Nat.sub_le _ 1, hminres⟩
        | none =>
          simp only [hr, Bool.and_eq_true, decide_eq_true_eq]
          rw [if_neg Bool.false_ne_true]
          obtain ⟨hIle, hbrF, hbrT⟩ :=
            erase_brackets es (c0 :: cs') key 0 (by rw [hr]) (by rw [hr]) hcnt hs
          by_cases hth : ((c0 :: cs').getD 0 nilNode).size < threshold cap
          · rw [if_pos hth, if_neg (fun hcon => Nat.lt_irrefl 0 hcon.1)]
            have hR1 : 0 + 1 < (c0 :: cs').length := by
              rw [hcnt]
              omega
            by_cases hbR : threshold cap ≤ ((c0 :: cs').getD (0 + 1) nilNode).size
            · rw [if_pos ⟨hR1, hbR⟩]
              obtain ⟨hiff, hfl, hbal, hlen, hminres⟩ :=
                erase_borrow_right cap hcap hev fuel ih es (c0 :: cs') key h0 0
                  _ _ rfl rfl _ rfl _ rfl _ rfl
                  hcnt hesle hall hf0 hs hmin2 hsz' hbrF hbrT hbR hth
              refine ⟨hiff, hfl, hbal, ?_, hminres⟩
              exact le_trans (Nat.sub_le _ 1) (le_of_eq hlen.symm)
            · rw [if_neg (fun hcon => hbR hcon.2), if_pos hR1]
              obtain ⟨hiff, hfl, hbal, hlen, hminres⟩ :=
                erase_merge_right cap hcap hev fuel ih es (c0 :: cs') key h0 0
                  _ _ rfl rfl _ rfl
                  hcnt hesle hall hf0 hs hmin2 hsz' hbrF hbrT
                  (Nat.lt_of_not_le hbR) hth
              refine ⟨hiff, hfl, hbal, ?_, hminres⟩
              have h4 : es.length - 1 ≤ (lsEraseK es (es.getD 0 (0, 0)).1).length := by
                omega
              exact h4
          · rw [if_neg hth]
            obtain ⟨hiff, hfl, hbal, hminres⟩ :=
              erase_descend cap hcap hev fuel ih es (c0 :: cs') key h0 0
                hcnt (Nat.zero_le _) hesle hall hf0 hs hmin2 hbrF hbrT (Nat.le_of_not_lt hth)
            exact ⟨hiff, hfl, hbal, Nat.sub_le _ 1, hminres⟩

end Btree


namespace Btree

theorem nInsert_ok (cap : Nat) (hcap : 4 ≤ cap) (hev : cap % 2 = 0) :
    ∀ (fuel : Nat) (h : Nat) (t : BNode) (k v : Int),
      Bal cap t h → h ≤ fuel → SortedEnt (flatten t) →
      k ∉ lsKeys (flatten t) → t.size < cap →
      flatten (nInsert cap fuel t k v) = lsInsert (flatten t) k v ∧
      Bal cap (nInsert cap fuel t k v) h ∧
      t.size ≤ (nInsert cap fuel t k v).size ∧
      ((∀ c ∈ t.children, MinOK cap c) →
        ∀ c ∈ (nInsert cap fuel t k v).children, MinOK cap c) := by
  intro fuel
  induction fuel with
  | zero =>
    intro h t k v hb hf
    exact absurd (bal_pos cap t h hb) (by omega)
  | succ fuel ih =>
    intro h t k v hb hf hs hk hsz
    obtain ⟨es, cs⟩ := t
    cases cs with
    | nil =>
      cases hb with
      | leaf es hlen =>
        rw [nInsert_leaf]
        refine ⟨by rw [flatten_leaf, flatten_leaf], ?_, ?_, ?_⟩
        · exact Bal.leaf _ (by rw [lsInsert_length]; exact hsz)
        · rw [size_mk, size_mk, lsInsert_length]
          omega
        · intro _ c hc
          rw [children_mk] at hc
          exact absurd hc (by simp)
      | node es2 cs2 h2 hlen2 hcnt2 hall2 => simp at hcnt2
    | cons c0 cs' =>
      have hbn := hb
      cases hbn with
      | node es3 cs3 h0 hesle hcnt hall =>
        have hszlen : es.length < cap := hsz
        obtain ⟨hIle, hbrF, hbrT⟩ := insert_brackets es (c0 :: cs') k
          (match lsPred es k with | some p => p + 1 | none => 0) rfl hcnt hs hk
        rw [nInsert_node cap fuel es c0 cs' k v
          (match lsPred es k with | some p => p + 1 | none => 0) rfl]
        by_cases hfull :
            ((c0 :: cs').getD (match lsPred es k with | some p => p + 1 | none => 0)
              nilNode).size = cap
        · rw [if_pos hfull]
          obtain ⟨h1, h2, h3, h4⟩ := nInsert_split_branch cap hcap hev fuel ih es (c0 :: cs')
            k v h0 (match lsPred es k with | some p => p + 1 | none => 0)
            (splitChild cap (.mk es (c0 :: cs'))
              (match lsPred es k with | some p => p + 1 | none => 0)) rfl
            (if ((splitChild cap (.mk es (c0 :: cs'))
                (match lsPred es k with | some p => p + 1 | none => 0)).entries.getD
                (match lsPred es k with | some p => p + 1 | none => 0) (0, 0)).1 < k
              then (match lsPred es k with | some p => p + 1 | none => 0) + 1
              else (match lsPred es k with | some p => p + 1 | none => 0)) rfl
            hcnt hIle hszlen hall (by omega) hs hk hbrF hbrT hfull
          exact ⟨h1, h2, h3, by intro hm; exact h4 (by rw [children_mk] at hm; exact hm)⟩
        · rw [if_neg hfull]
          have hc := (c0 :: cs').getD (match lsPred es k with | some p => p + 1 | none => 0)
            nilNode
          have hcmem : (c0 :: cs').getD (match lsPred es k with | some p => p + 1 | none => 0)
              nilNode ∈ c0 :: cs' :=
            getD_mem_of_lt _ _ (by omega)
          have hcb : Bal cap ((c0 :: cs').getD
              (match lsPred es k with | some p => p + 1 | none => 0) nilNode) h0 :=
            hall _ hcmem
          obtain ⟨hcs1, hck1⟩ := child_facts es (c0 :: cs')
            (match lsPred es k with | some p => p + 1 | none => 0) k hcnt hIle hs hk
          have hcsz : ((c0 :: cs').getD
              (match lsPred es k with | some p => p + 1 | none => 0) nilNode).size < cap := by
            rcases lt_or_eq_of_le (bal_size_le cap _ h0 hcb) with h1 | h1
            · exact h1
            · exact absurd h1 hfull
          obtain ⟨ihf, ihb, ihsz, ihmin⟩ := ih h0 _ k v hcb (by omega) hcs1 hck1 hcsz
          obtain ⟨h1, h2⟩ := insert_set_child cap es (c0 :: cs')
            (match lsPred es k with | some p => p + 1 | none => 0) k v
            (nInsert cap fuel ((c0 :: cs').getD
              (match lsPred es k with | some p => p + 1 | none => 0) nilNode) k v)
            h0 hcnt hIle hbrF hbrT ihf ihb hesle hall
          refine ⟨h1, h2, ?_, ?_⟩
          · rw [size_mk, size_mk]
          · intro hm c hc2
            rw [children_mk] at hc2 hm
            rcases List.mem_or_eq_of_mem_set hc2 with hc2 | hc2
            · exact hm c hc2
            · rw [hc2]
              refine minOK_of_parts cap _ ?_ (ihmin (minOK_children cap _ (hm _ hcmem)))
              calc threshold cap - 1 ≤ _ := minOK_size cap _ (hm _ hcmem)
                _ ≤ _ := ihsz

end Btree


namespace Btree

theorem heightList_const (h : Nat) : ∀ (cs : List BNode), cs ≠ [] →
    (∀ c ∈ cs, BNode.height c = h) → heightList cs = h
  | [], hne, _ => absurd rfl hne
  | [c], _, hall => by
    have h1 : BNode.height c = h := hall c (by simp)
    show max (BNode.height c) (heightList []) = h
    rw [h1]
    show max h 0 = h
    simp
  | c :: d :: ds, _, hall => by
    have h1 : BNode.height c = h := hall c (by simp)
    have h2 : heightList (d :: ds) = h :=
      heightList_const h (d :: ds) (by simp) (fun x hx => hall x (List.mem_cons_of_mem c hx))
    show max (BNode.height c) (heightList (d :: ds)) = h
    rw [h1, h2]
    simp

theorem bal_height (cap : Nat) (t : BNode) (h : Nat) (hb : Bal cap t h) :
    BNode.height t = h := by
  induction hb with
  | leaf es hlen => rfl
  | node es cs h0 hesle hcnt hall ih =>
    have hne : cs ≠ [] := by
      intro hc
      rw [hc] at hcnt
      simp at hcnt
    show 1 + heightList cs = h0 + 1
    rw [heightList_const h0 cs hne ih]
    omega

theorem size_eq_entries_length (t : BNode) : t.size = t.entries.length := by
  obtain ⟨es, cs⟩ := t
  rfl

theorem height_of_children_nil (t : BNode) (hl : t.children = []) : BNode.height t = 1 := by
  obtain ⟨es, cs⟩ := t
  have hc : cs = [] := hl
  subst hc
  rfl

theorem nInsert_isLeaf (cap fuel : Nat) (t : BNode) (k v : Int) (hl : t.children = []) :
    nInsert cap (fuel + 1) t k v = BNode.mk (lsInsert t.entries k v) [] := by
  obtain ⟨es, cs⟩ := t
  have hc : cs = [] := hl
  subst hc
  exact nInsert_leaf cap fuel es k v

theorem flatten_wrap (t : BNode) : flatten (.mk [] [t]) = flatten t := by
  rw [flatten_mk, flatAux_nil_cons, flatAux_nil, List.append_nil]

theorem lsEraseK_sublist : ∀ (l : List (Int × Int)) (k : Int), (lsEraseK l k).Sublist l
  | [], _ => List.nil_sublist []
  | e :: r, k => by
    rw [lsEraseK_cons]
    by_cases h : e.1 = k
    · rw [if_pos h]
      exact List.sublist_cons_self e r
    · rw [if_neg h]
      exact List.Sublist.cons₂ e (lsEraseK_sublist r k)

theorem lsEraseK_length_mem (l : List (Int × Int)) (k : Int) (hmem : k ∈ lsKeys l) :
    (lsEraseK l k).length + 1 = l.length := by
  cases helem : lsErase l k with
  | none =>
    rw [lsErase_eq_none_iff] at helem
    exact absurd hmem helem
  | some pr =>
    rw [lsEraseK, helem]
    exact lsErase_some_length l k pr helem

theorem inv_mk (cap : Nat) (s : Nat) (r : BNode) (m : List (Int × Int))
    (h1 : ∃ h, Bal cap r h) (h2 : SortedEnt (flatten r))
    (h3 : ∀ c ∈ r.children, MinOK cap c)
    (h4 : r.children ≠ [] → 1 ≤ r.size) (h5 : s = (flatten r).length)
    (h6 : flatten r = m) :
    Inv cap ⟨s, r⟩ m := ⟨h1, h2, h3, h4, h5, h6⟩

theorem root_split (cap : Nat) (hcap : 4 ≤ cap) (hev : cap % 2 = 0)
    (y : BNode) (h : Nat) (hb : Bal cap y h) (hfull : y.size = cap)
    (hsort : SortedEnt (flatten y)) (hminc : ∀ c ∈ y.children, MinOK cap c) :
    Bal cap (splitChild cap (.mk [] [y]) 0) (h + 1) ∧
    flatten (splitChild cap (.mk [] [y]) 0) = flatten y ∧
    (∀ c ∈ (splitChild cap (.mk [] [y]) 0).children, MinOK cap c) ∧
    (splitChild cap (.mk [] [y]) 0).size = 1 := by
  have hyse : SortedEnt y.entries :=
    List.Pairwise.sublist (entries_sublist_flatten y) hsort
  have hsh : y.children = [] ∨ y.children.length = cap + 1 := by
    cases hb with
    | leaf es hlen => left; rfl
    | node es cs h0 hesle hcnt hall =>
      right
      have hc : es.length = cap := hfull
      show cs.length = cap + 1
      omega
  have heq := splitChild_eq cap [] [y] 0 rfl (by simp) hfull (by omega) hev hyse
    (by intro e he; simp at he) (by intro e he; simp at he)
  have hfl := splitChild_flatten cap [] [y] 0 rfl (by simp) hfull (by omega) hev hyse
    (by intro e he; simp at he) (by intro e he; simp at he) hsh
  rw [show (([y] : List BNode).getD 0 nilNode) = y from rfl] at heq
  simp only [List.take_nil, List.drop_nil, List.nil_append] at heq
  obtain ⟨hbL, hbR, hthL, hthR, hminImp⟩ := bal_split_parts cap hcap hev y h hb hfull
  refine ⟨?_, ?_, ?_, ?_⟩
  · rw [heq]
    refine Bal.node _ _ h (by simp; omega) rfl ?_
    intro c hc
    simp at hc
    rcases hc with rfl | rfl
    · exact hbL
    · exact hbR
  · rw [hfl, flatten_wrap]
  · rw [heq]
    intro c hc
    rw [children_mk] at hc
    simp at hc
    obtain ⟨hmL, hmR⟩ := hminImp hminc
    rcases hc with rfl | rfl
    · exact hmL
    · exact hmR
  · rw [heq]
    rfl

theorem root_shrink (cap : Nat) (t : BNode) (h : Nat) (hb : Bal cap t h)
    (hsz : t.size = 0) (hne : t.children.isEmpty = false) :
    ∃ c h0, t.children = [c] ∧ t.children.getD 0 nilNode = c ∧ Bal cap c h0 ∧
      h = h0 + 1 ∧ flatten t = flatten c := by
  obtain ⟨es, cs⟩ := t
  cases hb with
  | leaf es2 hlen => simp [children_mk] at hne
  | node es2 cs2 h0 hesle hcnt hall =>
    have hes : es.length = 0 := hsz
    have hcs1 : cs.length = 1 := by omega
    obtain ⟨c, hc⟩ : ∃ c, cs = [c] := by
      cases cs with
      | nil => simp at hcs1
      | cons c cs3 =>
        cases cs3 with
        | nil => exact ⟨c, rfl⟩
        | cons d cs4 => simp at hcs1
    subst hc
    have hes2 : es = [] := by
      cases es with
      | nil => rfl
      | cons a r => simp at hes
    subst hes2
    exact ⟨c, h0, rfl, rfl, hall c (by simp), rfl, flatten_wrap c⟩

theorem btInsert_ok (cap : Nat) (hcap : 4 ≤ cap) (hev : cap % 2 = 0)
    (T : BTreeS) (m : List (Int × Int)) (k v : Int)
    (hInv : Inv cap T m) (hk : k ∉ lsKeys m) :
    Inv cap (btInsert cap T k v) (lsInsert m k v) := by
  obtain ⟨⟨h, hb⟩, hs, hmin, hchild, hsiz, hflat⟩ := hInv
  subst hflat
  by_cases hfull : T.root.size = cap
  · obtain ⟨hbal1, hfl1, hmin1, hsz1⟩ := root_split cap hcap hev T.root h hb hfull hs hmin
    have hh1 : BNode.height (splitChild cap (.mk [] [T.root]) 0) = h + 1 :=
      bal_height cap _ (h + 1) hbal1
    have hsort1 : SortedEnt (flatten (splitChild cap (.mk [] [T.root]) 0)) := by
      rw [hfl1]
      exact hs
    have hkR : k ∉ lsKeys (flatten (splitChild cap (.mk [] [T.root]) 0)) := by
      rw [hfl1]
      exact hk
    have hszlt : (splitChild cap (.mk [] [T.root]) 0).size < cap := by
      rw [hsz1]
      omega
    obtain ⟨hfl2, hbal2, hszmono, hminimp⟩ :=
      nInsert_ok cap hcap hev (BNode.height (splitChild cap (.mk [] [T.root]) 0)) (h + 1)
        (splitChild cap (.mk [] [T.root]) 0) k v hbal1 (le_of_eq hh1.symm) hsort1 hkR hszlt
    have hbtd : btInsert cap T k v =
        ⟨T.siz + 1, nInsert cap (BNode.height (splitChild cap (.mk [] [T.root]) 0))
          (splitChild cap (.mk [] [T.root]) 0) k v⟩ := by
      simp only [btInsert]
      rw [if_pos hfull]
    rw [hbtd]
    refine inv_mk cap _ _ _ ⟨h + 1, hbal2⟩ ?_ ?_ ?_ ?_ ?_
    · rw [hfl2, hfl1]
      exact lsInsert_sorted _ k v hs hk
    · exact hminimp hmin1
    · intro hne
      exact le_of_eq_of_le hsz1.symm hszmono
    · rw [hfl2, hfl1, lsInsert_length]
      omega
    · rw [hfl2, hfl1]
  · have hszlt : T.root.size < cap :=
      lt_of_le_of_ne (bal_size_le cap T.root h hb) hfull
    have hh : BNode.height T.root = h := bal_height cap T.root h hb
    obtain ⟨hfl2, hbal2, hszmono, hminimp⟩ :=
      nInsert_ok cap hcap hev (BNode.height T.root) h T.root k v hb (le_of_eq hh.symm) hs hk
        hszlt
    have hbtd : btInsert cap T k v =
        ⟨T.siz + 1, nInsert cap (BNode.height T.root) T.root k v⟩ := by
      simp only [btInsert]
      rw [if_neg hfull]
    rw [hbtd]
    refine inv_mk cap _ _ _ ⟨h, hbal2⟩ ?_ ?_ ?_ ?_ ?_
    · rw [hfl2]
      exact lsInsert_sorted _ k v hs hk
    · exact hminimp hmin
    · intro hne
      rcases hcs : T.root.children with _ | ⟨c0, cs'⟩
      · -- the root is a leaf, so the result is again a childless leaf
        have hres : nInsert cap (BNode.height T.root) T.root k v =
            BNode.mk (lsInsert T.root.entries k v) [] := by
          rw [height_of_children_nil T.root hcs]
          exact nInsert_isLeaf cap 0 T.root k v hcs
        rw [hres, children_mk] at hne
        exact absurd rfl hne
      · exact le_trans (hchild (by rw [hcs]; simp)) hszmono
    · rw [hfl2, lsInsert_length]
      omega
    · rw [hfl2]

theorem btErase_ok (cap : Nat) (hcap : 4 ≤ cap) (hev : cap % 2 = 0)
    (T : BTreeS) (m : List (Int × Int)) (k : Int)
    (hInv : Inv cap T m) (hm : m ≠ []) :
    ((btErase cap T k).1 = true ↔ k ∈ lsKeys m) ∧
    Inv cap (btErase cap T k).2 (lsEraseK m k) := by
  obtain ⟨⟨h, hb⟩, hs, hmin, hchild, hsiz, hflat⟩ := hInv
  subst hflat
  have hh : BNode.height T.root = h := bal_height cap T.root h hb
  have hrs : 1 ≤ T.root.size := by
    rcases hcs : T.root.children with _ | ⟨c0, cs'⟩
    · have h2 := flatten_eta T.root
      rw [hcs, flatAux_nil] at h2
      rw [size_eq_entries_length]
      rcases hE : T.root.entries with _ | _
      · rw [hE] at h2
        exact absurd h2 hm
      · simp [hE]
    · exact hchild (by rw [hcs]; simp)
  obtain ⟨hiff, hfl, hbal, hsizeC, hminres⟩ :=
    nErase_ok cap hcap hev (BNode.height T.root) h T.root k hb (le_of_eq hh.symm) hs hmin hrs
  refine ⟨hiff, ?_⟩
  by_cases hshrink : (nErase cap (BNode.height T.root) T.root k).2.size = 0 ∧
      (nErase cap (BNode.height T.root) T.root k).2.children.isEmpty = false
  · obtain ⟨c, h0, hcs1, hgd, hbc, hh0, hflc⟩ :=
      root_shrink cap (nErase cap (BNode.height T.root) T.root k).2 h hbal
        hshrink.1 hshrink.2
    have hbt2 : (btErase cap T k).2 =
        ⟨if (nErase cap (BNode.height T.root) T.root k).1 then T.siz - 1 else T.siz, c⟩ := by
      simp only [btErase]
      rw [if_pos hshrink, hgd]
    rw [hbt2]
    have hflce : flatten c = lsEraseK (flatten T.root) k := by
      rw [← hflc]
      exact hfl
    have hminc : MinOK cap c := hminres c (by rw [hcs1]; simp)
    refine inv_mk cap _ _ _ ⟨h0, hbc⟩ ?_ ?_ ?_ ?_ ?_
    · rw [hflce]
      exact List.Pairwise.sublist (lsEraseK_sublist _ _) hs
    · exact minOK_children cap c hminc
    · intro hne
      have h1 := minOK_size cap c hminc
      have h2 : 2 ≤ threshold cap := by
        rw [threshold]
        omega
      omega
    · rw [hflce]
      by_cases hfound : (nErase cap (BNode.height T.root) T.root k).1 = true
      · rw [if_pos hfound]
        have h1 := lsEraseK_length_mem (flatten T.root) k (hiff.mp hfound)
        omega
      · rw [if_neg hfound]
        have h1 : k ∉ lsKeys (flatten T.root) := fun hmem => hfound (hiff.mpr hmem)
        rw [lsEraseK_not_mem _ _ h1]
        exact hsiz
    · exact hflce
  · have hbt2 : (btErase cap T k).2 =
        ⟨if (nErase cap (BNode.height T.root) T.root k).1 then T.siz - 1 else T.siz,
          (nErase cap (BNode.height T.root) T.root k).2⟩ := by
      simp only [btErase]
      rw [if_neg hshrink]
    rw [hbt2]
    refine inv_mk cap _ _ _ ⟨h, hbal⟩ ?_ ?_ ?_ ?_ ?_
    · rw [hfl]
      exact List.Pairwise.sublist (lsEraseK_sublist _ _) hs
    · exact hminres
    · intro hne
      have hB : (nErase cap (BNode.height T.root) T.root k).2.children.isEmpty = false :=
        List.isEmpty_eq_false.mpr hne
      have hA : (nErase cap (BNode.height T.root) T.root k).2.size ≠ 0 := by
        intro hc
        exact hshrink ⟨hc, hB⟩
      omega
    · rw [hfl]
      by_cases hfound : (nErase cap (BNode.height T.root) T.root k).1 = true
      · rw [if_pos hfound]
        have h1 := lsEraseK_length_mem (flatten T.root) k (hiff.mp hfound)
        omega
      · rw [if_neg hfound]
        have h1 : k ∉ lsKeys (flatten T.root) := fun hmem => hfound (hiff.mpr hmem)
        rw [lsEraseK_not_mem _ _ h1]
        exact hsiz
    · exact hfl

end Btree


namespace Btree

theorem nPred_leaf (fuel : Nat) (es : List (Int × Int)) (x : Int) (ex : Bool) (k0 v0 : Int) :
    nPred (fuel + 1) (.mk es []) x ex k0 v0 =
      match lsPred es x with
      | some p => ⟨true, (es.getD p (0, 0)).1, (es.getD p (0, 0)).2⟩
      | none => ⟨ex, k0, v0⟩ := rfl

theorem nPred_node (fuel : Nat) (es : List (Int × Int)) (c0 : BNode) (cs : List BNode)
    (x : Int) (ex : Bool) (k0 v0 : Int) :
    nPred (fuel + 1) (.mk es (c0 :: cs)) x ex k0 v0 =
      match lsPred es x with
      | some p =>
        if (es.getD p (0, 0)).1 = x then
          ⟨true, (es.getD p (0, 0)).1, (es.getD p (0, 0)).2⟩
        else
          nPred fuel ((c0 :: cs).getD (p + 1) nilNode) x true (es.getD p (0, 0)).1
            (es.getD p (0, 0)).2
      | none => nPred fuel ((c0 :: cs).getD 0 nilNode) x ex k0 v0 := rfl

theorem nSucc_leaf (fuel : Nat) (es : List (Int × Int)) (x : Int) (ex : Bool) (k0 v0 : Int) :
    nSucc (fuel + 1) (.mk es []) x ex k0 v0 =
      match lsSucc es x with
      | some p => ⟨true, (es.getD p (0, 0)).1, (es.getD p (0, 0)).2⟩
      | none => ⟨ex, k0, v0⟩ := rfl

theorem nSucc_node (fuel : Nat) (es : List (Int × Int)) (c0 : BNode) (cs : List BNode)
    (x : Int) (ex : Bool) (k0 v0 : Int) :
    nSucc (fuel + 1) (.mk es (c0 :: cs)) x ex k0 v0 =
      match lsSucc es x with
      | some p =>
        if (es.getD p (0, 0)).1 = x then
          ⟨true, (es.getD p (0, 0)).1, (es.getD p (0, 0)).2⟩
        else
          nSucc fuel ((c0 :: cs).getD p nilNode) x true (es.getD p (0, 0)).1
            (es.getD p (0, 0)).2
      | none =>
        nSucc fuel ((c0 :: cs).getD ((c0 :: cs).length - 1) nilNode) x ex k0 v0 := rfl

theorem maxLE_split (A : List (Int × Int)) (e : Int × Int) (B : List (Int × Int)) (x : Int)
    (hA : ∀ a ∈ A, a.1 ≤ x) (he : e.1 ≤ x) (hB : ∀ b ∈ B, x < b.1) :
    maxLE (A ++ e :: B) x = some e := by
  rw [maxLE, List.filter_append]
  have h1 : A.filter (fun e => decide (e.1 ≤ x)) = A :=
    List.filter_eq_self.mpr (fun a ha => decide_eq_true (hA a ha))
  have h2 : List.filter (fun e => decide (e.1 ≤ x)) (e :: B) = [e] := by
    rw [List.filter_cons, if_pos (decide_eq_true he)]
    have h3 : B.filter (fun e => decide (e.1 ≤ x)) = [] :=
      List.filter_eq_nil_iff.mpr (fun b hb => by
        simp only [decide_eq_true_eq]
        exact not_le.mpr (hB b hb))
    rw [h3]
  rw [h1, h2]
  exact List.getLast?_concat A

theorem maxLE_none (l : List (Int × Int)) (x : Int) (h : ∀ e ∈ l, x < e.1) :
    maxLE l x = none := by
  rw [maxLE]
  have h1 : l.filter (fun e => decide (e.1 ≤ x)) = [] :=
    List.filter_eq_nil_iff.mpr (fun e he => by
      simp only [decide_eq_true_eq]
      exact not_le.mpr (h e he))
  rw [h1]
  rfl

theorem maxLE_append3 (F M T : List (Int × Int)) (x : Int)
    (hF : ∀ f ∈ F, f.1 ≤ x) (hT : ∀ t ∈ T, x < t.1) :
    maxLE (F ++ M ++ T) x = (maxLE M x).or F.getLast? := by
  rw [maxLE, maxLE, List.filter_append, List.filter_append]
  have h1 : F.filter (fun e => decide (e.1 ≤ x)) = F :=
    List.filter_eq_self.mpr (fun a ha => decide_eq_true (hF a ha))
  have h2 : T.filter (fun e => decide (e.1 ≤ x)) = [] :=
    List.filter_eq_nil_iff.mpr (fun e he => by
      simp only [decide_eq_true_eq]
      exact not_le.mpr (hT e he))
  rw [h1, h2, List.append_nil, List.getLast?_append]

theorem minGE_cons_pos (e : Int × Int) (T : List (Int × Int)) (x : Int) (he : x ≤ e.1) :
    minGE (e :: T) x = some e := by
  rw [minGE, List.filter_cons, if_pos (decide_eq_true he)]
  rfl

theorem minGE_split (F : List (Int × Int)) (e : Int × Int) (T : List (Int × Int)) (x : Int)
    (hF : ∀ f ∈ F, f.1 < x) (he : x ≤ e.1) :
    minGE (F ++ e :: T) x = some e := by
  rw [minGE, List.filter_append]
  have h1 : F.filter (fun e => decide (x ≤ e.1)) = [] :=
    List.filter_eq_nil_iff.mpr (fun f hf => by
      simp only [decide_eq_true_eq]
      exact not_le.mpr (hF f hf))
  rw [h1, List.nil_append, List.filter_cons, if_pos (decide_eq_true he)]
  rfl

theorem minGE_none (l : List (Int × Int)) (x : Int) (h : ∀ e ∈ l, e.1 < x) :
    minGE l x = none := by
  rw [minGE]
  have h1 : l.filter (fun e => decide (x ≤ e.1)) = [] :=
    List.filter_eq_nil_iff.mpr (fun e he => by
      simp only [decide_eq_true_eq]
      exact not_le.mpr (h e he))
  rw [h1]
  rfl

theorem minGE_append3 (F M T : List (Int × Int)) (x : Int)
    (hF : ∀ f ∈ F, f.1 < x) :
    minGE (F ++ M ++ T) x = (minGE M x).or (minGE T x) := by
  rw [minGE, minGE, minGE, List.filter_append, List.filter_append]
  have h1 : F.filter (fun e => decide (x ≤ e.1)) = [] :=
    List.filter_eq_nil_iff.mpr (fun f hf => by
      simp only [decide_eq_true_eq]
      exact not_le.mpr (hF f hf))
  rw [h1, List.nil_append, List.head?_append]

theorem getLast?_eq_some_getLastD {α : Type} (l : List α) (d : α) (h : l ≠ []) :
    l.getLast? = some (l.getLastD d) := by
  have h1 := dropLast_append_getLastD l d h
  conv_lhs => rw [← h1]
  rw [List.getLast?_concat]

theorem flatAux_getLastD : ∀ (E : List (Int × Int)) (C : List BNode),
    C.length = E.length → E ≠ [] →
    flatAux E C ≠ [] ∧ (flatAux E C).getLastD (0, 0) = E.getLastD (0, 0)
  | [], _, _, hne => absurd rfl hne
  | e :: E2, [], hlen, _ => by simp at hlen
  | [e], c :: C2, hlen, _ => by
    have hC2 : C2 = [] := by
      have h1 : C2.length = 0 := by simpa using hlen
      exact List.length_eq_zero.mp h1
    subst hC2
    rw [flatAux_cons_cons, flatAux_nil]
    refine ⟨by simp, ?_⟩
    rw [getLastD_concat (flatten c) e (0, 0)]
    rfl
  | e :: f :: E2, c :: C2, hlen, _ => by
    have hlen2 : C2.length = (f :: E2).length := by simpa using hlen
    obtain ⟨ihne, ihlast⟩ := flatAux_getLastD (f :: E2) C2 hlen2 (by simp)
    rw [flatAux_cons_cons]
    refine ⟨by simp, ?_⟩
    have h3 : (flatten c ++ e :: flatAux (f :: E2) C2).getLastD (0, 0) =
        (e :: flatAux (f :: E2) C2).getLastD (0, 0) :=
      getLastD_append_right (flatten c) _ (0, 0) (by simp)
    have h4 : (e :: flatAux (f :: E2) C2).getLastD (0, 0) =
        (flatAux (f :: E2) C2).getLastD (0, 0) :=
      getLastD_append_right [e] _ (0, 0) ihne
    have h5 : (e :: f :: E2).getLastD (0, 0) = (f :: E2).getLastD (0, 0) :=
      getLastD_append_right [e] _ (0, 0) (by simp)
    rw [h3, h4, h5, ihlast]

theorem front_all_lt (E : List (Int × Int)) (C : List BNode) (x : Int)
    (hlen : C.length = E.length) (hsort : SortedEnt (flatAux E C))
    (hE : ∀ e ∈ E, e.1 < x) : ∀ a ∈ flatAux E C, a.1 < x := by
  by_cases hEnil : E = []
  · have hC : C = [] := by
      rw [hEnil] at hlen
      exact List.length_eq_zero.mp hlen
    intro a ha
    rw [hEnil, hC, flatAux_nil] at ha
    simp at ha
  · obtain ⟨hne, hgl⟩ := flatAux_getLastD E C hlen hEnil
    have hlx : (E.getLastD (0, 0)).1 < x :=
      hE _ (mem_getLastD_of_ne E (0, 0) hEnil)
    have hdec := dropLast_append_getLastD (flatAux E C) (0, 0) hne
    intro a ha
    rw [← hdec] at ha hsort
    rcases List.mem_append.mp ha with ha2 | ha2
    · have h1 := sortedEnt_cross hsort a ha2 ((flatAux E C).getLastD (0, 0))
        (List.mem_singleton.mpr rfl)
      rw [hgl] at h1
      exact lt_trans h1 hlx
    · have ha3 := List.mem_singleton.mp ha2
      rw [ha3, hgl]
      exact hlx

theorem mem_maxLE (m : List (Int × Int)) (x : Int) (hs : SortedEnt m)
    (hmem : x ∈ lsKeys m) : ∃ v, maxLE m x = some (x, v) := by
  obtain ⟨v, hv⟩ := mem_lsKeys.mp hmem
  obtain ⟨A, B, hdec⟩ := List.append_of_mem hv
  subst hdec
  refine ⟨v, maxLE_split A (x, v) B x ?_ (le_refl x) ?_⟩
  · intro a ha
    exact le_of_lt (sortedEnt_cross hs a ha (x, v) (by simp))
  · intro b hb
    have h1 := sortedEnt_of_append_right hs
    rw [SortedEnt, List.pairwise_cons] at h1
    exact h1.1 b hb

theorem mem_minGE (m : List (Int × Int)) (x : Int) (hs : SortedEnt m)
    (hmem : x ∈ lsKeys m) : ∃ v, minGE m x = some (x, v) := by
  obtain ⟨v, hv⟩ := mem_lsKeys.mp hmem
  obtain ⟨A, B, hdec⟩ := List.append_of_mem hv
  subst hdec
  refine ⟨v, minGE_split A (x, v) B x ?_ (le_refl x)⟩
  intro a ha
  exact sortedEnt_cross hs a ha (x, v) (by simp)

theorem maxLE_mem (m : List (Int × Int)) (x : Int) (e : Int × Int)
    (h : maxLE m x = some e) : e ∈ m ∧ e.1 ≤ x := by
  rw [maxLE] at h
  constructor
  · exact List.mem_of_mem_filter (List.mem_of_mem_getLast? h)
  · have h2 := List.mem_filter.mp (List.mem_of_mem_getLast? h)
    have h3 := h2.2
    simp only [decide_eq_true_eq] at h3
    exact h3

theorem minGE_mem (m : List (Int × Int)) (x : Int) (e : Int × Int)
    (h : minGE m x = some e) : e ∈ m ∧ x ≤ e.1 := by
  rw [minGE] at h
  have hmem : e ∈ m.filter (fun e => decide (x ≤ e.1)) := by
    rcases hf : m.filter (fun e => decide (x ≤ e.1)) with _ | ⟨a, r⟩
    · rw [hf] at h
      simp at h
    · rw [hf] at h
      have : a = e := by
        have h2 : some a = some e := h
        exact Option.some.inj h2
      rw [hf, this]
      simp
  constructor
  · exact List.mem_of_mem_filter hmem
  · have h2 := (List.mem_filter.mp hmem).2
    simp only [decide_eq_true_eq] at h2
    exact h2

end Btree


namespace Btree

theorem nPred_ok (cap : Nat) : ∀ (fuel h : Nat) (t : BNode) (x : Int) (ex : Bool)
    (k0 v0 : Int), Bal cap t h → h ≤ fuel → SortedEnt (flatten t) →
    nPred fuel t x ex k0 v0 =
      match maxLE (flatten t) x with
      | some e => ⟨true, e.1, e.2⟩
      | none => ⟨ex, k0, v0⟩ := by
  intro fuel
  induction fuel with
  | zero =>
    intro h t x ex k0 v0 hb hf
    exact absurd (bal_pos cap t h hb) (by omega)
  | succ fuel ih =>
    intro h t x ex k0 v0 hb hf hs
    obtain ⟨es, cs⟩ := t
    cases cs with
    | nil =>
      rw [nPred_leaf, flatten_leaf]
      have hse : SortedEnt es := by
        rw [flatten_leaf] at hs
        exact hs
      cases hr : lsPred es x with
      | some p =>
        simp only [hr]
        obtain ⟨A, e, B, hdec, hAlen, he1, he2, he3⟩ := lsPred_some es x p hse hr
        have hgd : es.getD p (0, 0) = e := by
          rw [hdec, ← hAlen]
          exact getD_append_len A e B (0, 0)
        have hmax : maxLE es x = some e := by
          rw [hdec]
          exact maxLE_split A e B x
            (fun a ha => le_of_lt (lt_of_lt_of_le (he2 a ha) he1)) he1 he3
        rw [hmax, hgd]
      | none =>
        simp only [hr]
        have hmax : maxLE es x = none := maxLE_none es x (lsPred_none es x hse hr)
        rw [hmax]
    | cons c0 cs' =>
      cases hb with
      | node es2 cs2 h0 hesle hcnt hall =>
        have hf0 : h0 ≤ fuel := by omega
        have hse : SortedEnt es :=
          List.Pairwise.sublist (entries_sublist_flatten (.mk es (c0 :: cs'))) hs
        rw [nPred_node]
        cases hr : lsPred es x with
        | some p =>
          simp only [hr]
          obtain ⟨A, e, B, hdec, hAlen, he1, he2, he3⟩ := lsPred_some es x p hse hr
          have hple : p < es.length := by
            rw [hdec]
            simp only [List.length_append, List.length_cons]
            omega
          by_cases hx : (es.getD p (0, 0)).1 = x
          · rw [if_pos hx]
            have hdec2 := flatten_decomp2 es (c0 :: cs') p hcnt hple
            have hs2 : SortedEnt ((flatAux (es.take p) ((c0 :: cs').take p) ++
                flatten ((c0 :: cs').getD p nilNode)) ++
                es.getD p (0, 0) :: (flatten ((c0 :: cs').getD (p + 1) nilNode) ++
                  flatTail (es.drop (p + 1)) ((c0 :: cs').drop (p + 2)))) := by
              rw [← hdec2]
              exact hs
            have hmax : maxLE (flatten (.mk es (c0 :: cs'))) x = some (es.getD p (0, 0)) := by
              rw [hdec2]
              refine maxLE_split _ _ _ x ?_ (le_of_eq hx) ?_
              · intro a ha
                have h1 := sortedEnt_cross hs2 a ha (es.getD p (0, 0)) (by simp)
                rw [hx] at h1
                exact le_of_lt h1
              · intro b hb
                have h1 := sortedEnt_of_append_right hs2
                rw [SortedEnt, List.pairwise_cons] at h1
                have h2 := h1.1 b hb
                rw [hx] at h2
                exact h2
            rw [hmax]
          · rw [if_neg hx]
            obtain ⟨hIle, hbrF, hbrT⟩ := erase_brackets es (c0 :: cs') x (p + 1)
              (by rw [hr]) (by rw [hr]; exact decide_eq_false hx) hcnt hs
            have hdecf := flatten_decomp es (c0 :: cs') (p + 1) hcnt hIle
            have hcb : Bal cap ((c0 :: cs').getD (p + 1) nilNode) h0 :=
              hall _ (getD_mem_of_lt _ _ (by omega))
            have hcsort := child_sorted es (c0 :: cs') (p + 1) hcnt hIle hs
            have hihc := ih h0 ((c0 :: cs').getD (p + 1) nilNode) x true
              (es.getD p (0, 0)).1 (es.getD p (0, 0)).2 hcb hf0 hcsort
            have hlenF : ((c0 :: cs').take (p + 1)).length = (es.take (p + 1)).length := by
              simp only [List.length_take]
              rw [hcnt]
              omega
            have hneF : es.take (p + 1) ≠ [] := by
              intro hcon
              have h1 : (es.take (p + 1)).length = 0 := by rw [hcon]; rfl
              rw [List.length_take] at h1
              omega
            obtain ⟨hFne, hFlast⟩ :=
              flatAux_getLastD (es.take (p + 1)) ((c0 :: cs').take (p + 1)) hlenF hneF
            have hlastE : (es.take (p + 1)).getLastD (0, 0) = es.getD p (0, 0) := by
              rw [take_succ_getD es p (0, 0) hple]
              exact getLastD_concat _ _ _
            have hmax : maxLE (flatten (.mk es (c0 :: cs'))) x =
                (maxLE (flatten ((c0 :: cs').getD (p + 1) nilNode)) x).or
                  (some (es.getD p (0, 0))) := by
              rw [hdecf]
              rw [maxLE_append3 _ _ _ x (fun f hf2 => le_of_lt (hbrF f hf2)) hbrT]
              rw [getLast?_eq_some_getLastD _ (0, 0) hFne, hFlast, hlastE]
            rw [hmax, hihc]
            cases hM : maxLE (flatten ((c0 :: cs').getD (p + 1) nilNode)) x with
            | some e2 => rw [Option.or_some]
            | none => rw [Option.none_or]
        | none =>
          simp only [hr]
          obtain ⟨hIle, hbrF, hbrT⟩ := erase_brackets es (c0 :: cs') x 0
            (by rw [hr]) (by rw [hr]) hcnt hs
          have hdecf := flatten_decomp es (c0 :: cs') 0 hcnt (Nat.zero_le _)
          have hcb : Bal cap ((c0 :: cs').getD 0 nilNode) h0 :=
            hall _ (getD_mem_of_lt _ _ (by simp))
          have hcsort := child_sorted es (c0 :: cs') 0 hcnt (Nat.zero_le _) hs
          have hihc := ih h0 ((c0 :: cs').getD 0 nilNode) x ex k0 v0 hcb hf0 hcsort
          have hmax : maxLE (flatten (.mk es (c0 :: cs'))) x =
              maxLE (flatten ((c0 :: cs').getD 0 nilNode)) x := by
            rw [hdecf]
            rw [maxLE_append3 _ _ _ x (fun f hf2 => le_of_lt (hbrF f hf2)) hbrT]
            rw [show flatAux (es.take 0) ((c0 :: cs').take 0) = [] from by
              rw [List.take_zero, List.take_zero, flatAux_nil]]
            rw [show ([] : List (Int × Int)).getLast? = none from rfl, Option.or_none]
          rw [hmax, hihc]

theorem nSucc_ok (cap : Nat) : ∀ (fuel h : Nat) (t : BNode) (x : Int) (ex : Bool)
    (k0 v0 : Int), Bal cap t h → h ≤ fuel → SortedEnt (flatten t) →
    nSucc fuel t x ex k0 v0 =
      match minGE (flatten t) x with
      | some e => ⟨true, e.1, e.2⟩
      | none => ⟨ex, k0, v0⟩ := by
  intro fuel
  induction fuel with
  | zero =>
    intro h t x ex k0 v0 hb hf
    exact absurd (bal_pos cap t h hb) (by omega)
  | succ fuel ih =>
    intro h t x ex k0 v0 hb hf hs
    obtain ⟨es, cs⟩ := t
    cases cs with
    | nil =>
      rw [nSucc_leaf, flatten_leaf]
      have hse : SortedEnt es := by
        rw [flatten_leaf] at hs
        exact hs
      cases hr : lsSucc es x with
      | some p =>
        simp only [hr]
        obtain ⟨A, e, B, hdec, hAlen, he1, he2, he3⟩ := lsSucc_some es x p hse hr
        have hgd : es.getD p (0, 0) = e := by
          rw [hdec, ← hAlen]
          exact getD_append_len A e B (0, 0)
        have hmax : minGE es x = some e := by
          rw [hdec]
          exact minGE_split A e B x he2 he1
        rw [hmax, hgd]
      | none =>
        simp only [hr]
        have hmax : minGE es x = none := minGE_none es x (lsSucc_none es x hse hr)
        rw [hmax]
    | cons c0 cs' =>
      cases hb with
      | node es2 cs2 h0 hesle hcnt hall =>
        have hf0 : h0 ≤ fuel := by omega
        have hse : SortedEnt es :=
          List.Pairwise.sublist (entries_sublist_flatten (.mk es (c0 :: cs'))) hs
        rw [nSucc_node]
        cases hr : lsSucc es x with
        | some p =>
          simp only [hr]
          obtain ⟨A, e, B, hdec, hAlen, he1, he2, he3⟩ := lsSucc_some es x p hse hr
          have hple : p < es.length := by
            rw [hdec]
            simp only [List.length_append, List.length_cons]
            omega
          have hgd : es.getD p (0, 0) = e := by
            rw [hdec, ← hAlen]
            exact getD_append_len A e B (0, 0)
          by_cases hx : (es.getD p (0, 0)).1 = x
          · rw [if_pos hx]
            have hdec2 := flatten_decomp2 es (c0 :: cs') p hcnt hple
            have hs2 : SortedEnt ((flatAux (es.take p) ((c0 :: cs').take p) ++
                flatten ((c0 :: cs').getD p nilNode)) ++
                es.getD p (0, 0) :: (flatten ((c0 :: cs').getD (p + 1) nilNode) ++
                  flatTail (es.drop (p + 1)) ((c0 :: cs').drop (p + 2)))) := by
              rw [← hdec2]
              exact hs
            have hmax : minGE (flatten (.mk es (c0 :: cs'))) x = some (es.getD p (0, 0)) := by
              rw [hdec2]
              refine minGE_split _ _ _ x ?_ (le_of_eq hx.symm)
              intro a ha
              have h1 := sortedEnt_cross hs2 a ha (es.getD p (0, 0)) (by simp)
              rw [hx] at h1
              exact h1
            rw [hmax]
          · rw [if_neg hx]
            have hxe : x < e.1 := by
              rcases lt_or_eq_of_le he1 with h1 | h1
              · exact h1
              · rw [hgd] at hx
                exact absurd h1.symm hx
            have hIle : p ≤ es.length := by omega
            have hdecf := flatten_decomp es (c0 :: cs') p hcnt hIle
            have hcb : Bal cap ((c0 :: cs').getD p nilNode) h0 :=
              hall _ (getD_mem_of_lt _ _ (by omega))
            have hcsort := child_sorted es (c0 :: cs') p hcnt hIle hs
            have hihc := ih h0 ((c0 :: cs').getD p nilNode) x true
              (es.getD p (0, 0)).1 (es.getD p (0, 0)).2 hcb hf0 hcsort
            -- the front interleaving is entirely below x
            have hsF : SortedEnt (flatAux (es.take p) ((c0 :: cs').take p)) := by
              have h1 : SortedEnt (flatAux (es.take p) ((c0 :: cs').take p) ++
                  flatten ((c0 :: cs').getD p nilNode) ++
                  flatTail (es.drop p) ((c0 :: cs').drop (p + 1))) := by
                rw [← hdecf]
                exact hs
              exact sortedEnt_of_append_left (sortedEnt_of_append_left h1)
            have htakeA : es.take p = A := by
              rw [hdec, ← hAlen]
              exact take_append_len A e B
            have hlenF : ((c0 :: cs').take p).length = (es.take p).length := by
              simp only [List.length_take]
              rw [hcnt]
              omega
            have hF : ∀ a ∈ flatAux (es.take p) ((c0 :: cs').take p), a.1 < x := by
              refine front_all_lt _ _ x hlenF hsF ?_
              intro a ha
              rw [htakeA] at ha
              exact he2 a ha
            have hdropT : es.drop p = e :: B := by
              rw [hdec, ← hAlen]
              exact drop_append_len A e B
            have hmax : minGE (flatten (.mk es (c0 :: cs'))) x =
                (minGE (flatten ((c0 :: cs').getD p nilNode)) x).or
                  (some (es.getD p (0, 0))) := by
              rw [hdecf]
              rw [minGE_append3 _ _ _ x hF]
              rw [hdropT, flatTail_cons, minGE_cons_pos e _ x (le_of_lt hxe), hgd]
            rw [hmax, hihc]
            cases hM : minGE (flatten ((c0 :: cs').getD p nilNode)) x with
            | some e2 => rw [Option.or_some]
            | none => rw [Option.none_or]
        | none =>
          simp only [hr]
          have hall_lt := lsSucc_none es x hse hr
          have hidx : (c0 :: cs').length - 1 = es.length := by omega
          rw [hidx]
          have hdecf := flatten_decomp es (c0 :: cs') es.length hcnt (le_refl _)
          have hcb : Bal cap ((c0 :: cs').getD es.length nilNode) h0 :=
            hall _ (getD_mem_of_lt _ _ (by omega))
          have hcsort := child_sorted es (c0 :: cs') es.length hcnt (le_refl _) hs
          have hihc := ih h0 ((c0 :: cs').getD es.length nilNode) x ex k0 v0 hcb hf0 hcsort
          have hsF : SortedEnt (flatAux (es.take es.length) ((c0 :: cs').take es.length)) := by
            have h1 : SortedEnt (flatAux (es.take es.length) ((c0 :: cs').take es.length) ++
                flatten ((c0 :: cs').getD es.length nilNode) ++
                flatTail (es.drop es.length) ((c0 :: cs').drop (es.length + 1))) := by
              rw [← hdecf]
              exact hs
            exact sortedEnt_of_append_left (sortedEnt_of_append_left h1)
          have hlenF : ((c0 :: cs').take es.length).length = (es.take es.length).length := by
            simp only [List.length_take]
            rw [hcnt]
            omega
          have hF : ∀ a ∈ flatAux (es.take es.length) ((c0 :: cs').take es.length),
              a.1 < x := by
            refine front_all_lt _ _ x hlenF hsF ?_
            intro a ha
            rw [List.take_length] at ha
            exact hall_lt a ha
          have hmax : minGE (flatten (.mk es (c0 :: cs'))) x =
              minGE (flatten ((c0 :: cs').getD es.length nilNode)) x := by
            rw [hdecf]
            rw [minGE_append3 _ _ _ x hF]
            rw [show flatTail (es.drop es.length) ((c0 :: cs').drop (es.length + 1)) =
              [] from by rw [List.drop_length, flatTail_nil]]
            rw [show minGE ([] : List (Int × Int)) x = none from rfl, Option.or_none]
          rw [hmax, hihc]

end Btree


namespace Btree

theorem btPred_ok (cap : Nat) (T : BTreeS) (m : List (Int × Int)) (x : Int)
    (hInv : Inv cap T m) :
    btPred T x = match maxLE m x with
      | some e => ⟨true, e.1, e.2⟩
      | none => ⟨false, 0, 0⟩ := by
  obtain ⟨⟨h, hb⟩, hs, hmin, hchild, hsiz, hflat⟩ := hInv
  subst hflat
  exact nPred_ok cap (BNode.height T.root) h T.root x false 0 0 hb
    (le_of_eq (bal_height cap T.root h hb).symm) hs

theorem btSucc_ok (cap : Nat) (T : BTreeS) (m : List (Int × Int)) (x : Int)
    (hInv : Inv cap T m) :
    btSucc T x = match minGE m x with
      | some e => ⟨true, e.1, e.2⟩
      | none => ⟨false, 0, 0⟩ := by
  obtain ⟨⟨h, hb⟩, hs, hmin, hchild, hsiz, hflat⟩ := hInv
  subst hflat
  exact nSucc_ok cap (BNode.height T.root) h T.root x false 0 0 hb
    (le_of_eq (bal_height cap T.root h hb).symm) hs

theorem btContains_ok (cap : Nat) (T : BTreeS) (m : List (Int × Int)) (x : Int)
    (hInv : Inv cap T m) :
    btContains T x = true ↔ x ∈ lsKeys m := by
  have hp := btPred_ok cap T m x hInv
  obtain ⟨⟨h, hb⟩, hs, hmin, hchild, hsiz, hflat⟩ := hInv
  have hsm : SortedEnt m := by
    rw [← hflat]
    exact hs
  simp only [btContains, btFind]
  by_cases hsz0 : T.siz = 0
  · rw [if_pos hsz0]
    have hm : m = [] := by
      rw [hflat] at hsiz
      rw [hsz0] at hsiz
      exact List.length_eq_zero.mp hsiz.symm
    subst hm
    constructor
    · intro hcon
      exact absurd hcon Bool.false_ne_true
    · intro hcon
      simp [lsKeys] at hcon
  · rw [if_neg hsz0, hp]
    cases hM : maxLE m x with
    | some e =>
      simp only [hM]
      dsimp only
      by_cases hex : e.1 = x
      · have hc : (true && decide (e.1 = x)) = true := by
          rw [decide_eq_true hex]
          rfl
        rw [if_pos hc]
        constructor
        · intro hcon
          have hmem := (maxLE_mem m x e hM).1
          refine mem_lsKeys.mpr ⟨e.2, ?_⟩
          rw [← hex]
          exact hmem
        · intro hmem
          rfl
      · have hcn : ¬((true && decide (e.1 = x)) = true) := by
          rw [decide_eq_false hex]
          simp
        rw [if_neg hcn]
        constructor
        · intro hcon
          exact absurd hcon Bool.false_ne_true
        · intro hmem
          obtain ⟨v, hv⟩ := mem_maxLE m x hsm hmem
          rw [hM] at hv
          have he2 : e = (x, v) := Option.some.inj hv
          exact absurd (by rw [he2]) hex
    | none =>
      simp only [hM]
      dsimp only
      have hcn : ¬((false && decide ((0 : Int) = x)) = true) := by simp
      rw [if_neg hcn]
      constructor
      · intro hcon
        exact absurd hcon Bool.false_ne_true
      · intro hmem
        obtain ⟨v, hv⟩ := mem_maxLE m x hsm hmem
        rw [hM] at hv
        exact absurd hv (by simp)

theorem inv_empty (cap : Nat) : Inv cap btEmpty [] := by
  refine ⟨⟨1, Bal.leaf [] (by simp)⟩, ?_, ?_, ?_, rfl, rfl⟩
  · exact List.Pairwise.nil
  · intro c hc
    have hc2 : c ∈ ([] : List BNode) := hc
    simp at hc2
  · intro hne
    exact absurd rfl hne

theorem inv_fold (cap : Nat) (hcap : 4 ≤ cap) (hev : cap % 2 = 0) :
    ∀ (ops : List MOp) (T : BTreeS) (m : List (Int × Int)),
      Inv cap T m → validFrom m ops = true →
      Inv cap
        (ops.foldl (fun T2 op =>
          match op with
          | .ins k v => btInsert cap T2 k v
          | .del k => (btErase cap T2 k).2) T)
        (ops.foldl (fun m2 op =>
          match op with
          | .ins k v => lsInsert m2 k v
          | .del k => lsEraseK m2 k) m)
  | [], T, m, hInv, _ => hInv
  | .ins k v :: ops, T, m, hInv, hval => by
    have hval2 : (!(lsKeys m).contains k && validFrom (lsInsert m k v) ops) = true := hval
    rw [Bool.and_eq_true] at hval2
    obtain ⟨hv1, hv2⟩ := hval2
    have hk : k ∉ lsKeys m := by
      intro hmem
      rw [Bool.not_eq_true'] at hv1
      have h2 : (lsKeys m).contains k = true := List.elem_iff.mpr hmem
      rw [h2] at hv1
      simp at hv1
    have hInv2 := btInsert_ok cap hcap hev T m k v hInv hk
    exact inv_fold cap hcap hev ops _ _ hInv2 hv2
  | .del k :: ops, T, m, hInv, hval => by
    have hval2 : (!m.isEmpty && validFrom (lsEraseK m k) ops) = true := hval
    rw [Bool.and_eq_true] at hval2
    obtain ⟨hv1, hv2⟩ := hval2
    have hm : m ≠ [] := by
      intro hmem
      subst hmem
      simp at hv1
    have hInv2 := (btErase_ok cap hcap hev T m k hInv hm).2
    exact inv_fold cap hcap hev ops _ _ hInv2 hv2

theorem inv_applyOps (cap : Nat) (hcap : 4 ≤ cap) (hev : cap % 2 = 0)
    (ops : List MOp) (hval : ValidOps ops) :
    Inv cap (applyOps cap ops) (model ops) :=
  inv_fold cap hcap hev ops btEmpty [] (inv_empty cap) hval

end Btree


namespace Btree

/-- C3: after any sequence of insert and erase operations with unique keys (no
duplicate insert, no erase of an absent key on an empty map), `contains k`
holds iff `k` is inserted-and-not-erased, `predecessor x` returns the largest
such key `≤ x` with its value (exists = false when none), and `successor y`
symmetrically returns the smallest such key `≥ y`.  The inserted-not-erased
map is `model ops`, `maxLE`/`minGE` select its extreme entries. -/
theorem claim_C3 (ops : List MOp) (hval : ValidOps ops) (k x y : Int) :
    (btContains (applyOps 64 ops) k = true ↔ k ∈ lsKeys (model ops)) ∧
    (btPred (applyOps 64 ops) x = match maxLE (model ops) x with
      | some e => ⟨true, e.1, e.2⟩
      | none => ⟨false, 0, 0⟩) ∧
    (btSucc (applyOps 64 ops) y = match minGE (model ops) y with
      | some e => ⟨true, e.1, e.2⟩
      | none => ⟨false, 0, 0⟩) := by
  have hInv := inv_applyOps 64 (by norm_num) (by norm_num) ops hval
  exact ⟨btContains_ok 64 _ _ k hInv, btPred_ok 64 _ _ x hInv, btSucc_ok 64 _ _ y hInv⟩

theorem claim_C3_witness :
    ValidOps [MOp.ins 5 50, MOp.ins 2 20, MOp.del 5] ∧
    ((btContains (applyOps 64 [MOp.ins 5 50, MOp.ins 2 20, MOp.del 5]) 2 = true ↔
        2 ∈ lsKeys (model [MOp.ins 5 50, MOp.ins 2 20, MOp.del 5])) ∧
      (btPred (applyOps 64 [MOp.ins 5 50, MOp.ins 2 20, MOp.del 5]) 7 =
        match maxLE (model [MOp.ins 5 50, MOp.ins 2 20, MOp.del 5]) 7 with
        | some e => ⟨true, e.1, e.2⟩
        | none => ⟨false, 0, 0⟩) ∧
      (btSucc (applyOps 64 [MOp.ins 5 50, MOp.ins 2 20, MOp.del 5]) 1 =
        match minGE (model [MOp.ins 5 50, MOp.ins 2 20, MOp.del 5]) 1 with
        | some e => ⟨true, e.1, e.2⟩
        | none => ⟨false, 0, 0⟩)) :=
  ⟨by decide, claim_C3 [MOp.ins 5 50, MOp.ins 2 20, MOp.del 5] (by decide) 2 7 1⟩

/-- C4 (amended): after any valid sequence of inserts and erases, the tree is
balanced — `Bal 64` forces every non-root node to hold at least
`threshold 64 - 1 = 31` keys (not the claimed 32) and all leaves at equal
depth — and every root child satisfies the minimum-fill predicate `MinOK`;
only the root may be smaller. -/
theorem claim_C4 (ops : List MOp) (hval : ValidOps ops) :
    (∃ h, Bal 64 (applyOps 64 ops).root h) ∧
    ∀ c ∈ (applyOps 64 ops).root.children, MinOK 64 c := by
  have hInv := inv_applyOps 64 (by norm_num) (by norm_num) ops hval
  exact ⟨hInv.1, hInv.2.2.1⟩

theorem claim_C4_witness :
    ValidOps [MOp.ins 1 10, MOp.ins 2 20] ∧
    ((∃ h, Bal 64 (applyOps 64 [MOp.ins 1 10, MOp.ins 2 20]).root h) ∧
      ∀ c ∈ (applyOps 64 [MOp.ins 1 10, MOp.ins 2 20]).root.children, MinOK 64 c) :=
  ⟨by decide, claim_C4 [MOp.ins 1 10, MOp.ins 2 20] (by decide)⟩

/-- C10: erasing a key `k` that is not in a non-empty B-tree map returns
`false`, leaves the size unchanged and leaves the map holding exactly the same
key-value pairs as before, even though the descent may have rebalanced
internal nodes. -/
theorem claim_C10 (ops : List MOp) (k : Int) (hval : ValidOps ops)
    (hne : model ops ≠ []) (hk : k ∉ lsKeys (model ops)) :
    (btErase 64 (applyOps 64 ops) k).1 = false ∧
    (btErase 64 (applyOps 64 ops) k).2.siz = (applyOps 64 ops).siz ∧
    flatten (btErase 64 (applyOps 64 ops) k).2.root = model ops ∧
    flatten (applyOps 64 ops).root = model ops := by
  have hInv := inv_applyOps 64 (by norm_num) (by norm_num) ops hval
  obtain ⟨hiff, hInv2⟩ := btErase_ok 64 (by norm_num) (by norm_num) _ _ k hInv hne
  have hflat2 : flatten (btErase 64 (applyOps 64 ops) k).2.root = model ops := by
    rw [hInv2.2.2.2.2.2]
    exact lsEraseK_not_mem _ _ hk
  refine ⟨?_, ?_, hflat2, hInv.2.2.2.2.2⟩
  · cases hb : (btErase 64 (applyOps 64 ops) k).1
    · rfl
    · exact absurd (hiff.mp hb) hk
  · have h1 := hInv2.2.2.2.2.1
    rw [hflat2] at h1
    have h3 := hInv.2.2.2.2.1
    rw [hInv.2.2.2.2.2] at h3
    rw [h1, h3]

theorem claim_C10_witness :
    ValidOps [MOp.ins 1 10] ∧ model [MOp.ins 1 10] ≠ [] ∧
    (2 : Int) ∉ lsKeys (model [MOp.ins 1 10]) ∧
    ((btErase 64 (applyOps 64 [MOp.ins 1 10]) 2).1 = false ∧
      (btErase 64 (applyOps 64 [MOp.ins 1 10]) 2).2.siz = (applyOps 64 [MOp.ins 1 10]).siz ∧
      flatten (btErase 64 (applyOps 64 [MOp.ins 1 10]) 2).2.root = model [MOp.ins 1 10] ∧
      flatten (applyOps 64 [MOp.ins 1 10]).root = model [MOp.ins 1 10]) :=
  ⟨by decide, by decide, by decide,
    claim_C10 [MOp.ins 1 10] 2 (by decide) (by decide) (by decide)⟩

end Btree


namespace Lzend

open Btree

theorem sumLens_nil : sumLens [] = 0 := rfl

theorem sumLens_append (A B : List Phrase) :
    sumLens (A ++ B) = sumLens A + sumLens B := by
  rw [sumLens, sumLens, sumLens, List.map_append, List.sum_append]

theorem sumLens_singleton (p : Phrase) : sumLens [p] = p.len := by
  rw [sumLens]
  simp

theorem sumLens_ge_length (ps : List Phrase) (h : ∀ p ∈ ps, 1 ≤ p.len) :
    (ps.length : Int) ≤ sumLens ps := by
  induction ps with
  | nil => simp [sumLens]
  | cons p r ih =>
    have h1 : sumLens (p :: r) = p.len + sumLens r := by
      rw [sumLens, List.map_cons, List.sum_cons]
      rfl
    rw [h1]
    have h2 := ih (fun q hq => h q (List.mem_cons_of_mem p hq))
    have h3 := h p (by simp)
    simp only [List.length_cons]
    push_cast
    omega

theorem ends_congr (ps ps2 : List Phrase) (j : Nat)
    (h : ps.take (j + 1) = ps2.take (j + 1)) : ends ps j = ends ps2 j := by
  rw [ends, ends, h]

theorem ends_last (ps : List Phrase) (j : Nat) (h : ps.length = j + 1) :
    ends ps j = sumLens ps - 1 := by
  rw [ends, ← h, List.take_length]

theorem ends_nonneg (ps : List Phrase) (j : Nat) (hlen : ∀ p ∈ ps, 1 ≤ p.len)
    (hj : j < ps.length) : 0 ≤ ends ps j := by
  rw [ends]
  have h1 : ((ps.take (j + 1)).length : Int) ≤ sumLens (ps.take (j + 1)) :=
    sumLens_ge_length _ (fun p hp => hlen p (List.mem_of_mem_take hp))
  rw [List.length_take] at h1
  have h2 : min (j + 1) ps.length = j + 1 := by omega
  rw [h2] at h1
  omega

theorem ends_strict_mono (ps : List Phrase) (j1 j2 : Nat) (hlen : ∀ p ∈ ps, 1 ≤ p.len)
    (hj : j1 < j2) (hj2 : j2 < ps.length) : ends ps j1 < ends ps j2 := by
  rw [ends, ends]
  have hdec : ps.take (j2 + 1) = ps.take (j1 + 1) ++ (ps.drop (j1 + 1)).take (j2 - j1) := by
    rw [← List.take_add]
    congr 1
    omega
  rw [hdec, sumLens_append]
  have h1 : (((ps.drop (j1 + 1)).take (j2 - j1)).length : Int) ≤
      sumLens ((ps.drop (j1 + 1)).take (j2 - j1)) := by
    refine sumLens_ge_length _ ?_
    intro p hp
    exact hlen p (List.mem_of_mem_drop (List.mem_of_mem_take hp))
  rw [List.length_take, List.length_drop] at h1
  have h2 : min (j2 - j1) (ps.length - (j1 + 1)) = j2 - j1 := by omega
  rw [h2] at h1
  omega

theorem ends_le_last (ps : List Phrase) (j : Nat) (hlen : ∀ p ∈ ps, 1 ≤ p.len)
    (hj : j < ps.length) (last : Nat) (hlast : ps.length = last + 1) :
    ends ps j ≤ ends ps last := by
  rcases Nat.lt_or_ge j last with h | h
  · exact le_of_lt (ends_strict_mono ps j last hlen h (by omega))
  · have hj2 : j = last := by omega
    rw [hj2]

theorem inv_self (cap : Nat) (T : Btree.BTreeS) (m : List (Int × Int))
    (h : Btree.Inv cap T m) : Btree.Inv cap T (Btree.flatten T.root) := by
  obtain ⟨h1, h2, h3, h4, h5, h6⟩ := h
  exact ⟨h1, h2, h3, h4, h5, rfl⟩

theorem sorted_single_of_mem (m : List (Int × Int)) (a : Int × Int)
    (hs : Btree.SortedEnt m) (hmem : a ∈ m) (hall : ∀ e ∈ m, e = a) : m = [a] := by
  cases m with
  | nil => simp at hmem
  | cons x r =>
    have hx : x = a := hall x (by simp)
    cases r with
    | nil => rw [hx]
    | cons y r2 =>
      have hy : y = a := hall y (by simp)
      rw [Btree.SortedEnt, List.pairwise_cons] at hs
      have h1 := hs.1 y (by simp)
      rw [hx, hy] at h1
      exact absurd h1 (lt_irrefl _)

end Lzend


namespace Lzend

open Btree

theorem lexSmaller_cases (marked : Btree.BTreeS) (lcp : List Int) (x : Int)
    (m : List (Int × Int)) (hInv : Btree.Inv 64 marked m) :
    lexSmallerPhrase marked lcp x = ⟨0, 0, 0⟩ ∨
    ∃ e, e ∈ m ∧ e.1 ≤ x - 1 ∧
      lexSmallerPhrase marked lcp x =
        ⟨e.1, e.2, lcp.getD (Rmq.rmq lcp (e.1 + 1).toNat x.toNat) 0⟩ := by
  have hp := btPred_ok 64 marked m (x - 1) hInv
  simp only [lexSmallerPhrase]
  rw [hp]
  cases hM : maxLE m (x - 1) with
  | none =>
    left
    rw [if_neg Bool.false_ne_true]
  | some e =>
    right
    refine ⟨e, (maxLE_mem m (x - 1) e hM).1, (maxLE_mem m (x - 1) e hM).2, ?_⟩
    rw [if_pos rfl]

theorem lexGreater_cases (marked : Btree.BTreeS) (lcp : List Int) (x : Int)
    (m : List (Int × Int)) (hInv : Btree.Inv 64 marked m) :
    lexGreaterPhrase marked lcp x = ⟨0, 0, 0⟩ ∨
    ∃ e, e ∈ m ∧ x + 1 ≤ e.1 ∧
      lexGreaterPhrase marked lcp x =
        ⟨e.1, e.2, lcp.getD (Rmq.rmq lcp (x + 1).toNat e.1.toNat) 0⟩ := by
  have hp := btSucc_ok 64 marked m (x + 1) hInv
  simp only [lexGreaterPhrase]
  rw [hp]
  cases hM : minGE m (x + 1) with
  | none =>
    left
    rw [if_neg Bool.false_ne_true]
  | some e =>
    right
    refine ⟨e, (minGE_mem m (x + 1) e hM).1, (minGE_mem m (x + 1) e hM).2, ?_⟩
    rw [if_pos rfl]

theorem lexSmaller_self (marked : Btree.BTreeS) (lcp : List Int) (K v : Int)
    (hInv : Btree.Inv 64 marked [(K, v)]) :
    lexSmallerPhrase marked lcp K = ⟨0, 0, 0⟩ := by
  have hp := btPred_ok 64 marked [(K, v)] (K - 1) hInv
  have hM : maxLE [(K, v)] (K - 1) = none := by
    refine maxLE_none _ _ ?_
    intro e he
    rw [List.mem_singleton] at he
    rw [he]
    exact (by omega : K - 1 < K)
  simp only [lexSmallerPhrase]
  rw [hp, hM, if_neg Bool.false_ne_true]

theorem lexGreater_self (marked : Btree.BTreeS) (lcp : List Int) (K v : Int)
    (hInv : Btree.Inv 64 marked [(K, v)]) :
    lexGreaterPhrase marked lcp K = ⟨0, 0, 0⟩ := by
  have hp := btSucc_ok 64 marked [(K, v)] (K + 1) hInv
  have hM : minGE [(K, v)] (K + 1) = none := by
    refine minGE_none _ _ ?_
    intro e he
    rw [List.mem_singleton] at he
    rw [he]
    exact (by omega : K < K + 1)
  simp only [lexGreaterPhrase]
  rw [hp, hM, if_neg Bool.false_ne_true]

theorem fcs_id_of_zero (f : Int → Candidate) (len1 len2 i z isa_last : Int) (p : Int × Int)
    (hf : f isa_last = ⟨0, 0, 0⟩) (hlen1 : 1 ≤ len1) :
    findCopySource f len1 len2 i z isa_last p = p := by
  simp only [findCopySource, hf]
  rw [if_neg (by omega : ¬(len1 ≤ (0 : Int)))]

theorem fcs_snd_single (f : Int → Candidate) (len1 len2 i isa_last K : Int) (p : Int × Int)
    (hf : f isa_last = ⟨0, 0, 0⟩ ∨ ∃ l, f isa_last = ⟨K, 0, l⟩)
    (hfK : f K = ⟨0, 0, 0⟩)
    (hlen1 : 1 ≤ len1) (hlen2 : 1 ≤ len2) :
    (findCopySource f len1 len2 i 1 isa_last p).2 = p.2 := by
  rcases hf with hc | ⟨l, hc⟩
  · rw [fcs_id_of_zero f len1 len2 i 1 isa_last p hc hlen1]
  · simp only [findCopySource, hc]
    by_cases h1 : len1 ≤ l
    · rw [if_pos h1]
      by_cases h2 : len1 < i
      · rw [if_pos h2]
        rw [if_pos (show (0 : Int) = 1 - 1 by omega)]
        rw [hfK]
        rw [if_neg (by omega : ¬(len2 ≤ (0 : Int)))]
      · rw [if_neg h2]
    · rw [if_neg h1]

end Lzend


namespace Lzend

open Btree

theorem parseInv_mk (s isa : List Int) (i : Nat) (P : List Phrase) (Z : Int)
    (M : Btree.BTreeS)
    (h1 : 0 ≤ Z) (h2 : P.length = Z.toNat + 1) (h3 : sumLens P = (i : Int))
    (h4 : ∀ p ∈ P, 1 ≤ p.len) (h5 : P.head? = some ⟨0, 1, s.getD 0 0⟩)
    (h6 : Btree.Inv 64 M (Btree.flatten M.root))
    (h7 : ∀ e ∈ Btree.flatten M.root, ∃ j : Nat, (j : Int) < Z ∧
      e = (isa.getD (ends P j).toNat 0, (j : Int)))
    (h8 : ∀ j : Nat, (j : Int) < Z →
      (isa.getD (ends P j).toNat 0, (j : Int)) ∈ Btree.flatten M.root) :
    ParseInv s isa i ⟨P, Z, M⟩ := ⟨h1, h2, h3, h4, h5, h6, h7, h8⟩

theorem parseStep_eq (s lcp isa : List Int) (parsing : List Phrase) (z : Int)
    (marked : Btree.BTreeS) (i : Nat)
    (len1 len2 isa_last : Int) (p : Int × Int)
    (hlen1 : len1 = (parsing.getD z.toNat ⟨0, 0, 0⟩).len)
    (hlen2 : len2 = len1 +
      (if 0 < z then (parsing.getD (z - 1).toNat ⟨0, 0, 0⟩).len else 0))
    (hisal : isa_last = isa.getD (i - 1) 0)
    (hp : p =
      (let p0 := findCopySource (lexSmallerPhrase marked lcp) len1 len2 (i : Int) z
        isa_last (-1, -1);
      if p0.1 = -1 ∨ p0.2 = -1 then
        findCopySource (lexGreaterPhrase marked lcp) len1 len2 (i : Int) z isa_last p0
      else p0)) :
    parseStep s lcp isa ⟨parsing, z, marked⟩ i =
      if p.2 ≠ -1 then
        ⟨setLast parsing.dropLast ⟨p.2, len2 + 1, s.getD i 0⟩, z - 1,
          (Btree.btErase 64 marked (isa.getD ((i : Int) - 1 - len1).toNat 0)).2⟩
      else if p.1 ≠ -1 then
        ⟨setLast parsing ⟨p.1, len1 + 1, s.getD i 0⟩, z, marked⟩
      else
        ⟨parsing ++ [⟨0, 1, s.getD i 0⟩], z + 1,
          Btree.btInsert 64 marked isa_last z⟩ := by
  subst hlen1 hlen2 hisal hp
  rfl

theorem last_decomp (parsing : List Phrase) (z : Int) (hplen : parsing.length = z.toNat + 1) :
    parsing = parsing.dropLast ++ [parsing.getLastD ⟨0, 0, 0⟩] ∧
    parsing.getD z.toNat ⟨0, 0, 0⟩ = parsing.getLastD ⟨0, 0, 0⟩ ∧
    parsing.dropLast.length = z.toNat ∧
    sumLens parsing = sumLens parsing.dropLast + (parsing.getLastD ⟨0, 0, 0⟩).len := by
  have hne : parsing ≠ [] := by
    intro hc
    rw [hc] at hplen
    simp at hplen
  have h1 := dropLast_append_getLastD parsing ⟨0, 0, 0⟩ hne
  have h2 : parsing.getD z.toNat ⟨0, 0, 0⟩ = parsing.getLastD ⟨0, 0, 0⟩ := by
    rw [getLastD_eq_getD_gen parsing ⟨0, 0, 0⟩ hne]
    rw [show parsing.length - 1 = z.toNat from by omega]
  have h3 : parsing.dropLast.length = z.toNat := by
    rw [List.length_dropLast]
    omega
  refine ⟨h1.symm, h2, h3, ?_⟩
  conv_lhs => rw [← h1]
  rw [sumLens_append, sumLens_singleton]

theorem flatten_empty_of_z0 (isa : List Int) (parsing : List Phrase)
    (marked : Btree.BTreeS) (z : Int) (hz : z = 0)
    (hfwd : ∀ e ∈ Btree.flatten marked.root, ∃ j : Nat, (j : Int) < z ∧
      e = (isa.getD (ends parsing j).toNat 0, (j : Int))) :
    Btree.flatten marked.root = [] := by
  rw [List.eq_nil_iff_forall_not_mem]
  intro e he
  obtain ⟨j, hj, _⟩ := hfwd e he
  rw [hz] at hj
  omega

theorem flatten_single_of_z1 (isa : List Int) (parsing : List Phrase)
    (marked : Btree.BTreeS) (z : Int) (hz : z = 1)
    (hminv : Btree.Inv 64 marked (Btree.flatten marked.root))
    (hfwd : ∀ e ∈ Btree.flatten marked.root, ∃ j : Nat, (j : Int) < z ∧
      e = (isa.getD (ends parsing j).toNat 0, (j : Int)))
    (hbwd : ∀ j : Nat, (j : Int) < z →
      (isa.getD (ends parsing j).toNat 0, (j : Int)) ∈ Btree.flatten marked.root) :
    Btree.flatten marked.root = [(isa.getD (ends parsing 0).toNat 0, 0)] := by
  have hmem := hbwd 0 (by rw [hz]; norm_num)
  have hall : ∀ e ∈ Btree.flatten marked.root,
      e = (isa.getD (ends parsing 0).toNat 0, 0) := by
    intro e he
    obtain ⟨j, hj, hje⟩ := hfwd e he
    rw [hz] at hj
    have hj0 : j = 0 := by omega
    rw [hj0] at hje
    rw [hje]
    norm_num
  have hsort : Btree.SortedEnt (Btree.flatten marked.root) := hminv.2.1
  have h2 : (isa.getD (ends parsing 0).toNat 0, (0 : Int)) ∈ Btree.flatten marked.root := by
    push_cast at hmem
    exact hmem
  exact sorted_single_of_mem (Btree.flatten marked.root)
    (isa.getD (ends parsing 0).toNat 0, 0) hsort h2 hall

theorem literal_branch (s isa : List Int) (parsing : List Phrase) (z : Int)
    (marked : Btree.BTreeS) (i : Nat)
    (hinj : ∀ a b : Nat, a < isa.length → b < isa.length →
      isa.getD a 0 = isa.getD b 0 → a = b)
    (hi1 : 1 ≤ i) (hiN : i ≤ isa.length)
    (h0z : 0 ≤ z) (hplen : parsing.length = z.toNat + 1)
    (hsum : sumLens parsing = (i : Int))
    (hall1 : ∀ p ∈ parsing, 1 ≤ p.len)
    (hhead : parsing.head? = some ⟨0, 1, s.getD 0 0⟩)
    (hminv : Btree.Inv 64 marked (Btree.flatten marked.root))
    (hfwd : ∀ e ∈ Btree.flatten marked.root, ∃ j : Nat, (j : Int) < z ∧
      e = (isa.getD (ends parsing j).toNat 0, (j : Int)))
    (hbwd : ∀ j : Nat, (j : Int) < z →
      (isa.getD (ends parsing j).toNat 0, (j : Int)) ∈ Btree.flatten marked.root) :
    ParseInv s isa (i + 1)
      ⟨parsing ++ [⟨0, 1, s.getD i 0⟩], z + 1,
        Btree.btInsert 64 marked (isa.getD (i - 1) 0) z⟩ := by
  have hne : parsing ≠ [] := by
    intro hc
    rw [hc] at hplen
    simp at hplen
  -- old end positions are strictly below i - 1, hence the new key is fresh
  have hends_z : ends parsing z.toNat = (i : Int) - 1 := by
    rw [ends_last parsing z.toNat hplen, hsum]
  have hele : ∀ j : Nat, (j : Int) < z →
      0 ≤ ends parsing j ∧ ends parsing j < (i : Int) - 1 ∧
      (ends parsing j).toNat < i - 1 := by
    intro j hj
    have hjz : j < z.toNat := by omega
    have h1 : 0 ≤ ends parsing j := ends_nonneg parsing j hall1 (by omega)
    have h2 : ends parsing j < ends parsing z.toNat :=
      ends_strict_mono parsing j z.toNat hall1 hjz (by omega)
    rw [hends_z] at h2
    refine ⟨h1, h2, ?_⟩
    omega
  have hfresh : isa.getD (i - 1) 0 ∉ Btree.lsKeys (Btree.flatten marked.root) := by
    intro hmem
    obtain ⟨v, hv⟩ := Btree.mem_lsKeys.mp hmem
    obtain ⟨j, hj, hje⟩ := hfwd _ hv
    have hkey : isa.getD (i - 1) 0 = isa.getD (ends parsing j).toNat 0 := by
      have := congrArg Prod.fst hje
      exact this
    obtain ⟨he0, he1, he2⟩ := hele j hj
    have heq := hinj (i - 1) (ends parsing j).toNat (by omega) (by omega) hkey
    omega
  obtain ⟨hInv2⟩ := And.intro
    (Btree.btInsert_ok 64 (by norm_num) (by norm_num) marked
      (Btree.flatten marked.root) (isa.getD (i - 1) 0) z hminv hfresh) trivial
  have hflat2 : Btree.flatten (Btree.btInsert 64 marked (isa.getD (i - 1) 0) z).root =
      Btree.lsInsert (Btree.flatten marked.root) (isa.getD (i - 1) 0) z :=
    hInv2.2.2.2.2.2
  -- end positions are unchanged for all old phrases, including phrase z
  have hendsame : ∀ j : Nat, j < parsing.length →
      ends (parsing ++ [(⟨0, 1, s.getD i 0⟩ : Phrase)]) j = ends parsing j := by
    intro j hj
    refine ends_congr _ _ j ?_
    rw [List.take_append_of_le_length (by omega)]
  refine parseInv_mk s isa (i + 1) _ _ _ (by omega) ?_ ?_ ?_ ?_ ?_ ?_ ?_
  · rw [List.length_append, hplen, List.length_singleton]
    omega
  · rw [sumLens_append, hsum, sumLens_singleton]
    push_cast
    norm_num
  · intro p hp
    rcases List.mem_append.mp hp with hp | hp
    · exact hall1 p hp
    · rw [List.mem_singleton] at hp
      rw [hp]
  · rw [List.head?_append_of_ne_nil parsing hne]
    exact hhead
  · exact inv_self 64 _ _ hInv2
  · intro e he
    rw [hflat2, Btree.lsInsert_mem] at he
    rcases he with he | he
    · refine ⟨z.toNat, by omega, ?_⟩
      rw [hendsame z.toNat (by omega), hends_z, he]
      have hzz : ((z.toNat : Nat) : Int) = z := by omega
      rw [hzz]
      have hti : ((i : Int) - 1).toNat = i - 1 := by omega
      rw [hti]
    · obtain ⟨j, hj, hje⟩ := hfwd e he
      refine ⟨j, by omega, ?_⟩
      rw [hendsame j (by omega)]
      exact hje
  · intro j hj
    rw [hflat2, Btree.lsInsert_mem]
    by_cases hjz : (j : Int) < z
    · right
      rw [hendsame j (by omega)]
      exact hbwd j hjz
    · left
      have hjz2 : (j : Int) = z := by omega
      have hjz3 : j = z.toNat := by omega
      rw [hendsame j (by omega), hjz3, hends_z]
      rw [show ((z.toNat : Nat) : Int) = z from by omega]
      rw [show ((i : Int) - 1).toNat = i - 1 from by omega]

end Lzend


namespace Lzend

open Btree

theorem extend_branch (s isa : List Int) (parsing : List Phrase) (z : Int)
    (marked : Btree.BTreeS) (i : Nat)
    (hi1 : 1 ≤ i)
    (h0z : 0 ≤ z) (hplen : parsing.length = z.toNat + 1)
    (hsum : sumLens parsing = (i : Int))
    (hall1 : ∀ p ∈ parsing, 1 ≤ p.len)
    (hhead : parsing.head? = some ⟨0, 1, s.getD 0 0⟩)
    (hminv : Btree.Inv 64 marked (Btree.flatten marked.root))
    (hfwd : ∀ e ∈ Btree.flatten marked.root, ∃ j : Nat, (j : Int) < z ∧
      e = (isa.getD (ends parsing j).toNat 0, (j : Int)))
    (hbwd : ∀ j : Nat, (j : Int) < z →
      (isa.getD (ends parsing j).toNat 0, (j : Int)) ∈ Btree.flatten marked.root)
    (hz1 : 1 ≤ z) (lnk1 len1 : Int)
    (hlen1 : len1 = (parsing.getD z.toNat ⟨0, 0, 0⟩).len) :
    ParseInv s isa (i + 1)
      ⟨setLast parsing ⟨lnk1, len1 + 1, s.getD i 0⟩, z, marked⟩ := by
  obtain ⟨hdec, hgd, hdlen, hsumdec⟩ := last_decomp parsing z hplen
  have hne : parsing ≠ [] := by
    intro hc
    rw [hc] at hplen
    simp at hplen
  have hDne : parsing.dropLast ≠ [] := by
    intro hc
    have : parsing.dropLast.length = 0 := by rw [hc]; rfl
    omega
  have hlastmem : parsing.getLastD ⟨0, 0, 0⟩ ∈ parsing :=
    mem_getLastD_of_ne parsing ⟨0, 0, 0⟩ hne
  have hlast1 : 1 ≤ len1 := by
    rw [hlen1, hgd]
    exact hall1 _ hlastmem
  have hendsame : ∀ j : Nat, (j : Int) < z →
      ends (setLast parsing ⟨lnk1, len1 + 1, s.getD i 0⟩) j = ends parsing j := by
    intro j hj
    refine ends_congr _ _ j ?_
    rw [setLast, List.take_append_of_le_length (by omega : j + 1 ≤ parsing.dropLast.length)]
    conv_rhs => rw [hdec]
    rw [List.take_append_of_le_length (by omega)]
  refine parseInv_mk s isa (i + 1) _ _ _ h0z ?_ ?_ ?_ ?_ hminv ?_ ?_
  · rw [setLast, List.length_append, hdlen, List.length_singleton]
  · rw [setLast, sumLens_append, sumLens_singleton]
    have h1 : (⟨lnk1, len1 + 1, s.getD i 0⟩ : Phrase).len = len1 + 1 := rfl
    rw [h1, hlen1, hgd]
    push_cast
    omega
  · intro p hp
    rw [setLast] at hp
    rcases List.mem_append.mp hp with hp | hp
    · exact hall1 p ((List.dropLast_sublist parsing).subset hp)
    · rw [List.mem_singleton] at hp
      rw [hp]
      have h1 : (⟨lnk1, len1 + 1, s.getD i 0⟩ : Phrase).len = len1 + 1 := rfl
      rw [h1]
      omega
  · rw [setLast, List.head?_append_of_ne_nil _ hDne]
    rw [hdec, List.head?_append_of_ne_nil _ hDne] at hhead
    exact hhead
  · intro e he
    obtain ⟨j, hj, hje⟩ := hfwd e he
    refine ⟨j, hj, ?_⟩
    rw [hendsame j hj]
    exact hje
  · intro j hj
    rw [hendsame j hj]
    exact hbwd j hj

theorem merge_branch (s isa : List Int) (parsing : List Phrase) (z : Int)
    (marked : Btree.BTreeS) (i : Nat)
    (hinj : ∀ a b : Nat, a < isa.length → b < isa.length →
      isa.getD a 0 = isa.getD b 0 → a = b)
    (hi1 : 1 ≤ i) (hiN : i ≤ isa.length)
    (h0z : 0 ≤ z) (hplen : parsing.length = z.toNat + 1)
    (hsum : sumLens parsing = (i : Int))
    (hall1 : ∀ p ∈ parsing, 1 ≤ p.len)
    (hhead : parsing.head? = some ⟨0, 1, s.getD 0 0⟩)
    (hminv : Btree.Inv 64 marked (Btree.flatten marked.root))
    (hfwd : ∀ e ∈ Btree.flatten marked.root, ∃ j : Nat, (j : Int) < z ∧
      e = (isa.getD (ends parsing j).toNat 0, (j : Int)))
    (hbwd : ∀ j : Nat, (j : Int) < z →
      (isa.getD (ends parsing j).toNat 0, (j : Int)) ∈ Btree.flatten marked.root)
    (hz2 : 2 ≤ z) (lnk2 len1 len2 : Int)
    (hlen1 : len1 = (parsing.getD z.toNat ⟨0, 0, 0⟩).len)
    (hlen2 : len2 = len1 +
      (if 0 < z then (parsing.getD (z - 1).toNat ⟨0, 0, 0⟩).len else 0)) :
    ParseInv s isa (i + 1)
      ⟨setLast parsing.dropLast ⟨lnk2, len2 + 1, s.getD i 0⟩, z - 1,
        (Btree.btErase 64 marked (isa.getD ((i : Int) - 1 - len1).toNat 0)).2⟩ := by
  obtain ⟨hdec, hgd, hdlen, hsumdec⟩ := last_decomp parsing z hplen
  obtain ⟨hdec2, hgd2, hdlen2, hsumdec2⟩ :=
    last_decomp parsing.dropLast (z - 1) (by omega)
  have hne : parsing ≠ [] := by
    intro hc
    rw [hc] at hplen
    simp at hplen
  have hDne : parsing.dropLast ≠ [] := by
    intro hc
    have : parsing.dropLast.length = 0 := by rw [hc]; rfl
    omega
  have hAne : parsing.dropLast.dropLast ≠ [] := by
    intro hc
    have : parsing.dropLast.dropLast.length = 0 := by rw [hc]; rfl
    omega
  have hlastmem : parsing.getLastD ⟨0, 0, 0⟩ ∈ parsing :=
    mem_getLastD_of_ne parsing ⟨0, 0, 0⟩ hne
  have hprevmem : parsing.dropLast.getLastD ⟨0, 0, 0⟩ ∈ parsing :=
    (List.dropLast_sublist parsing).subset
      (mem_getLastD_of_ne parsing.dropLast ⟨0, 0, 0⟩ hDne)
  have hlast1 : 1 ≤ len1 := by
    rw [hlen1, hgd]
    exact hall1 _ hlastmem
  have hprev1 : 1 ≤ (parsing.dropLast.getLastD ⟨0, 0, 0⟩).len := hall1 _ hprevmem
  -- the second summand of len2 is the previous phrase
  have hgdprev : parsing.getD (z - 1).toNat ⟨0, 0, 0⟩ =
      parsing.dropLast.getLastD ⟨0, 0, 0⟩ := by
    rw [← hgd2]
    conv_lhs => rw [hdec]
    exact List.getD_append _ _ _ _ (by omega)
  have hlen2v : len2 = len1 + (parsing.dropLast.getLastD ⟨0, 0, 0⟩).len := by
    rw [hlen2, if_pos (by omega : (0 : Int) < z), hgdprev]
  -- the erased key marks the previous phrase
  have hendsprev : ends parsing (z.toNat - 1) = (i : Int) - 1 - len1 := by
    have h1 : parsing.take (z.toNat - 1 + 1) = parsing.dropLast := by
      rw [List.dropLast_eq_take]
      congr 1
      omega
    rw [ends, h1]
    rw [hlen1, hgd]
    omega
  have hKE : (i : Int) - 1 - len1 = ends parsing (z.toNat - 1) := hendsprev.symm
  have hcast : ((z.toNat - 1 : Nat) : Int) = z - 1 := by omega
  have hmemEZ := hbwd (z.toNat - 1) (by omega)
  have hfne : Btree.flatten marked.root ≠ [] := List.ne_nil_of_mem hmemEZ
  obtain ⟨hiff, hInvE⟩ := Btree.btErase_ok 64 (by norm_num) (by norm_num) marked
    (Btree.flatten marked.root) (isa.getD ((i : Int) - 1 - len1).toNat 0) hminv hfne
  have hflatE : Btree.flatten
      (Btree.btErase 64 marked (isa.getD ((i : Int) - 1 - len1).toNat 0)).2.root =
      Btree.lsEraseK (Btree.flatten marked.root)
        (isa.getD ((i : Int) - 1 - len1).toNat 0) := hInvE.2.2.2.2.2
  -- decompose the flattened map around the erased entry
  obtain ⟨F, T, hft⟩ := List.append_of_mem hmemEZ
  have hsort : Btree.SortedEnt (Btree.flatten marked.root) := hminv.2.1
  have hsort2 : Btree.SortedEnt (F ++
      (isa.getD (ends parsing (z.toNat - 1)).toNat 0, ((z.toNat - 1 : Nat) : Int)) :: T) := by
    rw [← hft]
    exact hsort
  have hnotF : isa.getD (ends parsing (z.toNat - 1)).toNat 0 ∉ Btree.lsKeys F := by
    refine not_mem_keys_of_lt F _ ?_
    intro a ha
    exact sortedEnt_cross hsort2 a ha
      (isa.getD (ends parsing (z.toNat - 1)).toNat 0, ((z.toNat - 1 : Nat) : Int))
      (List.mem_cons_self _ _)
  have hallT : ∀ b ∈ T,
      isa.getD (ends parsing (z.toNat - 1)).toNat 0 < b.1 := by
    intro b hb
    have h1 := sortedEnt_of_append_right hsort2
    rw [Btree.SortedEnt, List.pairwise_cons] at h1
    exact h1.1 b hb
  have hEK : Btree.lsEraseK (Btree.flatten marked.root)
      (isa.getD ((i : Int) - 1 - len1).toNat 0) = F ++ T := by
    rw [hKE, hft]
    exact (Btree.lsEraseK_middle F T _ _ hnotF).1
  -- positions of old phrases are unchanged up to index z - 2
  have hendsame : ∀ j : Nat, (j : Int) < z - 1 →
      ends (setLast parsing.dropLast ⟨lnk2, len2 + 1, s.getD i 0⟩) j = ends parsing j := by
    intro j hj
    refine ends_congr _ _ j ?_
    rw [setLast,
      List.take_append_of_le_length (by omega : j + 1 ≤ parsing.dropLast.dropLast.length)]
    conv_rhs => rw [hdec]
    rw [List.take_append_of_le_length (by omega : j + 1 ≤ parsing.dropLast.length)]
    conv_rhs => rw [hdec2]
    rw [List.take_append_of_le_length (by omega : j + 1 ≤ parsing.dropLast.dropLast.length)]
  -- key bounds for injectivity
  have hends_z : ends parsing z.toNat = (i : Int) - 1 := by
    rw [ends_last parsing z.toNat hplen, hsum]
  have hele : ∀ j : Nat, (j : Int) < z →
      0 ≤ ends parsing j ∧ (ends parsing j).toNat < i - 1 := by
    intro j hj
    have h1 : 0 ≤ ends parsing j := ends_nonneg parsing j hall1 (by omega)
    have h2 : ends parsing j < ends parsing z.toNat :=
      ends_strict_mono parsing j z.toNat hall1 (by omega) (by omega)
    rw [hends_z] at h2
    exact ⟨h1, by omega⟩
  refine parseInv_mk s isa (i + 1) _ _ _ (by omega) ?_ ?_ ?_ ?_ ?_ ?_ ?_
  · rw [setLast, List.length_append, hdlen2, List.length_singleton]
  · rw [setLast, sumLens_append, sumLens_singleton]
    have h1 : (⟨lnk2, len2 + 1, s.getD i 0⟩ : Phrase).len = len2 + 1 := rfl
    rw [h1, hlen2v]
    have hl1 : len1 = (parsing.getLastD ⟨0, 0, 0⟩).len := by rw [hlen1, hgd]
    push_cast
    omega
  · intro p hp
    rw [setLast] at hp
    rcases List.mem_append.mp hp with hp | hp
    · exact hall1 p ((List.dropLast_sublist parsing).subset
        ((List.dropLast_sublist parsing.dropLast).subset hp))
    · rw [List.mem_singleton] at hp
      rw [hp]
      have h1 : (⟨lnk2, len2 + 1, s.getD i 0⟩ : Phrase).len = len2 + 1 := rfl
      rw [h1, hlen2v]
      omega
  · rw [setLast, List.head?_append_of_ne_nil _ hAne]
    rw [hdec, List.head?_append_of_ne_nil _ hDne] at hhead
    rw [hdec2, List.head?_append_of_ne_nil _ hAne] at hhead
    exact hhead
  · exact inv_self 64 _ _ hInvE
  · intro e he
    rw [hflatE, hEK] at he
    have hemem : e ∈ Btree.flatten marked.root := by
      rw [hft]
      rcases List.mem_append.mp he with he2 | he2
      · exact List.mem_append.mpr (Or.inl he2)
      · exact List.mem_append.mpr (Or.inr (List.mem_cons_of_mem _ he2))
    have hene : e ≠ (isa.getD (ends parsing (z.toNat - 1)).toNat 0,
        ((z.toNat - 1 : Nat) : Int)) := by
      rcases List.mem_append.mp he with he2 | he2
      · intro hc
        have h1 := sortedEnt_cross hsort2 e he2
          (isa.getD (ends parsing (z.toNat - 1)).toNat 0, ((z.toNat - 1 : Nat) : Int))
          (List.mem_cons_self _ _)
        rw [hc] at h1
        exact absurd h1 (lt_irrefl _)
      · intro hc
        have h1 := hallT e he2
        rw [hc] at h1
        exact absurd h1 (lt_irrefl _)
    obtain ⟨j, hj, hje⟩ := hfwd e hemem
    have hjne : j ≠ z.toNat - 1 := by
      intro hc
      rw [hc] at hje
      exact hene hje
    have hjlt : (j : Int) < z - 1 := by omega
    refine ⟨j, hjlt, ?_⟩
    rw [hendsame j hjlt]
    exact hje
  · intro j hj
    rw [hflatE, hEK, hendsame j hj]
    have hmemj := hbwd j (by omega)
    rw [hft] at hmemj
    rcases List.mem_append.mp hmemj with h2 | h2
    · exact List.mem_append.mpr (Or.inl h2)
    · rcases List.mem_cons.mp h2 with h3 | h3
      · exfalso
        have hkeyeq : isa.getD (ends parsing j).toNat 0 =
            isa.getD (ends parsing (z.toNat - 1)).toNat 0 := congrArg Prod.fst h3
        obtain ⟨hj0, hjb⟩ := hele j (by omega)
        obtain ⟨hz0, hzb⟩ := hele (z.toNat - 1) (by omega)
        have heq := hinj (ends parsing j).toNat (ends parsing (z.toNat - 1)).toNat
          (by omega) (by omega) hkeyeq
        have hmono : ends parsing j < ends parsing (z.toNat - 1) :=
          ends_strict_mono parsing j (z.toNat - 1) hall1 (by omega) (by omega)
        omega
      · exact List.mem_append.mpr (Or.inr h3)

end Lzend


namespace Lzend

open Btree

theorem getD_mem_phrase (l : List Phrase) (n : Nat) (d : Phrase) (h : n < l.length) :
    l.getD n d ∈ l := by
  rw [List.getD_eq_getElem l d h]
  exact List.getElem_mem h

theorem parseStep_inv (s lcp isa : List Int) (st : PState) (i : Nat)
    (hinj : ∀ a b : Nat, a < isa.length → b < isa.length →
      isa.getD a 0 = isa.getD b 0 → a = b)
    (hi1 : 1 ≤ i) (hiN : i ≤ isa.length)
    (hInv : ParseInv s isa i st) :
    ParseInv s isa (i + 1) (parseStep s lcp isa st i) := by
  obtain ⟨parsing, z, marked⟩ := st
  obtain ⟨h0z, hplen, hsum, hall1, hhead, hminv, hfwd, hbwd⟩ :
      (0 ≤ z ∧ parsing.length = z.toNat + 1 ∧ sumLens parsing = (i : Int) ∧
       (∀ p ∈ parsing, 1 ≤ p.len) ∧
       parsing.head? = some ⟨0, 1, s.getD 0 0⟩ ∧
       Btree.Inv 64 marked (Btree.flatten marked.root) ∧
       (∀ e ∈ Btree.flatten marked.root, ∃ j : Nat, (j : Int) < z ∧
         e = (isa.getD (ends parsing j).toNat 0, (j : Int))) ∧
       (∀ j : Nat, (j : Int) < z →
         (isa.getD (ends parsing j).toNat 0, (j : Int)) ∈
           Btree.flatten marked.root)) := hInv
  obtain ⟨hdec, hgd, hdlen, hsumdec⟩ := last_decomp parsing z hplen
  have hpne : parsing ≠ [] := by
    intro hc
    rw [hc] at hplen
    simp at hplen
  have hlastmem : parsing.getLastD ⟨0, 0, 0⟩ ∈ parsing :=
    mem_getLastD_of_ne parsing ⟨0, 0, 0⟩ hpne
  obtain ⟨len1v, hlen1v⟩ :
      ∃ a, a = (parsing.getD z.toNat (⟨0, 0, 0⟩ : Phrase)).len := ⟨_, rfl⟩
  obtain ⟨len2v, hlen2v⟩ :
      ∃ a, a = len1v +
        (if 0 < z then (parsing.getD (z - 1).toNat (⟨0, 0, 0⟩ : Phrase)).len
         else 0) := ⟨_, rfl⟩
  obtain ⟨isal, hisal⟩ : ∃ a, a = isa.getD (i - 1) 0 := ⟨_, rfl⟩
  have hl1 : 1 ≤ len1v := by
    rw [hlen1v, hgd]
    exact hall1 _ hlastmem
  have hl2 : 1 ≤ len2v := by
    rw [hlen2v]
    by_cases hz : 0 < z
    · rw [if_pos hz]
      have hmem : parsing.getD (z - 1).toNat ⟨0, 0, 0⟩ ∈ parsing :=
        getD_mem_phrase parsing (z - 1).toNat ⟨0, 0, 0⟩ (by omega)
      have h3 := hall1 _ hmem
      omega
    · rw [if_neg hz]
      omega
  obtain ⟨p0, hp0⟩ :
      ∃ p0, p0 = findCopySource (lexSmallerPhrase marked lcp) len1v len2v
        (i : Int) z isal (-1, -1) := ⟨_, rfl⟩
  obtain ⟨pp, hpp⟩ :
      ∃ pp, pp = (if p0.1 = -1 ∨ p0.2 = -1 then
        findCopySource (lexGreaterPhrase marked lcp) len1v len2v (i : Int) z
          isal p0
      else p0) := ⟨_, rfl⟩
  have hstep := parseStep_eq s lcp isa parsing z marked i len1v len2v isal pp
    hlen1v hlen2v hisal (by rw [hpp, hp0])
  -- with an empty map (z = 0) no candidate is ever accepted
  have hz0pp : z = 0 → pp = (-1, -1) := by
    intro hz
    have hflat : Btree.flatten marked.root = [] := by
      refine flatten_empty_of_z0 isa parsing marked z hz ?_
      exact hfwd
    have hsm : lexSmallerPhrase marked lcp isal = ⟨0, 0, 0⟩ := by
      rcases lexSmaller_cases marked lcp isal _ hminv with h | ⟨e, he, _, _⟩
      · exact h
      · rw [hflat] at he
        simp at he
    have hgr : lexGreaterPhrase marked lcp isal = ⟨0, 0, 0⟩ := by
      rcases lexGreater_cases marked lcp isal _ hminv with h | ⟨e, he, _, _⟩
      · exact h
      · rw [hflat] at he
        simp at he
    have h1 : p0 = (-1, -1) := by
      rw [hp0]
      exact fcs_id_of_zero _ len1v len2v (i : Int) z isal (-1, -1) hsm hl1
    rw [hpp, h1, if_pos (Or.inl rfl)]
    exact fcs_id_of_zero _ len1v len2v (i : Int) z isal (-1, -1) hgr hl1
  -- with a single-entry map (z = 1) the merge candidate is never accepted
  have hz1pp : z = 1 → pp.2 = -1 := by
    intro hz
    have hflat0 := flatten_single_of_z1 isa parsing marked z hz hminv hfwd hbwd
    obtain ⟨K, hK⟩ : ∃ K, K = isa.getD (ends parsing 0).toNat 0 := ⟨_, rfl⟩
    rw [← hK] at hflat0
    have hminv2 : Btree.Inv 64 marked [(K, 0)] := by
      rw [← hflat0]
      exact hminv
    have hsmf : lexSmallerPhrase marked lcp isal = ⟨0, 0, 0⟩ ∨
        ∃ l, lexSmallerPhrase marked lcp isal = ⟨K, 0, l⟩ := by
      rcases lexSmaller_cases marked lcp isal _ hminv with h | ⟨e, he, _, heq⟩
      · exact Or.inl h
      · rw [hflat0, List.mem_singleton] at he
        subst he
        exact Or.inr ⟨_, heq⟩
    have hgrf : lexGreaterPhrase marked lcp isal = ⟨0, 0, 0⟩ ∨
        ∃ l, lexGreaterPhrase marked lcp isal = ⟨K, 0, l⟩ := by
      rcases lexGreater_cases marked lcp isal _ hminv with h | ⟨e, he, _, heq⟩
      · exact Or.inl h
      · rw [hflat0, List.mem_singleton] at he
        subst he
        exact Or.inr ⟨_, heq⟩
    have hsK : lexSmallerPhrase marked lcp K = ⟨0, 0, 0⟩ :=
      lexSmaller_self marked lcp K 0 hminv2
    have hgK : lexGreaterPhrase marked lcp K = ⟨0, 0, 0⟩ :=
      lexGreater_self marked lcp K 0 hminv2
    have h1 : p0.2 = -1 := by
      rw [hp0, hz]
      exact fcs_snd_single (lexSmallerPhrase marked lcp) len1v len2v (i : Int)
        isal K (-1, -1) hsmf hsK hl1 hl2
    rw [hpp, if_pos (Or.inr h1), hz]
    rw [fcs_snd_single (lexGreaterPhrase marked lcp) len1v len2v (i : Int)
      isal K p0 hgrf hgK hl1 hl2]
    exact h1
  rw [hstep]
  by_cases h2 : pp.2 ≠ -1
  · rw [if_pos h2]
    have hz2 : 2 ≤ z := by
      by_contra hc
      rcases (show z = 0 ∨ z = 1 by omega) with hz | hz
      · rw [hz0pp hz] at h2
        exact h2 rfl
      · exact h2 (hz1pp hz)
    exact merge_branch s isa parsing z marked i hinj hi1 hiN h0z hplen hsum
      hall1 hhead hminv hfwd hbwd hz2 pp.2 len1v len2v hlen1v hlen2v
  · rw [if_neg h2]
    by_cases h1 : pp.1 ≠ -1
    · rw [if_pos h1]
      have hz1 : 1 ≤ z := by
        by_contra hc
        have hz : z = 0 := by omega
        rw [hz0pp hz] at h1
        exact h1 rfl
      exact extend_branch s isa parsing z marked i hi1 h0z hplen hsum hall1
        hhead hminv hfwd hbwd hz1 pp.1 len1v hlen1v
    · rw [if_neg h1, hisal]
      exact literal_branch s isa parsing z marked i hinj hi1 hiN h0z hplen
        hsum hall1 hhead hminv hfwd hbwd

theorem parse_fold (s lcp isa : List Int)
    (hinj : ∀ a b : Nat, a < isa.length → b < isa.length →
      isa.getD a 0 = isa.getD b 0 → a = b) :
    ∀ (k i : Nat) (st : PState), ParseInv s isa i st → 1 ≤ i →
      i + k ≤ isa.length + 1 →
      ParseInv s isa (i + k)
        ((List.range' i k).foldl (parseStep s lcp isa) st) := by
  intro k
  induction k with
  | zero =>
    intro i st h hi1 hik
    exact h
  | succ k ih =>
    intro i st h hi1 hik
    have hstep := parseStep_inv s lcp isa st i hinj hi1 (by omega) h
    have h2 := ih (i + 1) (parseStep s lcp isa st i) hstep (by omega) (by omega)
    rw [List.range'_succ]
    rw [show i + (k + 1) = i + 1 + k from by omega]
    exact h2

theorem parseInv_init (s isa : List Int) :
    ParseInv s isa 1 ⟨[⟨0, 1, s.getD 0 0⟩], 0, Btree.btEmpty⟩ := by
  have hInv := Btree.inv_empty 64
  have hflat : Btree.flatten Btree.btEmpty.root = [] := hInv.2.2.2.2.2
  refine ⟨le_refl 0, rfl, ?_, ?_, rfl, ?_, ?_, ?_⟩
  · simp [sumLens]
  · intro p hp
    rw [List.mem_singleton] at hp
    rw [hp]
  · exact inv_self 64 _ _ hInv
  · intro e he
    rw [hflat] at he
    simp at he
  · intro j hj
    have hj2 : (j : Int) < 0 := hj
    omega

theorem isa_inj (s : List Int) :
    ∀ a b : Nat,
      a < (isaArray s.reverse (suffixArray s.reverse)).length →
      b < (isaArray s.reverse (suffixArray s.reverse)).length →
      (isaArray s.reverse (suffixArray s.reverse)).getD a 0 =
        (isaArray s.reverse (suffixArray s.reverse)).getD b 0 → a = b := by
  intro a b ha hb heq
  have hlen : (isaArray s.reverse (suffixArray s.reverse)).length =
      s.reverse.length := by
    simp only [isaArray, List.length_map, List.length_range]
  rw [hlen] at ha hb
  have hperm : (suffixArray s.reverse).Perm (List.range s.reverse.length) :=
    List.perm_insertionSort _ _
  have hma : s.reverse.length - 1 - a ∈ suffixArray s.reverse :=
    hperm.mem_iff.mpr (List.mem_range.mpr (by omega))
  have hmb : s.reverse.length - 1 - b ∈ suffixArray s.reverse :=
    hperm.mem_iff.mpr (List.mem_range.mpr (by omega))
  simp only [isaArray] at heq
  rw [Rmq.getD_map_range_int s.reverse.length _ a ha,
    Rmq.getD_map_range_int s.reverse.length _ b hb] at heq
  have heqidx : (suffixArray s.reverse).indexOf (s.reverse.length - 1 - a) =
      (suffixArray s.reverse).indexOf (s.reverse.length - 1 - b) := by
    have h2 := Int.ofNat_inj.mp heq
    exact h2
  have heq2 : s.reverse.length - 1 - a = s.reverse.length - 1 - b :=
    (List.indexOf_inj hma hmb).mp heqidx
  omega

/-- C1: for every input string `S` with `1 ≤ |S| < 2^31`, the phrase list
returned by `parse S` sums its phrase lengths to `|S|`, every phrase has
length at least 1, and phrase 0 is the synthetic literal `(0, 1, S[0])`
(so in particular `phrase[0].len = 1`). -/
theorem claim_C1 (s : List Int) (h1 : 1 ≤ s.length)
    (h2 : s.length < 2 ^ 31) :
    sumLens (parse s) = (s.length : Int) ∧
    (∀ p ∈ parse s, 1 ≤ p.len) ∧
    (parse s).head? = some (⟨0, 1, s.getD 0 0⟩ : Phrase) := by
  have hlen : (isaArray s.reverse (suffixArray s.reverse)).length = s.length := by
    simp only [isaArray, List.length_map, List.length_range, List.length_reverse]
  have hinj := isa_inj s
  have hfold := parse_fold s (lcpArray s.reverse (suffixArray s.reverse))
    (isaArray s.reverse (suffixArray s.reverse)) hinj (s.length - 1) 1
    ⟨[⟨0, 1, s.getD 0 0⟩], 0, Btree.btEmpty⟩ (parseInv_init s _) (le_refl 1)
    (by rw [hlen]; omega)
  rw [show 1 + (s.length - 1) = s.length from by omega] at hfold
  have hparse : parse s = ((List.range' 1 (s.length - 1)).foldl
      (parseStep s (lcpArray s.reverse (suffixArray s.reverse))
        (isaArray s.reverse (suffixArray s.reverse)))
      ⟨[⟨0, 1, s.getD 0 0⟩], 0, Btree.btEmpty⟩).parsing := rfl
  obtain ⟨_, _, hsum, hall, hhead, _, _, _⟩ := hfold
  refine ⟨?_, ?_, ?_⟩
  · rw [hparse]
    exact hsum
  · rw [hparse]
    exact hall
  · rw [hparse]
    exact hhead

theorem claim_C1_witness :
    1 ≤ ([97] : List Int).length ∧ ([97] : List Int).length < 2 ^ 31 ∧
    (sumLens (parse [97]) = (([97] : List Int).length : Int) ∧
      (∀ p ∈ parse [97], 1 ≤ p.len) ∧
      (parse [97]).head? = some (⟨0, 1, ([97] : List Int).getD 0 0⟩ : Phrase)) :=
  ⟨by decide, by decide, claim_C1 [97] (by decide) (by decide)⟩

end Lzend
